import Mathlib

/-!
# knm::transforms_tree — a hierarchy of 3D transforms

A shallow embedding of `knm_transforms_tree.hpp`.

* Scalars (`real`) are the elements of a linearly ordered field `α`; the
  transcendental helpers of the C library (`sqrt`, `sin`, `cos`, the constant
  `PI`) are the fields of the class `RealOps`.
* The GLM operations the header uses through its `KNM_TRANSFORMS_TREE_*`
  macros and operators are written out as GLM defines them.
* Nodes live in a pool indexed by `NodeId`; a `Transforms*` is an
  `Option NodeId` (`none` is `nullptr`).  A state of the program is the
  content of the whole pool.
* Recursive member functions (`needUpdate`, `update`) take the available
  call-stack depth as `fuel` and fault with `Fault.stackOverflow` when it is
  used up.
-/

namespace knm.tr2

/-! ## Scalars and GLM primitives -/

/-- Scalar helpers of the C math library used by GLM and by the header. -/
class RealOps (α : Type) where
  /-- Square root (`sqrt`). -/
  sqrt : α → α
  /-- Sine (`sin`). -/
  sin : α → α
  /-- Cosine (`cos`). -/
  cos : α → α
  /-- The constant `PI = real(4.0 * atan(1.0))`. -/
  PI : α

/-- GLM `vec3`. -/
@[ext]
structure Vec3 (α : Type) where
  x : α
  y : α
  z : α
deriving DecidableEq, Repr

/-- GLM `quat`; as in the GLM constructor `quat(w, x, y, z)` the scalar part comes first. -/
@[ext]
structure Quat (α : Type) where
  w : α
  x : α
  y : α
  z : α
deriving DecidableEq, Repr

/-- GLM `mat4`, stored as its four columns (`m[c][r]`), each a row of four scalars. -/
structure Mat4 (α : Type) where
  c0 : α × α × α × α
  c1 : α × α × α × α
  c2 : α × α × α × α
  c3 : α × α × α × α

section Glm

variable {α : Type} [LinearOrderedField α]

/-- GLM `vec3 + vec3`. -/
def Vec3.add (a b : Vec3 α) : Vec3 α := ⟨a.x + b.x, a.y + b.y, a.z + b.z⟩

/-- GLM `vec3 - vec3`. -/
def Vec3.sub (a b : Vec3 α) : Vec3 α := ⟨a.x - b.x, a.y - b.y, a.z - b.z⟩

/-- GLM `vec3 * vec3` (component-wise). -/
def Vec3.mul (a b : Vec3 α) : Vec3 α := ⟨a.x * b.x, a.y * b.y, a.z * b.z⟩

/-- GLM `vec3 / vec3` (component-wise). -/
def Vec3.div (a b : Vec3 α) : Vec3 α := ⟨a.x / b.x, a.y / b.y, a.z / b.z⟩

/-- GLM `vec3 * scalar`. -/
def Vec3.smul (a : Vec3 α) (k : α) : Vec3 α := ⟨a.x * k, a.y * k, a.z * k⟩

/-- GLM `glm::dot` on `vec3`. -/
def Vec3.dot (a b : Vec3 α) : α := a.x * b.x + a.y * b.y + a.z * b.z

/-- GLM `glm::cross`. -/
def Vec3.cross (a b : Vec3 α) : Vec3 α :=
  ⟨a.y * b.z - b.y * a.z, a.z * b.x - b.z * a.x, a.x * b.y - b.x * a.y⟩

/-- GLM `glm::length2` on `vec3`. -/
def Vec3.length2 (a : Vec3 α) : α := a.dot a

/-- GLM `glm::normalize` on `vec3`: `v * inversesqrt(dot(v, v))`. -/
def Vec3.normalize [RealOps α] (a : Vec3 α) : Vec3 α :=
  a.smul (1 / RealOps.sqrt (a.dot a))

/-- GLM `quat * quat`. -/
def Quat.mul (p q : Quat α) : Quat α :=
  ⟨p.w * q.w - p.x * q.x - p.y * q.y - p.z * q.z,
   p.w * q.x + p.x * q.w + p.y * q.z - p.z * q.y,
   p.w * q.y + p.y * q.w + p.z * q.x - p.x * q.z,
   p.w * q.z + p.z * q.w + p.x * q.y - p.y * q.x⟩

/-- GLM `quat * vec3`: rotation of a vector by a quaternion. -/
def Quat.rotate (q : Quat α) (v : Vec3 α) : Vec3 α :=
  let quatVector : Vec3 α := ⟨q.x, q.y, q.z⟩
  let uv := quatVector.cross v
  let uuv := quatVector.cross uv
  v.add (((uv.smul q.w).add uuv).smul 2)

/-- GLM `glm::dot` on `quat`. -/
def Quat.dot (a b : Quat α) : α := a.x * b.x + a.y * b.y + a.z * b.z + a.w * b.w

/-- GLM `glm::normalize` on `quat`. -/
def Quat.normalize [RealOps α] (q : Quat α) : Quat α :=
  let len := RealOps.sqrt (q.dot q)
  if len ≤ 0 then ⟨1, 0, 0, 0⟩
  else
    let oneOverLen := 1 / len
    ⟨q.w * oneOverLen, q.x * oneOverLen, q.y * oneOverLen, q.z * oneOverLen⟩

/-- GLM `glm::inverse` on `quat`: `conjugate(q) / dot(q, q)`. -/
def Quat.inverse (q : Quat α) : Quat α :=
  let d := q.dot q
  ⟨q.w / d, -q.x / d, -q.y / d, -q.z / d⟩

/-- GLM `glm::angleAxis`. -/
def angleAxis [RealOps α] (angle : α) (v : Vec3 α) : Quat α :=
  let s := RealOps.sin (angle * (1 / 2))
  ⟨RealOps.cos (angle * (1 / 2)), v.x * s, v.y * s, v.z * s⟩

/-- GLM `mat3_cast`: the rotation matrix of a quaternion, as its three columns. -/
def mat3_cast (q : Quat α) : Vec3 α × Vec3 α × Vec3 α :=
  let qxx := q.x * q.x
  let qyy := q.y * q.y
  let qzz := q.z * q.z
  let qxz := q.x * q.z
  let qxy := q.x * q.y
  let qyz := q.y * q.z
  let qwx := q.w * q.x
  let qwy := q.w * q.y
  let qwz := q.w * q.z
  (⟨1 - 2 * (qyy + qzz), 2 * (qxy + qwz), 2 * (qxz - qwy)⟩,
   ⟨2 * (qxy - qwz), 1 - 2 * (qxx + qzz), 2 * (qyz + qwx)⟩,
   ⟨2 * (qxz + qwy), 2 * (qyz - qwx), 1 - 2 * (qxx + qyy)⟩)

/-! ## Constants -/

def VEC3_ZERO : Vec3 α := ⟨0, 0, 0⟩
def VEC3_UNIT_X : Vec3 α := ⟨1, 0, 0⟩
def VEC3_UNIT_Y : Vec3 α := ⟨0, 1, 0⟩
def VEC3_UNIT_Z : Vec3 α := ⟨0, 0, 1⟩
def VEC3_NEGATIVE_UNIT_Z : Vec3 α := ⟨0, 0, -1⟩
def VEC3_UNIT_SCALE : Vec3 α := ⟨1, 1, 1⟩
def QUAT_IDENTITY : Quat α := ⟨1, 0, 0, 0⟩

end Glm

/-! ## The node type -/

/-- Index of a `Transforms` object in the pool. -/
abbrev NodeId := Nat

/-- The enumeration `transform_space_t`. -/
inductive transform_space_t where
  | TS_LOCAL
  | TS_PARENT
  | TS_WORLD
deriving DecidableEq, Repr

/-- The attributes of class `Transforms`. -/
@[ext]
structure Transforms (α : Type) where
  m_parent : Option NodeId
  m_children : List NodeId
  m_transformable : Option Nat
  m_tags : List String
  m_position : Vec3 α
  m_orientation : Quat α
  m_scale : Vec3 α
  m_fullPosition : Vec3 α
  m_fullOrientation : Quat α
  m_fullScale : Vec3 α
  m_bDirty : Bool
  m_bInheritOrientation : Bool
  m_bInheritScale : Bool

/-- The content of the pool of nodes. -/
abbrev State (α : Type) := NodeId → Transforms α

/-- The ways a call can fail. -/
inductive Fault where
  /-- An `assert` failed. -/
  | assertion
  /-- The call stack was used up by a recursion. -/
  | stackOverflow
  /-- `std::vector::erase` was applied to the end iterator. -/
  | eraseEnd
deriving DecidableEq, Repr

section Code

variable {α : Type} [LinearOrderedField α] [RealOps α]

/-- The constructors `Transforms()` and `Transforms(transformable)`. -/
def Transforms.new (transformable : Option Nat) : Transforms α :=
  { m_parent := none, m_children := [], m_transformable := transformable, m_tags := [],
    m_position := VEC3_ZERO, m_orientation := QUAT_IDENTITY, m_scale := VEC3_UNIT_SCALE,
    m_fullPosition := VEC3_ZERO, m_fullOrientation := QUAT_IDENTITY,
    m_fullScale := VEC3_UNIT_SCALE, m_bDirty := true, m_bInheritOrientation := true,
    m_bInheritScale := true }

/-- A pool of freshly constructed nodes; node `n` was constructed with `t n`. -/
def freshPool (t : NodeId → Option Nat) : State α := fun n => Transforms.new (t n)

/-- Embedding of `Transforms::needUpdate`. -/
def needUpdate : Nat → State α → NodeId → Except Fault (State α)
  | 0, _, _ => .error .stackOverflow
  | fuel + 1, s, this =>
    let s0 := Function.update s this { s this with m_bDirty := true }
    (s0 this).m_children.foldlM (fun st child => needUpdate fuel st child) s0

/-- The guard `if (m_bDirty) update();` of the world getters, for a given `update`. -/
def refresh (upd : State α → NodeId → Except Fault (State α)) (s : State α) (this : NodeId) :
    Except Fault (State α) :=
  if (s this).m_bDirty then upd s this else .ok s

/-- Embedding of `Transforms::update`. -/
def update : Nat → State α → NodeId → Except Fault (State α)
  | 0, _, _ => .error .stackOverflow
  | fuel + 1, s, this =>
    if (s this).m_bDirty = false then .ok s
    else
      match (s this).m_parent with
      | some parent => do
        -- const quat& parentOrientation = m_parent->getWorldOrientation();
        let s1 ← refresh (update fuel) s parent
        let parentOrientation := (s1 parent).m_fullOrientation
        let s2 := Function.update s1 this
          { s1 this with
            m_fullOrientation :=
              if (s1 this).m_bInheritOrientation then
                (parentOrientation.mul (s1 this).m_orientation).normalize
              else (s1 this).m_orientation }
        -- const vec3& parentScale = m_parent->getWorldScale();
        let s3 ← refresh (update fuel) s2 parent
        let parentScale := (s3 parent).m_fullScale
        let s4 := Function.update s3 this
          { s3 this with
            m_fullScale :=
              if (s3 this).m_bInheritScale then parentScale.mul (s3 this).m_scale
              else (s3 this).m_scale }
        let s5 := Function.update s4 this
          { s4 this with
            m_fullPosition := parentOrientation.rotate (parentScale.mul (s4 this).m_position) }
        -- m_fullPosition += m_parent->getWorldPosition();
        let s6 ← refresh (update fuel) s5 parent
        let s7 := Function.update s6 this
          { s6 this with
            m_fullPosition := (s6 this).m_fullPosition.add (s6 parent).m_fullPosition }
        pure (Function.update s7 this { s7 this with m_bDirty := false })
      | none =>
        pure (Function.update s this
          { s this with
            m_fullPosition := (s this).m_position
            m_fullOrientation := (s this).m_orientation
            m_fullScale := (s this).m_scale
            m_bDirty := false })

/-- Embedding of `Transforms::getWorldPosition`. -/
def getWorldPosition (fuel : Nat) (s : State α) (this : NodeId) : Except Fault (State α × Vec3 α) :=
  do
    let s1 ← refresh (update fuel) s this
    pure (s1, (s1 this).m_fullPosition)

/-- Embedding of `Transforms::getWorldOrientation`. -/
def getWorldOrientation (fuel : Nat) (s : State α) (this : NodeId) : Except Fault (State α × Quat α) :=
  do
    let s1 ← refresh (update fuel) s this
    pure (s1, (s1 this).m_fullOrientation)

/-- Embedding of `Transforms::getWorldScale`. -/
def getWorldScale (fuel : Nat) (s : State α) (this : NodeId) : Except Fault (State α × Vec3 α) :=
  do
    let s1 ← refresh (update fuel) s this
    pure (s1, (s1 this).m_fullScale)

/-- The matrix built by `getMatrix` and `getWorldMatrix` from a scale, an orientation and a
position (the sixteen arguments of the `mat4` constructor, column by column). -/
def composeMatrix (scale : Vec3 α) (orientation : Quat α) (position : Vec3 α) : Mat4 α :=
  let rot3x3 := mat3_cast orientation
  { c0 := (scale.x * rot3x3.1.x, scale.x * rot3x3.1.y, scale.x * rot3x3.1.z, 0)
    c1 := (scale.y * rot3x3.2.1.x, scale.y * rot3x3.2.1.y, scale.y * rot3x3.2.1.z, 0)
    c2 := (scale.z * rot3x3.2.2.x, scale.z * rot3x3.2.2.y, scale.z * rot3x3.2.2.z, 0)
    c3 := (position.x, position.y, position.z, 1) }

/-- Embedding of `Transforms::getWorldMatrix`. -/
def getWorldMatrix (fuel : Nat) (s : State α) (this : NodeId) : Except Fault (State α × Mat4 α) :=
  do
    let s1 ← refresh (update fuel) s this
    pure (s1, composeMatrix (s1 this).m_fullScale (s1 this).m_fullOrientation
      (s1 this).m_fullPosition)

/-- Embedding of `Transforms::getMatrix`. -/
def getMatrix (s : State α) (this : NodeId) : Mat4 α :=
  composeMatrix (s this).m_scale (s this).m_orientation (s this).m_position

/-- Embedding of `Transforms::getParent`. -/
def getParent (s : State α) (this : NodeId) : Option NodeId := (s this).m_parent

/-- Embedding of `Transforms::getChildren`. -/
def getChildren (s : State α) (this : NodeId) : List NodeId := (s this).m_children

/-- Embedding of `Transforms::getPosition`. -/
def getPosition (s : State α) (this : NodeId) : Vec3 α := (s this).m_position

/-- Embedding of `Transforms::getOrientation`. -/
def getOrientation (s : State α) (this : NodeId) : Quat α := (s this).m_orientation

/-- Embedding of `Transforms::getScale`. -/
def getScale (s : State α) (this : NodeId) : Vec3 α := (s this).m_scale

/-- Embedding of `Transforms::inheritOrientation`. -/
def inheritOrientation (s : State α) (this : NodeId) : Bool := (s this).m_bInheritOrientation

/-- Embedding of `Transforms::inheritScale`. -/
def inheritScale (s : State α) (this : NodeId) : Bool := (s this).m_bInheritScale

/-! ### Parent-children relationship -/

/-- First block of `Transforms::setParent`: `if (m_parent) { erase; m_parent = nullptr; }`. -/
def detach (s : State α) (this : NodeId) : Except Fault (State α) :=
  match (s this).m_parent with
  | some parent =>
    if this ∈ (s parent).m_children then
      let s1 := Function.update s parent
        { s parent with m_children := (s parent).m_children.erase this }
      .ok (Function.update s1 this { s1 this with m_parent := none })
    else .error .eraseEnd
  | none => .ok s

/-- Second block of `Transforms::setParent`: `if (transforms) { m_parent = ...; push_back; }`. -/
def attach (s : State α) (this : NodeId) (transforms : Option NodeId) : State α :=
  match transforms with
  | some t =>
    let s1 := Function.update s this { s this with m_parent := some t }
    Function.update s1 t { s1 t with m_children := (s1 t).m_children ++ [this] }
  | none => s

/-- The parent and child links written by `Transforms::setParent`, before `needUpdate()`. -/
def setParentLinks (s : State α) (this : NodeId) (transforms : Option NodeId) :
    Except Fault (State α) :=
  if transforms = some this then .error .assertion
  else do
    let s1 ← detach s this
    pure (attach s1 this transforms)

/-- Embedding of `Transforms::setParent`. -/
def setParent (fuel : Nat) (s : State α) (this : NodeId) (transforms : Option NodeId) :
    Except Fault (State α) :=
  do
    let s1 ← setParentLinks s this transforms
    needUpdate fuel s1 this

/-! ### Tags -/

/-- Embedding of `Transforms::addTag`. -/
def addTag (s : State α) (this : NodeId) (tag : String) : Except Fault (State α) :=
  if tag.isEmpty then .error .assertion
  else .ok (Function.update s this { s this with m_tags := (s this).m_tags ++ [tag] })

/-- Embedding of `Transforms::removeTag`. -/
def removeTag (s : State α) (this : NodeId) (tag : String) : Except Fault (State α) :=
  if tag.isEmpty then .error .assertion
  else .ok (Function.update s this { s this with m_tags := (s this).m_tags.erase tag })

/-- Embedding of `Transforms::getTags`. -/
def getTags (s : State α) (this : NodeId) : List String := (s this).m_tags

/-- Embedding of `Transforms::hasTag`. -/
def hasTag (s : State α) (this : NodeId) (tag : String) : Except Fault Bool :=
  if tag.isEmpty then .error .assertion
  else .ok (decide (tag ∈ (s this).m_tags))

/-- The loop of `Transforms::findChildren`, for a given recursive call. -/
def findChildrenLoop (s : State α) (tag : String) (recursive : Bool)
    (recurse : NodeId → Except Fault (List NodeId)) :
    List NodeId → List NodeId → Except Fault (List NodeId)
  | [], result => .ok result
  | child :: rest, result => do
    let b ← hasTag s child tag
    let result1 := if b then result ++ [child] else result
    if recursive then
      let result2 ← recurse child
      findChildrenLoop s tag recursive recurse rest (result1 ++ result2)
    else findChildrenLoop s tag recursive recurse rest result1

/-- Embedding of `Transforms::findChildren`. -/
def findChildren : Nat → State α → NodeId → String → Bool → Except Fault (List NodeId)
  | 0, _, _, _, _ => .error .stackOverflow
  | fuel + 1, s, this, tag, recursive =>
    if tag.isEmpty then .error .assertion
    else
      findChildrenLoop s tag recursive (fun child => findChildren fuel s child tag true)
        (s this).m_children []

/-! ### Position -/

/-- Embedding of `Transforms::setPosition`. -/
def setPosition (fuel : Nat) (s : State α) (this : NodeId) (pos : Vec3 α) :
    Except Fault (State α) :=
  needUpdate fuel (Function.update s this { s this with m_position := pos }) this

/-- Embedding of `Transforms::translate`. -/
def translate (fuel : Nat) (s : State α) (this : NodeId) (d : Vec3 α)
    (relativeTo : transform_space_t) : Except Fault (State α) :=
  match relativeTo with
  | .TS_LOCAL =>
    needUpdate fuel
      (Function.update s this
        { s this with m_position := (s this).m_position.add ((s this).m_orientation.rotate d) })
      this
  | .TS_PARENT =>
    needUpdate fuel
      (Function.update s this { s this with m_position := (s this).m_position.add d }) this
  | .TS_WORLD =>
    match (s this).m_parent with
    | some parent => do
      let (s1, parentOrientation) ← getWorldOrientation fuel s parent
      let (s2, parentScale) ← getWorldScale fuel s1 parent
      needUpdate fuel
        (Function.update s2 this
          { s2 this with
            m_position :=
              (s2 this).m_position.add ((parentOrientation.inverse.rotate d).div parentScale) })
        this
    | none =>
      needUpdate fuel
        (Function.update s this { s this with m_position := (s this).m_position.add d }) this

/-! ### Orientation -/

/-- Embedding of `Transforms::setOrientation(const quat&)`. -/
def setOrientation (fuel : Nat) (s : State α) (this : NodeId) (q : Quat α) :
    Except Fault (State α) :=
  needUpdate fuel (Function.update s this { s this with m_orientation := q }) this

/-- Embedding of `Math::getRotationTo`. -/
def getRotationTo (src dest : Vec3 α) (fallbackAxis : Vec3 α) : Quat α :=
  let v0 := src.normalize
  let v1 := dest.normalize
  let d := v0.dot v1
  if d ≥ 1 then QUAT_IDENTITY
  else if d < 1 / 1000000 - 1 then
    if fallbackAxis ≠ VEC3_ZERO then angleAxis RealOps.PI fallbackAxis
    else
      let axis := (VEC3_UNIT_X : Vec3 α).cross src
      let axis1 := if axis.length2 < 1 / 1000000 then (VEC3_UNIT_Y : Vec3 α).cross src else axis
      angleAxis RealOps.PI axis1.normalize
  else
    let sq := RealOps.sqrt ((1 + d) * 2)
    let invs := 1 / sq
    let c := v0.cross v1
    (⟨sq * (1 / 2), c.x * invs, c.y * invs, c.z * invs⟩ : Quat α).normalize

/-- Embedding of `Transforms::setDirection`. -/
def setDirection (fuel : Nat) (s : State α) (this : NodeId) (vec : Vec3 α)
    (relativeTo : transform_space_t) (localDirectionVector : Vec3 α) :
    Except Fault (State α) :=
  if vec = VEC3_ZERO then .ok s
  else do
    let targetDir0 := vec.normalize
    -- transform target direction to world space
    let (s1, targetDir) ←
      (match relativeTo with
      | .TS_LOCAL => do
        let (s1, o) ← getWorldOrientation fuel s this
        pure (s1, o.rotate targetDir0)
      | .TS_PARENT =>
        match (s this).m_parent with
        | some parent =>
          if (s this).m_bInheritOrientation then do
            let (s1, o) ← getWorldOrientation fuel s parent
            pure (s1, o.rotate targetDir0)
          else pure (s, targetDir0)
        | none => pure (s, targetDir0)
      | .TS_WORLD => pure (s, targetDir0) : Except Fault (State α × Vec3 α))
    let (s2, currentOrient) ← getWorldOrientation fuel s1 this
    let currentDir := currentOrient.rotate localDirectionVector
    let targetOrientation : Quat α :=
      if (currentDir.add targetDir).length2 < 5 / 100000 then
        ⟨-currentOrient.y, -currentOrient.z, currentOrient.w, currentOrient.x⟩
      else (getRotationTo currentDir targetDir VEC3_ZERO).mul currentOrient
    match (s2 this).m_parent with
    | some parent =>
      if (s2 this).m_bInheritOrientation then do
        let (s3, q) ← getWorldOrientation fuel s2 parent
        setOrientation fuel s3 this ((⟨q.w, -q.x, -q.y, -q.z⟩ : Quat α).mul targetOrientation)
      else setOrientation fuel s2 this targetOrientation
    | none => setOrientation fuel s2 this targetOrientation

/-- Embedding of `Transforms::lookAt`. -/
def lookAt (fuel : Nat) (s : State α) (this : NodeId) (targetPoint : Vec3 α)
    (relativeTo : transform_space_t) (localDirectionVector : Vec3 α) :
    Except Fault (State α) := do
  let (s1, origin) ←
    (match relativeTo with
    | .TS_WORLD => getWorldPosition fuel s this
    | .TS_PARENT => pure (s, (s this).m_position)
    | .TS_LOCAL => pure (s, VEC3_ZERO) : Except Fault (State α × Vec3 α))
  setDirection fuel s1 this (targetPoint.sub origin) relativeTo localDirectionVector

/-- Embedding of `Transforms::rotate(const quat&, transform_space_t)`. -/
def rotate (fuel : Nat) (s : State α) (this : NodeId) (q : Quat α)
    (relativeTo : transform_space_t) : Except Fault (State α) :=
  match relativeTo with
  | .TS_PARENT =>
    needUpdate fuel
      (Function.update s this { s this with m_orientation := q.mul (s this).m_orientation }) this
  | .TS_WORLD => do
    let (s1, o1) ← getWorldOrientation fuel s this
    let (s2, o2) ← getWorldOrientation fuel s1 this
    needUpdate fuel
      (Function.update s2 this
        { s2 this with
          m_orientation := (((s2 this).m_orientation.mul o1.inverse).mul q).mul o2 })
      this
  | .TS_LOCAL =>
    needUpdate fuel
      (Function.update s this { s this with m_orientation := (s this).m_orientation.mul q }) this

/-- Embedding of `Transforms::resetOrientation`. -/
def resetOrientation (fuel : Nat) (s : State α) (this : NodeId) : Except Fault (State α) :=
  needUpdate fuel (Function.update s this { s this with m_orientation := QUAT_IDENTITY }) this

/-- Embedding of `Transforms::setInheritOrientation`. -/
def setInheritOrientation (fuel : Nat) (s : State α) (this : NodeId) (bInherit : Bool) :
    Except Fault (State α) :=
  needUpdate fuel (Function.update s this { s this with m_bInheritOrientation := bInherit }) this

/-! ### Scale -/

/-- Embedding of `Transforms::setScale(const vec3&)`. -/
def setScale (fuel : Nat) (s : State α) (this : NodeId) (scale : Vec3 α) :
    Except Fault (State α) :=
  needUpdate fuel (Function.update s this { s this with m_scale := scale }) this

/-- Embedding of `Transforms::scale(const vec3&)`. -/
def scale (fuel : Nat) (s : State α) (this : NodeId) (scale : Vec3 α) :
    Except Fault (State α) :=
  needUpdate fuel
    (Function.update s this { s this with m_scale := (s this).m_scale.mul scale }) this

/-- Embedding of `Transforms::setInheritScale`. -/
def setInheritScale (fuel : Nat) (s : State α) (this : NodeId) (bInherit : Bool) :
    Except Fault (State α) :=
  needUpdate fuel (Function.update s this { s this with m_bInheritScale := bInherit }) this

/-! ### Matrix conversion -/

/-- What `glm::decompose` is to `Transforms::set`: from the matrix and the current
`(m_scale, m_orientation, m_position)` to the values it leaves in them. -/
abbrev Decompose (α : Type) :=
  Mat4 α → Vec3 α × Quat α × Vec3 α → Vec3 α × Quat α × Vec3 α

/-- Embedding of `Transforms::set`, for a given `glm::decompose`. -/
def set (decompose : Decompose α) (fuel : Nat) (s : State α) (this : NodeId)
    (matrix : Mat4 α) : Except Fault (State α) :=
  let r := decompose matrix ((s this).m_scale, (s this).m_orientation, (s this).m_position)
  needUpdate fuel
    (Function.update s this
      { s this with m_scale := r.1, m_orientation := r.2.1, m_position := r.2.2 })
    this

/-! ## Public calls and reachable states -/

/-- The state-changing public member functions of `Transforms`, with their arguments.
The overloads taking `real x, real y, real z` or `real*` and the wrappers `roll`, `pitch`,
`yaw`, `rotate(axis, angle, space)` and `Transformable::setParent` call the member listed here
with the corresponding vector, quaternion or node. -/
inductive Call (α : Type) where
  | setParent (this : NodeId) (transforms : Option NodeId)
  | set (this : NodeId) (matrix : Mat4 α)
  | getWorldMatrix (this : NodeId)
  | setPosition (this : NodeId) (pos : Vec3 α)
  | translate (this : NodeId) (d : Vec3 α) (relativeTo : transform_space_t)
  | getWorldPosition (this : NodeId)
  | setDirection (this : NodeId) (vec : Vec3 α) (relativeTo : transform_space_t)
      (localDirectionVector : Vec3 α)
  | lookAt (this : NodeId) (targetPoint : Vec3 α) (relativeTo : transform_space_t)
      (localDirectionVector : Vec3 α)
  | setOrientation (this : NodeId) (q : Quat α)
  | rotate (this : NodeId) (q : Quat α) (relativeTo : transform_space_t)
  | resetOrientation (this : NodeId)
  | setInheritOrientation (this : NodeId) (bInherit : Bool)
  | getWorldOrientation (this : NodeId)
  | setScale (this : NodeId) (scale : Vec3 α)
  | scale (this : NodeId) (scale : Vec3 α)
  | setInheritScale (this : NodeId) (bInherit : Bool)
  | getWorldScale (this : NodeId)
  | addTag (this : NodeId) (tag : String)
  | removeTag (this : NodeId) (tag : String)

/-- The state a public call leaves behind. -/
def runCall (decompose : Decompose α) (fuel : Nat) (s : State α) :
    Call α → Except Fault (State α)
  | .setParent this transforms => setParent fuel s this transforms
  | .set this matrix => set decompose fuel s this matrix
  | .getWorldMatrix this => (getWorldMatrix fuel s this).map Prod.fst
  | .setPosition this pos => setPosition fuel s this pos
  | .translate this d relativeTo => translate fuel s this d relativeTo
  | .getWorldPosition this => (getWorldPosition fuel s this).map Prod.fst
  | .setDirection this vec relativeTo ldv => setDirection fuel s this vec relativeTo ldv
  | .lookAt this targetPoint relativeTo ldv => lookAt fuel s this targetPoint relativeTo ldv
  | .setOrientation this q => setOrientation fuel s this q
  | .rotate this q relativeTo => rotate fuel s this q relativeTo
  | .resetOrientation this => resetOrientation fuel s this
  | .setInheritOrientation this b => setInheritOrientation fuel s this b
  | .getWorldOrientation this => (getWorldOrientation fuel s this).map Prod.fst
  | .setScale this v => setScale fuel s this v
  | .scale this v => scale fuel s this v
  | .setInheritScale this b => setInheritScale fuel s this b
  | .getWorldScale this => (getWorldScale fuel s this).map Prod.fst
  | .addTag this tag => addTag s this tag
  | .removeTag this tag => removeTag s this tag

/-- The `k`-th ancestor of node `n`: `n` itself for `k = 0`, its parent for `k = 1`, ... -/
def ancestorAt (s : State α) : NodeId → Nat → Option NodeId
  | n, 0 => some n
  | n, k + 1 =>
    match (s n).m_parent with
    | none => none
    | some p => ancestorAt s p k

/-- Node `d` is `a` or one of the descendants of `a`. -/
def InSubtree (s : State α) (a d : NodeId) : Prop := ∃ k, ancestorAt s d k = some a

/-- The hierarchy is acyclic: the chain of parents of every node ends at a root. -/
def Acyclic (s : State α) : Prop := ∀ n, ∃ k, ancestorAt s n k = none

/-- No node is its own parent or its own ancestor. -/
def NoCycle (s : State α) : Prop := ∀ n k, ancestorAt s n (k + 1) ≠ some n

/-- Parent/children consistency: `n` is in the child list of `p` exactly when the parent of
`n` is `p`, and no child list has a repetition. -/
def Consistent (s : State α) : Prop :=
  (∀ n p, n ∈ (s p).m_children ↔ (s n).m_parent = some p) ∧ ∀ p, (s p).m_children.Nodup

/-- A call keeps the hierarchy acyclic: the new parent given to `setParent` is neither the
node itself nor one of its descendants. -/
def keepsAcyclic (s : State α) : Call α → Prop
  | .setParent this (some p) => ¬ InSubtree s this p
  | _ => True

/-- States reachable from freshly constructed nodes by public calls that return and keep the
hierarchy acyclic. -/
inductive Reachable (decompose : Decompose α) : State α → Prop
  | fresh (t : NodeId → Option Nat) : Reachable decompose (freshPool t)
  | call {s s1 : State α} (c : Call α) (fuel : Nat) :
      Reachable decompose s → keepsAcyclic s c → runCall decompose fuel s c = .ok s1 →
      Reachable decompose s1

/-- States reachable from freshly constructed nodes by `setParent` calls that return and whose
new parent is not the node itself. -/
inductive ReachableBySetParent : State α → Prop
  | fresh (t : NodeId → Option Nat) : ReachableBySetParent (freshPool t)
  | setParent {s s1 : State α} (this : NodeId) (transforms : Option NodeId) (fuel : Nat) :
      ReachableBySetParent s → transforms ≠ some this →
      setParent fuel s this transforms = .ok s1 → ReachableBySetParent s1

/-- States reachable from freshly constructed nodes by `setParent` calls that return and whose
new parent is neither the node itself nor one of its descendants. -/
inductive ReachableByForestSetParent : State α → Prop
  | fresh (t : NodeId → Option Nat) : ReachableByForestSetParent (freshPool t)
  | setParent {s s1 : State α} (this : NodeId) (transforms : Option NodeId) (fuel : Nat) :
      ReachableByForestSetParent s → (∀ p, transforms = some p → ¬ InSubtree s this p) →
      setParent fuel s this transforms = .ok s1 → ReachableByForestSetParent s1

/-! ## World values without the cache -/

/-- A world-space (or local) position, orientation and scale. -/
structure World (α : Type) where
  position : Vec3 α
  orientation : Quat α
  scale : Vec3 α

/-- The local values of a node. -/
def localWorld (t : Transforms α) : World α := ⟨t.m_position, t.m_orientation, t.m_scale⟩

/-- The cached world values of a node. -/
def cachedWorld (t : Transforms α) : World α :=
  ⟨t.m_fullPosition, t.m_fullOrientation, t.m_fullScale⟩

/-- World values of a node with a parent, from the parent's world values and the node's local
values and inherit flags. -/
def combine (pw : World α) (t : Transforms α) : World α :=
  { position := (pw.orientation.rotate (pw.scale.mul t.m_position)).add pw.position
    orientation :=
      if t.m_bInheritOrientation then (pw.orientation.mul t.m_orientation).normalize
      else t.m_orientation
    scale := if t.m_bInheritScale then pw.scale.mul t.m_scale else t.m_scale }

/-- The non-cached recursive definition of the world values: the local values for a root,
otherwise the parent's recursively defined world values combined with the node's local values.
The first argument bounds the number of nodes on the chain of parents. -/
def worldSpec : Nat → State α → NodeId → Option (World α)
  | 0, _, _ => none
  | k + 1, s, n =>
    match (s n).m_parent with
    | none => some (localWorld (s n))
    | some p => (worldSpec k s p).map fun pw => combine pw (s n)

/-- The component-wise product of the local scales on the chain from the root to a node. -/
def chainScale : Nat → State α → NodeId → Option (Vec3 α)
  | 0, _, _ => none
  | k + 1, s, n =>
    match (s n).m_parent with
    | none => some (s n).m_scale
    | some p => (chainScale k s p).map fun ps => ps.mul (s n).m_scale

/-! ## Invariants -/

/-- State `s1` is state `s` with some dirty flags raised and nothing else changed. -/
def OnlyDirtied (s s1 : State α) : Prop :=
  ∀ m, s1 m = s m ∨ s1 m = { s m with m_bDirty := true }

/-- Every node is in the child list of its parent. -/
def ParentInChildren (s : State α) : Prop :=
  ∀ m p, (s m).m_parent = some p → m ∈ (s p).m_children

/-- The attributes of a node apart from its child list, tags and transformable. -/
def Transforms.core (t : Transforms α) : Transforms α :=
  { t with m_children := [], m_tags := [], m_transformable := none }

/-- The attributes of a node that the world values are defined from. -/
def Transforms.locals (t : Transforms α) :
    Option NodeId × Vec3 α × Quat α × Vec3 α × Bool × Bool :=
  (t.m_parent, t.m_position, t.m_orientation, t.m_scale, t.m_bInheritOrientation,
    t.m_bInheritScale)

/-- State `s1` is state `s` with some cached world values and dirty flags changed and nothing
else. -/
def OnlyCached (s s1 : State α) : Prop :=
  ∀ m, ∃ (p : Vec3 α) (o : Quat α) (sc : Vec3 α) (d : Bool),
    s1 m = { s m with m_fullPosition := p, m_fullOrientation := o, m_fullScale := sc,
                      m_bDirty := d }

/-- A node with its cached world values replaced and marked clean. -/
def Transforms.setCache (t : Transforms α) (w : World α) : Transforms α :=
  { t with m_fullPosition := w.position, m_fullOrientation := w.orientation,
           m_fullScale := w.scale, m_bDirty := false }

/-- The hierarchy after `this` got `transforms` as its parent: `this` is erased from the child
list of its previous parent and appended to the child list of the new one. -/
def relink (s : State α) (this : NodeId) (transforms : Option NodeId) : State α := fun m =>
  { s m with
    m_parent := if m = this then transforms else (s m).m_parent
    m_children :=
      (if (s this).m_parent = some m then (s m).m_children.erase this else (s m).m_children)
        ++ (if transforms = some m then [this] else []) }

/-- Cache invariant: the cached world values of a clean node are the non-cached ones. -/
def CacheValid (s : State α) : Prop :=
  ∀ n, (s n).m_bDirty = false → ∃ k, worldSpec k s n = some (cachedWorld (s n))

/-- The invariant of the reachable states. -/
def Inv (s : State α) : Prop := Consistent s ∧ Acyclic s ∧ CacheValid s

/-- Every chain of parents has at most `B` links. -/
def DepthBound (s : State α) (B : Nat) : Prop :=
  ∀ m k a, ancestorAt s m k = some a → k ≤ B

/-- State `s1` is state `s` apart from cached world values and dirty flags, and apart from the
local position, orientation, scale and inherit flags of node `n`. -/
def EditedAt (s s1 : State α) (n : NodeId) : Prop :=
  ∀ m, (s1 m).m_parent = (s m).m_parent ∧ (s1 m).m_children = (s m).m_children ∧
    (s1 m).m_tags = (s m).m_tags ∧ (s1 m).m_transformable = (s m).m_transformable ∧
    (m ≠ n → (s1 m).locals = (s m).locals)

/-- The square root of the scalars is exact on the non-negative scalars. -/
def ExactSqrt (α : Type) [LinearOrderedField α] [RealOps α] : Prop :=
  ∀ x : α, 0 ≤ x → 0 ≤ RealOps.sqrt x ∧ RealOps.sqrt x * RealOps.sqrt x = x

/-- GLM `glm::conjugate` on `quat`. -/
def Quat.conj (q : Quat α) : Quat α := ⟨q.w, -q.x, -q.y, -q.z⟩

/-- The target world orientation that `Transforms::setDirection` computes from the current
world orientation, the target direction in world space and the local direction vector. -/
def directionTarget (currentOrient : Quat α) (targetDir localDirectionVector : Vec3 α) :
    Quat α :=
  let currentDir := currentOrient.rotate localDirectionVector
  if (currentDir.add targetDir).length2 < 5 / 100000 then
    ⟨-currentOrient.y, -currentOrient.z, currentOrient.w, currentOrient.x⟩
  else (getRotationTo currentDir targetDir VEC3_ZERO).mul currentOrient

/-- The target direction in world space that `Transforms::setDirection` computes from `vec`:
`parentOrient` is the world orientation of the parent, if there is one, and `currentOrient` the
world orientation of the node. -/
def directionInWorld (parentOrient : Option (Quat α)) (inherit : Bool)
    (currentOrient : Quat α) (vec : Vec3 α) (relativeTo : transform_space_t) : Vec3 α :=
  match relativeTo with
  | .TS_LOCAL => currentOrient.rotate vec.normalize
  | .TS_PARENT =>
    match parentOrient with
    | some p => if inherit then p.rotate vec.normalize else vec.normalize
    | none => vec.normalize
  | .TS_WORLD => vec.normalize

/-- The local orientation that `Transforms::setDirection` stores for a non-zero `vec`. -/
def setDirectionLocal (parentOrient : Option (Quat α)) (inherit : Bool)
    (currentOrient : Quat α) (vec : Vec3 α) (relativeTo : transform_space_t)
    (localDirectionVector : Vec3 α) : Quat α :=
  let targetOrientation :=
    directionTarget currentOrient
      (directionInWorld parentOrient inherit currentOrient vec relativeTo)
      localDirectionVector
  match parentOrient with
  | some q => if inherit then (⟨q.w, -q.x, -q.y, -q.z⟩ : Quat α).mul targetOrientation
              else targetOrientation
  | none => targetOrientation

/-- Between `s` and `s1` only the local position of node `n` changed, apart from cached world
values and dirty flags. -/
def OnlyPositionEdited (s s1 : State α) (n : NodeId) : Prop :=
  EditedAt s s1 n ∧ (s1 n).m_orientation = (s n).m_orientation ∧
    (s1 n).m_scale = (s n).m_scale ∧
    (s1 n).m_bInheritOrientation = (s n).m_bInheritOrientation ∧
    (s1 n).m_bInheritScale = (s n).m_bInheritScale

/-- Between `s` and `s1` only the local orientation of node `n` changed, apart from cached world
values and dirty flags. -/
def OnlyOrientationEdited (s s1 : State α) (n : NodeId) : Prop :=
  EditedAt s s1 n ∧ (s1 n).m_position = (s n).m_position ∧
    (s1 n).m_scale = (s n).m_scale ∧
    (s1 n).m_bInheritOrientation = (s n).m_bInheritOrientation ∧
    (s1 n).m_bInheritScale = (s n).m_bInheritScale

/-- The world orientation of the parent of `n`, for a node that has a parent. -/
def parentOrientation (k : Nat) (s : State α) (n : NodeId) : Option (Quat α) :=
  match (s n).m_parent with
  | none => none
  | some p => (worldSpec k s p).map World.orientation

/-- The world orientation that `Transforms::update` computes for a node with local orientation
`o`: `parentOrient` is the world orientation of the parent, if there is one. -/
def worldOrientationOf (parentOrient : Option (Quat α)) (inherit : Bool) (o : Quat α) :
    Quat α :=
  match parentOrient with
  | some P => if inherit then (P.mul o).normalize else o
  | none => o

/-- GLM `-quat`. -/
def Quat.neg (q : Quat α) : Quat α := ⟨-q.w, -q.x, -q.y, -q.z⟩

/-- GLM `mat4 * vec4`: the linear combination of the four columns. -/
def Mat4.mulVec (m : Mat4 α) (v : α × α × α × α) : α × α × α × α :=
  (m.c0.1 * v.1 + m.c1.1 * v.2.1 + m.c2.1 * v.2.2.1 + m.c3.1 * v.2.2.2,
   m.c0.2.1 * v.1 + m.c1.2.1 * v.2.1 + m.c2.2.1 * v.2.2.1 + m.c3.2.1 * v.2.2.2,
   m.c0.2.2.1 * v.1 + m.c1.2.2.1 * v.2.1 + m.c2.2.2.1 * v.2.2.1 + m.c3.2.2.1 * v.2.2.2,
   m.c0.2.2.2 * v.1 + m.c1.2.2.2 * v.2.1 + m.c2.2.2.2 * v.2.2.1 + m.c3.2.2.2 * v.2.2.2)

/-- The last row of a `mat4`. -/
def Mat4.lastRow (m : Mat4 α) : α × α × α × α :=
  (m.c0.2.2.2, m.c1.2.2.2, m.c2.2.2.2, m.c3.2.2.2)

/-- Embedding of `Transformable::setParent`; a `Transformable` is identified with the node that
is its member `transforms`, and `nullptr` is `none`. -/
def Transformable.setParent (fuel : Nat) (s : State α) (this : NodeId)
    (transformable : Option NodeId) : Except Fault (State α) :=
  if transformable = some this then .error .assertion
  else knm.tr2.setParent fuel s this transformable

/-- Embedding of `Transforms::setOrientation(real, real, real, real)`. The parameters have the
names and the order of the definition, `(real x, real y, real z, real w)`; the declaration in
the class names them `(real w, real x, real y, real z)`. -/
def setOrientationReals (fuel : Nat) (s : State α) (this : NodeId) (x y z w : α) :
    Except Fault (State α) :=
  needUpdate fuel (Function.update s this { s this with m_orientation := ⟨w, x, y, z⟩ }) this

/-- Embedding of `Transforms::setOrientation(real*)`; `q i` is `q[i]`. -/
def setOrientationArray (fuel : Nat) (s : State α) (this : NodeId) (q : Nat → α) :
    Except Fault (State α) :=
  needUpdate fuel
    (Function.update s this { s this with m_orientation := ⟨q 0, q 1, q 2, q 3⟩ }) this

/-- Modelled from the spec: `glm::decompose` is a function of the GLM library, which is not
among the sources. The spec calls it a standard decomposition of the matrix into translation,
rotation and scale that is consumed with standard semantics (unit quaternions). `r` (scale,
orientation, position) is such a decomposition of `matrix` when the scale components are
positive, the orientation is a unit quaternion, and scaling, then rotating, then translating
by them is `matrix`. -/
def IsDecomposition (matrix : Mat4 α) (r : Vec3 α × Quat α × Vec3 α) : Prop :=
  0 < r.1.x ∧ 0 < r.1.y ∧ 0 < r.1.z ∧ r.2.1.dot r.2.1 = 1 ∧
    composeMatrix r.1 r.2.1 r.2.2 = matrix

/-- The strict descendants of node `a` down to depth `k`, in pre-order: each child, then the
descendants of that child, before the next child. -/
def descendantsPreorder : Nat → State α → NodeId → List NodeId
  | 0, _, _ => []
  | k + 1, s, a => (s a).m_children.flatMap fun c => c :: descendantsPreorder k s c

/-- The list that the spec gives for `findChildren(tag, recursive)` on node `a`: the direct
children that carry the tag, in child-list order, when `recursive` is false; the strict
descendants (down to depth `k`) that carry the tag, in pre-order, when it is true. -/
def findChildrenSpec (k : Nat) (s : State α) (a : NodeId) (tag : String) (recursive : Bool) :
    List NodeId :=
  (if recursive then descendantsPreorder k s a else (s a).m_children).filter
    fun m => decide (tag ∈ (s m).m_tags)

/-- The world-space location of a point `P` given in the space of a parent with world values
`pw`: parentWorldPosition + parentWorldOrientation applied to (parentWorldScale times `P`). -/
def worldLocation (pw : World α) (P : Vec3 α) : Vec3 α :=
  (pw.orientation.rotate (pw.scale.mul P)).add pw.position

/-- Direction `dir` points from `origin` toward `target`: the vector from `origin` to `target`
is a positive multiple of `dir`. -/
def PointsToward (origin target dir : Vec3 α) : Prop :=
  ∃ r, 0 < r ∧ target.sub origin = dir.smul r

/-- Embedding of `Transforms::getTransformable`. -/
def getTransformable (s : State α) (this : NodeId) : Option Nat := (s this).m_transformable

/-- GLM `mat4 * mat4`: column `j` of the product is the first matrix applied to column `j` of
the second. -/
def Mat4.mul (a b : Mat4 α) : Mat4 α :=
  ⟨a.mulVec b.c0, a.mulVec b.c1, a.mulVec b.c2, a.mulVec b.c3⟩

/-- The dirty flags are closed downwards: every child of a dirty node is dirty. -/
def DirtyClosed (s : State α) : Prop :=
  ∀ m p, (s m).m_parent = some p → (s p).m_bDirty = true → (s m).m_bDirty = true

/-- States reached from `s` by reads of world values of node `n` or of its parent, that is by
runs of the guard `if (m_bDirty) update();` on them. -/
inductive Reads (f : Nat) (s : State α) (n : NodeId) : State α → Prop
  | refl : Reads f s n s
  | step {sA sB : State α} (x : NodeId) :
      Reads f s n sA → (x = n ∨ (s n).m_parent = some x) →
      refresh (update f) sA x = .ok sB → Reads f s n sB

/-- State `s1` is reached from `s` by reads of world values for node `n`, an overwrite of
attributes of `n` other than its links, and the dirty propagation from `n`. -/
def EditAfterReads (f : Nat) (s : State α) (n : NodeId) (s1 : State α) : Prop :=
  ∃ (s2 : State α) (v : Transforms α), Reads f s n s2 ∧ v.m_parent = (s2 n).m_parent ∧
    v.m_children = (s2 n).m_children ∧ needUpdate f (Function.update s2 n v) n = .ok s1

/-- The node a public call is made on. -/
def Call.node : Call α → NodeId
  | .setParent this _ => this
  | .set this _ => this
  | .getWorldMatrix this => this
  | .setPosition this _ => this
  | .translate this _ _ => this
  | .getWorldPosition this => this
  | .setDirection this _ _ _ => this
  | .lookAt this _ _ _ => this
  | .setOrientation this _ => this
  | .rotate this _ _ => this
  | .resetOrientation this => this
  | .setInheritOrientation this _ => this
  | .getWorldOrientation this => this
  | .setScale this _ => this
  | .scale this _ => this
  | .setInheritScale this _ => this
  | .getWorldScale this => this
  | .addTag this _ => this
  | .removeTag this _ => this

/-- The world-space getters. -/
def Call.isWorldGetter : Call α → Bool
  | .getWorldMatrix _ => true
  | .getWorldPosition _ => true
  | .getWorldOrientation _ => true
  | .getWorldScale _ => true
  | _ => false

/-- The mutating operations: the calls that write links or local values of their node. -/
def Call.isMutator : Call α → Bool
  | .setParent _ _ => true
  | .set _ _ => true
  | .setPosition _ _ => true
  | .translate _ _ _ => true
  | .setDirection _ _ _ _ => true
  | .lookAt _ _ _ _ => true
  | .setOrientation _ _ => true
  | .rotate _ _ _ => true
  | .resetOrientation _ => true
  | .setInheritOrientation _ _ => true
  | .setScale _ _ => true
  | .scale _ _ => true
  | .setInheritScale _ _ => true
  | _ => false

/-- The mutating operations whose body reads world values: `translate` and `rotate` in
TS_WORLD, `setDirection` and `lookAt`. -/
def Call.readsWorld : Call α → Bool
  | .translate _ _ .TS_WORLD => true
  | .rotate _ _ .TS_WORLD => true
  | .setDirection _ _ _ _ => true
  | .lookAt _ _ _ _ => true
  | _ => false

/-- A `glm::decompose` that leaves `m_scale`, `m_orientation` and `m_position` as they are
(what `glm::decompose` does when it returns early), for running `set` on concrete inputs. -/
def keepDecompose : Decompose α := fun _ current => current

end Code

/-- Rational scalars, for running the code on concrete inputs: `sqrt` is exact on the squares
of rationals, `sin` and `cos` are Taylor polynomials and `PI` is a rational approximation. -/
instance : RealOps ℚ where
  sqrt := Rat.sqrt
  sin := fun x => x - x ^ 3 / 6
  cos := fun x => 1 - x ^ 2 / 2
  PI := 355 / 113

/-- Real scalars: exact square root, sine, cosine and `PI`. -/
noncomputable instance : RealOps ℝ where
  sqrt := Real.sqrt
  sin := Real.sin
  cos := Real.cos
  PI := Real.pi

end knm.tr2

namespace knm.tr2

section Lemmas

set_option linter.unusedSectionVars false

variable {α : Type} [LinearOrderedField α] [RealOps α]

/-! ## Chains of parents -/

theorem ancestorAt_succ_top (s : State α) (n : NodeId) (k : Nat) :
    ancestorAt s n (k + 1) = (ancestorAt s n k).bind fun a => (s a).m_parent := by
  induction k generalizing n with
  | zero =>
    cases h : (s n).m_parent <;> simp [ancestorAt, h]
  | succ k ih =>
    rw [ancestorAt]
    cases h : (s n).m_parent with
    | none => simp [ancestorAt, h]
    | some p => simp only [ih p]; conv_rhs => rw [ancestorAt]; simp only [h]

theorem ancestorAt_congr {s t : State α} (h : ∀ m, (s m).m_parent = (t m).m_parent)
    (n : NodeId) (k : Nat) : ancestorAt s n k = ancestorAt t n k := by
  induction k generalizing n with
  | zero => rfl
  | succ k ih =>
    simp only [ancestorAt, ← h n]
    cases (s n).m_parent with
    | none => rfl
    | some p => exact ih p

theorem inSubtree_self (s : State α) (n : NodeId) : InSubtree s n n := ⟨0, rfl⟩

theorem inSubtree_of_parent {s : State α} {a c d : NodeId} (hc : (s c).m_parent = some a)
    (hd : InSubtree s c d) : InSubtree s a d := by
  obtain ⟨k, hk⟩ := hd
  exact ⟨k + 1, by rw [ancestorAt_succ_top, hk]; simpa using hc⟩

theorem inSubtree_parent {s : State α} {a d p : NodeId} (hp : (s d).m_parent = some p)
    (h : InSubtree s a p) : InSubtree s a d := by
  obtain ⟨k, hk⟩ := h
  exact ⟨k + 1, by simp [ancestorAt, hp, hk]⟩

/-! ## Dirty propagation -/

theorem onlyDirtied_refl (s : State α) : OnlyDirtied s s := fun _ => Or.inl rfl

theorem onlyDirtied_trans {s t u : State α} (h1 : OnlyDirtied s t) (h2 : OnlyDirtied t u) :
    OnlyDirtied s u := by
  intro m
  rcases h1 m with h | h <;> rcases h2 m with h' | h' <;> simp [h, h']

theorem onlyDirtied_set (s : State α) (n : NodeId) :
    OnlyDirtied s (Function.update s n { s n with m_bDirty := true }) := by
  intro m
  by_cases h : m = n
  · subst h; simp
  · simp [Function.update_noteq h]

theorem OnlyDirtied.parent_od {s t : State α} (h : OnlyDirtied s t) (m : NodeId) :
    (t m).m_parent = (s m).m_parent := by
  rcases h m with h | h <;> simp [h]

theorem OnlyDirtied.children_od {s t : State α} (h : OnlyDirtied s t) (m : NodeId) :
    (t m).m_children = (s m).m_children := by
  rcases h m with h | h <;> simp [h]

theorem OnlyDirtied.locals_od {s t : State α} (h : OnlyDirtied s t) (m : NodeId) :
    (t m).locals = (s m).locals := by
  rcases h m with h | h <;> simp [h, Transforms.locals]

theorem OnlyDirtied.tags_od {s t : State α} (h : OnlyDirtied s t) (m : NodeId) :
    (t m).m_tags = (s m).m_tags := by
  rcases h m with h | h <;> simp [h]

theorem OnlyDirtied.transformable_od {s t : State α} (h : OnlyDirtied s t) (m : NodeId) :
    (t m).m_transformable = (s m).m_transformable := by
  rcases h m with h | h <;> simp [h]

theorem OnlyDirtied.dirty_od {s t : State α} (h : OnlyDirtied s t) {m : NodeId}
    (hm : (s m).m_bDirty = true) : (t m).m_bDirty = true := by
  rcases h m with h | h <;> simp [h, hm]

theorem OnlyDirtied.eq_of_clean {s t : State α} (h : OnlyDirtied s t) {m : NodeId}
    (hm : (t m).m_bDirty = false) : t m = s m := by
  rcases h m with h | h
  · exact h
  · rw [h] at hm; simp at hm

theorem OnlyDirtied.ancestorAt_od {s t : State α} (h : OnlyDirtied s t) (n : NodeId) (k : Nat) :
    ancestorAt t n k = ancestorAt s n k :=
  ancestorAt_congr (fun m => h.parent_od m) n k

theorem OnlyDirtied.parentInChildren_od {s t : State α} (h : OnlyDirtied s t)
    (hs : ParentInChildren s) : ParentInChildren t := by
  intro m p hp
  rw [h.parent_od] at hp
  rw [h.children_od]
  exact hs m p hp

theorem needUpdate_succ (f : Nat) (s : State α) (n : NodeId) :
    needUpdate (f + 1) s n =
      (s n).m_children.foldlM (fun st child => needUpdate f st child)
        (Function.update s n { s n with m_bDirty := true }) := by
  simp only [needUpdate, Function.update_same]

theorem foldlM_needUpdate {f : Nat}
    (ih : ∀ (s : State α) (n : NodeId) (s1 : State α), ParentInChildren s →
      needUpdate f s n = .ok s1 →
      OnlyDirtied s s1 ∧ ∀ m, InSubtree s n m → (s1 m).m_bDirty = true)
    (l : List NodeId) (st s1 : State α) (hst : ParentInChildren st)
    (h : l.foldlM (fun st child => needUpdate f st child) st = .ok s1) :
    OnlyDirtied st s1 ∧ ∀ c ∈ l, ∀ m, InSubtree st c m → (s1 m).m_bDirty = true := by
  induction l generalizing st with
  | nil =>
    simp only [List.foldlM_nil, pure, Except.pure, Except.ok.injEq] at h
    subst h
    exact ⟨onlyDirtied_refl _, by simp⟩
  | cons a l ihl =>
    simp only [List.foldlM_cons, bind, Except.bind] at h
    cases ha : needUpdate f st a with
    | error e => simp [ha] at h
    | ok s2 =>
      simp only [ha] at h
      obtain ⟨hd2, hsub2⟩ := ih st a s2 hst ha
      obtain ⟨hd1, hsub1⟩ := ihl s2 (hd2.parentInChildren_od hst) h
      refine ⟨onlyDirtied_trans hd2 hd1, ?_⟩
      intro c hc m hm
      rcases List.mem_cons.mp hc with rfl | hc
      · exact hd1.dirty_od (hsub2 m hm)
      · apply hsub1 c hc m
        obtain ⟨k, hk⟩ := hm
        exact ⟨k, by rw [hd2.ancestorAt_od]; exact hk⟩

theorem needUpdate_spec (f : Nat) (s : State α) (n : NodeId) (s1 : State α)
    (hs : ParentInChildren s) (h : needUpdate f s n = .ok s1) :
    OnlyDirtied s s1 ∧ ∀ m, InSubtree s n m → (s1 m).m_bDirty = true := by
  induction f generalizing s n s1 with
  | zero => simp [needUpdate] at h
  | succ f ih =>
    simp only [needUpdate] at h
    have hd0 := onlyDirtied_set s n
    obtain ⟨hd, hsub⟩ := foldlM_needUpdate
      (fun s n s1 hs h => ih s n s1 hs h) _ _ _ (hd0.parentInChildren_od hs) h
    refine ⟨onlyDirtied_trans hd0 hd, ?_⟩
    rintro m ⟨k, hk⟩
    cases k with
    | zero =>
      simp only [ancestorAt, Option.some.injEq] at hk
      subst hk
      exact hd.dirty_od (by simp)
    | succ k =>
      rw [ancestorAt_succ_top] at hk
      cases hc : ancestorAt s m k with
      | none => simp [hc] at hk
      | some c =>
        simp only [hc, Option.some_bind] at hk
        refine hsub c ?_ m ⟨k, by rw [hd0.ancestorAt_od]; exact hc⟩
        rw [hd0.children_od]
        exact hs c n hk

/-- Dirty propagation changes nothing when it faults or returns, apart from dirty flags. -/
theorem needUpdate_onlyDirtied (f : Nat) (s : State α) (n : NodeId) (s1 : State α)
    (h : needUpdate f s n = .ok s1) : OnlyDirtied s s1 := by
  induction f generalizing s n s1 with
  | zero => simp [needUpdate] at h
  | succ f ih =>
    simp only [needUpdate] at h
    have hd0 := onlyDirtied_set s n
    refine onlyDirtied_trans hd0 ?_
    generalize (Function.update s n { s n with m_bDirty := true } n).m_children = l at h
    generalize Function.update s n { s n with m_bDirty := true } = st at h
    clear hd0
    induction l generalizing st with
    | nil =>
      simp only [List.foldlM_nil, pure, Except.pure, Except.ok.injEq] at h
      subst h
      exact onlyDirtied_refl _
    | cons a l ihl =>
      simp only [List.foldlM_cons, bind, Except.bind] at h
      cases ha : needUpdate f st a with
      | error e => simp [ha] at h
      | ok s2 =>
        simp only [ha] at h
        exact onlyDirtied_trans (ih st a s2 ha) (ihl s2 h)

/-! ## Recomputation -/

theorem onlyCached_refl (s : State α) : OnlyCached s s := fun _ => ⟨_, _, _, _, rfl⟩

theorem onlyCached_trans {s t u : State α} (h1 : OnlyCached s t) (h2 : OnlyCached t u) :
    OnlyCached s u := by
  intro m
  obtain ⟨p, o, sc, d, h⟩ := h1 m
  obtain ⟨p', o', sc', d', h'⟩ := h2 m
  exact ⟨p', o', sc', d', by rw [h', h]⟩

theorem onlyCached_setCache (s : State α) (n : NodeId) (w : World α) :
    OnlyCached s (Function.update s n ((s n).setCache w)) := by
  intro m
  by_cases h : m = n
  · subst h; exact ⟨w.position, w.orientation, w.scale, false, by simp [Transforms.setCache]⟩
  · exact ⟨_, _, _, _, by rw [Function.update_noteq h]⟩

theorem OnlyCached.parent_oc {s t : State α} (h : OnlyCached s t) (m : NodeId) :
    (t m).m_parent = (s m).m_parent := by
  obtain ⟨p, o, sc, d, h⟩ := h m; simp [h]

theorem OnlyCached.children_oc {s t : State α} (h : OnlyCached s t) (m : NodeId) :
    (t m).m_children = (s m).m_children := by
  obtain ⟨p, o, sc, d, h⟩ := h m; simp [h]

theorem OnlyCached.tags_oc {s t : State α} (h : OnlyCached s t) (m : NodeId) :
    (t m).m_tags = (s m).m_tags := by
  obtain ⟨p, o, sc, d, h⟩ := h m; simp [h]

theorem OnlyCached.transformable_oc {s t : State α} (h : OnlyCached s t) (m : NodeId) :
    (t m).m_transformable = (s m).m_transformable := by
  obtain ⟨p, o, sc, d, h⟩ := h m; simp [h]

theorem OnlyCached.locals_oc {s t : State α} (h : OnlyCached s t) (m : NodeId) :
    (t m).locals = (s m).locals := by
  obtain ⟨p, o, sc, d, h⟩ := h m; simp [h, Transforms.locals]

theorem OnlyCached.ancestorAt_oc {s t : State α} (h : OnlyCached s t) (n : NodeId) (k : Nat) :
    ancestorAt t n k = ancestorAt s n k :=
  ancestorAt_congr (fun m => h.parent_oc m) n k

theorem localWorld_congr {t u : Transforms α} (h : t.locals = u.locals) :
    localWorld t = localWorld u := by
  simp only [Transforms.locals, Prod.mk.injEq] at h
  obtain ⟨_, h1, h2, h3, _, _⟩ := h
  simp [localWorld, h1, h2, h3]

theorem combine_congr {t u : Transforms α} (h : t.locals = u.locals) (pw : World α) :
    combine pw t = combine pw u := by
  simp only [Transforms.locals, Prod.mk.injEq] at h
  obtain ⟨_, h1, h2, h3, h4, h5⟩ := h
  simp [combine, h1, h2, h3, h4, h5]

theorem parent_congr {t u : Transforms α} (h : t.locals = u.locals) :
    t.m_parent = u.m_parent := by
  simp only [Transforms.locals, Prod.mk.injEq] at h
  exact h.1

/-- The non-cached world values of a node depend only on the local values and parent links
of the node and its ancestors. -/
theorem worldSpec_agree {s t : State α} (P : NodeId → Prop)
    (h : ∀ a, P a → (t a).locals = (s a).locals) (k : Nat) (n : NodeId)
    (hP : ∀ j a, ancestorAt t n j = some a → P a) :
    worldSpec k t n = worldSpec k s n := by
  induction k generalizing n with
  | zero => rfl
  | succ k ih =>
    have hn := h n (hP 0 n rfl)
    simp only [worldSpec, parent_congr hn]
    cases hp : (s n).m_parent with
    | none => simp [localWorld_congr hn]
    | some p =>
      have hp' : (t n).m_parent = some p := by rw [parent_congr hn, hp]
      simp only [combine_congr hn]
      rw [ih p (fun j a ha => hP (j + 1) a (by simp [ancestorAt, hp', ha]))]

theorem worldSpec_congr {s t : State α} (h : ∀ m, (t m).locals = (s m).locals) (k : Nat)
    (n : NodeId) : worldSpec k t n = worldSpec k s n :=
  worldSpec_agree (fun _ => True) (fun a _ => h a) k n (fun _ _ _ => trivial)

theorem refresh_clean {upd : State α → NodeId → Except Fault (State α)} {s : State α}
    {n : NodeId} (h : (s n).m_bDirty = false) : refresh upd s n = .ok s := by
  simp [refresh, h]

theorem refresh_dirty {upd : State α → NodeId → Except Fault (State α)} {s : State α}
    {n : NodeId} (h : (s n).m_bDirty = true) : refresh upd s n = upd s n := by
  simp [refresh, h]

theorem bind_eq_ok {ε β γ : Type} {x : Except ε β} {g : β → Except ε γ} {r : γ} :
    (x >>= g) = .ok r ↔ ∃ a, x = .ok a ∧ g a = .ok r := by
  cases x with
  | error e => simp [bind, Except.bind]
  | ok a => simp [bind, Except.bind]

theorem update_clean (f : Nat) (s : State α) (n : NodeId) (s1 : State α)
    (h : update f s n = .ok s1) : (s1 n).m_bDirty = false := by
  cases f with
  | zero => simp [update] at h
  | succ f =>
    rw [update] at h
    cases hc : (s n).m_bDirty with
    | false => simp only [hc, ↓reduceIte, Except.ok.injEq] at h; subst h; exact hc
    | true =>
      simp only [hc, Bool.true_eq_false, ↓reduceIte] at h
      cases hp : (s n).m_parent with
      | none =>
        simp only [hp, pure, Except.pure, Except.ok.injEq] at h
        subst h; simp
      | some p =>
        simp only [hp] at h
        obtain ⟨s1', -, h⟩ := bind_eq_ok.mp h
        obtain ⟨s3, -, h⟩ := bind_eq_ok.mp h
        obtain ⟨s6, -, h⟩ := bind_eq_ok.mp h
        simp only [pure, Except.pure, Except.ok.injEq] at h
        subst h; simp

theorem refresh_update_clean (f : Nat) (s : State α) (n : NodeId) (s1 : State α)
    (h : refresh (update f) s n = .ok s1) : (s1 n).m_bDirty = false := by
  cases hd : (s n).m_bDirty with
  | false => rw [refresh_clean hd] at h; simp only [Except.ok.injEq] at h; subst h; exact hd
  | true => rw [refresh_dirty hd] at h; exact update_clean f s n s1 h

theorem update_none {f : Nat} {s : State α} {n : NodeId} (hd : (s n).m_bDirty = true)
    (hp : (s n).m_parent = none) :
    update (f + 1) s n = .ok (Function.update s n ((s n).setCache (localWorld (s n)))) := by
  rw [update]
  simp [hd, hp, Transforms.setCache, localWorld, pure, Except.pure]

theorem update_some {f : Nat} {s s1 : State α} {n p : NodeId} (hd : (s n).m_bDirty = true)
    (hp : (s n).m_parent = some p) (hpn : p ≠ n) (hr : refresh (update f) s p = .ok s1) :
    update (f + 1) s n =
      .ok (Function.update s1 n ((s1 n).setCache (combine (cachedWorld (s1 p)) (s1 n)))) := by
  have hc := refresh_update_clean f s p s1 hr
  rw [update]
  simp only [hd, hp, hr, Bool.true_eq_false, ↓reduceIte, bind, Except.bind]
  rw [refresh_clean (by rw [Function.update_noteq hpn]; exact hc)]
  simp only []
  rw [refresh_clean (by simp only [Function.update_noteq hpn]; exact hc)]
  simp only [Function.update_same, Function.update_idem, Function.update_noteq hpn,
    Transforms.setCache, combine, cachedWorld, pure, Except.pure]

theorem update_of_clean {f : Nat} {s : State α} {n : NodeId} (hd : (s n).m_bDirty = false) :
    update (f + 1) s n = .ok s := by
  rw [update]; simp [hd]

theorem update_error {f : Nat} {s : State α} {n p : NodeId} {e : Fault}
    (hd : (s n).m_bDirty = true) (hp : (s n).m_parent = some p)
    (hr : refresh (update f) s p = .error e) : update (f + 1) s n = .error e := by
  rw [update]
  simp only [hd, hp, hr, Bool.true_eq_false, ↓reduceIte, bind, Except.bind]

theorem ancestorAt_self_parent {s : State α} {n : NodeId} (h : (s n).m_parent = some n)
    (k : Nat) : ancestorAt s n k = some n := by
  induction k with
  | zero => rfl
  | succ k ih => simp [ancestorAt, h, ih]

theorem Acyclic.parent_ne {s : State α} (h : Acyclic s) {n p : NodeId}
    (hp : (s n).m_parent = some p) : p ≠ n := by
  rintro rfl
  obtain ⟨k, hk⟩ := h p
  rw [ancestorAt_self_parent hp] at hk
  simp at hk

theorem cacheValid_setCache {s : State α} (hc : CacheValid s) (n : NodeId) (w : World α)
    (hw : ∃ k, worldSpec k s n = some w) :
    CacheValid (Function.update s n ((s n).setCache w)) := by
  have hl := onlyCached_setCache s n w
  intro m hm
  by_cases hmn : m = n
  · subst hmn
    obtain ⟨k, hk⟩ := hw
    refine ⟨k, ?_⟩
    rw [worldSpec_congr (fun a => hl.locals_oc a), hk]
    simp [Transforms.setCache, cachedWorld]
  · rw [Function.update_noteq hmn] at hm ⊢
    obtain ⟨k, hk⟩ := hc m hm
    exact ⟨k, by rw [worldSpec_congr (fun a => hl.locals_oc a), hk]⟩

/-- Recomputation changes cached values only, keeps the cache invariant and leaves clean
nodes alone. -/
theorem update_sound (f : Nat) (s : State α) (n : NodeId) (s1 : State α)
    (hns : ∀ m, (s m).m_parent ≠ some m) (hc : CacheValid s) (h : update f s n = .ok s1) :
    OnlyCached s s1 ∧ CacheValid s1 ∧ ∀ m, (s m).m_bDirty = false → s1 m = s m := by
  induction f generalizing s n s1 with
  | zero => simp [update] at h
  | succ f ih =>
    cases hd : (s n).m_bDirty with
    | false =>
      rw [update_of_clean hd] at h
      simp only [Except.ok.injEq] at h; subst h
      exact ⟨onlyCached_refl _, hc, fun _ _ => rfl⟩
    | true =>
      cases hp : (s n).m_parent with
      | none =>
        rw [update_none hd hp] at h
        simp only [Except.ok.injEq] at h; subst h
        refine ⟨onlyCached_setCache _ _ _, cacheValid_setCache hc n _ ⟨1, ?_⟩, ?_⟩
        · simp [worldSpec, hp]
        · intro m hm
          have : m ≠ n := by rintro rfl; rw [hd] at hm; simp at hm
          rw [Function.update_noteq this]
      | some p =>
        have hpn : p ≠ n := fun e => hns n (by rw [hp, e])
        cases hr : refresh (update f) s p with
        | error e => rw [update_error hd hp hr] at h; simp at h
        | ok s2 =>
          have hpc := refresh_update_clean f s p s2 hr
          have h2 : OnlyCached s s2 ∧ CacheValid s2 ∧ ∀ m, (s m).m_bDirty = false → s2 m = s m := by
            cases hdp : (s p).m_bDirty with
            | false =>
              rw [refresh_clean hdp] at hr
              simp only [Except.ok.injEq] at hr; subst hr
              exact ⟨onlyCached_refl _, hc, fun _ _ => rfl⟩
            | true =>
              rw [refresh_dirty hdp] at hr
              exact ih s p s2 hns hc hr
          obtain ⟨hoc, hcv, hun⟩ := h2
          rw [update_some hd hp hpn hr] at h
          simp only [Except.ok.injEq] at h; subst h
          refine ⟨onlyCached_trans hoc (onlyCached_setCache _ _ _),
            cacheValid_setCache hcv n _ ?_, ?_⟩
          · obtain ⟨k, hk⟩ := hcv p hpc
            refine ⟨k + 1, ?_⟩
            have hp2 : (s2 n).m_parent = some p := by rw [hoc.parent_oc, hp]
            simp [worldSpec, hp2, hk]
          · intro m hm
            have : m ≠ n := by rintro rfl; rw [hd] at hm; simp at hm
            rw [Function.update_noteq this, hun m hm]

/-- Recomputation returns when the call stack is deeper than the chain of parents is long. -/
theorem update_terminates (s : State α) (hns : ∀ m, (s m).m_parent ≠ some m) (k : Nat)
    (n : NodeId) (hk : ancestorAt s n k = none) (f : Nat) (hf : k ≤ f) :
    ∃ s1, update f s n = .ok s1 := by
  induction k generalizing n f with
  | zero => simp [ancestorAt] at hk
  | succ k ih =>
    obtain ⟨f, rfl⟩ : ∃ g, f = g + 1 := ⟨f - 1, by omega⟩
    cases hd : (s n).m_bDirty with
    | false => exact ⟨s, update_of_clean hd⟩
    | true =>
      cases hp : (s n).m_parent with
      | none => exact ⟨_, update_none hd hp⟩
      | some p =>
        have hpn : p ≠ n := fun e => hns n (by rw [hp, e])
        simp only [ancestorAt, hp] at hk
        have hr : ∃ s2, refresh (update f) s p = .ok s2 := by
          cases hdp : (s p).m_bDirty with
          | false => exact ⟨s, refresh_clean hdp⟩
          | true => rw [refresh_dirty hdp]; exact ih p hk f (by omega)
        obtain ⟨s2, hr⟩ := hr
        exact ⟨_, update_some hd hp hpn hr⟩

/-! ## Parent and child links -/

theorem detach_eq {s : State α} {c : NodeId}
    (hin : ∀ p, (s c).m_parent = some p → c ∈ (s p).m_children) :
    detach s c = .ok (relink s c none) := by
  unfold detach
  cases hp : (s c).m_parent with
  | none =>
    simp only [Except.ok.injEq]
    funext m
    by_cases hm : m = c
    · subst hm; apply Transforms.ext <;> simp [relink, hp]
    · apply Transforms.ext <;> simp [relink, hm, hp]
  | some p =>
    simp only [hin p hp, ↓reduceIte, Except.ok.injEq]
    funext m
    by_cases hm : m = c
    · subst hm
      by_cases hpm : p = m
      · subst hpm; simp [relink, hp]
      · have : ¬ m = p := fun e => hpm e.symm
        simp [relink, hp, hpm, Function.update_noteq this]
    · by_cases hpm : p = m
      · subst hpm; simp [relink, hp, hm, Function.update_noteq hm]
      · have : ¬ m = p := fun e => hpm e.symm
        simp [relink, hp, hpm, hm, Function.update_noteq hm, Function.update_noteq this]

theorem attach_relink {s : State α} {c : NodeId} {t : Option NodeId} (ht : t ≠ some c) :
    attach (relink s c none) c t = relink s c t := by
  cases t with
  | none => rfl
  | some p =>
    have hpc : p ≠ c := fun e => ht (by rw [e])
    have hcp : c ≠ p := fun e => hpc e.symm
    simp only [attach]
    funext m
    by_cases hm : m = c
    · subst hm
      simp [relink, Function.update_noteq hcp, hpc]
    · by_cases hpm : m = p
      · subst hpm; simp [relink, hm]
      · have : ¬ p = m := fun e => hpm e.symm
        simp [relink, hm, hpm, this, Function.update_noteq hm, Function.update_noteq hpm]

theorem setParentLinks_eq {s : State α} {c : NodeId} {t : Option NodeId} (ht : t ≠ some c)
    (hin : ∀ p, (s c).m_parent = some p → c ∈ (s p).m_children) :
    setParentLinks s c t = .ok (relink s c t) := by
  simp only [setParentLinks, ht, ↓reduceIte, detach_eq hin, bind, Except.bind, pure,
    Except.pure, attach_relink ht]

theorem setParentLinks_ok {s s2 : State α} {c : NodeId} {t : Option NodeId}
    (hs : ParentInChildren s) (h : setParentLinks s c t = .ok s2) :
    t ≠ some c ∧ s2 = relink s c t := by
  by_cases ht : t = some c
  · simp [setParentLinks, ht] at h
  · rw [setParentLinks_eq ht (fun p hp => hs c p hp)] at h
    simp only [Except.ok.injEq] at h
    exact ⟨ht, h.symm⟩

theorem relink_parent (s : State α) (c : NodeId) (t : Option NodeId) (m : NodeId) :
    (relink s c t m).m_parent = if m = c then t else (s m).m_parent := rfl

theorem relink_core (s : State α) (c : NodeId) (t : Option NodeId) {m : NodeId} (hm : m ≠ c) :
    (relink s c t m).core = (s m).core := by
  simp [relink, Transforms.core, hm]

theorem mem_relink_children {s : State α} (hs : Consistent s) (c : NodeId)
    (t : Option NodeId) (n m : NodeId) :
    n ∈ (relink s c t m).m_children ↔ (relink s c t n).m_parent = some m := by
  obtain ⟨hmem, hnd⟩ := hs
  simp only [relink, List.mem_append]
  by_cases hn : n = c
  · subst hn
    have h1 : n ∉ (if (s n).m_parent = some m then (s m).m_children.erase n
        else (s m).m_children) := by
      split
      · exact fun h => (List.Nodup.mem_erase_iff (hnd m)).mp h |>.1 rfl
      · next h => exact fun h' => h ((hmem n m).mp h')
    by_cases ht : t = some m <;> simp [h1, ht]
  · have h2 : n ∉ (if t = some m then [c] else []) := by
      split <;> simp [hn]
    simp only [h2, or_false, hn, ↓reduceIte, ← hmem n m]
    split
    · exact List.mem_erase_of_ne hn
    · rfl

theorem consistent_relink {s : State α} (hs : Consistent s) (c : NodeId) (t : Option NodeId) :
    Consistent (relink s c t) := by
  refine ⟨fun n m => mem_relink_children hs c t n m, fun m => ?_⟩
  obtain ⟨hmem, hnd⟩ := hs
  simp only [relink]
  have hl : (if (s c).m_parent = some m then (s m).m_children.erase c
      else (s m).m_children).Nodup := by
    split
    · exact (hnd m).erase c
    · exact hnd m
  have hc : c ∉ (if (s c).m_parent = some m then (s m).m_children.erase c
      else (s m).m_children) := by
    split
    · exact fun h => (List.Nodup.mem_erase_iff (hnd m)).mp h |>.1 rfl
    · next h => exact fun h' => h ((hmem c m).mp h')
  generalize (if (s c).m_parent = some m then (s m).m_children.erase c
      else (s m).m_children) = l at hl hc ⊢
  by_cases ht : t = some m
  · simp only [ht, ↓reduceIte]
    exact List.Nodup.append hl (List.nodup_singleton c) (by simpa using hc)
  · simpa [ht] using hl

theorem Consistent.parentInChildren {s : State α} (hs : Consistent s) : ParentInChildren s :=
  fun m p hp => (hs.1 m p).mpr hp

theorem consistent_congr {s t : State α} (hs : Consistent s)
    (hp : ∀ m, (t m).m_parent = (s m).m_parent)
    (hc : ∀ m, (t m).m_children = (s m).m_children) : Consistent t := by
  refine ⟨fun n m => ?_, fun m => ?_⟩
  · rw [hp, hc]; exact hs.1 n m
  · rw [hc]; exact hs.2 m

theorem acyclic_congr {s t : State α} (hs : Acyclic s)
    (hp : ∀ m, (t m).m_parent = (s m).m_parent) : Acyclic t := by
  intro n
  obtain ⟨k, hk⟩ := hs n
  exact ⟨k, by rw [ancestorAt_congr hp]; exact hk⟩

/-- The chain of parents of a node that is not below `c` is the same after `c` is given
another parent. -/
theorem ancestorAt_relink {s : State α} (c : NodeId) (t : Option NodeId) (n : NodeId)
    (hn : ¬ InSubtree s c n) (k : Nat) :
    ancestorAt (relink s c t) n k = ancestorAt s n k := by
  induction k generalizing n with
  | zero => rfl
  | succ k ih =>
    have hnc : n ≠ c := fun e => hn (e ▸ inSubtree_self s c)
    simp only [ancestorAt, relink_parent, hnc, ↓reduceIte]
    cases hp : (s n).m_parent with
    | none => rfl
    | some p => exact ih p (fun h => hn (inSubtree_parent hp h))

theorem acyclic_relink {s : State α} (hs : Acyclic s) (c : NodeId) (t : Option NodeId)
    (ht : ∀ p, t = some p → ¬ InSubtree s c p) : Acyclic (relink s c t) := by
  have hc : ∃ k, ancestorAt (relink s c t) c k = none := by
    cases t with
    | none => exact ⟨1, by simp [ancestorAt, relink_parent]⟩
    | some p =>
      obtain ⟨k, hk⟩ := hs p
      refine ⟨k + 1, ?_⟩
      simp only [ancestorAt, relink_parent, ↓reduceIte]
      rw [ancestorAt_relink c (some p) p (ht p rfl), hk]
  intro n
  obtain ⟨k, hk⟩ := hs n
  induction k generalizing n with
  | zero => simp [ancestorAt] at hk
  | succ k ih =>
    by_cases hn : n = c
    · subst hn; exact hc
    · simp only [ancestorAt] at hk
      cases hp : (s n).m_parent with
      | none => exact ⟨1, by simp [ancestorAt, relink_parent, hn, hp]⟩
      | some p =>
        simp only [hp] at hk
        obtain ⟨k', hk'⟩ := ih p hk
        exact ⟨k' + 1, by simp [ancestorAt, relink_parent, hn, hp, hk']⟩

/-! ## The invariant is kept by every call -/

theorem core_locals {t u : Transforms α} (h : t.core = u.core) : t.locals = u.locals := by
  have := congrArg Transforms.locals h
  simpa [Transforms.core, Transforms.locals] using this

theorem core_dirty {t u : Transforms α} (h : t.core = u.core) : t.m_bDirty = u.m_bDirty := by
  have := congrArg Transforms.m_bDirty h
  simpa [Transforms.core] using this

theorem core_cachedWorld {t u : Transforms α} (h : t.core = u.core) :
    cachedWorld t = cachedWorld u := by
  have := congrArg cachedWorld h
  simpa [Transforms.core, cachedWorld] using this

/-- The cache invariant survives any change of node `a` that is followed by `needUpdate`
on `a`. -/
theorem cacheValid_needUpdate {s t s1 : State α} {a : NodeId} {f : Nat} (hs : CacheValid s)
    (ht : ParentInChildren t) (hcore : ∀ m, m ≠ a → (t m).core = (s m).core)
    (h : needUpdate f t a = .ok s1) : CacheValid s1 := by
  obtain ⟨hd, hsub⟩ := needUpdate_spec f t a s1 ht h
  intro m hm
  have hav : ∀ j b, ancestorAt t m j = some b → b ≠ a := by
    rintro j b hb rfl
    have := hsub m ⟨j, hb⟩
    rw [hm] at this; simp at this
  have hma : m ≠ a := hav 0 m rfl
  have h1 : s1 m = t m := hd.eq_of_clean hm
  have hdm : (s m).m_bDirty = false := by
    rw [← core_dirty (hcore m hma), ← h1]; exact hm
  obtain ⟨k, hk⟩ := hs m hdm
  refine ⟨k, ?_⟩
  rw [worldSpec_congr (fun b => hd.locals_od b),
    worldSpec_agree (fun b => b ≠ a) (fun b hb => core_locals (hcore b hb)) k m hav, hk, h1,
    core_cachedWorld (hcore m hma)]

theorem inv_needUpdate {s t s1 : State α} {a : NodeId} {f : Nat} (hs : Inv s)
    (hp : ∀ m, (t m).m_parent = (s m).m_parent)
    (hc : ∀ m, (t m).m_children = (s m).m_children)
    (hcore : ∀ m, m ≠ a → (t m).core = (s m).core)
    (h : needUpdate f t a = .ok s1) : Inv s1 := by
  obtain ⟨h1, h2, h3⟩ := hs
  have hd := needUpdate_onlyDirtied f t a s1 h
  have hct := consistent_congr h1 hp hc
  exact ⟨consistent_congr hct hd.parent_od hd.children_od, acyclic_congr (acyclic_congr h2 hp) hd.parent_od,
    cacheValid_needUpdate h3 hct.parentInChildren hcore h⟩

/-- A change of local attributes of node `a` followed by `needUpdate` keeps the invariant. -/
theorem inv_edit {s s1 : State α} {a : NodeId} {f : Nat} (hs : Inv s) (v : Transforms α)
    (h : needUpdate f (Function.update s a v) a = .ok s1)
    (hp : v.m_parent = (s a).m_parent) (hc : v.m_children = (s a).m_children) : Inv s1 := by
  refine inv_needUpdate hs (fun m => ?_) (fun m => ?_) (fun m hm => ?_) h
  · by_cases hm : m = a
    · subst hm; simpa using hp
    · rw [Function.update_noteq hm]
  · by_cases hm : m = a
    · subst hm; simpa using hc
    · rw [Function.update_noteq hm]
  · rw [Function.update_noteq hm]

theorem inv_refresh {s s1 : State α} {n : NodeId} {f : Nat} (hs : Inv s)
    (h : refresh (update f) s n = .ok s1) : Inv s1 ∧ OnlyCached s s1 := by
  obtain ⟨h1, h2, h3⟩ := hs
  cases hd : (s n).m_bDirty with
  | false =>
    rw [refresh_clean hd] at h
    simp only [Except.ok.injEq] at h; subst h
    exact ⟨⟨h1, h2, h3⟩, onlyCached_refl _⟩
  | true =>
    rw [refresh_dirty hd] at h
    obtain ⟨hoc, hcv, -⟩ := update_sound f s n s1 (fun m hm => h2.parent_ne hm rfl) h3 h
    exact ⟨⟨consistent_congr h1 hoc.parent_oc hoc.children_oc, acyclic_congr h2 hoc.parent_oc, hcv⟩, hoc⟩

theorem inv_setParent {s s1 : State α} {c : NodeId} {t : Option NodeId} {f : Nat} (hs : Inv s)
    (ht : ∀ p, t = some p → ¬ InSubtree s c p) (h : setParent f s c t = .ok s1) : Inv s1 := by
  obtain ⟨h1, h2, h3⟩ := hs
  obtain ⟨s2, hl, h⟩ := bind_eq_ok.mp h
  obtain ⟨-, rfl⟩ := setParentLinks_ok h1.parentInChildren hl
  have hd := needUpdate_onlyDirtied f _ c s1 h
  have hc2 := consistent_relink h1 c t
  exact ⟨consistent_congr hc2 hd.parent_od hd.children_od,
    acyclic_congr (acyclic_relink h2 c t ht) hd.parent_od,
    cacheValid_needUpdate h3 hc2.parentInChildren (fun m hm => relink_core s c t hm) h⟩

theorem inv_freshPool (t : NodeId → Option Nat) : Inv (freshPool t : State α) := by
  refine ⟨⟨fun n p => ?_, fun p => ?_⟩, fun n => ⟨1, ?_⟩, fun n hn => ?_⟩
  · simp [freshPool, Transforms.new]
  · simp [freshPool, Transforms.new]
  · simp [ancestorAt, freshPool, Transforms.new]
  · simp [freshPool, Transforms.new] at hn

theorem getWorldPosition_ok {f : Nat} {s s1 : State α} {n : NodeId} {v : Vec3 α}
    (h : getWorldPosition f s n = .ok (s1, v)) :
    refresh (update f) s n = .ok s1 ∧ v = (s1 n).m_fullPosition := by
  obtain ⟨s2, hr, h⟩ := bind_eq_ok.mp h
  simp only [pure, Except.pure, Except.ok.injEq, Prod.mk.injEq] at h
  obtain ⟨rfl, rfl⟩ := h
  exact ⟨hr, rfl⟩

theorem getWorldOrientation_ok {f : Nat} {s s1 : State α} {n : NodeId} {v : Quat α}
    (h : getWorldOrientation f s n = .ok (s1, v)) :
    refresh (update f) s n = .ok s1 ∧ v = (s1 n).m_fullOrientation := by
  obtain ⟨s2, hr, h⟩ := bind_eq_ok.mp h
  simp only [pure, Except.pure, Except.ok.injEq, Prod.mk.injEq] at h
  obtain ⟨rfl, rfl⟩ := h
  exact ⟨hr, rfl⟩

theorem getWorldScale_ok {f : Nat} {s s1 : State α} {n : NodeId} {v : Vec3 α}
    (h : getWorldScale f s n = .ok (s1, v)) :
    refresh (update f) s n = .ok s1 ∧ v = (s1 n).m_fullScale := by
  obtain ⟨s2, hr, h⟩ := bind_eq_ok.mp h
  simp only [pure, Except.pure, Except.ok.injEq, Prod.mk.injEq] at h
  obtain ⟨rfl, rfl⟩ := h
  exact ⟨hr, rfl⟩

theorem getWorldMatrix_ok {f : Nat} {s s1 : State α} {n : NodeId} {v : Mat4 α}
    (h : getWorldMatrix f s n = .ok (s1, v)) : refresh (update f) s n = .ok s1 := by
  obtain ⟨s2, hr, h⟩ := bind_eq_ok.mp h
  simp only [pure, Except.pure, Except.ok.injEq, Prod.mk.injEq] at h
  obtain ⟨rfl, -⟩ := h
  exact hr

theorem map_fst_eq_ok {ε β γ : Type} {x : Except ε (β × γ)} {b : β}
    (h : x.map Prod.fst = .ok b) : ∃ c, x = .ok (b, c) := by
  cases x with
  | error e => simp [Except.map] at h
  | ok a =>
    simp only [Except.map, Except.ok.injEq] at h
    exact ⟨a.2, by rw [← h]⟩

theorem inv_getWorldPosition {f : Nat} {s s1 : State α} {n : NodeId} {v : Vec3 α}
    (hs : Inv s) (h : getWorldPosition f s n = .ok (s1, v)) : Inv s1 ∧ OnlyCached s s1 :=
  inv_refresh hs (getWorldPosition_ok h).1

theorem inv_getWorldOrientation {f : Nat} {s s1 : State α} {n : NodeId} {v : Quat α}
    (hs : Inv s) (h : getWorldOrientation f s n = .ok (s1, v)) : Inv s1 ∧ OnlyCached s s1 :=
  inv_refresh hs (getWorldOrientation_ok h).1

theorem inv_getWorldScale {f : Nat} {s s1 : State α} {n : NodeId} {v : Vec3 α}
    (hs : Inv s) (h : getWorldScale f s n = .ok (s1, v)) : Inv s1 ∧ OnlyCached s s1 :=
  inv_refresh hs (getWorldScale_ok h).1

theorem inv_setOrientation {f : Nat} {s s1 : State α} {n : NodeId} {q : Quat α}
    (hs : Inv s) (h : setOrientation f s n q = .ok s1) : Inv s1 :=
  inv_edit hs _ h rfl rfl

theorem inv_translate {f : Nat} {s s1 : State α} {n : NodeId} {d : Vec3 α}
    {sp : transform_space_t} (hs : Inv s) (h : translate f s n d sp = .ok s1) : Inv s1 := by
  cases sp with
  | TS_LOCAL => exact inv_edit hs _ h rfl rfl
  | TS_PARENT => exact inv_edit hs _ h rfl rfl
  | TS_WORLD =>
    simp only [translate] at h
    cases hp : (s n).m_parent with
    | none => simp only [hp] at h; exact inv_edit hs _ h (by simp [hp]) rfl
    | some p =>
      simp only [hp] at h
      obtain ⟨⟨s2, o⟩, h1, h⟩ := bind_eq_ok.mp h
      obtain ⟨⟨s3, sc⟩, h2, h⟩ := bind_eq_ok.mp h
      have hs2 := (inv_getWorldOrientation hs h1).1
      have hs3 := (inv_getWorldScale hs2 h2).1
      exact inv_edit hs3 _ h rfl rfl

theorem inv_rotate {f : Nat} {s s1 : State α} {n : NodeId} {q : Quat α}
    {sp : transform_space_t} (hs : Inv s) (h : rotate f s n q sp = .ok s1) : Inv s1 := by
  cases sp with
  | TS_LOCAL => exact inv_edit hs _ h rfl rfl
  | TS_PARENT => exact inv_edit hs _ h rfl rfl
  | TS_WORLD =>
    simp only [rotate] at h
    obtain ⟨⟨s2, o⟩, h1, h⟩ := bind_eq_ok.mp h
    obtain ⟨⟨s3, sc⟩, h2, h⟩ := bind_eq_ok.mp h
    have hs2 := (inv_getWorldOrientation hs h1).1
    have hs3 := (inv_getWorldOrientation hs2 h2).1
    exact inv_edit hs3 _ h rfl rfl

theorem inv_setDirection {f : Nat} {s s1 : State α} {n : NodeId} {v ldv : Vec3 α}
    {sp : transform_space_t} (hs : Inv s) (h : setDirection f s n v sp ldv = .ok s1) :
    Inv s1 := by
  unfold setDirection at h
  by_cases hv : v = VEC3_ZERO
  · simp only [hv, ↓reduceIte, Except.ok.injEq] at h; subst h; exact hs
  · simp only [hv, ↓reduceIte] at h
    obtain ⟨⟨s2, td⟩, h1, h⟩ := bind_eq_ok.mp h
    obtain ⟨⟨s3, co⟩, h2, h⟩ := bind_eq_ok.mp h
    have hs2 : Inv s2 := by
      cases sp with
      | TS_LOCAL =>
        simp only at h1
        obtain ⟨⟨s2', o⟩, h1', h'⟩ := bind_eq_ok.mp h1
        simp only [pure, Except.pure, Except.ok.injEq, Prod.mk.injEq] at h'
        obtain ⟨rfl, -⟩ := h'
        exact (inv_getWorldOrientation hs h1').1
      | TS_PARENT =>
        simp only at h1
        cases hp : (s n).m_parent with
        | none =>
          simp only [hp, pure, Except.pure, Except.ok.injEq, Prod.mk.injEq] at h1
          obtain ⟨rfl, -⟩ := h1
          exact hs
        | some p =>
          simp only [hp] at h1
          cases hi : (s n).m_bInheritOrientation with
          | false =>
            simp only [hi, Bool.false_eq_true, ↓reduceIte, pure, Except.pure, Except.ok.injEq,
              Prod.mk.injEq] at h1
            obtain ⟨rfl, -⟩ := h1
            exact hs
          | true =>
            simp only [hi, ↓reduceIte] at h1
            obtain ⟨⟨s2', o⟩, h1', h'⟩ := bind_eq_ok.mp h1
            simp only [pure, Except.pure, Except.ok.injEq, Prod.mk.injEq] at h'
            obtain ⟨rfl, -⟩ := h'
            exact (inv_getWorldOrientation hs h1').1
      | TS_WORLD =>
        simp only [pure, Except.pure, Except.ok.injEq, Prod.mk.injEq] at h1
        obtain ⟨rfl, -⟩ := h1
        exact hs
    have hs3 := (inv_getWorldOrientation hs2 h2).1
    simp only at h
    cases hp : (s3 n).m_parent with
    | none => simp only [hp] at h; exact inv_setOrientation hs3 h
    | some p =>
      simp only [hp] at h
      cases hi : (s3 n).m_bInheritOrientation with
      | false =>
        simp only [hi, Bool.false_eq_true, ↓reduceIte] at h
        exact inv_setOrientation hs3 h
      | true =>
        simp only [hi, ↓reduceIte] at h
        obtain ⟨⟨s4, q⟩, h3, h⟩ := bind_eq_ok.mp h
        exact inv_setOrientation (inv_getWorldOrientation hs3 h3).1 h

theorem inv_lookAt {f : Nat} {s s1 : State α} {n : NodeId} {v ldv : Vec3 α}
    {sp : transform_space_t} (hs : Inv s) (h : lookAt f s n v sp ldv = .ok s1) : Inv s1 := by
  unfold lookAt at h
  obtain ⟨⟨s2, o⟩, h1, h⟩ := bind_eq_ok.mp h
  have hs2 : Inv s2 := by
    cases sp with
    | TS_WORLD => exact (inv_getWorldPosition hs h1).1
    | TS_PARENT =>
      simp only [pure, Except.pure, Except.ok.injEq, Prod.mk.injEq] at h1
      obtain ⟨rfl, -⟩ := h1
      exact hs
    | TS_LOCAL =>
      simp only [pure, Except.pure, Except.ok.injEq, Prod.mk.injEq] at h1
      obtain ⟨rfl, -⟩ := h1
      exact hs
  exact inv_setDirection hs2 h

theorem inv_tags {s : State α} {n : NodeId} (hs : Inv s) (l : List String) :
    Inv (Function.update s n { s n with m_tags := l }) := by
  obtain ⟨h1, h2, h3⟩ := hs
  have hcore : ∀ m, (Function.update s n { s n with m_tags := l } m).core = (s m).core := by
    intro m
    by_cases hm : m = n
    · subst hm; simp [Transforms.core]
    · rw [Function.update_noteq hm]
  have hp : ∀ m, (Function.update s n { s n with m_tags := l } m).m_parent = (s m).m_parent :=
    fun m => parent_congr (core_locals (hcore m))
  have hc : ∀ m,
      (Function.update s n { s n with m_tags := l } m).m_children = (s m).m_children := by
    intro m
    by_cases hm : m = n
    · subst hm; simp
    · rw [Function.update_noteq hm]
  refine ⟨consistent_congr h1 hp hc, acyclic_congr h2 hp, fun m hm => ?_⟩
  rw [core_dirty (hcore m)] at hm
  obtain ⟨k, hk⟩ := h3 m hm
  exact ⟨k, by rw [worldSpec_congr (fun a => core_locals (hcore a)), hk,
    core_cachedWorld (hcore m)]⟩

/-- Every public call that returns and keeps the hierarchy acyclic keeps the invariant. -/
theorem inv_runCall {dec : Decompose α} {f : Nat} {s s1 : State α} {c : Call α} (hs : Inv s)
    (hk : keepsAcyclic s c) (h : runCall dec f s c = .ok s1) : Inv s1 := by
  cases c with
  | setParent n t =>
    refine inv_setParent hs (fun p hp => ?_) h
    subst hp
    exact hk
  | set n m => exact inv_edit hs _ h rfl rfl
  | getWorldMatrix n =>
    obtain ⟨v, hv⟩ := map_fst_eq_ok h
    exact (inv_refresh hs (getWorldMatrix_ok hv)).1
  | setPosition n v => exact inv_edit hs _ h rfl rfl
  | translate n d sp => exact inv_translate hs h
  | getWorldPosition n =>
    obtain ⟨v, hv⟩ := map_fst_eq_ok h
    exact (inv_getWorldPosition hs hv).1
  | setDirection n v sp ldv => exact inv_setDirection hs h
  | lookAt n v sp ldv => exact inv_lookAt hs h
  | setOrientation n q => exact inv_setOrientation hs h
  | rotate n q sp => exact inv_rotate hs h
  | resetOrientation n => exact inv_edit hs _ h rfl rfl
  | setInheritOrientation n b => exact inv_edit hs _ h rfl rfl
  | getWorldOrientation n =>
    obtain ⟨v, hv⟩ := map_fst_eq_ok h
    exact (inv_getWorldOrientation hs hv).1
  | setScale n v => exact inv_edit hs _ h rfl rfl
  | scale n v => exact inv_edit hs _ h rfl rfl
  | setInheritScale n b => exact inv_edit hs _ h rfl rfl
  | getWorldScale n =>
    obtain ⟨v, hv⟩ := map_fst_eq_ok h
    exact (inv_getWorldScale hs hv).1
  | addTag n tag =>
    simp only [runCall, addTag] at h
    split at h
    · simp at h
    · simp only [Except.ok.injEq] at h; subst h; exact inv_tags hs _
  | removeTag n tag =>
    simp only [runCall, removeTag] at h
    split at h
    · simp at h
    · simp only [Except.ok.injEq] at h; subst h; exact inv_tags hs _

theorem Reachable.inv {dec : Decompose α} {s : State α} (h : Reachable dec s) : Inv s := by
  induction h with
  | fresh t => exact inv_freshPool t
  | call c fuel _ hk hr ih => exact inv_runCall ih hk hr

/-! ## What the world getters return -/

theorem worldSpec_mono {s : State α} {k : Nat} {n : NodeId} {w : World α}
    (h : worldSpec k s n = some w) (j : Nat) (hj : k ≤ j) : worldSpec j s n = some w := by
  induction k generalizing n w j with
  | zero => simp [worldSpec] at h
  | succ k ih =>
    obtain ⟨j, rfl⟩ : ∃ i, j = i + 1 := ⟨j - 1, by omega⟩
    simp only [worldSpec] at h ⊢
    cases hp : (s n).m_parent with
    | none => simpa [hp] using h
    | some p =>
      simp only [hp, Option.map_eq_some'] at h ⊢
      obtain ⟨pw, hpw, hw⟩ := h
      exact ⟨pw, ih hpw j (by omega), hw⟩

theorem worldSpec_unique {s : State α} {k j : Nat} {n : NodeId} {w v : World α}
    (h : worldSpec k s n = some w) (h' : worldSpec j s n = some v) : w = v := by
  have h1 := worldSpec_mono h (max k j) (le_max_left _ _)
  have h2 := worldSpec_mono h' (max k j) (le_max_right _ _)
  rw [h1] at h2
  exact Option.some.inj h2

theorem worldSpec_of_depth {s : State α} {k : Nat} {n : NodeId}
    (h : ancestorAt s n k = none) : ∃ w, worldSpec k s n = some w := by
  induction k generalizing n with
  | zero => simp [ancestorAt] at h
  | succ k ih =>
    simp only [ancestorAt, worldSpec] at h ⊢
    cases hp : (s n).m_parent with
    | none => exact ⟨_, rfl⟩
    | some p =>
      simp only [hp] at h
      obtain ⟨w, hw⟩ := ih h
      exact ⟨combine w (s n), by simp [hw]⟩

/-- With enough call stack the guard of a world getter returns, leaving in the cache of the
node the world values of the non-cached definition. -/
theorem refresh_spec {s : State α} (hs : Inv s) {k : Nat} {n : NodeId}
    (hk : ancestorAt s n k = none) (g : Nat) (hg : k ≤ g) :
    ∃ s1 w, refresh (update g) s n = .ok s1 ∧ worldSpec k s n = some w ∧
      cachedWorld (s1 n) = w ∧ Inv s1 ∧ OnlyCached s s1 := by
  obtain ⟨w, hw⟩ := worldSpec_of_depth hk
  have hns : ∀ m, (s m).m_parent ≠ some m := fun m hm => hs.2.1.parent_ne hm rfl
  have hr : ∃ s1, refresh (update g) s n = .ok s1 := by
    cases hd : (s n).m_bDirty with
    | false => exact ⟨s, refresh_clean hd⟩
    | true => rw [refresh_dirty hd]; exact update_terminates s hns k n hk g hg
  obtain ⟨s1, hr⟩ := hr
  obtain ⟨hi, hoc⟩ := inv_refresh hs hr
  refine ⟨s1, w, hr, hw, ?_, hi, hoc⟩
  obtain ⟨j, hj⟩ := hi.2.2 n (refresh_update_clean g s n s1 hr)
  rw [worldSpec_congr (fun a => hoc.locals_oc a)] at hj
  exact (worldSpec_unique hw hj).symm

theorem getWorldPosition_eq {g : Nat} {s s1 : State α} {n : NodeId}
    (h : refresh (update g) s n = .ok s1) :
    getWorldPosition g s n = .ok (s1, (cachedWorld (s1 n)).position) := by
  simp [getWorldPosition, h, bind, Except.bind, pure, Except.pure, cachedWorld]

theorem getWorldOrientation_eq {g : Nat} {s s1 : State α} {n : NodeId}
    (h : refresh (update g) s n = .ok s1) :
    getWorldOrientation g s n = .ok (s1, (cachedWorld (s1 n)).orientation) := by
  simp [getWorldOrientation, h, bind, Except.bind, pure, Except.pure, cachedWorld]

theorem getWorldScale_eq {g : Nat} {s s1 : State α} {n : NodeId}
    (h : refresh (update g) s n = .ok s1) :
    getWorldScale g s n = .ok (s1, (cachedWorld (s1 n)).scale) := by
  simp [getWorldScale, h, bind, Except.bind, pure, Except.pure, cachedWorld]

/-- The three world getters of a node return, with enough call stack, the world values of
the non-cached definition, and leave the same state. -/
theorem getters_spec {s : State α} (hs : Inv s) {k : Nat} {n : NodeId}
    (hk : ancestorAt s n k = none) (g : Nat) (hg : k ≤ g) :
    ∃ s1 w, worldSpec k s n = some w ∧ getWorldPosition g s n = .ok (s1, w.position) ∧
      getWorldOrientation g s n = .ok (s1, w.orientation) ∧
      getWorldScale g s n = .ok (s1, w.scale) := by
  obtain ⟨s1, w, hr, hw, hc, -, -⟩ := refresh_spec hs hk g hg
  refine ⟨s1, w, hw, ?_, ?_, ?_⟩
  · rw [getWorldPosition_eq hr, hc]
  · rw [getWorldOrientation_eq hr, hc]
  · rw [getWorldScale_eq hr, hc]

/-! ## Termination of the dirty propagation -/

theorem foldlM_needUpdate_terminates {f B : Nat}
    (ih : ∀ (s : State α) (c : NodeId), Consistent s →
      (∀ m k, ancestorAt s m k = some c → k ≤ B) → ∃ s1, needUpdate f s c = .ok s1)
    (l : List NodeId) (st : State α) (hst : Consistent st)
    (hl : ∀ c ∈ l, ∀ m k, ancestorAt st m k = some c → k ≤ B) :
    ∃ s1, l.foldlM (fun st child => needUpdate f st child) st = .ok s1 := by
  induction l generalizing st with
  | nil => exact ⟨st, rfl⟩
  | cons a l ihl =>
    obtain ⟨s2, h2⟩ := ih st a hst (hl a (List.mem_cons_self _ _))
    have hd := needUpdate_onlyDirtied f st a s2 h2
    obtain ⟨s1, h1⟩ := ihl s2 (consistent_congr hst hd.parent_od hd.children_od)
      (fun c hc m k hk => hl c (List.mem_cons_of_mem _ hc) m k (by rw [← hd.ancestorAt_od]; exact hk))
    exact ⟨s1, by simp only [List.foldlM_cons, h2, bind, Except.bind]; exact h1⟩

/-- Dirty propagation returns when the call stack is deeper than the subtree below the
node. -/
theorem needUpdate_terminates (B : Nat) (s : State α) (c : NodeId) (hs : Consistent s)
    (hB : ∀ m k, ancestorAt s m k = some c → k ≤ B) (f : Nat) (hf : B < f) :
    ∃ s1, needUpdate f s c = .ok s1 := by
  induction B generalizing s c f with
  | zero =>
    obtain ⟨f, rfl⟩ : ∃ i, f = i + 1 := ⟨f - 1, by omega⟩
    have hd0 := onlyDirtied_set s c
    have hnil : (s c).m_children = [] := by
      cases hl : (s c).m_children with
      | nil => rfl
      | cons a l =>
        have ha : (s a).m_parent = some c := (hs.1 a c).mp (by rw [hl]; exact List.mem_cons_self _ _)
        have := hB a 1 (by simp [ancestorAt, ha])
        omega
    have hnil0 : (Function.update s c { s c with m_bDirty := true } c).m_children = [] := by
      rw [hd0.children_od, hnil]
    exact ⟨Function.update s c { s c with m_bDirty := true }, by
      simp only [needUpdate, hnil0, List.foldlM_nil]; rfl⟩
  | succ B ih =>
    obtain ⟨f, rfl⟩ : ∃ i, f = i + 1 := ⟨f - 1, by omega⟩
    have hd0 := onlyDirtied_set s c
    simp only [needUpdate]
    refine foldlM_needUpdate_terminates (B := B)
      (fun s c hs hB => ih s c hs hB f (by omega)) _ _
      (consistent_congr hs hd0.parent_od hd0.children_od) ?_
    intro a ha m k hk
    rw [hd0.children_od] at ha
    rw [hd0.ancestorAt_od] at hk
    have hpa : (s a).m_parent = some c := (hs.1 a c).mp ha
    have := hB m (k + 1) (by rw [ancestorAt_succ_top, hk]; simpa using hpa)
    omega

/-- What `setParent` leaves behind when it returns. -/
theorem setParent_ok {s s1 : State α} (hs : ParentInChildren s) {c : NodeId}
    {t : Option NodeId} {f : Nat} (h : setParent f s c t = .ok s1) :
    t ≠ some c ∧ OnlyDirtied (relink s c t) s1 := by
  obtain ⟨s2, hl, h⟩ := bind_eq_ok.mp h
  obtain ⟨htc, rfl⟩ := setParentLinks_ok hs hl
  exact ⟨htc, needUpdate_onlyDirtied f _ c s1 h⟩

/-! ## Chains of parents, continued -/

theorem ancestorAt_add (s : State α) (n : NodeId) (a b : Nat) :
    ancestorAt s n (a + b) = (ancestorAt s n a).bind fun x => ancestorAt s x b := by
  induction a generalizing n with
  | zero => simp [ancestorAt]
  | succ a ih =>
    rw [Nat.succ_add]
    simp only [ancestorAt]
    cases (s n).m_parent with
    | none => rfl
    | some p => exact ih p

theorem Acyclic.noCycle {s : State α} (h : Acyclic s) : NoCycle s := by
  intro n j hj
  have hrep : ∀ i, ancestorAt s n (i * (j + 1)) = some n := by
    intro i
    induction i with
    | zero => simp [ancestorAt]
    | succ i ih => rw [Nat.succ_mul, ancestorAt_add, ih]; simpa using hj
  obtain ⟨k, hk⟩ := h n
  have hle : k ≤ k * (j + 1) := Nat.le_mul_of_pos_right k (by omega)
  obtain ⟨d, hd⟩ : ∃ d, k * (j + 1) = k + d := ⟨k * (j + 1) - k, by omega⟩
  have := hrep k
  rw [hd, ancestorAt_add, hk] at this
  simp at this

theorem ancestorAt_freshPool (t : NodeId → Option Nat) (n : NodeId) (k : Nat) :
    ancestorAt (freshPool t : State α) n (k + 1) = none := by
  simp [ancestorAt, freshPool, Transforms.new]

theorem not_inSubtree_freshPool (t : NodeId → Option Nat) {a d : NodeId} (h : d ≠ a) :
    ¬ InSubtree (freshPool t : State α) a d := by
  rintro ⟨k, hk⟩
  cases k with
  | zero => simp only [ancestorAt, Option.some.injEq] at hk; exact h hk
  | succ k => rw [ancestorAt_freshPool] at hk; simp at hk

theorem ReachableBySetParent.consistent {s : State α} (h : ReachableBySetParent s) :
    Consistent s := by
  induction h with
  | fresh t => exact (inv_freshPool t).1
  | setParent c t f _ _ hr ih =>
    obtain ⟨-, hd⟩ := setParent_ok ih.parentInChildren hr
    exact consistent_congr (consistent_relink ih c t) hd.parent_od hd.children_od

theorem ReachableByForestSetParent.inv_forest {s : State α} (h : ReachableByForestSetParent s) :
    Inv s := by
  induction h with
  | fresh t => exact inv_freshPool t
  | setParent c t f _ ht hr ih => exact inv_setParent ih ht hr

/-! ## Consequences for single nodes -/

theorem worldSpec_succ_some {s : State α} {k : Nat} {n p : NodeId} {pw : World α}
    (hp : (s n).m_parent = some p) (h : worldSpec k s p = some pw) :
    worldSpec (k + 1) s n = some (combine pw (s n)) := by
  simp [worldSpec, hp, h]

theorem worldSpec_root {s : State α} {k : Nat} {n : NodeId} (hp : (s n).m_parent = none) :
    worldSpec (k + 1) s n = some (localWorld (s n)) := by
  simp [worldSpec, hp]

theorem worldSpec_orientation_off {s : State α} {k : Nat} {n : NodeId} {w : World α}
    (h : worldSpec k s n = some w) (hi : (s n).m_bInheritOrientation = false) :
    w.orientation = (s n).m_orientation := by
  cases k with
  | zero => simp [worldSpec] at h
  | succ k =>
    simp only [worldSpec] at h
    cases hp : (s n).m_parent with
    | none => simp only [hp, Option.some.injEq] at h; subst h; rfl
    | some p =>
      simp only [hp, Option.map_eq_some'] at h
      obtain ⟨pw, -, rfl⟩ := h
      simp [combine, hi]

theorem worldSpec_scale_off {s : State α} {k : Nat} {n : NodeId} {w : World α}
    (h : worldSpec k s n = some w) (hi : (s n).m_bInheritScale = false) :
    w.scale = (s n).m_scale := by
  cases k with
  | zero => simp [worldSpec] at h
  | succ k =>
    simp only [worldSpec] at h
    cases hp : (s n).m_parent with
    | none => simp only [hp, Option.some.injEq] at h; subst h; rfl
    | some p =>
      simp only [hp, Option.map_eq_some'] at h
      obtain ⟨pw, -, rfl⟩ := h
      simp [combine, hi]

theorem chainScale_of_worldSpec {s : State α} {k : Nat} {n : NodeId} {w : World α}
    (h : worldSpec k s n = some w)
    (hi : ∀ j a, ancestorAt s n j = some a → (s a).m_bInheritScale = true) :
    chainScale k s n = some w.scale := by
  induction k generalizing n w with
  | zero => simp [worldSpec] at h
  | succ k ih =>
    simp only [worldSpec, chainScale] at h ⊢
    cases hp : (s n).m_parent with
    | none => simp only [hp, Option.some.injEq] at h; subst h; rfl
    | some p =>
      simp only [hp, Option.map_eq_some'] at h ⊢
      obtain ⟨pw, hpw, rfl⟩ := h
      refine ⟨pw.scale, ih hpw (fun j a ha => hi (j + 1) a (by simp [ancestorAt, hp, ha])), ?_⟩
      simp [combine, hi 0 n rfl]

/-- After a change of node `a` followed by `needUpdate`, the other nodes have the parent and
local values they had. -/
theorem edit_frame {s s1 : State α} {a : NodeId} {f : Nat} {v : Transforms α}
    (h : needUpdate f (Function.update s a v) a = .ok s1) (m : NodeId) (hm : m ≠ a) :
    (s1 m).locals = (s m).locals := by
  have hd := needUpdate_onlyDirtied f _ a s1 h
  rw [hd.locals_od, Function.update_noteq hm]

theorem edit_parent {s s1 : State α} {a : NodeId} {f : Nat} {v : Transforms α}
    (h : needUpdate f (Function.update s a v) a = .ok s1) (hv : v.m_parent = (s a).m_parent)
    (m : NodeId) : (s1 m).m_parent = (s m).m_parent := by
  have hd := needUpdate_onlyDirtied f _ a s1 h
  rw [hd.parent_od]
  by_cases hm : m = a
  · subst hm; simpa using hv
  · rw [Function.update_noteq hm]

/-! ## Frames and depth bounds -/

theorem editedAt_refl (s : State α) (n : NodeId) : EditedAt s s n :=
  fun _ => ⟨rfl, rfl, rfl, rfl, fun _ => rfl⟩

theorem editedAt_trans {s t u : State α} {n : NodeId} (h1 : EditedAt s t n)
    (h2 : EditedAt t u n) : EditedAt s u n := by
  intro m
  obtain ⟨a1, a2, a3, a4, a5⟩ := h1 m
  obtain ⟨b1, b2, b3, b4, b5⟩ := h2 m
  exact ⟨b1.trans a1, b2.trans a2, b3.trans a3, b4.trans a4, fun hm => (b5 hm).trans (a5 hm)⟩

theorem OnlyCached.editedAt {s t : State α} (h : OnlyCached s t) (n : NodeId) :
    EditedAt s t n :=
  fun m => ⟨h.parent_oc m, h.children_oc m, h.tags_oc m, h.transformable_oc m,
    fun _ => h.locals_oc m⟩

theorem OnlyDirtied.editedAt_od {s t : State α} (h : OnlyDirtied s t) (n : NodeId) :
    EditedAt s t n :=
  fun m => ⟨h.parent_od m, h.children_od m, h.tags_od m, h.transformable_od m,
    fun _ => h.locals_od m⟩

theorem editedAt_update (s : State α) (n : NodeId) (v : Transforms α)
    (h1 : v.m_parent = (s n).m_parent) (h2 : v.m_children = (s n).m_children)
    (h3 : v.m_tags = (s n).m_tags) (h4 : v.m_transformable = (s n).m_transformable) :
    EditedAt s (Function.update s n v) n := by
  intro m
  by_cases hm : m = n
  · subst hm; simp [h1, h2, h3, h4]
  · simp [Function.update_noteq hm]

/-- The state left by reads of world values, a change of local attributes of node `n` and
`needUpdate` on `n`. -/
theorem editedAt_edit {s s2 s1 : State α} {n : NodeId} {f : Nat} {v : Transforms α}
    (hoc : OnlyCached s s2) (h : needUpdate f (Function.update s2 n v) n = .ok s1)
    (h1 : v.m_parent = (s2 n).m_parent) (h2 : v.m_children = (s2 n).m_children)
    (h3 : v.m_tags = (s2 n).m_tags) (h4 : v.m_transformable = (s2 n).m_transformable) :
    EditedAt s s1 n ∧ (s1 n).locals = v.locals := by
  have hd := needUpdate_onlyDirtied f _ n s1 h
  refine ⟨editedAt_trans (hoc.editedAt n)
    (editedAt_trans (editedAt_update s2 n v h1 h2 h3 h4) (hd.editedAt_od n)), ?_⟩
  rw [hd.locals_od, Function.update_same]

theorem EditedAt.ancestorAt_ea {s t : State α} {n : NodeId} (h : EditedAt s t n) (m : NodeId)
    (k : Nat) : ancestorAt t m k = ancestorAt s m k :=
  ancestorAt_congr (fun a => (h a).1) m k

theorem DepthBound.none_at {s : State α} {B : Nat} (h : DepthBound s B) (n : NodeId) :
    ancestorAt s n (B + 1) = none := by
  cases hk : ancestorAt s n (B + 1) with
  | none => rfl
  | some a => have := h n (B + 1) a hk; omega

theorem DepthBound.mono {s : State α} {B C : Nat} (h : DepthBound s B) (hBC : B ≤ C) :
    DepthBound s C :=
  fun m k a hk => le_trans (h m k a hk) hBC

theorem depthBound_congr {s t : State α} {B : Nat} (h : DepthBound s B)
    (hp : ∀ m, (t m).m_parent = (s m).m_parent) : DepthBound t B :=
  fun m k a hk => h m k a (by rw [← ancestorAt_congr hp]; exact hk)

theorem ancestorAt_relink_cases {s : State α} {c : NodeId} {t : Option NodeId}
    (ht : ∀ p, t = some p → ¬ InSubtree s c p) (m : NodeId) (k : Nat) (a : NodeId)
    (h : ancestorAt (relink s c t) m k = some a) :
    ancestorAt s m k = some a ∨
      ∃ i j p, k = i + 1 + j ∧ ancestorAt s m i = some c ∧ ancestorAt s p j = some a := by
  induction k generalizing m with
  | zero => exact Or.inl h
  | succ k ih =>
    by_cases hm : m = c
    · subst hm
      simp only [ancestorAt, relink_parent, ↓reduceIte] at h
      cases t with
      | none => simp at h
      | some p =>
        simp only at h
        rw [ancestorAt_relink m (some p) p (ht p rfl)] at h
        exact Or.inr ⟨0, k, p, by omega, rfl, h⟩
    · simp only [ancestorAt, relink_parent, hm, ↓reduceIte] at h
      cases hp : (s m).m_parent with
      | none => simp [hp] at h
      | some q =>
        simp only [hp] at h
        rcases ih q h with h' | ⟨i, j, p, hk, hi, hj⟩
        · exact Or.inl (by simp [ancestorAt, hp, h'])
        · exact Or.inr ⟨i + 1, j, p, by omega, by simp [ancestorAt, hp, hi], hj⟩

theorem depthBound_relink {s : State α} {B : Nat} (h : DepthBound s B) (c : NodeId)
    (t : Option NodeId) (ht : ∀ p, t = some p → ¬ InSubtree s c p) :
    DepthBound (relink s c t) (2 * B + 1) := by
  intro m k a hk
  rcases ancestorAt_relink_cases ht m k a hk with h' | ⟨i, j, p, rfl, hi, hj⟩
  · have := h m k a h'; omega
  · have h1 := h m i c hi
    have h2 := h p j a hj
    omega

theorem depthBound_freshPool (t : NodeId → Option Nat) :
    DepthBound (freshPool t : State α) 0 := by
  intro m k a hk
  cases k with
  | zero => rfl
  | succ k => rw [ancestorAt_freshPool] at hk; simp at hk

/-! ## Values read and written by the editing calls -/

/-- After the guard of a world getter the cache of the node holds the non-cached world
values. -/
theorem refresh_value {s s1 : State α} (hs : Inv s) {n : NodeId} {f : Nat}
    (h : refresh (update f) s n = .ok s1) {k : Nat} {w : World α}
    (hw : worldSpec k s n = some w) : cachedWorld (s1 n) = w := by
  obtain ⟨hi, hoc⟩ := inv_refresh hs h
  obtain ⟨j, hj⟩ := hi.2.2 n (refresh_update_clean f s n s1 h)
  rw [worldSpec_congr (fun a => hoc.locals_oc a)] at hj
  exact (worldSpec_unique hw hj).symm

theorem getWorldOrientation_value {s s1 : State α} (hs : Inv s) {n : NodeId} {f : Nat}
    {v : Quat α} (h : getWorldOrientation f s n = .ok (s1, v)) :
    Inv s1 ∧ OnlyCached s s1 ∧ ∀ k w, worldSpec k s n = some w → v = w.orientation := by
  obtain ⟨hr, rfl⟩ := getWorldOrientation_ok h
  obtain ⟨hi, hoc⟩ := inv_refresh hs hr
  exact ⟨hi, hoc, fun k w hw => by rw [← refresh_value hs hr hw]; rfl⟩

theorem getWorldScale_value {s s1 : State α} (hs : Inv s) {n : NodeId} {f : Nat}
    {v : Vec3 α} (h : getWorldScale f s n = .ok (s1, v)) :
    Inv s1 ∧ OnlyCached s s1 ∧ ∀ k w, worldSpec k s n = some w → v = w.scale := by
  obtain ⟨hr, rfl⟩ := getWorldScale_ok h
  obtain ⟨hi, hoc⟩ := inv_refresh hs hr
  exact ⟨hi, hoc, fun k w hw => by rw [← refresh_value hs hr hw]; rfl⟩

theorem getWorldPosition_value {s s1 : State α} (hs : Inv s) {n : NodeId} {f : Nat}
    {v : Vec3 α} (h : getWorldPosition f s n = .ok (s1, v)) :
    Inv s1 ∧ OnlyCached s s1 ∧ ∀ k w, worldSpec k s n = some w → v = w.position := by
  obtain ⟨hr, rfl⟩ := getWorldPosition_ok h
  obtain ⟨hi, hoc⟩ := inv_refresh hs hr
  exact ⟨hi, hoc, fun k w hw => by rw [← refresh_value hs hr hw]; rfl⟩

theorem Inv.noCycle_inv {s : State α} (hs : Inv s) : NoCycle s := hs.2.1.noCycle

/-- The parent of a node is not below the node. -/
theorem parent_chain_avoids {s : State α} (hs : NoCycle s) {n p : NodeId}
    (hp : (s n).m_parent = some p) (j : Nat) (a : NodeId) (ha : ancestorAt s p j = some a) :
    a ≠ n := by
  rintro rfl
  exact hs a j (by simp [ancestorAt, hp, ha])

/-- The non-cached world values of node `n` after reads of world values, a change of the
local attributes of `n` to `v` and `needUpdate` on `n`: the parent's world values are the old
ones and the local values are those of `v`. -/
theorem worldSpec_edit {s s2 s1 : State α} {n : NodeId} {f : Nat} {v : Transforms α}
    (hs : Inv s) (hoc : OnlyCached s s2)
    (h : needUpdate f (Function.update s2 n v) n = .ok s1)
    (h1 : v.m_parent = (s2 n).m_parent) :
    (∀ k, (s n).m_parent = none → worldSpec (k + 1) s1 n = some (localWorld v)) ∧
    (∀ k p pw, (s n).m_parent = some p → worldSpec k s p = some pw →
      worldSpec (k + 1) s1 n = some (combine pw v)) := by
  have hd := needUpdate_onlyDirtied f _ n s1 h
  have hpn : (s1 n).m_parent = (s n).m_parent := by
    rw [hd.parent_od, Function.update_same, h1, hoc.parent_oc]
  have hln : (s1 n).locals = v.locals := by rw [hd.locals_od, Function.update_same]
  have hother : ∀ a, a ≠ n → (s1 a).locals = (s a).locals := by
    intro a ha
    rw [hd.locals_od, Function.update_noteq ha, hoc.locals_oc]
  have hpar : ∀ a, (s1 a).m_parent = (s a).m_parent := by
    intro a
    by_cases ha : a = n
    · subst ha; exact hpn
    · exact parent_congr (hother a ha)
  refine ⟨fun k hp => ?_, fun k p pw hp hpw => ?_⟩
  · rw [worldSpec_root (by rw [hpn, hp]), localWorld_congr hln]
  · have hav : ∀ j a, ancestorAt s1 p j = some a → a ≠ n := by
      intro j a ha
      rw [ancestorAt_congr hpar] at ha
      exact parent_chain_avoids hs.noCycle_inv hp j a ha
    have hp1 : worldSpec k s1 p = some pw := by
      rw [worldSpec_agree (fun a => a ≠ n) hother k p hav, hpw]
    rw [worldSpec_succ_some (by rw [hpn, hp]) hp1, combine_congr hln]

/-- With a call stack deeper than every chain of parents, `needUpdate` after a change of
local attributes returns. -/
theorem edit_returns {s : State α} (hs : Consistent s) {B : Nat} (hB : DepthBound s B)
    (n : NodeId) (v : Transforms α) (h1 : v.m_parent = (s n).m_parent)
    (h2 : v.m_children = (s n).m_children) (f : Nat) (hf : B < f) :
    ∃ s1, needUpdate f (Function.update s n v) n = .ok s1 := by
  have hp : ∀ m, (Function.update s n v m).m_parent = (s m).m_parent := by
    intro m
    by_cases hm : m = n
    · subst hm; simpa using h1
    · rw [Function.update_noteq hm]
  have hc : ∀ m, (Function.update s n v m).m_children = (s m).m_children := by
    intro m
    by_cases hm : m = n
    · subst hm; simpa using h2
    · rw [Function.update_noteq hm]
  exact needUpdate_terminates B _ n (consistent_congr hs hp hc)
    (fun m k hk => depthBound_congr hB hp m k n hk) f hf

theorem refresh_returns {s : State α} (hs : Inv s) {B : Nat} (hB : DepthBound s B)
    (n : NodeId) (f : Nat) (hf : B < f) : ∃ s1, refresh (update f) s n = .ok s1 := by
  obtain ⟨s1, w, hr, -⟩ := refresh_spec hs (hB.none_at n) f (by omega)
  exact ⟨s1, hr⟩

theorem OnlyCached.depthBound_oc {s t : State α} (h : OnlyCached s t) {B : Nat}
    (hB : DepthBound s B) : DepthBound t B :=
  depthBound_congr hB h.parent_oc

theorem getWorldOrientation_returns {s : State α} (hs : Inv s) {B : Nat}
    (hB : DepthBound s B) (n : NodeId) (f : Nat) (hf : B < f) :
    ∃ s1, getWorldOrientation f s n = .ok (s1, (s1 n).m_fullOrientation) ∧ Inv s1 ∧
      OnlyCached s s1 := by
  obtain ⟨s1, hr⟩ := refresh_returns hs hB n f hf
  obtain ⟨hi, hoc⟩ := inv_refresh hs hr
  exact ⟨s1, getWorldOrientation_eq hr, hi, hoc⟩

theorem getWorldScale_returns {s : State α} (hs : Inv s) {B : Nat}
    (hB : DepthBound s B) (n : NodeId) (f : Nat) (hf : B < f) :
    ∃ s1, getWorldScale f s n = .ok (s1, (s1 n).m_fullScale) ∧ Inv s1 ∧ OnlyCached s s1 := by
  obtain ⟨s1, hr⟩ := refresh_returns hs hB n f hf
  obtain ⟨hi, hoc⟩ := inv_refresh hs hr
  exact ⟨s1, getWorldScale_eq hr, hi, hoc⟩

theorem translate_world_root {s : State α} {n : NodeId} (hp : (s n).m_parent = none)
    (d : Vec3 α) (f : Nat) :
    translate f s n d .TS_WORLD =
      needUpdate f
        (Function.update s n { s n with m_position := (s n).m_position.add d }) n := by
  simp only [translate]
  split
  · next p hq => rw [hp] at hq; simp at hq
  · rfl

theorem translate_shape {s s1 : State α} (hs : Inv s) {n : NodeId} {d : Vec3 α}
    {sp : transform_space_t} {f : Nat} (h : translate f s n d sp = .ok s1) :
    ∃ (s2 : State α) (newpos : Vec3 α), Inv s2 ∧ OnlyCached s s2 ∧
      needUpdate f (Function.update s2 n { s2 n with m_position := newpos }) n = .ok s1 ∧
      (sp = .TS_LOCAL → newpos = (s n).m_position.add ((s n).m_orientation.rotate d)) ∧
      (sp = .TS_PARENT → newpos = (s n).m_position.add d) ∧
      (sp = .TS_WORLD → (s n).m_parent = none → newpos = (s n).m_position.add d) ∧
      (sp = .TS_WORLD → ∀ p k pw, (s n).m_parent = some p → worldSpec k s p = some pw →
        newpos = (s n).m_position.add ((pw.orientation.inverse.rotate d).div pw.scale)) := by
  cases sp with
  | TS_LOCAL => exact ⟨s, _, hs, onlyCached_refl s, h, by simp⟩
  | TS_PARENT => exact ⟨s, _, hs, onlyCached_refl s, h, by simp⟩
  | TS_WORLD =>
    cases hp : (s n).m_parent with
    | none =>
      rw [translate_world_root hp] at h
      exact ⟨s, _, hs, onlyCached_refl s, h, by simp⟩
    | some p =>
      simp only [translate, hp] at h
      obtain ⟨⟨sa, o⟩, h1, h⟩ := bind_eq_ok.mp h
      obtain ⟨⟨sb, sc⟩, h2, h⟩ := bind_eq_ok.mp h
      obtain ⟨hia, hoa, hva⟩ := getWorldOrientation_value hs h1
      obtain ⟨hib, hob, hvb⟩ := getWorldScale_value hia h2
      have hoc := onlyCached_trans hoa hob
      have hl := hoc.locals_oc n
      simp only [Transforms.locals, Prod.mk.injEq] at hl
      refine ⟨sb, _, hib, hoc, h, by simp, by simp, by simp, ?_⟩
      intro _ q k pw hq hpw
      obtain rfl : p = q := by simpa using hq
      have e1 := hva k pw hpw
      have e2 := hvb k pw (by rw [worldSpec_congr (fun a => hoa.locals_oc a)]; exact hpw)
      simp only at e1 e2
      rw [hl.2.1, e1, e2]

theorem translate_returns {s : State α} (hs : Inv s) {B : Nat} (hB : DepthBound s B)
    (n : NodeId) (d : Vec3 α) (sp : transform_space_t) (f : Nat) (hf : B < f) :
    ∃ s1, translate f s n d sp = .ok s1 := by
  cases sp with
  | TS_LOCAL => refine edit_returns hs.1 hB n _ ?_ ?_ f hf <;> rfl
  | TS_PARENT => refine edit_returns hs.1 hB n _ ?_ ?_ f hf <;> rfl
  | TS_WORLD =>
    cases hp : (s n).m_parent with
    | none =>
      rw [translate_world_root hp]
      refine edit_returns hs.1 hB n _ ?_ ?_ f hf <;> rfl
    | some p =>
      simp only [translate, hp]
      obtain ⟨sa, h1, hia, hoa⟩ := getWorldOrientation_returns hs hB p f hf
      obtain ⟨sb, h2, hib, hob⟩ := getWorldScale_returns hia (hoa.depthBound_oc hB) p f hf
      obtain ⟨s1, h3⟩ := edit_returns hib.1 (hob.depthBound_oc (hoa.depthBound_oc hB)) n
        { sb n with
          m_position :=
            (sb n).m_position.add (((sa p).m_fullOrientation.inverse.rotate d).div
              (sb p).m_fullScale) } rfl rfl f hf
      exact ⟨s1, by simp only [h1, h2, bind, Except.bind]; exact h3⟩

theorem rotate_shape {s s1 : State α} (hs : Inv s) {n : NodeId} {q : Quat α}
    {sp : transform_space_t} {f : Nat} (h : rotate f s n q sp = .ok s1) :
    ∃ (s2 : State α) (o : Quat α), Inv s2 ∧ OnlyCached s s2 ∧
      needUpdate f (Function.update s2 n { s2 n with m_orientation := o }) n = .ok s1 ∧
      (sp = .TS_LOCAL → o = (s n).m_orientation.mul q) ∧
      (sp = .TS_PARENT → o = q.mul (s n).m_orientation) ∧
      (sp = .TS_WORLD → ∀ k w, worldSpec k s n = some w →
        o = (((s n).m_orientation.mul w.orientation.inverse).mul q).mul w.orientation) := by
  cases sp with
  | TS_LOCAL => exact ⟨s, _, hs, onlyCached_refl s, h, by simp⟩
  | TS_PARENT => exact ⟨s, _, hs, onlyCached_refl s, h, by simp⟩
  | TS_WORLD =>
    simp only [rotate] at h
    obtain ⟨⟨sa, o1⟩, h1, h⟩ := bind_eq_ok.mp h
    obtain ⟨⟨sb, o2⟩, h2, h⟩ := bind_eq_ok.mp h
    obtain ⟨hia, hoa, hva⟩ := getWorldOrientation_value hs h1
    obtain ⟨hib, hob, hvb⟩ := getWorldOrientation_value hia h2
    have hoc := onlyCached_trans hoa hob
    have hl := hoc.locals_oc n
    simp only [Transforms.locals, Prod.mk.injEq] at hl
    refine ⟨sb, _, hib, hoc, h, by simp, by simp, ?_⟩
    intro _ k w hw
    have e1 := hva k w hw
    have e2 := hvb k w (by rw [worldSpec_congr (fun a => hoa.locals_oc a)]; exact hw)
    simp only at e1 e2
    rw [hl.2.2.1, e1, e2]

theorem rotate_returns {s : State α} (hs : Inv s) {B : Nat} (hB : DepthBound s B)
    (n : NodeId) (q : Quat α) (sp : transform_space_t) (f : Nat) (hf : B < f) :
    ∃ s1, rotate f s n q sp = .ok s1 := by
  cases sp with
  | TS_LOCAL => refine edit_returns hs.1 hB n _ ?_ ?_ f hf <;> rfl
  | TS_PARENT => refine edit_returns hs.1 hB n _ ?_ ?_ f hf <;> rfl
  | TS_WORLD =>
    simp only [rotate]
    obtain ⟨sa, h1, hia, hoa⟩ := getWorldOrientation_returns hs hB n f hf
    obtain ⟨sb, h2, hib, hob⟩ := getWorldOrientation_returns hia (hoa.depthBound_oc hB) n f hf
    obtain ⟨s1, h3⟩ := edit_returns hib.1 (hob.depthBound_oc (hoa.depthBound_oc hB)) n
      { sb n with
        m_orientation :=
          (((sb n).m_orientation.mul (sa n).m_fullOrientation.inverse).mul q).mul
            (sb n).m_fullOrientation } rfl rfl f hf
    exact ⟨s1, by simp only [h1, h2, bind, Except.bind]; exact h3⟩

theorem pure_eq_ok {ε β : Type} {a r : β} (h : (pure a : Except ε β) = .ok r) : a = r := by
  simpa [pure, Except.pure] using h

/-- The first step of `setDirection`: the target direction in world space. -/
theorem setDirection_target {s sA : State α} (hs : Inv s) {n : NodeId} {v td : Vec3 α}
    {sp : transform_space_t} {f : Nat}
    (h : (match sp with
      | .TS_LOCAL => do
        let (s1, o) ← getWorldOrientation f s n
        pure (s1, o.rotate v.normalize)
      | .TS_PARENT =>
        match (s n).m_parent with
        | some parent =>
          if (s n).m_bInheritOrientation then do
            let (s1, o) ← getWorldOrientation f s parent
            pure (s1, o.rotate v.normalize)
          else pure (s, v.normalize)
        | none => pure (s, v.normalize)
      | .TS_WORLD => pure (s, v.normalize) : Except Fault (State α × Vec3 α)) = .ok (sA, td)) :
    Inv sA ∧ OnlyCached s sA ∧
      (∀ k w, (s n).m_parent = none → worldSpec k s n = some w →
        td = directionInWorld none (s n).m_bInheritOrientation w.orientation v sp) ∧
      (∀ k w p j pw, (s n).m_parent = some p → worldSpec k s n = some w →
        worldSpec j s p = some pw →
        td = directionInWorld (some pw.orientation) (s n).m_bInheritOrientation
          w.orientation v sp) := by
  cases sp with
  | TS_LOCAL =>
    simp only at h
    obtain ⟨⟨s2, o⟩, h1, h'⟩ := bind_eq_ok.mp h
    have h'' := pure_eq_ok h'
    simp only [Prod.mk.injEq] at h''
    obtain ⟨rfl, rfl⟩ := h''
    obtain ⟨hi, hoc, hv⟩ := getWorldOrientation_value hs h1
    refine ⟨hi, hoc, fun k w _ hw => ?_, fun k w p j pw _ hw _ => ?_⟩
    · have := hv k w hw; simp only at this; simp [directionInWorld, this]
    · have := hv k w hw; simp only at this; simp [directionInWorld, this]
  | TS_PARENT =>
    simp only at h
    cases hp : (s n).m_parent with
    | none =>
      simp only [hp] at h
      have h'' := pure_eq_ok h
      simp only [Prod.mk.injEq] at h''
      obtain ⟨rfl, rfl⟩ := h''
      exact ⟨hs, onlyCached_refl _, fun _ _ _ _ => by simp [directionInWorld],
        fun _ _ _ _ _ hq => by simp at hq⟩
    | some p =>
      simp only [hp] at h
      cases hi : (s n).m_bInheritOrientation with
      | false =>
        simp only [hi, Bool.false_eq_true, ↓reduceIte] at h
        have h'' := pure_eq_ok h
        simp only [Prod.mk.injEq] at h''
        obtain ⟨rfl, rfl⟩ := h''
        exact ⟨hs, onlyCached_refl _, fun _ _ hq => by simp at hq,
          fun _ _ _ _ _ _ _ _ => by simp [directionInWorld]⟩
      | true =>
        simp only [hi, ↓reduceIte] at h
        obtain ⟨⟨s2, o⟩, h1, h'⟩ := bind_eq_ok.mp h
        have h'' := pure_eq_ok h'
        simp only [Prod.mk.injEq] at h''
        obtain ⟨rfl, rfl⟩ := h''
        obtain ⟨hi', hoc, hv⟩ := getWorldOrientation_value hs h1
        refine ⟨hi', hoc, fun _ _ hq => by simp at hq, fun k w q j pw hq _ hpw => ?_⟩
        obtain rfl : p = q := by simpa using hq
        have := hv j pw hpw
        simp only at this
        simp [directionInWorld, this]
  | TS_WORLD =>
    simp only at h
    have h'' := pure_eq_ok h
    simp only [Prod.mk.injEq] at h''
    obtain ⟨rfl, rfl⟩ := h''
    exact ⟨hs, onlyCached_refl _, fun _ _ _ _ => by simp [directionInWorld],
      fun _ _ _ _ _ _ _ _ => by simp [directionInWorld]⟩

/-- For a non-zero `vec`, `setDirection` reads world values and then stores the local
orientation `setDirectionLocal`. -/
theorem setDirection_shape {s s1 : State α} (hs : Inv s) {n : NodeId} {v ldv : Vec3 α}
    {sp : transform_space_t} {f : Nat} (hv : v ≠ VEC3_ZERO)
    (h : setDirection f s n v sp ldv = .ok s1) :
    ∃ (s2 : State α) (o : Quat α), Inv s2 ∧ OnlyCached s s2 ∧
      needUpdate f (Function.update s2 n { s2 n with m_orientation := o }) n = .ok s1 ∧
      (∀ k w, (s n).m_parent = none → worldSpec k s n = some w →
        o = setDirectionLocal none (s n).m_bInheritOrientation w.orientation v sp ldv) ∧
      (∀ k w p j pw, (s n).m_parent = some p → worldSpec k s n = some w →
        worldSpec j s p = some pw →
        o = setDirectionLocal (some pw.orientation) (s n).m_bInheritOrientation
          w.orientation v sp ldv) := by
  unfold setDirection at h
  simp only [hv, ↓reduceIte] at h
  obtain ⟨⟨sA, td⟩, hA, h⟩ := bind_eq_ok.mp h
  obtain ⟨⟨sB, co⟩, hB, h⟩ := bind_eq_ok.mp h
  obtain ⟨hiA, hoA, htd0, htd1⟩ := setDirection_target hs hA
  obtain ⟨hiB, hoB, hvB⟩ := getWorldOrientation_value hiA hB
  have hoAB := onlyCached_trans hoA hoB
  have hl := hoAB.locals_oc n
  simp only [Transforms.locals, Prod.mk.injEq] at hl
  have hco : ∀ k w, worldSpec k s n = some w → co = w.orientation := fun k w hw =>
    hvB k w (by rw [worldSpec_congr (fun a => hoA.locals_oc a)]; exact hw)
  simp only at h
  cases hp : (s n).m_parent with
  | none =>
    have hpB : (sB n).m_parent = none := by rw [hl.1, hp]
    simp only [hpB] at h
    refine ⟨sB, _, hiB, hoAB, h, fun k w _ hw => ?_, fun _ _ _ _ _ hq => by simp at hq⟩
    rw [hco k w hw, htd0 k w hp hw]
    rfl
  | some p =>
    have hpB : (sB n).m_parent = some p := by rw [hl.1, hp]
    simp only [hpB] at h
    cases hi : (s n).m_bInheritOrientation with
    | false =>
      have hiB' : (sB n).m_bInheritOrientation = false := by rw [hl.2.2.2.2.1, hi]
      simp only [hiB', Bool.false_eq_true, ↓reduceIte] at h
      refine ⟨sB, _, hiB, hoAB, h, fun _ _ hq => by simp at hq,
        fun k w q j pw hq hw hpw => ?_⟩
      rw [hco k w hw, htd1 k w q j pw (by rw [hp]; exact hq) hw hpw, hi]
      rfl
    | true =>
      have hiB' : (sB n).m_bInheritOrientation = true := by rw [hl.2.2.2.2.1, hi]
      simp only [hiB', ↓reduceIte] at h
      obtain ⟨⟨sC, q⟩, hC, h⟩ := bind_eq_ok.mp h
      obtain ⟨hiC, hoC, hvC⟩ := getWorldOrientation_value hiB hC
      refine ⟨sC, _, hiC, onlyCached_trans hoAB hoC, h, fun _ _ hq => by simp at hq,
        fun k w q' j pw hq hw hpw => ?_⟩
      obtain rfl : p = q' := by simpa using hq
      have hq2 := hvC j pw (by rw [worldSpec_congr (fun a => hoAB.locals_oc a)]; exact hpw)
      simp only at hq2
      rw [hco k w hw, htd1 k w p j pw hp hw hpw, hi, hq2]
      rfl

theorem bind_ok_of {ε β γ : Type} {x : Except ε β} {g : β → Except ε γ} {a : β} {r : γ}
    (h1 : x = .ok a) (h2 : g a = .ok r) : (x >>= g) = .ok r :=
  bind_eq_ok.mpr ⟨a, h1, h2⟩

theorem setDirection_returns {s : State α} (hs : Inv s) {B : Nat} (hB : DepthBound s B)
    (n : NodeId) (v : Vec3 α) (sp : transform_space_t) (ldv : Vec3 α) (f : Nat)
    (hf : B < f) : ∃ s1, setDirection f s n v sp ldv = .ok s1 := by
  unfold setDirection
  by_cases hv : v = VEC3_ZERO
  · exact ⟨s, by simp [hv]⟩
  simp only [hv, ↓reduceIte]
  have hA : ∃ sA td, (match sp with
      | .TS_LOCAL => do
        let (s1, o) ← getWorldOrientation f s n
        pure (s1, o.rotate v.normalize)
      | .TS_PARENT =>
        match (s n).m_parent with
        | some parent =>
          if (s n).m_bInheritOrientation then do
            let (s1, o) ← getWorldOrientation f s parent
            pure (s1, o.rotate v.normalize)
          else pure (s, v.normalize)
        | none => pure (s, v.normalize)
      | .TS_WORLD => pure (s, v.normalize) : Except Fault (State α × Vec3 α)) = .ok (sA, td) ∧
      Inv sA ∧ OnlyCached s sA := by
    cases sp with
    | TS_LOCAL =>
      obtain ⟨s1, h1, hi, ho⟩ := getWorldOrientation_returns hs hB n f hf
      exact ⟨s1, _, bind_ok_of h1 rfl, hi, ho⟩
    | TS_PARENT =>
      cases hp : (s n).m_parent with
      | none => exact ⟨s, _, rfl, hs, onlyCached_refl _⟩
      | some p =>
        cases hi : (s n).m_bInheritOrientation with
        | false => exact ⟨s, _, rfl, hs, onlyCached_refl _⟩
        | true =>
          obtain ⟨s1, h1, hi1, ho⟩ := getWorldOrientation_returns hs hB p f hf
          exact ⟨s1, _, bind_ok_of h1 rfl, hi1, ho⟩
    | TS_WORLD => exact ⟨s, _, rfl, hs, onlyCached_refl _⟩
  obtain ⟨sA, td, hA, hiA, hoA⟩ := hA
  obtain ⟨sB, hB1, hiB, hoB⟩ := getWorldOrientation_returns hiA (hoA.depthBound_oc hB) n f hf
  have hBB := hoB.depthBound_oc (hoA.depthBound_oc hB)
  cases hp : (sB n).m_parent with
  | none =>
    obtain ⟨s1, h1⟩ : ∃ s1, setOrientation f sB n
        (directionTarget (sB n).m_fullOrientation td ldv) = .ok s1 := by
      refine edit_returns hiB.1 hBB n _ ?_ ?_ f hf <;> rfl
    refine ⟨s1, bind_ok_of hA (bind_ok_of hB1 ?_)⟩
    simp only [hp]
    exact h1
  | some p =>
    cases hi : (sB n).m_bInheritOrientation with
    | false =>
      obtain ⟨s1, h1⟩ : ∃ s1, setOrientation f sB n
          (directionTarget (sB n).m_fullOrientation td ldv) = .ok s1 := by
        refine edit_returns hiB.1 hBB n _ ?_ ?_ f hf <;> rfl
      refine ⟨s1, bind_ok_of hA (bind_ok_of hB1 ?_)⟩
      simp only [hp, hi, Bool.false_eq_true, ↓reduceIte]
      exact h1
    | true =>
      obtain ⟨sC, hC, hiC, hoC⟩ := getWorldOrientation_returns hiB hBB p f hf
      obtain ⟨s1, h1⟩ : ∃ s1, setOrientation f sC n
          ((⟨(sC p).m_fullOrientation.w, -(sC p).m_fullOrientation.x,
            -(sC p).m_fullOrientation.y, -(sC p).m_fullOrientation.z⟩ : Quat α).mul
            (directionTarget (sB n).m_fullOrientation td ldv)) = .ok s1 := by
        refine edit_returns hiC.1 (hoC.depthBound_oc hBB) n _ ?_ ?_ f hf <;> rfl
      refine ⟨s1, bind_ok_of hA (bind_ok_of hB1 ?_)⟩
      simp only [hp, hi, ↓reduceIte]
      exact bind_ok_of hC h1

/-- Shape of `lookAt`: the origin is read, then `setDirection` runs on the difference. -/
theorem lookAt_shape {s s1 : State α} (hs : Inv s) {n : NodeId} {tp ldv : Vec3 α}
    {sp : transform_space_t} {f : Nat} (h : lookAt f s n tp sp ldv = .ok s1) :
    ∃ (sA : State α) (origin : Vec3 α), Inv sA ∧ OnlyCached s sA ∧
      setDirection f sA n (tp.sub origin) sp ldv = .ok s1 ∧
      (sp = .TS_WORLD → ∀ k w, worldSpec k s n = some w → origin = w.position) ∧
      (sp = .TS_PARENT → origin = (s n).m_position ∧ sA = s) ∧
      (sp = .TS_LOCAL → origin = VEC3_ZERO ∧ sA = s) := by
  unfold lookAt at h
  obtain ⟨⟨sA, o⟩, h1, h⟩ := bind_eq_ok.mp h
  simp only at h
  cases sp with
  | TS_WORLD =>
    simp only at h1
    obtain ⟨hi, ho, hv⟩ := getWorldPosition_value hs h1
    exact ⟨sA, o, hi, ho, h, fun _ => hv, (fun h' => nomatch h'), (fun h' => nomatch h')⟩
  | TS_PARENT =>
    have h1' := pure_eq_ok h1
    simp only [Prod.mk.injEq] at h1'
    obtain ⟨rfl, rfl⟩ := h1'
    exact ⟨_, _, hs, onlyCached_refl _, h, (fun h' => nomatch h'), fun _ => ⟨rfl, rfl⟩,
      (fun h' => nomatch h')⟩
  | TS_LOCAL =>
    have h1' := pure_eq_ok h1
    simp only [Prod.mk.injEq] at h1'
    obtain ⟨rfl, rfl⟩ := h1'
    exact ⟨_, _, hs, onlyCached_refl _, h, (fun h' => nomatch h'), (fun h' => nomatch h'),
      fun _ => ⟨rfl, rfl⟩⟩

theorem translate_editedAt {s s1 : State α} (hs : Inv s) {n : NodeId} {d : Vec3 α}
    {sp : transform_space_t} {f : Nat} (h : translate f s n d sp = .ok s1) :
    EditedAt s s1 n := by
  obtain ⟨s2, np, -, hoc, he, -⟩ := translate_shape hs h
  exact (editedAt_edit hoc he rfl rfl rfl rfl).1

theorem rotate_editedAt {s s1 : State α} (hs : Inv s) {n : NodeId} {q : Quat α}
    {sp : transform_space_t} {f : Nat} (h : rotate f s n q sp = .ok s1) :
    EditedAt s s1 n := by
  obtain ⟨s2, o, -, hoc, he, -⟩ := rotate_shape hs h
  exact (editedAt_edit hoc he rfl rfl rfl rfl).1

theorem setDirection_editedAt {s s1 : State α} (hs : Inv s) {n : NodeId} {v ldv : Vec3 α}
    {sp : transform_space_t} {f : Nat} (h : setDirection f s n v sp ldv = .ok s1) :
    EditedAt s s1 n := by
  by_cases hv : v = VEC3_ZERO
  · simp only [setDirection, hv, ↓reduceIte, Except.ok.injEq] at h
    subst h
    exact editedAt_refl _ _
  · obtain ⟨s2, o, -, hoc, he, -⟩ := setDirection_shape hs hv h
    exact (editedAt_edit hoc he rfl rfl rfl rfl).1

theorem lookAt_editedAt {s s1 : State α} (hs : Inv s) {n : NodeId} {tp ldv : Vec3 α}
    {sp : transform_space_t} {f : Nat} (h : lookAt f s n tp sp ldv = .ok s1) :
    EditedAt s s1 n := by
  obtain ⟨sA, o, hi, hoc, hd, -⟩ := lookAt_shape hs h
  exact editedAt_trans (hoc.editedAt n) (setDirection_editedAt hi hd)

theorem EditedAt.depthBound_ea {s t : State α} {n : NodeId} (h : EditedAt s t n) {B : Nat}
    (hB : DepthBound s B) : DepthBound t B :=
  depthBound_congr hB fun m => (h m).1

/-- A public call other than `setParent` leaves every parent link as it is. -/
theorem parents_runCall {dec : Decompose α} {f : Nat} {s s1 : State α} {c : Call α}
    (hs : Inv s) (hc : ∀ n t, c ≠ .setParent n t) (h : runCall dec f s c = .ok s1) (m : NodeId) :
    (s1 m).m_parent = (s m).m_parent := by
  cases c with
  | setParent n t => exact absurd rfl (hc n t)
  | set n mt => exact edit_parent h rfl m
  | getWorldMatrix n =>
    obtain ⟨v, hv⟩ := map_fst_eq_ok h
    exact (inv_refresh hs (getWorldMatrix_ok hv)).2.parent_oc m
  | setPosition n v => exact edit_parent h rfl m
  | translate n d sp => exact (translate_editedAt hs h m).1
  | getWorldPosition n =>
    obtain ⟨v, hv⟩ := map_fst_eq_ok h
    exact (inv_getWorldPosition hs hv).2.parent_oc m
  | setDirection n v sp ldv => exact (setDirection_editedAt hs h m).1
  | lookAt n v sp ldv => exact (lookAt_editedAt hs h m).1
  | setOrientation n q => exact edit_parent h rfl m
  | rotate n q sp => exact (rotate_editedAt hs h m).1
  | resetOrientation n => exact edit_parent h rfl m
  | setInheritOrientation n b => exact edit_parent h rfl m
  | getWorldOrientation n =>
    obtain ⟨v, hv⟩ := map_fst_eq_ok h
    exact (inv_getWorldOrientation hs hv).2.parent_oc m
  | setScale n v => exact edit_parent h rfl m
  | scale n v => exact edit_parent h rfl m
  | setInheritScale n b => exact edit_parent h rfl m
  | getWorldScale n =>
    obtain ⟨v, hv⟩ := map_fst_eq_ok h
    exact (inv_getWorldScale hs hv).2.parent_oc m
  | addTag n tag =>
    simp only [runCall, addTag] at h
    split at h
    · simp at h
    · simp only [Except.ok.injEq] at h
      subst h
      by_cases hm : m = n
      · subst hm; simp
      · rw [Function.update_noteq hm]
  | removeTag n tag =>
    simp only [runCall, removeTag] at h
    split at h
    · simp at h
    · simp only [Except.ok.injEq] at h
      subst h
      by_cases hm : m = n
      · subst hm; simp
      · rw [Function.update_noteq hm]

/-- In a reachable state the chains of parents have a common bound on their length. -/
theorem Reachable.depthBound {dec : Decompose α} {s : State α} (h : Reachable dec s) :
    ∃ B, DepthBound s B := by
  induction h with
  | fresh t => exact ⟨0, depthBound_freshPool t⟩
  | @call s s1 c fuel hr hk hrun ih =>
    obtain ⟨B, hB⟩ := ih
    have hs := hr.inv
    by_cases hc : ∃ n t, c = .setParent n t
    · obtain ⟨n, t, rfl⟩ := hc
      have hok := setParent_ok (Consistent.parentInChildren hs.1) hrun
      have ht : ∀ p, t = some p → ¬ InSubtree s n p := fun p hp => by subst hp; exact hk
      refine ⟨2 * B + 1, depthBound_congr (depthBound_relink hB n t ht) fun m => ?_⟩
      exact hok.2.parent_od m
    · exact ⟨B, depthBound_congr hB
        (parents_runCall hs (fun n t e => hc ⟨n, t, e⟩) hrun)⟩

/-! ## Quaternion and vector algebra -/

theorem Quat.inverse_of_unit {q : Quat α} (h : q.dot q = 1) : q.inverse = q.conj := by
  simp [Quat.inverse, Quat.conj, h]

theorem Quat.mul_assoc_q (a b c : Quat α) : (a.mul b).mul c = a.mul (b.mul c) := by
  ext <;> simp only [Quat.mul] <;> ring

theorem Quat.dot_mul (a b : Quat α) : (a.mul b).dot (a.mul b) = a.dot a * b.dot b := by
  simp only [Quat.mul, Quat.dot]; ring

theorem Quat.dot_conj (a : Quat α) : a.conj.dot a.conj = a.dot a := by
  simp only [Quat.conj, Quat.dot]; ring

theorem Quat.mul_identity (a : Quat α) : a.mul QUAT_IDENTITY = a := by
  ext <;> simp [Quat.mul, QUAT_IDENTITY]

theorem Quat.identity_mul (a : Quat α) : (QUAT_IDENTITY : Quat α).mul a = a := by
  ext <;> simp [Quat.mul, QUAT_IDENTITY]

theorem Quat.mul_conj_cancel {p : Quat α} (h : p.dot p = 1) (t : Quat α) :
    p.mul (p.conj.mul t) = t := by
  simp only [Quat.dot] at h
  ext <;> simp only [Quat.mul, Quat.conj]
  · linear_combination t.w * h
  · linear_combination t.x * h
  · linear_combination t.y * h
  · linear_combination t.z * h

theorem Quat.conj_mul_cancel {p : Quat α} (h : p.dot p = 1) (t : Quat α) :
    (t.mul p.conj).mul p = t := by
  simp only [Quat.dot] at h
  ext <;> simp only [Quat.mul, Quat.conj]
  · linear_combination t.w * h
  · linear_combination t.x * h
  · linear_combination t.y * h
  · linear_combination t.z * h

theorem Quat.rotate_add (q : Quat α) (a b : Vec3 α) :
    q.rotate (a.add b) = (q.rotate a).add (q.rotate b) := by
  ext <;> simp only [Quat.rotate, Vec3.add, Vec3.smul, Vec3.cross] <;> ring

theorem Quat.rotate_identity (v : Vec3 α) : (QUAT_IDENTITY : Quat α).rotate v = v := by
  ext <;> simp [Quat.rotate, QUAT_IDENTITY, Vec3.add, Vec3.smul, Vec3.cross]

theorem Quat.rotate_conj_cancel {q : Quat α} (h : q.dot q = 1) (v : Vec3 α) :
    q.rotate (q.conj.rotate v) = v := by
  simp only [Quat.dot] at h
  ext <;> simp only [Quat.rotate, Quat.conj, Vec3.add, Vec3.smul, Vec3.cross]
  · linear_combination
      (-4 * (q.y * (q.x * v.y - v.x * q.y) - (q.z * v.x - v.z * q.x) * q.z)) * h
  · linear_combination
      (-4 * (q.z * (q.y * v.z - v.y * q.z) - (q.x * v.y - v.x * q.y) * q.x)) * h
  · linear_combination
      (-4 * (q.x * (q.z * v.x - v.z * q.x) - (q.y * v.z - v.y * q.z) * q.y)) * h

theorem Quat.rotate_mul {a b : Quat α} (ha : a.dot a = 1) (hb : b.dot b = 1) (v : Vec3 α) :
    (a.mul b).rotate v = a.rotate (b.rotate v) := by
  have kx : ((a.mul b).rotate v).x - (a.rotate (b.rotate v)).x =
      (1 - a.dot a) * (v.x - (b.rotate v).x) + (1 - b.dot b) * (v.x - (a.rotate v).x) := by
    simp only [Quat.rotate, Quat.mul, Quat.dot, Vec3.add, Vec3.smul, Vec3.cross]; ring
  have ky : ((a.mul b).rotate v).y - (a.rotate (b.rotate v)).y =
      (1 - a.dot a) * (v.y - (b.rotate v).y) + (1 - b.dot b) * (v.y - (a.rotate v).y) := by
    simp only [Quat.rotate, Quat.mul, Quat.dot, Vec3.add, Vec3.smul, Vec3.cross]; ring
  have kz : ((a.mul b).rotate v).z - (a.rotate (b.rotate v)).z =
      (1 - a.dot a) * (v.z - (b.rotate v).z) + (1 - b.dot b) * (v.z - (a.rotate v).z) := by
    simp only [Quat.rotate, Quat.mul, Quat.dot, Vec3.add, Vec3.smul, Vec3.cross]; ring
  rw [ha, hb] at kx ky kz
  ext
  · linear_combination kx
  · linear_combination ky
  · linear_combination kz

theorem Quat.rotate_dot {q : Quat α} (h : q.dot q = 1) (v : Vec3 α) :
    (q.rotate v).dot (q.rotate v) = v.dot v := by
  have k : (q.rotate v).dot (q.rotate v) - v.dot v =
      (q.dot q - 1) * (2 * v.dot v - 2 * (q.rotate v).dot v) := by
    simp only [Quat.rotate, Quat.dot, Vec3.dot, Vec3.add, Vec3.smul, Vec3.cross]; ring
  rw [h] at k
  linear_combination k

theorem Quat.mul_inverse {q : Quat α} (h : q.dot q ≠ 0) : q.mul q.inverse = QUAT_IDENTITY := by
  have h' := h
  simp only [Quat.dot] at h'
  ext <;> simp only [Quat.mul, Quat.inverse, Quat.dot, QUAT_IDENTITY] <;> field_simp <;> ring

theorem Quat.mul_conj_self {q : Quat α} (h : q.dot q = 1) : q.mul q.conj = QUAT_IDENTITY := by
  rw [← Quat.inverse_of_unit h]
  exact Quat.mul_inverse (by rw [h]; exact one_ne_zero)

theorem Quat.dot_nonneg (q : Quat α) : 0 ≤ q.dot q := by
  simp only [Quat.dot]
  have h1 := mul_self_nonneg q.x
  have h2 := mul_self_nonneg q.y
  have h3 := mul_self_nonneg q.z
  have h4 := mul_self_nonneg q.w
  linarith

theorem Vec3.dot_self_nonneg (v : Vec3 α) : 0 ≤ v.dot v := by
  simp only [Vec3.dot]
  have h1 := mul_self_nonneg v.x
  have h2 := mul_self_nonneg v.y
  have h3 := mul_self_nonneg v.z
  linarith

theorem Vec3.dot_self_pos {v : Vec3 α} (h : v ≠ VEC3_ZERO) : 0 < v.dot v := by
  rcases lt_or_eq_of_le (Vec3.dot_self_nonneg v) with h1 | h1
  · exact h1
  · exfalso
    apply h
    simp only [Vec3.dot] at h1
    have h2 := mul_self_nonneg v.x
    have h3 := mul_self_nonneg v.y
    have h4 := mul_self_nonneg v.z
    have hx : v.x = 0 := mul_self_eq_zero.mp (by linarith)
    have hy : v.y = 0 := mul_self_eq_zero.mp (by linarith)
    have hz : v.z = 0 := mul_self_eq_zero.mp (by linarith)
    ext <;> simp [VEC3_ZERO, hx, hy, hz]

/-! ## Exact square roots -/

theorem ExactSqrt.sqrt_mul_self (hE : ExactSqrt α) {r : α} (hr : 0 ≤ r) :
    RealOps.sqrt (r * r) = r := by
  obtain ⟨h0, h1⟩ := hE (r * r) (mul_self_nonneg r)
  exact (mul_self_inj h0 hr).mp h1

theorem ExactSqrt.sqrt_one (hE : ExactSqrt α) : RealOps.sqrt (1 : α) = 1 := by
  have := hE.sqrt_mul_self (zero_le_one (α := α))
  simpa using this

theorem ExactSqrt.sqrt_pos (hE : ExactSqrt α) {x : α} (hx : 0 < x) : 0 < RealOps.sqrt x := by
  obtain ⟨h0, h1⟩ := hE x hx.le
  rcases lt_or_eq_of_le h0 with h | h
  · exact h
  · rw [← h] at h1; simp at h1; exact absurd h1.symm hx.ne'

theorem Vec3.normalize_unit_vec (hE : ExactSqrt α) {v : Vec3 α} (h : v.dot v = 1) :
    v.normalize = v := by
  ext <;> simp [Vec3.normalize, Vec3.smul, h, hE.sqrt_one]

theorem Vec3.normalize_dot (hE : ExactSqrt α) {v : Vec3 α} (h : v ≠ VEC3_ZERO) :
    v.normalize.dot v.normalize = 1 := by
  have hp := Vec3.dot_self_pos h
  have hr := hE.sqrt_pos hp
  have h2 := (hE _ hp.le).2
  have k : v.normalize.dot v.normalize =
      v.dot v / (RealOps.sqrt (v.dot v) * RealOps.sqrt (v.dot v)) := by
    simp only [Vec3.normalize, Vec3.smul, Vec3.dot]
    field_simp
  rw [k, h2]
  exact div_self hp.ne'

theorem Quat.normalize_unit (hE : ExactSqrt α) {q : Quat α} (h : q.dot q = 1) :
    q.normalize = q := by
  simp only [Quat.normalize, h, hE.sqrt_one]
  simp

theorem Quat.normalize_scale (hE : ExactSqrt α) {u : Quat α} (hu : u.dot u = 1) {r : α}
    (hr : 0 < r) : (⟨u.w * r, u.x * r, u.y * r, u.z * r⟩ : Quat α).normalize = u := by
  have hd : (⟨u.w * r, u.x * r, u.y * r, u.z * r⟩ : Quat α).dot
      ⟨u.w * r, u.x * r, u.y * r, u.z * r⟩ = r * r := by
    simp only [Quat.dot] at hu ⊢
    linear_combination (r * r) * hu
  simp only [Quat.normalize, hd, hE.sqrt_mul_self hr.le, not_le.mpr hr, ↓reduceIte]
  ext <;> simp <;> field_simp

theorem Quat.normalize_pos (hE : ExactSqrt α) {q : Quat α} (h : q.dot q ≠ 0) :
    ∃ r, 0 < r ∧ q.normalize.dot q.normalize = 1 ∧
      q = ⟨q.normalize.w * r, q.normalize.x * r, q.normalize.y * r, q.normalize.z * r⟩ := by
  have hp : 0 < q.dot q := lt_of_le_of_ne (Quat.dot_nonneg q) (Ne.symm h)
  have hr := hE.sqrt_pos hp
  have h2 := (hE _ hp.le).2
  refine ⟨RealOps.sqrt (q.dot q), hr, ?_, ?_⟩
  · simp only [Quat.normalize, not_le.mpr hr, ↓reduceIte]
    have k : (⟨q.w * (1 / RealOps.sqrt (q.dot q)), q.x * (1 / RealOps.sqrt (q.dot q)),
        q.y * (1 / RealOps.sqrt (q.dot q)), q.z * (1 / RealOps.sqrt (q.dot q))⟩ : Quat α).dot
        ⟨q.w * (1 / RealOps.sqrt (q.dot q)), q.x * (1 / RealOps.sqrt (q.dot q)),
        q.y * (1 / RealOps.sqrt (q.dot q)), q.z * (1 / RealOps.sqrt (q.dot q))⟩ =
        q.dot q / (RealOps.sqrt (q.dot q) * RealOps.sqrt (q.dot q)) := by
      generalize RealOps.sqrt (q.dot q) = r at hr
      simp only [Quat.dot]
      field_simp
    rw [k, h2]
    exact div_self hp.ne'
  · simp only [Quat.normalize, not_le.mpr hr, ↓reduceIte]
    ext <;> simp <;> field_simp

/-! ## Shortest arc -/

theorem Vec3.eq_of_dot_ge_one {a b : Vec3 α} (ha : a.dot a = 1) (hb : b.dot b = 1)
    (h : 1 ≤ a.dot b) : a = b := by
  simp only [Vec3.dot] at ha hb h
  have hx := mul_self_nonneg (a.x - b.x)
  have hy := mul_self_nonneg (a.y - b.y)
  have hz := mul_self_nonneg (a.z - b.z)
  have hsum : (a.x - b.x) * (a.x - b.x) + (a.y - b.y) * (a.y - b.y) +
      (a.z - b.z) * (a.z - b.z) ≤ 0 := by
    have e : (a.x - b.x) * (a.x - b.x) + (a.y - b.y) * (a.y - b.y) +
        (a.z - b.z) * (a.z - b.z) = (a.x * a.x + a.y * a.y + a.z * a.z) +
          (b.x * b.x + b.y * b.y + b.z * b.z) - 2 * (a.x * b.x + a.y * b.y + a.z * b.z) := by
      ring
    rw [e, ha, hb]
    linarith
  have e1 : (a.x - b.x) * (a.x - b.x) = 0 := by linarith
  have e2 : (a.y - b.y) * (a.y - b.y) = 0 := by linarith
  have e3 : (a.z - b.z) * (a.z - b.z) = 0 := by linarith
  ext
  · exact sub_eq_zero.mp (mul_self_eq_zero.mp e1)
  · exact sub_eq_zero.mp (mul_self_eq_zero.mp e2)
  · exact sub_eq_zero.mp (mul_self_eq_zero.mp e3)

theorem arc_formula (a b : Vec3 α) {r i : α} (hir : i * r = 1) :
    (⟨r * (1 / 2), (a.cross b).x * i, (a.cross b).y * i, (a.cross b).z * i⟩ : Quat α).rotate a =
    (a.smul (1 + 2 * (i * i) * (a.dot b * a.dot b - a.dot a * b.dot b) - a.dot b)).add
      (b.smul (a.dot a)) := by
  have kx : ((⟨r * (1 / 2), (a.cross b).x * i, (a.cross b).y * i, (a.cross b).z * i⟩ :
      Quat α).rotate a).x -
      ((a.smul (1 + 2 * (i * i) * (a.dot b * a.dot b - a.dot a * b.dot b) - a.dot b)).add
        (b.smul (a.dot a))).x = ((a.cross b).cross a).x * (i * r - 1) := by
    simp only [Quat.rotate, Vec3.add, Vec3.smul, Vec3.cross, Vec3.dot]; ring
  have ky : ((⟨r * (1 / 2), (a.cross b).x * i, (a.cross b).y * i, (a.cross b).z * i⟩ :
      Quat α).rotate a).y -
      ((a.smul (1 + 2 * (i * i) * (a.dot b * a.dot b - a.dot a * b.dot b) - a.dot b)).add
        (b.smul (a.dot a))).y = ((a.cross b).cross a).y * (i * r - 1) := by
    simp only [Quat.rotate, Vec3.add, Vec3.smul, Vec3.cross, Vec3.dot]; ring
  have kz : ((⟨r * (1 / 2), (a.cross b).x * i, (a.cross b).y * i, (a.cross b).z * i⟩ :
      Quat α).rotate a).z -
      ((a.smul (1 + 2 * (i * i) * (a.dot b * a.dot b - a.dot a * b.dot b) - a.dot b)).add
        (b.smul (a.dot a))).z = ((a.cross b).cross a).z * (i * r - 1) := by
    simp only [Quat.rotate, Vec3.add, Vec3.smul, Vec3.cross, Vec3.dot]; ring
  rw [hir] at kx ky kz
  ext
  · linear_combination kx
  · linear_combination ky
  · linear_combination kz

theorem arc_dot (a b : Vec3 α) (r i : α) :
    (⟨r * (1 / 2), (a.cross b).x * i, (a.cross b).y * i, (a.cross b).z * i⟩ : Quat α).dot
      ⟨r * (1 / 2), (a.cross b).x * i, (a.cross b).y * i, (a.cross b).z * i⟩ =
    r * r / 4 + i * i * (a.dot a * b.dot b - a.dot b * a.dot b) := by
  simp only [Quat.dot, Vec3.cross, Vec3.dot]
  ring

/-- The shortest-arc rotation between two unit vectors that are not nearly opposite is a unit
quaternion that maps the first onto the second. -/
theorem getRotationTo_unit (hE : ExactSqrt α) {a b : Vec3 α} (ha : a.dot a = 1)
    (hb : b.dot b = 1) (hab : 5 / 100000 ≤ (a.add b).length2) :
    (getRotationTo a b VEC3_ZERO).dot (getRotationTo a b VEC3_ZERO) = 1 ∧
      (getRotationTo a b VEC3_ZERO).rotate a = b := by
  have hsum : (a.add b).length2 = 2 + 2 * a.dot b := by
    simp only [Vec3.length2, Vec3.dot, Vec3.add] at ha hb ⊢
    linear_combination ha + hb
  rw [hsum] at hab
  unfold getRotationTo
  simp only [Vec3.normalize_unit_vec hE ha, Vec3.normalize_unit_vec hE hb]
  by_cases h1 : a.dot b ≥ 1
  · simp only [h1, ↓reduceIte]
    refine ⟨by simp [QUAT_IDENTITY, Quat.dot], ?_⟩
    rw [Quat.rotate_identity]
    exact Vec3.eq_of_dot_ge_one ha hb h1
  · have h2 : ¬ a.dot b < 1 / 1000000 - 1 := by
      intro h2
      linarith
    simp only [h1, h2, ↓reduceIte]
    have hd : 0 < (1 + a.dot b) * 2 := by linarith
    have hr := hE.sqrt_pos hd
    have hr2 := (hE _ hd.le).2
    generalize RealOps.sqrt ((1 + a.dot b) * 2) = r at hr hr2
    have hir : 1 / r * r = 1 := by field_simp
    generalize (1 : α) / r = i at hir
    have hunit : (⟨r * (1 / 2), (a.cross b).x * i, (a.cross b).y * i,
        (a.cross b).z * i⟩ : Quat α).dot
        ⟨r * (1 / 2), (a.cross b).x * i, (a.cross b).y * i, (a.cross b).z * i⟩ = 1 := by
      rw [arc_dot, ha, hb]
      linear_combination (1 / 4 - i * i * (1 - a.dot b) / 2) * hr2 +
        ((1 - a.dot b) / 2 * (i * r + 1)) * hir
    rw [Quat.normalize_unit hE hunit]
    refine ⟨hunit, ?_⟩
    rw [arc_formula a b hir, ha, hb]
    have hc : 1 + 2 * (i * i) * (a.dot b * a.dot b - 1 * 1) - a.dot b = 0 := by
      linear_combination (-(i * i * (a.dot b - 1))) * hr2 +
        ((a.dot b - 1) * (i * r + 1)) * hir
    rw [hc]
    ext <;> simp [Vec3.add, Vec3.smul]

/-- The target orientation of `setDirection` when the target direction is not nearly opposite to
the current direction: a unit quaternion that maps the local direction vector onto it. -/
theorem directionTarget_spec (hE : ExactSqrt α) {c : Quat α} (hc : c.dot c = 1)
    {t f : Vec3 α} (ht : t.dot t = 1) (hf : f.dot f = 1)
    (h : 5 / 100000 ≤ ((c.rotate f).add t).length2) :
    (directionTarget c t f).dot (directionTarget c t f) = 1 ∧
      (directionTarget c t f).rotate f = t := by
  have hcur : (c.rotate f).dot (c.rotate f) = 1 := by rw [Quat.rotate_dot hc, hf]
  obtain ⟨hu, hr⟩ := getRotationTo_unit hE hcur ht h
  simp only [directionTarget, not_lt.mpr h, ↓reduceIte]
  exact ⟨by rw [Quat.dot_mul, hu, hc, one_mul], by rw [Quat.rotate_mul hu hc, hr]⟩

/-- The target orientation of `setDirection` when the target direction is nearly opposite to the
current direction. -/
theorem directionTarget_opposite {c : Quat α} {t f : Vec3 α}
    (h : ((c.rotate f).add t).length2 < 5 / 100000) :
    directionTarget c t f = ⟨-c.y, -c.z, c.w, c.x⟩ := by
  simp only [directionTarget, h, ↓reduceIte]

theorem fallback_dot (c : Quat α) :
    (⟨-c.y, -c.z, c.w, c.x⟩ : Quat α).dot ⟨-c.y, -c.z, c.w, c.x⟩ = c.dot c := by
  simp only [Quat.dot]; ring

/-- The fallback orientation of `setDirection` turns by 180 degrees about the local Y axis
before the current orientation is applied. -/
theorem fallback_rotate {c : Quat α} (hc : c.dot c = 1) (f : Vec3 α) :
    (⟨-c.y, -c.z, c.w, c.x⟩ : Quat α).rotate f = c.rotate ⟨-f.x, f.y, -f.z⟩ := by
  have kx : ((⟨-c.y, -c.z, c.w, c.x⟩ : Quat α).rotate f).x - (c.rotate ⟨-f.x, f.y, -f.z⟩).x =
      (1 - c.dot c) * (2 * f.x) := by
    simp only [Quat.rotate, Quat.dot, Vec3.add, Vec3.smul, Vec3.cross]; ring
  have ky : ((⟨-c.y, -c.z, c.w, c.x⟩ : Quat α).rotate f).y - (c.rotate ⟨-f.x, f.y, -f.z⟩).y =
      0 := by
    simp only [Quat.rotate, Quat.dot, Vec3.add, Vec3.smul, Vec3.cross]; ring
  have kz : ((⟨-c.y, -c.z, c.w, c.x⟩ : Quat α).rotate f).z - (c.rotate ⟨-f.x, f.y, -f.z⟩).z =
      (1 - c.dot c) * (2 * f.z) := by
    simp only [Quat.rotate, Quat.dot, Vec3.add, Vec3.smul, Vec3.cross]; ring
  rw [hc] at kx kz
  ext
  · linear_combination kx
  · linear_combination ky
  · linear_combination kz

theorem Quat.rotate_neg (q : Quat α) (v : Vec3 α) :
    q.rotate ⟨-v.x, -v.y, -v.z⟩ = ⟨-(q.rotate v).x, -(q.rotate v).y, -(q.rotate v).z⟩ := by
  ext <;> simp only [Quat.rotate, Vec3.add, Vec3.smul, Vec3.cross] <;> ring

theorem Vec3.eq_neg_of_add_zero {a t : Vec3 α} (h : a.add t = VEC3_ZERO) :
    t = ⟨-a.x, -a.y, -a.z⟩ := by
  have hx := congrArg Vec3.x h
  have hy := congrArg Vec3.y h
  have hz := congrArg Vec3.z h
  simp only [Vec3.add, VEC3_ZERO] at hx hy hz
  ext
  · linear_combination hx
  · linear_combination hy
  · linear_combination hz

/-! ## Translation in world space -/

theorem translate_world_math {po : Quat α} (hpo : po.dot po = 1) {ps : Vec3 α}
    (hx : ps.x ≠ 0) (hy : ps.y ≠ 0) (hz : ps.z ≠ 0) (pos pp d : Vec3 α) :
    (po.rotate (ps.mul (pos.add ((po.inverse.rotate d).div ps)))).add pp =
      ((po.rotate (ps.mul pos)).add pp).add d := by
  have h1 : ps.mul (pos.add ((po.inverse.rotate d).div ps)) =
      (ps.mul pos).add (po.conj.rotate d) := by
    rw [Quat.inverse_of_unit hpo]
    ext <;> simp only [Vec3.mul, Vec3.add, Vec3.div] <;> field_simp <;> ring
  rw [h1, Quat.rotate_add, Quat.rotate_conj_cancel hpo]
  ext <;> simp only [Vec3.add] <;> ring

theorem exactSqrt_real : ExactSqrt ℝ := fun x hx =>
  ⟨Real.sqrt_nonneg x, Real.mul_self_sqrt hx⟩

/-- The world values of a node after one of its local attributes was edited. -/
theorem world_after_edit {s s2 s1 : State α} (hs : Inv s) (hi2 : Inv s2)
    (hoc : OnlyCached s s2) {B : Nat} (hB : DepthBound s B) {n : NodeId} {f : Nat}
    {v : Transforms α} (h : needUpdate f (Function.update s2 n v) n = .ok s1)
    (h1 : v.m_parent = (s2 n).m_parent) (h2 : v.m_children = (s2 n).m_children)
    (h3 : v.m_tags = (s2 n).m_tags) (h4 : v.m_transformable = (s2 n).m_transformable)
    (g : Nat) (hg : B < g) :
    Inv s1 ∧ DepthBound s1 B ∧ EditedAt s s1 n ∧ (s1 n).locals = v.locals ∧
      ∃ (s3 : State α) (w1 : World α), getWorldPosition g s1 n = .ok (s3, w1.position) ∧
        getWorldOrientation g s1 n = .ok (s3, w1.orientation) ∧
        getWorldScale g s1 n = .ok (s3, w1.scale) ∧
        ((s n).m_parent = none → w1 = localWorld v) ∧
        (∀ p k pw, (s n).m_parent = some p → worldSpec k s p = some pw →
          w1 = combine pw v) := by
  have hi1 : Inv s1 := inv_edit hi2 v h h1 h2
  obtain ⟨hea, hl⟩ := editedAt_edit hoc h h1 h2 h3 h4
  have hB1 : DepthBound s1 B := hea.depthBound_ea hB
  obtain ⟨s3, w1, hw1, g1, g2, g3⟩ := getters_spec hi1 (hB1.none_at n) g (by omega)
  obtain ⟨e1, e2⟩ := worldSpec_edit hs hoc h h1
  refine ⟨hi1, hB1, hea, hl, s3, w1, g1, g2, g3, fun hp => ?_, fun p k pw hp hpw => ?_⟩
  · exact worldSpec_unique hw1 (e1 0 hp)
  · exact worldSpec_unique hw1 (e2 k p pw hp hpw)

theorem positionEdited_of_edit {s s2 s1 : State α} (hoc : OnlyCached s s2) {n : NodeId}
    {f : Nat} {np : Vec3 α}
    (h : needUpdate f (Function.update s2 n { s2 n with m_position := np }) n = .ok s1) :
    OnlyPositionEdited s s1 n ∧ (s1 n).m_position = np := by
  obtain ⟨hea, hl⟩ := editedAt_edit hoc h rfl rfl rfl rfl
  have h2 := hoc.locals_oc n
  simp only [Transforms.locals, Prod.mk.injEq] at hl h2
  exact ⟨⟨hea, by rw [hl.2.2.1, h2.2.2.1], by rw [hl.2.2.2.1, h2.2.2.2.1],
    by rw [hl.2.2.2.2.1, h2.2.2.2.2.1], by rw [hl.2.2.2.2.2, h2.2.2.2.2.2]⟩, hl.2.1⟩

theorem orientationEdited_of_edit {s s2 s1 : State α} (hoc : OnlyCached s s2) {n : NodeId}
    {f : Nat} {o : Quat α}
    (h : needUpdate f (Function.update s2 n { s2 n with m_orientation := o }) n = .ok s1) :
    OnlyOrientationEdited s s1 n ∧ (s1 n).m_orientation = o := by
  obtain ⟨hea, hl⟩ := editedAt_edit hoc h rfl rfl rfl rfl
  have h2 := hoc.locals_oc n
  simp only [Transforms.locals, Prod.mk.injEq] at hl h2
  exact ⟨⟨hea, by rw [hl.2.1, h2.2.1], by rw [hl.2.2.2.1, h2.2.2.2.1],
    by rw [hl.2.2.2.2.1, h2.2.2.2.2.1], by rw [hl.2.2.2.2.2, h2.2.2.2.2.2]⟩, hl.2.2.1⟩

theorem Vec3.sub_self_eq (v : Vec3 α) : v.sub v = VEC3_ZERO := by
  ext <;> simp [Vec3.sub, VEC3_ZERO]

theorem setDirection_zero (g : Nat) (s : State α) (n : NodeId) (sp : transform_space_t)
    (ldv : Vec3 α) : setDirection g s n VEC3_ZERO sp ldv = .ok s := by
  simp [setDirection]

/-- A call `lookAt(p, TS_WORLD)` where `p` is the world position of the node returns the state
that `getWorldPosition` leaves behind. -/
theorem lookAt_world_at_origin {g : Nat} {s s1 : State α} {n : NodeId} {p : Vec3 α}
    (h : getWorldPosition g s n = .ok (s1, p)) (ldv : Vec3 α) :
    lookAt g s n p .TS_WORLD ldv = .ok s1 :=
  bind_ok_of h (by simp only [Vec3.sub_self_eq]; exact setDirection_zero g s1 n _ ldv)

/-! ## World orientation after an edit of the local orientation -/

theorem worldSpec_succ_inv {s : State α} {k : Nat} {n : NodeId} {w : World α}
    (h : worldSpec (k + 1) s n = some w) :
    ((s n).m_parent = none ∧ w = localWorld (s n)) ∨
      ∃ p pw, (s n).m_parent = some p ∧ worldSpec k s p = some pw ∧ w = combine pw (s n) := by
  simp only [worldSpec] at h
  cases hp : (s n).m_parent with
  | none =>
    simp only [hp] at h
    exact Or.inl ⟨rfl, (Option.some.inj h).symm⟩
  | some p =>
    simp only [hp] at h
    cases hpw : worldSpec k s p with
    | none => simp [hpw] at h
    | some pw =>
      simp only [hpw, Option.map_some'] at h
      exact Or.inr ⟨p, pw, rfl, hpw, (Option.some.inj h).symm⟩

theorem parentOrientation_root {s : State α} {n : NodeId} (hp : (s n).m_parent = none)
    (k : Nat) : parentOrientation k s n = none := by
  simp [parentOrientation, hp]

theorem parentOrientation_child {s : State α} {n p : NodeId} (hp : (s n).m_parent = some p)
    {k : Nat} {pw : World α} (hpw : worldSpec k s p = some pw) :
    parentOrientation k s n = some pw.orientation := by
  simp [parentOrientation, hp, hpw]

theorem parentOrientation_oc {s t : State α} (h : OnlyCached s t) (k : Nat) (n : NodeId) :
    parentOrientation k t n = parentOrientation k s n := by
  simp only [parentOrientation, h.parent_oc n, worldSpec_congr (fun a => h.locals_oc a)]

/-- The world values that the getters return after the local orientation of a node was set to
`o`: position and scale as before, and the orientation `o` combined with the parent's. -/
theorem orientation_edit_after {s s2 s1 : State α} (hs : Inv s) (hi2 : Inv s2)
    (hoc : OnlyCached s s2) {B : Nat} (hB : DepthBound s B) {n : NodeId} {f : Nat}
    {o : Quat α}
    (h : needUpdate f (Function.update s2 n { s2 n with m_orientation := o }) n = .ok s1)
    {k : Nat} {w : World α} (hw : worldSpec (k + 1) s n = some w) (g : Nat) (hg : B < g) :
    OnlyOrientationEdited s s1 n ∧ (s1 n).m_orientation = o ∧
      ∃ (s3 : State α) (w1 : World α), getWorldOrientation g s1 n = .ok (s3, w1.orientation) ∧
        getWorldPosition g s1 n = .ok (s3, w1.position) ∧
        getWorldScale g s1 n = .ok (s3, w1.scale) ∧
        w1.position = w.position ∧ w1.scale = w.scale ∧
        w1.orientation =
          worldOrientationOf (parentOrientation k s n) (s n).m_bInheritOrientation o := by
  obtain ⟨hfr, ho⟩ := orientationEdited_of_edit hoc h
  obtain ⟨-, -, -, -, s3, w1, g1, g2, g3, e1, e2⟩ :=
    world_after_edit hs hi2 hoc hB h rfl rfl rfl rfl g hg
  have hl := hoc.locals_oc n
  simp only [Transforms.locals, Prod.mk.injEq] at hl
  refine ⟨hfr, ho, s3, w1, g2, g1, g3, ?_⟩
  rcases worldSpec_succ_inv hw with ⟨hp, rfl⟩ | ⟨p, pw, hp, hpw, rfl⟩
  · rw [e1 hp, parentOrientation_root hp]
    simp [localWorld, hl, worldOrientationOf]
  · rw [e2 p k pw hp hpw, parentOrientation_child hp hpw]
    simp [combine, hl, worldOrientationOf]

/-- Effect of `rotate(q, TS_WORLD)` on the local and on the world orientation. -/
theorem rotate_world_after {s : State α} (hs : Inv s) {B : Nat} (hB : DepthBound s B)
    (n : NodeId) (q : Quat α) {k : Nat} {w : World α} (hw : worldSpec (k + 1) s n = some w)
    (g : Nat) (hg : B < g) :
    ∃ (s1 s3 : State α) (w1 : World α), rotate g s n q .TS_WORLD = .ok s1 ∧
      OnlyOrientationEdited s s1 n ∧
      (s1 n).m_orientation =
        (((s n).m_orientation.mul w.orientation.inverse).mul q).mul w.orientation ∧
      getWorldOrientation g s1 n = .ok (s3, w1.orientation) ∧
      getWorldPosition g s1 n = .ok (s3, w1.position) ∧
      w1.position = w.position ∧
      w1.orientation =
        worldOrientationOf (parentOrientation k s n) (s n).m_bInheritOrientation
          (s1 n).m_orientation := by
  obtain ⟨s1, ht⟩ := rotate_returns hs hB n q .TS_WORLD g hg
  obtain ⟨s2, o, hi2, hoc, he, -, -, hW⟩ := rotate_shape hs ht
  obtain ⟨hfr, ho, s3, w1, g1, g2, -, e1, -, e3⟩ :=
    orientation_edit_after hs hi2 hoc hB he hw g hg
  refine ⟨s1, s3, w1, ht, hfr, by rw [ho, hW rfl _ _ hw], g1, g2, e1, ?_⟩
  rw [ho]
  exact e3

/-- Effect of `setDirection` with a non-zero vector on the local and on the world
orientation. -/
theorem setDirection_after {s : State α} (hs : Inv s) {B : Nat} (hB : DepthBound s B)
    (n : NodeId) (v ldv : Vec3 α) (sp : transform_space_t) (hv : v ≠ VEC3_ZERO) {k : Nat}
    {w : World α} (hw : worldSpec (k + 1) s n = some w) (g : Nat) (hg : B < g) :
    ∃ (s1 s3 : State α) (w1 : World α), setDirection g s n v sp ldv = .ok s1 ∧
      OnlyOrientationEdited s s1 n ∧
      (s1 n).m_orientation =
        setDirectionLocal (parentOrientation k s n) (s n).m_bInheritOrientation w.orientation
          v sp ldv ∧
      getWorldOrientation g s1 n = .ok (s3, w1.orientation) ∧
      getWorldPosition g s1 n = .ok (s3, w1.position) ∧
      w1.position = w.position ∧
      w1.orientation =
        worldOrientationOf (parentOrientation k s n) (s n).m_bInheritOrientation
          (s1 n).m_orientation := by
  obtain ⟨s1, ht⟩ := setDirection_returns hs hB n v sp ldv g hg
  obtain ⟨s2, o, hi2, hoc, he, h0, h1⟩ := setDirection_shape hs hv ht
  obtain ⟨hfr, ho, s3, w1, g1, g2, -, e1, -, e3⟩ :=
    orientation_edit_after hs hi2 hoc hB he hw g hg
  refine ⟨s1, s3, w1, ht, hfr, ?_, g1, g2, e1, by rw [ho]; exact e3⟩
  rw [ho]
  rcases worldSpec_succ_inv hw with ⟨hp, -⟩ | ⟨p, pw, hp, hpw, -⟩
  · rw [parentOrientation_root hp]
    exact h0 _ _ hp hw
  · rw [parentOrientation_child hp hpw]
    exact h1 _ _ p k pw hp hw hpw

theorem Vec3.sub_ne_zero {a b : Vec3 α} (h : a ≠ b) : a.sub b ≠ VEC3_ZERO := by
  intro h0
  apply h
  have hx := congrArg Vec3.x h0
  have hy := congrArg Vec3.y h0
  have hz := congrArg Vec3.z h0
  simp only [Vec3.sub, VEC3_ZERO] at hx hy hz
  ext
  · exact sub_eq_zero.mp hx
  · exact sub_eq_zero.mp hy
  · exact sub_eq_zero.mp hz

/-- Effect of `lookAt(P, TS_WORLD)` for a point `P` other than the world position of the
node. -/
theorem lookAt_world_after {s : State α} (hs : Inv s) {B : Nat} (hB : DepthBound s B)
    (n : NodeId) (tp ldv : Vec3 α) {k : Nat} {w : World α}
    (hw : worldSpec (k + 1) s n = some w) (hne : tp ≠ w.position) (g : Nat) (hg : B < g) :
    ∃ (s1 s3 : State α) (w1 : World α), lookAt g s n tp .TS_WORLD ldv = .ok s1 ∧
      OnlyOrientationEdited s s1 n ∧
      (s1 n).m_orientation =
        setDirectionLocal (parentOrientation k s n) (s n).m_bInheritOrientation w.orientation
          (tp.sub w.position) .TS_WORLD ldv ∧
      getWorldOrientation g s1 n = .ok (s3, w1.orientation) ∧
      getWorldPosition g s1 n = .ok (s3, w1.position) ∧
      w1.position = w.position ∧
      w1.orientation =
        worldOrientationOf (parentOrientation k s n) (s n).m_bInheritOrientation
          (s1 n).m_orientation := by
  obtain ⟨sA, w0, hw0, gA, -, -⟩ := getters_spec hs (hB.none_at n) g (by omega)
  obtain rfl := worldSpec_unique hw hw0
  obtain ⟨hiA, hoA⟩ := inv_getWorldPosition hs gA
  have hwA : worldSpec (k + 1) sA n = some w := by
    rw [worldSpec_congr (fun a => hoA.locals_oc a)]; exact hw
  obtain ⟨s1, s3, w1, ht, hfr, ho, g1, g2, e1, e3⟩ :=
    setDirection_after hiA (hoA.depthBound_oc hB) n (tp.sub w.position) ldv .TS_WORLD
      (Vec3.sub_ne_zero hne) hwA g hg
  have hl := hoA.locals_oc n
  simp only [Transforms.locals, Prod.mk.injEq] at hl
  rw [parentOrientation_oc hoA, hl.2.2.2.2.1] at ho e3
  refine ⟨s1, s3, w1, bind_ok_of gA ht, ?_, ho, g1, g2, e1, e3⟩
  obtain ⟨h1, h2, h3, h4, h5⟩ := hfr
  exact ⟨editedAt_trans (hoA.editedAt n) h1, by rw [h2, hl.2.1], by rw [h3, hl.2.2.2.1],
    by rw [h4, hl.2.2.2.2.1], by rw [h5, hl.2.2.2.2.2]⟩

/-! ## Quaternion identities behind `rotate` and `setDirection` -/

theorem rotate_world_math_plain {L : Quat α} (hL : L.dot L ≠ 0) (q : Quat α) :
    ((L.mul L.inverse).mul q).mul L = q.mul L := by
  rw [Quat.mul_inverse hL, Quat.identity_mul]

theorem scaled_conj_mul {W : Quat α} (hu : W.dot W = 1) (q : Quat α) (r : α) :
    (((⟨W.w * r, W.x * r, W.y * r, W.z * r⟩ : Quat α).mul W.conj).mul q).mul W =
      ⟨(q.mul W).w * r, (q.mul W).x * r, (q.mul W).y * r, (q.mul W).z * r⟩ := by
  have kw : ((((⟨W.w * r, W.x * r, W.y * r, W.z * r⟩ : Quat α).mul W.conj).mul q).mul W).w -
      (q.mul W).w * r = (W.dot W - 1) * ((q.mul W).w * r) := by
    simp only [Quat.mul, Quat.conj, Quat.dot]; ring
  have kx : ((((⟨W.w * r, W.x * r, W.y * r, W.z * r⟩ : Quat α).mul W.conj).mul q).mul W).x -
      (q.mul W).x * r = (W.dot W - 1) * ((q.mul W).x * r) := by
    simp only [Quat.mul, Quat.conj, Quat.dot]; ring
  have ky : ((((⟨W.w * r, W.x * r, W.y * r, W.z * r⟩ : Quat α).mul W.conj).mul q).mul W).y -
      (q.mul W).y * r = (W.dot W - 1) * ((q.mul W).y * r) := by
    simp only [Quat.mul, Quat.conj, Quat.dot]; ring
  have kz : ((((⟨W.w * r, W.x * r, W.y * r, W.z * r⟩ : Quat α).mul W.conj).mul q).mul W).z -
      (q.mul W).z * r = (W.dot W - 1) * ((q.mul W).z * r) := by
    simp only [Quat.mul, Quat.conj, Quat.dot]; ring
  rw [hu] at kw kx ky kz
  ext
  · linear_combination kw
  · linear_combination kx
  · linear_combination ky
  · linear_combination kz

/-- With `W = normalize(P * L)` the world orientation of an orientation-inheriting child, the
local orientation `L * inverse(W) * q * W` gives the world orientation `q * W`. -/
theorem rotate_world_math_inherit (hE : ExactSqrt α) {P L q : Quat α}
    (hM : (P.mul L).dot (P.mul L) ≠ 0) (hq : q.dot q = 1) :
    (P.mul (((L.mul (P.mul L).normalize.inverse).mul q).mul (P.mul L).normalize)).normalize =
      q.mul (P.mul L).normalize := by
  have hassoc : ∀ X W : Quat α, P.mul (((L.mul X).mul q).mul W) =
      (((P.mul L).mul X).mul q).mul W := fun X W => by simp only [Quat.mul_assoc_q]
  rw [hassoc]
  obtain ⟨r, hr, hu, hM'⟩ := Quat.normalize_pos hE hM
  generalize (P.mul L).normalize = W at hu hM' ⊢
  generalize P.mul L = M at hM'
  subst hM'
  rw [Quat.inverse_of_unit hu, scaled_conj_mul hu]
  exact Quat.normalize_scale hE (by rw [Quat.dot_mul, hq, hu, one_mul]) hr

theorem Quat.conj_eq (q : Quat α) : (⟨q.w, -q.x, -q.y, -q.z⟩ : Quat α) = q.conj := rfl

theorem directionInWorld_unit (hE : ExactSqrt α) (po : Option (Quat α)) (inherit : Bool)
    (hP : ∀ P, po = some P → P.dot P = 1) {c : Quat α} (hc : c.dot c = 1) {v : Vec3 α}
    (hv : v ≠ VEC3_ZERO) (sp : transform_space_t) :
    (directionInWorld po inherit c v sp).dot (directionInWorld po inherit c v sp) = 1 := by
  have hn := Vec3.normalize_dot hE hv
  cases sp with
  | TS_LOCAL => simp only [directionInWorld]; rw [Quat.rotate_dot hc, hn]
  | TS_PARENT =>
    cases po with
    | none => simpa [directionInWorld] using hn
    | some P =>
      cases inherit with
      | false => simpa [directionInWorld] using hn
      | true =>
        simp only [directionInWorld, ↓reduceIte]
        rw [Quat.rotate_dot (hP P rfl), hn]
  | TS_WORLD => simpa [directionInWorld] using hn

/-- The world orientation that results from the local orientation stored by `setDirection` is
the target orientation, when that and the parent's world orientation have unit length. -/
theorem setDirectionLocal_world (hE : ExactSqrt α) (po : Option (Quat α)) (inherit : Bool)
    (hP : ∀ P, po = some P → P.dot P = 1) (c : Quat α) (v : Vec3 α) (sp : transform_space_t)
    (f : Vec3 α)
    (hT : (directionTarget c (directionInWorld po inherit c v sp) f).dot
      (directionTarget c (directionInWorld po inherit c v sp) f) = 1) :
    worldOrientationOf po inherit (setDirectionLocal po inherit c v sp f) =
        directionTarget c (directionInWorld po inherit c v sp) f ∧
    (∀ P, po = some P → inherit = true →
      setDirectionLocal po inherit c v sp f =
        P.inverse.mul (directionTarget c (directionInWorld po inherit c v sp) f)) ∧
    ((po = none ∨ inherit = false) →
      setDirectionLocal po inherit c v sp f =
        directionTarget c (directionInWorld po inherit c v sp) f) := by
  cases po with
  | none => exact ⟨rfl, (fun P hP' => nomatch hP'), fun _ => rfl⟩
  | some P =>
    cases inherit with
    | false =>
      exact ⟨rfl, (fun _ _ hi => nomatch hi), fun _ => rfl⟩
    | true =>
      have hPu := hP P rfl
      have hl : setDirectionLocal (some P) true c v sp f =
          P.conj.mul (directionTarget c (directionInWorld (some P) true c v sp) f) := by
        simp [setDirectionLocal, Quat.conj_eq]
      refine ⟨?_, fun Q hQ _ => ?_, fun hor => ?_⟩
      · simp only [worldOrientationOf, ↓reduceIte]
        rw [hl, Quat.mul_conj_cancel hPu, Quat.normalize_unit hE hT]
      · obtain rfl : P = Q := Option.some.inj hQ
        rw [hl, Quat.inverse_of_unit hPu]
      · rcases hor with h | h
        · cases h
        · cases h

/-- The scenario of a quarter turn about Y, `P = (c, 0, -c, 0)` with `c * c = 1/2`: a child
with identity local orientation under a parent with world orientation `P`, rotated by `P` in
world space. -/
theorem quarter_turn_math (hE : ExactSqrt α) {c : α} (hc : c * c = 1 / 2) :
    ((((QUAT_IDENTITY : Quat α).mul
        ((⟨c, 0, -c, 0⟩ : Quat α).mul QUAT_IDENTITY).normalize.inverse).mul ⟨c, 0, -c, 0⟩).mul
        ((⟨c, 0, -c, 0⟩ : Quat α).mul QUAT_IDENTITY).normalize = ⟨c, 0, -c, 0⟩) ∧
      ((⟨c, 0, -c, 0⟩ : Quat α).mul ⟨c, 0, -c, 0⟩).normalize = ⟨0, 0, -1, 0⟩ := by
  have hu : (⟨c, 0, -c, 0⟩ : Quat α).dot ⟨c, 0, -c, 0⟩ = 1 := by
    simp only [Quat.dot]; linear_combination 2 * hc
  have hsq : (⟨c, 0, -c, 0⟩ : Quat α).mul ⟨c, 0, -c, 0⟩ = ⟨0, 0, -1, 0⟩ := by
    ext <;> simp only [Quat.mul]
    · ring
    · ring
    · linear_combination (-2 : α) * hc
    · ring
  constructor
  · rw [Quat.mul_identity, Quat.normalize_unit hE hu, Quat.inverse_of_unit hu,
      Quat.conj_mul_cancel hu, Quat.identity_mul]
  · rw [hsq]
    exact Quat.normalize_unit hE (by simp [Quat.dot])

/-- Explicit bound on the length of the chains of parents after a public call. -/
theorem depthBound_runCall (dec : Decompose α) (f : Nat) (c : Call α) {s s1 : State α}
    (hs : Inv s) (hk : keepsAcyclic s c) {B : Nat} (hB : DepthBound s B)
    (h : runCall dec f s c = .ok s1) : DepthBound s1 (2 * B + 1) := by
  by_cases hc : ∃ n t, c = .setParent n t
  · obtain ⟨n, t, rfl⟩ := hc
    have hok := setParent_ok (Consistent.parentInChildren hs.1) h
    have ht : ∀ p, t = some p → ¬ InSubtree s n p := fun p hp => by subst hp; exact hk
    exact depthBound_congr (depthBound_relink hB n t ht) fun m => hok.2.parent_od m
  · exact (depthBound_congr hB (parents_runCall hs (fun n t e => hc ⟨n, t, e⟩) h)).mono
      (by omega)

theorem angleAxis_quarter_real :
    angleAxis (-(RealOps.PI : ℝ) / 2) VEC3_UNIT_Y =
      ⟨Real.sqrt 2 / 2, 0, -(Real.sqrt 2 / 2), 0⟩ := by
  have h : -(RealOps.PI : ℝ) / 2 * (1 / 2) = -(Real.pi / 4) := by
    show -Real.pi / 2 * (1 / 2) = -(Real.pi / 4)
    ring
  simp only [angleAxis, h, VEC3_UNIT_Y]
  show (⟨Real.cos (-(Real.pi / 4)), 0 * Real.sin (-(Real.pi / 4)),
    1 * Real.sin (-(Real.pi / 4)), 0 * Real.sin (-(Real.pi / 4))⟩ : Quat ℝ) = _
  rw [Real.cos_neg, Real.sin_neg, Real.cos_pi_div_four, Real.sin_pi_div_four]
  ext <;> simp

theorem sqrt_two_half_sq : (Real.sqrt 2 / 2) * (Real.sqrt 2 / 2) = 1 / 2 := by
  have := Real.mul_self_sqrt (show (0 : ℝ) ≤ 2 by norm_num)
  linear_combination (1 / 4 : ℝ) * this

/-- The scenario of claim C16 on the code: a child with identity local orientation under a
parent whose world orientation is the quarter turn `(c, 0, -c, 0)`, rotated by that quarter
turn in world space. -/
theorem rotate_world_quarter_turn (hE : ExactSqrt α) {s : State α} (hs : Inv s) {B : Nat}
    (hB : DepthBound s B) {n p : NodeId} (hp : (s n).m_parent = some p)
    (hi : (s n).m_bInheritOrientation = true) (hL : (s n).m_orientation = QUAT_IDENTITY)
    {k : Nat} {pw : World α} (hpw : worldSpec k s p = some pw) {c : α} (hc : c * c = 1 / 2)
    (hpo : pw.orientation = ⟨c, 0, -c, 0⟩) (g : Nat) (hg : B < g) :
    ∃ s1 s2 : State α, rotate g s n ⟨c, 0, -c, 0⟩ .TS_WORLD = .ok s1 ∧
      (s1 n).m_orientation = ⟨c, 0, -c, 0⟩ ∧
      getWorldOrientation g s1 n = .ok (s2, ⟨0, 0, -1, 0⟩) := by
  have hw := worldSpec_succ_some hp hpw
  obtain ⟨s1, s3, w1, ht, -, ho, g1, -, -, e3⟩ :=
    rotate_world_after hs hB n ⟨c, 0, -c, 0⟩ hw g hg
  obtain ⟨m1, m2⟩ := quarter_turn_math hE hc
  have ho' : (s1 n).m_orientation = ⟨c, 0, -c, 0⟩ := by
    rw [ho]
    simp only [combine, hi, ↓reduceIte, hL, hpo]
    exact m1
  rw [parentOrientation_child hp hpw] at e3
  simp only [worldOrientationOf, hi, ↓reduceIte, ho', hpo] at e3
  rw [m2] at e3
  rw [e3] at g1
  exact ⟨s1, s3, ht, ho', g1⟩

/-! ## Tags and `findChildren` -/

theorem hasTag_ok {s : State α} {n : NodeId} {t : String} (ht : t.isEmpty = false) :
    hasTag s n t = .ok (decide (t ∈ (s n).m_tags)) := by
  simp [hasTag, ht]

/-- The loop of `findChildren` reads the state through `hasTag` only. -/
theorem findChildrenLoop_congr {s s1 : State α} {tag : String}
    (h : ∀ m, hasTag s1 m tag = hasTag s m tag) (recursive : Bool)
    (recurse : NodeId → Except Fault (List NodeId)) (l acc : List NodeId) :
    findChildrenLoop s1 tag recursive recurse l acc =
      findChildrenLoop s tag recursive recurse l acc := by
  induction l generalizing acc with
  | nil => rfl
  | cons c l ih =>
    simp only [findChildrenLoop, h c]
    cases hasTag s c tag with
    | error e => rfl
    | ok b =>
      simp only [bind, Except.bind]
      cases recursive with
      | false => simp only [Bool.false_eq_true, ↓reduceIte]; exact ih _
      | true =>
        simp only [↓reduceIte]
        cases recurse c with
        | error e => rfl
        | ok r => exact ih _

/-- Two states with the same child lists and the same answers of `hasTag` for a tag give the
same answers of `findChildren` for that tag. -/
theorem findChildren_congr {s s1 : State α} {tag : String}
    (hc : ∀ m, (s1 m).m_children = (s m).m_children)
    (h : ∀ m, hasTag s1 m tag = hasTag s m tag) (f : Nat) (a : NodeId) (recursive : Bool) :
    findChildren f s1 a tag recursive = findChildren f s a tag recursive := by
  induction f generalizing a recursive with
  | zero => rfl
  | succ f ih =>
    simp only [findChildren]
    have hr : (fun child => findChildren f s1 child tag true) =
        fun child => findChildren f s child tag true := funext fun c => ih c true
    rw [hr, hc a, findChildrenLoop_congr h]

theorem findChildrenLoop_mem {s : State α} {tag : String} (P : NodeId → Prop)
    (hP : ∀ c, hasTag s c tag = .ok true → P c) (recursive : Bool)
    (recurse : NodeId → Except Fault (List NodeId))
    (hrec : ∀ c l, recurse c = .ok l → ∀ x ∈ l, P x) (l acc res : List NodeId)
    (hacc : ∀ x ∈ acc, P x)
    (h : findChildrenLoop s tag recursive recurse l acc = .ok res) : ∀ x ∈ res, P x := by
  induction l generalizing acc with
  | nil =>
    simp only [findChildrenLoop, Except.ok.injEq] at h
    subst h
    exact hacc
  | cons c l ih =>
    simp only [findChildrenLoop] at h
    obtain ⟨b, hb, h⟩ := bind_eq_ok.mp h
    have hacc1 : ∀ x ∈ (if b = true then acc ++ [c] else acc), P x := by
      intro x hx
      cases b with
      | false => exact hacc x (by simpa using hx)
      | true =>
        simp only [↓reduceIte, List.mem_append, List.mem_singleton] at hx
        rcases hx with hx | rfl
        · exact hacc x hx
        · exact hP _ hb
    cases recursive with
    | false =>
      simp only [Bool.false_eq_true, ↓reduceIte] at h
      exact ih _ hacc1 h
    | true =>
      simp only [↓reduceIte] at h
      obtain ⟨r, hr, h⟩ := bind_eq_ok.mp h
      refine ih _ (fun x hx => ?_) h
      rcases List.mem_append.mp hx with hx | hx
      · exact hacc1 x hx
      · exact hrec c r hr x hx

/-- Every node that `findChildren` returns carries the tag. -/
theorem findChildren_mem {s : State α} {tag : String} (f : Nat) (a : NodeId)
    (recursive : Bool) (res : List NodeId) (h : findChildren f s a tag recursive = .ok res) :
    ∀ x ∈ res, tag ∈ (s x).m_tags := by
  induction f generalizing a recursive res with
  | zero => simp [findChildren] at h
  | succ f ih =>
    simp only [findChildren] at h
    cases ht : tag.isEmpty with
    | true => simp [ht] at h
    | false =>
      simp only [ht, Bool.false_eq_true, ↓reduceIte] at h
      refine findChildrenLoop_mem (fun x => tag ∈ (s x).m_tags) (fun c hc => ?_) recursive _
        (fun c l hl => ih c true l hl) _ [] res (by simp) h
      rw [hasTag_ok ht] at hc
      simpa using hc

/-! ## The exact effect of dirty propagation -/

theorem inSubtree_congr {s t : State α} (hp : ∀ m, (t m).m_parent = (s m).m_parent)
    (a d : NodeId) : InSubtree t a d ↔ InSubtree s a d := by
  simp only [InSubtree, ancestorAt_congr hp]

theorem OnlyDirtied.exact_od {s t : State α} (h : OnlyDirtied s t) {m : NodeId}
    (hm : (t m).m_bDirty = true) : t m = { s m with m_bDirty := true } := by
  rcases h m with h1 | h1
  · rw [h1] at hm ⊢
    apply Transforms.ext <;> simp [hm]
  · exact h1

/-- Dirty propagation from `n` leaves every node outside the subtree of `n` as it is. -/
theorem needUpdate_outside (f : Nat) (s : State α) (n : NodeId) (s1 : State α)
    (hs : Consistent s) (h : needUpdate f s n = .ok s1) (m : NodeId)
    (hm : ¬ InSubtree s n m) : s1 m = s m := by
  induction f generalizing s n s1 with
  | zero => simp [needUpdate] at h
  | succ f ih =>
    simp only [needUpdate] at h
    have hd0 := onlyDirtied_set s n
    have hmn : m ≠ n := fun e => hm (e ▸ inSubtree_self s n)
    have hs0 : Consistent (Function.update s n { s n with m_bDirty := true }) :=
      consistent_congr hs hd0.parent_od hd0.children_od
    have hm0 : ¬ InSubtree (Function.update s n { s n with m_bDirty := true }) n m := by
      rw [inSubtree_congr hd0.parent_od]; exact hm
    have hl : ∀ c ∈ (Function.update s n { s n with m_bDirty := true } n).m_children,
        (Function.update s n { s n with m_bDirty := true } c).m_parent = some n :=
      fun c hc => (hs0.1 c n).mp hc
    have e0 : Function.update s n { s n with m_bDirty := true } m = s m :=
      Function.update_noteq hmn _ _
    rw [← e0]
    generalize (Function.update s n { s n with m_bDirty := true } n).m_children = l at h hl
    generalize Function.update s n { s n with m_bDirty := true } = st at h hl hs0 hm0
    clear e0 hd0
    induction l generalizing st with
    | nil =>
      simp only [List.foldlM_nil, pure, Except.pure, Except.ok.injEq] at h
      rw [h]
    | cons a l ihl =>
      simp only [List.foldlM_cons, bind, Except.bind] at h
      cases ha : needUpdate f st a with
      | error e => simp [ha] at h
      | ok s2 =>
        simp only [ha] at h
        have hpa := hl a (List.mem_cons_self _ _)
        have hd2 := needUpdate_onlyDirtied f st a s2 ha
        have e2 : s2 m = st m :=
          ih st a s2 hs0 ha (fun hin => hm0 (inSubtree_of_parent hpa hin))
        rw [← e2]
        refine ihl s2 h (fun c hc => ?_) (consistent_congr hs0 hd2.parent_od hd2.children_od) ?_
        · rw [hd2.parent_od]; exact hl c (List.mem_cons_of_mem _ hc)
        · rw [inSubtree_congr hd2.parent_od]; exact hm0

/-- An edit of node `n` followed by dirty propagation: `n` gets the edited value marked dirty,
the other nodes of the subtree of `n` are marked dirty, all other nodes are as before. -/
theorem edit_exact {s s1 : State α} {n : NodeId} {f : Nat} {v : Transforms α}
    (hs : Consistent s) (hp : v.m_parent = (s n).m_parent)
    (hc : v.m_children = (s n).m_children)
    (h : needUpdate f (Function.update s n v) n = .ok s1) :
    s1 n = { v with m_bDirty := true } ∧
    (∀ m, m ≠ n → InSubtree s n m → s1 m = { s m with m_bDirty := true }) ∧
    (∀ m, ¬ InSubtree s n m → s1 m = s m) := by
  have hpar : ∀ m, (Function.update s n v m).m_parent = (s m).m_parent := by
    intro m
    by_cases hm : m = n
    · subst hm; simpa using hp
    · rw [Function.update_noteq hm]
  have hch : ∀ m, (Function.update s n v m).m_children = (s m).m_children := by
    intro m
    by_cases hm : m = n
    · subst hm; simpa using hc
    · rw [Function.update_noteq hm]
  have hsA : Consistent (Function.update s n v) := consistent_congr hs hpar hch
  obtain ⟨hod, hdirty⟩ := needUpdate_spec f _ n s1 hsA.parentInChildren h
  refine ⟨?_, fun m hm hin => ?_, fun m hm => ?_⟩
  · have := hod.exact_od (hdirty n (inSubtree_self _ n))
    rw [this, Function.update_same]
  · have := hod.exact_od (hdirty m ((inSubtree_congr hpar n m).mpr hin))
    rw [this, Function.update_noteq hm]
  · have hmn : m ≠ n := fun e => hm (e ▸ inSubtree_self s n)
    rw [needUpdate_outside f _ n s1 hsA h m (by rw [inSubtree_congr hpar]; exact hm),
      Function.update_noteq hmn]

theorem Vec3.mul_right_comm_v (a b c : Vec3 α) : (a.mul b).mul c = (a.mul c).mul b := by
  ext <;> simp only [Vec3.mul] <;> ring

/-- Two edits of the same node in a row give the state of the second edit alone, when that
writes the same values. -/
theorem edit_twice {s s1 s2 s3 : State α} {n : NodeId} {f : Nat} {v1 v2 v3 : Transforms α}
    (hs : Consistent s) (hp1 : v1.m_parent = (s n).m_parent)
    (hc1 : v1.m_children = (s n).m_children)
    (h1 : needUpdate f (Function.update s n v1) n = .ok s1)
    (hp2 : v2.m_parent = (s n).m_parent) (hc2 : v2.m_children = (s n).m_children)
    (h2 : needUpdate f (Function.update s1 n v2) n = .ok s2)
    (hp3 : v3.m_parent = (s n).m_parent) (hc3 : v3.m_children = (s n).m_children)
    (h3 : needUpdate f (Function.update s n v3) n = .ok s3)
    (hv : { v2 with m_bDirty := true } = { v3 with m_bDirty := true }) : s2 = s3 := by
  obtain ⟨a1, b1, c1⟩ := edit_exact hs hp1 hc1 h1
  have hod1 : OnlyDirtied (Function.update s n v1) s1 := needUpdate_onlyDirtied f _ n s1 h1
  have hpar1 : ∀ m, (s1 m).m_parent = (s m).m_parent := by
    intro m
    rw [hod1.parent_od]
    by_cases hm : m = n
    · subst hm; simpa using hp1
    · rw [Function.update_noteq hm]
  have hch1 : ∀ m, (s1 m).m_children = (s m).m_children := by
    intro m
    rw [hod1.children_od]
    by_cases hm : m = n
    · subst hm; simpa using hc1
    · rw [Function.update_noteq hm]
  have hs1 : Consistent s1 := consistent_congr hs hpar1 hch1
  obtain ⟨a2, b2, c2⟩ := edit_exact hs1 (by rw [hp2, hpar1]) (by rw [hc2, hch1]) h2
  obtain ⟨a3, b3, c3⟩ := edit_exact hs hp3 hc3 h3
  funext m
  by_cases hmn : m = n
  · subst hmn
    rw [a2, a3, hv]
  · by_cases hin : InSubtree s n m
    · rw [b2 m hmn ((inSubtree_congr hpar1 n m).mpr hin), b3 m hmn hin, b1 m hmn hin]
    · rw [c2 m (by rw [inSubtree_congr hpar1]; exact hin), c3 m hin, c1 m hin]

/-! ## Normalised quaternions -/

/-- With an exact square root, `glm::normalize` returns a unit quaternion on every input. -/
theorem Quat.normalize_dot_one (hE : ExactSqrt α) (q : Quat α) :
    q.normalize.dot q.normalize = 1 := by
  by_cases h : q.dot q = 0
  · have h0 := (hE 0 le_rfl).2
    have hz : RealOps.sqrt (0 : α) = 0 := mul_self_eq_zero.mp h0
    have e : q.normalize = ⟨1, 0, 0, 0⟩ := by
      simp only [Quat.normalize, h, hz, le_refl, ↓reduceIte]
    rw [e]
    simp [Quat.dot]
  · obtain ⟨r, -, hu, -⟩ := Quat.normalize_pos hE h
    exact hu

theorem combine_orientation_unit (hE : ExactSqrt α) (pw : World α) (t : Transforms α)
    (hi : t.m_bInheritOrientation = true) :
    (combine pw t).orientation.dot (combine pw t).orientation = 1 := by
  simp only [combine, hi, ↓reduceIte]
  exact Quat.normalize_dot_one hE _

/-! ## Uniqueness of the decomposition of a matrix -/

theorem mat3_cast_col0_unit {q : Quat α} (h : q.dot q = 1) :
    (mat3_cast q).1.dot (mat3_cast q).1 = 1 := by
  have k : (mat3_cast q).1.dot (mat3_cast q).1 - 1 =
      (q.dot q - 1) * (4 * (q.y * q.y + q.z * q.z)) := by
    simp only [mat3_cast, Vec3.dot, Quat.dot]; ring
  rw [h] at k
  linear_combination k

theorem mat3_cast_col1_unit {q : Quat α} (h : q.dot q = 1) :
    (mat3_cast q).2.1.dot (mat3_cast q).2.1 = 1 := by
  have k : (mat3_cast q).2.1.dot (mat3_cast q).2.1 - 1 =
      (q.dot q - 1) * (4 * (q.x * q.x + q.z * q.z)) := by
    simp only [mat3_cast, Vec3.dot, Quat.dot]; ring
  rw [h] at k
  linear_combination k

theorem mat3_cast_col2_unit {q : Quat α} (h : q.dot q = 1) :
    (mat3_cast q).2.2.dot (mat3_cast q).2.2 = 1 := by
  have k : (mat3_cast q).2.2.dot (mat3_cast q).2.2 - 1 =
      (q.dot q - 1) * (4 * (q.x * q.x + q.y * q.y)) := by
    simp only [mat3_cast, Vec3.dot, Quat.dot]; ring
  rw [h] at k
  linear_combination k

/-- A positive multiple of a unit vector determines the factor and the vector. -/
theorem scaled_unit_unique {a b : α} (ha : 0 < a) (hb : 0 < b) {r t : Vec3 α}
    (hr : r.dot r = 1) (ht : t.dot t = 1) (e1 : a * r.x = b * t.x) (e2 : a * r.y = b * t.y)
    (e3 : a * r.z = b * t.z) : a = b ∧ r = t := by
  have k : a * a * r.dot r = b * b * t.dot t := by
    simp only [Vec3.dot]
    linear_combination (a * r.x + b * t.x) * e1 + (a * r.y + b * t.y) * e2 +
      (a * r.z + b * t.z) * e3
  rw [hr, ht, mul_one, mul_one] at k
  have hab : a = b := by
    have h0 : (a - b) * (a + b) = 0 := by linear_combination k
    rcases mul_eq_zero.mp h0 with h1 | h1
    · linarith
    · linarith
  subst hab
  have hne : a ≠ 0 := ha.ne.symm
  exact ⟨rfl, by
    ext
    · exact mul_left_cancel₀ hne e1
    · exact mul_left_cancel₀ hne e2
    · exact mul_left_cancel₀ hne e3⟩

/-- Two unit quaternions with the same rotation matrix are equal or opposite. -/
theorem Quat.eq_or_neg_of_mat3_cast {q p : Quat α} (hq : q.dot q = 1) (hp : p.dot p = 1)
    (h : mat3_cast p = mat3_cast q) : p = q ∨ p = q.neg := by
  simp only [mat3_cast, Prod.mk.injEq, Vec3.mk.injEq] at h
  obtain ⟨⟨a1, a2, a3⟩, ⟨b1, b2, b3⟩, c1, c2, c3⟩ := h
  simp only [Quat.dot] at hq hp
  have xx : p.x * p.x = q.x * q.x := by linear_combination (-1 / 4) * (b2 + c3 - a1)
  have yy : p.y * p.y = q.y * q.y := by linear_combination (-1 / 4) * (a1 + c3 - b2)
  have zz : p.z * p.z = q.z * q.z := by linear_combination (-1 / 4) * (a1 + b2 - c3)
  have ww : p.w * p.w = q.w * q.w := by linear_combination hp - hq - xx - yy - zz
  have xy : p.x * p.y = q.x * q.y := by linear_combination (1 / 4) * (a2 + b1)
  have wz : p.w * p.z = q.w * q.z := by linear_combination (1 / 4) * (a2 - b1)
  have xz : p.x * p.z = q.x * q.z := by linear_combination (1 / 4) * (a3 + c1)
  have wy : p.w * p.y = q.w * q.y := by linear_combination (1 / 4) * (c1 - a3)
  have yz : p.y * p.z = q.y * q.z := by linear_combination (1 / 4) * (b3 + c2)
  have wx : p.w * p.x = q.w * q.x := by linear_combination (1 / 4) * (b3 - c2)
  have hs : (q.dot p) * (q.dot p) = 1 := by
    simp only [Quat.dot]
    linear_combination (q.x * q.x + q.y * q.y + q.z * q.z + q.w * q.w + 1) * hq +
      (q.x * q.x) * xx + (q.y * q.y) * yy + (q.z * q.z) * zz + (q.w * q.w) * ww +
      (2 * q.x * q.y) * xy + (2 * q.w * q.z) * wz + (2 * q.x * q.z) * xz +
      (2 * q.w * q.y) * wy + (2 * q.y * q.z) * yz + (2 * q.w * q.x) * wx
  have ew : (q.dot p) * q.w = p.w := by
    simp only [Quat.dot]
    linear_combination (-p.x) * wx + (-p.y) * wy + (-p.z) * wz + (-p.w) * ww + p.w * hp
  have ex : (q.dot p) * q.x = p.x := by
    simp only [Quat.dot]
    linear_combination (-p.x) * xx + (-p.y) * xy + (-p.z) * xz + (-p.w) * wx + p.x * hp
  have ey : (q.dot p) * q.y = p.y := by
    simp only [Quat.dot]
    linear_combination (-p.x) * xy + (-p.y) * yy + (-p.z) * yz + (-p.w) * wy + p.y * hp
  have ez : (q.dot p) * q.z = p.z := by
    simp only [Quat.dot]
    linear_combination (-p.x) * xz + (-p.y) * yz + (-p.z) * zz + (-p.w) * wz + p.z * hp
  have h0 : (q.dot p - 1) * (q.dot p + 1) = 0 := by linear_combination hs
  rcases mul_eq_zero.mp h0 with h1 | h1
  · have e : q.dot p = 1 := by linear_combination h1
    rw [e, one_mul] at ew ex ey ez
    exact Or.inl (by ext <;> simp [*])
  · have e : q.dot p = -1 := by linear_combination h1
    rw [e] at ew ex ey ez
    refine Or.inr ?_
    ext <;> simp only [Quat.neg] <;> linarith

/-- A matrix has at most one decomposition into a positive scale, a unit quaternion and a
position, apart from the sign of the quaternion. -/
theorem composeMatrix_unique {sc sc1 p p1 : Vec3 α} {q q1 : Quat α}
    (hx : 0 < sc.x) (hy : 0 < sc.y) (hz : 0 < sc.z) (hq : q.dot q = 1)
    (hx1 : 0 < sc1.x) (hy1 : 0 < sc1.y) (hz1 : 0 < sc1.z) (hq1 : q1.dot q1 = 1)
    (h : composeMatrix sc1 q1 p1 = composeMatrix sc q p) :
    p1 = p ∧ sc1 = sc ∧ (q1 = q ∨ q1 = q.neg) := by
  simp only [composeMatrix, Mat4.mk.injEq, Prod.mk.injEq, and_true] at h
  obtain ⟨⟨a1, a2, a3⟩, ⟨b1, b2, b3⟩, ⟨c1, c2, c3⟩, d1, d2, d3⟩ := h
  obtain ⟨ea, ra⟩ := scaled_unit_unique hx1 hx (mat3_cast_col0_unit hq1)
    (mat3_cast_col0_unit hq) a1 a2 a3
  obtain ⟨eb, rb⟩ := scaled_unit_unique hy1 hy (mat3_cast_col1_unit hq1)
    (mat3_cast_col1_unit hq) b1 b2 b3
  obtain ⟨ec, rc⟩ := scaled_unit_unique hz1 hz (mat3_cast_col2_unit hq1)
    (mat3_cast_col2_unit hq) c1 c2 c3
  refine ⟨by ext <;> assumption, by ext <;> assumption, ?_⟩
  exact Quat.eq_or_neg_of_mat3_cast hq hq1 (Prod.ext ra (Prod.ext rb rc))

/-- Dirty propagation from a node without children marks that node and returns. -/
theorem needUpdate_leaf (f : Nat) (s : State α) (n : NodeId) (h : (s n).m_children = []) :
    needUpdate (f + 1) s n = .ok (Function.update s n { s n with m_bDirty := true }) := by
  simp only [needUpdate, Function.update_same, h, List.foldlM_nil]
  rfl

/-! ## `findChildren` and the pre-order list of descendants -/

theorem findChildrenLoop_filter {s : State α} {tag : String} (ht : tag.isEmpty = false)
    (recurse : NodeId → Except Fault (List NodeId)) (l acc : List NodeId) :
    findChildrenLoop s tag false recurse l acc =
      .ok (acc ++ l.filter fun m => decide (tag ∈ (s m).m_tags)) := by
  induction l generalizing acc with
  | nil => simp [findChildrenLoop]
  | cons c l ih =>
    simp only [findChildrenLoop, hasTag_ok ht, bind, Except.bind, Bool.false_eq_true,
      ↓reduceIte, ih]
    by_cases hc : tag ∈ (s c).m_tags <;> simp [hc, List.filter_cons]

theorem findChildrenLoop_flat {s : State α} {tag : String} (ht : tag.isEmpty = false)
    (recurse : NodeId → Except Fault (List NodeId)) (R : NodeId → List NodeId)
    (l acc : List NodeId) (hrec : ∀ c ∈ l, recurse c = .ok (R c)) :
    findChildrenLoop s tag true recurse l acc =
      .ok (acc ++ l.flatMap fun c =>
        (if decide (tag ∈ (s c).m_tags) then [c] else []) ++ R c) := by
  induction l generalizing acc with
  | nil => simp [findChildrenLoop]
  | cons c l ih =>
    simp only [findChildrenLoop, hasTag_ok ht, bind, Except.bind, ↓reduceIte,
      hrec c (List.mem_cons_self _ _), ih _ fun x hx => hrec x (List.mem_cons_of_mem _ hx)]
    by_cases hc : tag ∈ (s c).m_tags <;> simp [hc, List.flatMap_cons]

/-- With a non-recursive search `findChildren` returns the direct children that carry the
tag. -/
theorem findChildren_direct {s : State α} {tag : String} (ht : tag.isEmpty = false)
    (f : Nat) (a : NodeId) :
    findChildren (f + 1) s a tag false =
      .ok ((s a).m_children.filter fun m => decide (tag ∈ (s m).m_tags)) := by
  simp only [findChildren, ht, Bool.false_eq_true, ↓reduceIte, findChildrenLoop_filter ht,
    List.nil_append]

/-- With a recursive search `findChildren` returns, when the call stack is deeper than the
subtree below the node, the descendants in pre-order that carry the tag. -/
theorem findChildren_recursive {s : State α} (hs : Consistent s) {tag : String}
    (ht : tag.isEmpty = false) (B : Nat) (a : NodeId)
    (hB : ∀ m k, ancestorAt s m k = some a → k ≤ B) (f : Nat) (hf : B < f) :
    findChildren f s a tag true =
      .ok ((descendantsPreorder B s a).filter fun m => decide (tag ∈ (s m).m_tags)) := by
  induction B generalizing a f with
  | zero =>
    obtain ⟨f, rfl⟩ : ∃ i, f = i + 1 := ⟨f - 1, by omega⟩
    have hnil : (s a).m_children = [] := by
      cases hl : (s a).m_children with
      | nil => rfl
      | cons c l =>
        have hc : (s c).m_parent = some a :=
          (hs.1 c a).mp (by rw [hl]; exact List.mem_cons_self _ _)
        have := hB c 1 (by simp [ancestorAt, hc])
        omega
    simp [findChildren, ht, hnil, findChildrenLoop, descendantsPreorder]
  | succ B ih =>
    obtain ⟨f, rfl⟩ : ∃ i, f = i + 1 := ⟨f - 1, by omega⟩
    have hrec : ∀ c ∈ (s a).m_children, findChildren f s c tag true =
        .ok ((descendantsPreorder B s c).filter fun m => decide (tag ∈ (s m).m_tags)) := by
      intro c hc
      have hpc : (s c).m_parent = some a := (hs.1 c a).mp hc
      refine ih c (fun m k hk => ?_) f (by omega)
      have := hB m (k + 1) (by rw [ancestorAt_succ_top, hk]; simpa using hpc)
      omega
    simp only [findChildren, ht, Bool.false_eq_true, ↓reduceIte]
    rw [findChildrenLoop_flat ht _
      (fun c => (descendantsPreorder B s c).filter fun m => decide (tag ∈ (s m).m_tags))
      _ _ hrec]
    simp only [descendantsPreorder, List.nil_append, List.filter_flatMap, List.filter_cons]
    congr 1
    refine congrArg _ (funext fun c => ?_)
    by_cases hc : tag ∈ (s c).m_tags <;> simp [hc]

/-- The pre-order list down to depth `B` holds the nodes that have `a` as an ancestor at a
distance between 1 and `B`. -/
theorem mem_descendantsPreorder {s : State α} (hs : Consistent s) (B : Nat) (a m : NodeId) :
    m ∈ descendantsPreorder B s a ↔ ∃ k, k < B ∧ ancestorAt s m (k + 1) = some a := by
  induction B generalizing a with
  | zero => simp [descendantsPreorder]
  | succ B ih =>
    simp only [descendantsPreorder, List.mem_flatMap, List.mem_cons]
    constructor
    · rintro ⟨c, hc, hm | hm⟩
      · subst hm
        have hp : (s m).m_parent = some a := (hs.1 m a).mp hc
        exact ⟨0, by omega, by simp [ancestorAt, hp]⟩
      · obtain ⟨k, hk, hk'⟩ := (ih c).mp hm
        have hp : (s c).m_parent = some a := (hs.1 c a).mp hc
        exact ⟨k + 1, by omega, by rw [ancestorAt_succ_top, hk']; simpa using hp⟩
    · rintro ⟨k, hk, hk'⟩
      rw [ancestorAt_succ_top] at hk'
      cases hc : ancestorAt s m k with
      | none => simp [hc] at hk'
      | some c =>
        rw [hc] at hk'
        have hp : (s c).m_parent = some a := by simpa using hk'
        refine ⟨c, (hs.1 c a).mpr hp, ?_⟩
        cases k with
        | zero =>
          simp only [ancestorAt, Option.some.injEq] at hc
          exact Or.inl hc
        | succ j => exact Or.inr ((ih c).mpr ⟨j, by omega, hc⟩)

theorem subtrees_of_children_disjoint_le {s : State α} (hn : NoCycle s) {a c d m : NodeId}
    (hc : (s c).m_parent = some a) (hd : (s d).m_parent = some a) {k j : Nat}
    (hk : ancestorAt s m k = some c) (hj : ancestorAt s m (k + j) = some d) : c = d := by
  rw [ancestorAt_add, hk] at hj
  cases j with
  | zero => simpa [ancestorAt] using hj
  | succ i =>
    simp only [Option.some_bind, ancestorAt, hc] at hj
    have : ancestorAt s a (i + 1) = some a := by
      rw [ancestorAt_succ_top, hj]; simpa using hd
    exact absurd this (hn a i)

/-- The subtrees of two different children of a node have no node in common. -/
theorem subtrees_of_children_disjoint {s : State α} (hn : NoCycle s) {a c d m : NodeId}
    (hc : (s c).m_parent = some a) (hd : (s d).m_parent = some a) {k j : Nat}
    (hk : ancestorAt s m k = some c) (hj : ancestorAt s m j = some d) : c = d := by
  rcases Nat.le_total k j with h | h
  · obtain ⟨i, rfl⟩ := Nat.exists_eq_add_of_le h
    exact subtrees_of_children_disjoint_le hn hc hd hk hj
  · obtain ⟨i, rfl⟩ := Nat.exists_eq_add_of_le h
    exact (subtrees_of_children_disjoint_le hn hd hc hj hk).symm

theorem ancestorAt_of_mem_cons_descendants {s : State α} (hs : Consistent s) {B : Nat}
    {c m : NodeId} (h : m ∈ c :: descendantsPreorder B s c) :
    ∃ k, ancestorAt s m k = some c := by
  rcases List.mem_cons.mp h with h | h
  · exact ⟨0, by rw [h]; rfl⟩
  · obtain ⟨k, -, hk⟩ := (mem_descendantsPreorder hs B c m).mp h
    exact ⟨k + 1, hk⟩

/-- The pre-order list of descendants has no repetition. -/
theorem nodup_descendantsPreorder {s : State α} (hs : Consistent s) (hn : NoCycle s)
    (B : Nat) (a : NodeId) : (descendantsPreorder B s a).Nodup := by
  induction B generalizing a with
  | zero => simp [descendantsPreorder]
  | succ B ih =>
    simp only [descendantsPreorder]
    refine List.nodup_flatMap.mpr ⟨fun c _ => ?_, ?_⟩
    · refine List.nodup_cons.mpr ⟨fun hc => ?_, ih c⟩
      obtain ⟨k, -, hk⟩ := (mem_descendantsPreorder hs B c c).mp hc
      exact hn c k hk
    · refine (hs.2 a).pairwise_of_forall_ne fun c hc d hd hne => ?_
      intro m hm1 hm2
      obtain ⟨k, hk⟩ := ancestorAt_of_mem_cons_descendants hs hm1
      obtain ⟨j, hj⟩ := ancestorAt_of_mem_cons_descendants hs hm2
      exact hne (subtrees_of_children_disjoint hn ((hs.1 c a).mp hc) ((hs.1 d a).mp hd) hk hj)

/-- A node whose chain of parents ends before reaching `a` is not in the subtree of `a`. -/
theorem not_inSubtree_of_none {s : State α} {a d : NodeId} (k : Nat)
    (hk : ancestorAt s d k = none) (h : ∀ j, j < k → ancestorAt s d j ≠ some a) :
    ¬ InSubtree s a d := by
  rintro ⟨j, hj⟩
  by_cases hjk : j < k
  · exact h j hjk hj
  · obtain ⟨i, rfl⟩ := Nat.exists_eq_add_of_le (not_lt.mp hjk)
    rw [ancestorAt_add, hk] at hj
    simp at hj

/-! ## `lookAt` in the space of the parent -/

theorem Quat.rotate_smul (q : Quat α) (v : Vec3 α) (r : α) :
    q.rotate (v.smul r) = (q.rotate v).smul r := by
  ext <;> simp only [Quat.rotate, Vec3.add, Vec3.smul, Vec3.cross] <;> ring

/-- With an exact square root a non-zero vector is its normalisation times its length. -/
theorem Vec3.normalize_smul_length (hE : ExactSqrt α) {v : Vec3 α} (h : v ≠ VEC3_ZERO) :
    0 < RealOps.sqrt (v.dot v) ∧ v = v.normalize.smul (RealOps.sqrt (v.dot v)) := by
  have hr := hE.sqrt_pos (Vec3.dot_self_pos h)
  refine ⟨hr, ?_⟩
  ext <;> simp only [Vec3.normalize, Vec3.smul] <;> field_simp

/-- The world position of a point given in the space of a parent with world values `pw`. -/
theorem combine_position_sub (pw : World α) (a b : Vec3 α) :
    ((pw.orientation.rotate (pw.scale.mul a)).add pw.position).sub
        ((pw.orientation.rotate (pw.scale.mul b)).add pw.position) =
      pw.orientation.rotate (pw.scale.mul (a.sub b)) := by
  ext <;> simp only [Quat.rotate, Vec3.add, Vec3.sub, Vec3.smul, Vec3.cross, Vec3.mul] <;> ring

theorem Vec3.mul_uniform (c : α) (v : Vec3 α) : (⟨c, c, c⟩ : Vec3 α).mul v = v.smul c := by
  ext <;> simp only [Vec3.mul, Vec3.smul] <;> ring

/-- What `lookAt(tp, TS_PARENT, ldv)` leaves behind for a node `n` with parent `p`: the world
values of the parent and of the node that the getters return. -/
theorem lookAt_parent_child {s : State α} (hs : Inv s) {B : Nat} (hB : DepthBound s B)
    {n p : NodeId} (hp : (s n).m_parent = some p) {k : Nat} {pw : World α}
    (hpw : worldSpec k s p = some pw) (tp ldv : Vec3 α) (hne : tp ≠ (s n).m_position)
    (g : Nat) (hg : B < g) :
    ∃ (s1 s3 sp : State α), lookAt g s n tp .TS_PARENT ldv = .ok s1 ∧
      getWorldPosition g s p = .ok (sp, pw.position) ∧
      getWorldOrientation g s p = .ok (sp, pw.orientation) ∧
      getWorldScale g s p = .ok (sp, pw.scale) ∧
      getWorldPosition g s1 n = .ok (s3, (combine pw (s n)).position) ∧
      getWorldOrientation g s1 n = .ok (s3,
        worldOrientationOf (some pw.orientation) (s n).m_bInheritOrientation
          (setDirectionLocal (some pw.orientation) (s n).m_bInheritOrientation
            (combine pw (s n)).orientation (tp.sub (s n).m_position) .TS_PARENT ldv)) := by
  have hw := worldSpec_succ_some hp hpw
  obtain ⟨sp, w0, hw0, p1, p2, p3⟩ := getters_spec hs (hB.none_at p) g (by omega)
  obtain rfl := worldSpec_unique hpw hw0
  obtain ⟨s1, s3, w1, hd, -, ho, g1, g2, e1, e3⟩ :=
    setDirection_after hs hB n (tp.sub (s n).m_position) ldv .TS_PARENT
      (Vec3.sub_ne_zero hne) hw g hg
  rw [parentOrientation_child hp hpw] at ho e3
  rw [e3, ho] at g1
  rw [e1] at g2
  exact ⟨s1, s3, sp, hd, p1, p2, p3, g2, g1⟩

theorem Vec3.smul_smul_v (v : Vec3 α) (a b : α) : (v.smul a).smul b = v.smul (a * b) := by
  ext <;> simp only [Vec3.smul] <;> ring

/-- The values that the getters return after `lookAt(tp, TS_PARENT, ldv)` on a node `n` with
parent `p`, from the local values of `n` and the world values of `p`. -/
theorem lookAt_parent_eval {s : State α} (hs : Inv s) {B : Nat} (hB : DepthBound s B)
    {n p : NodeId} (hp : (s n).m_parent = some p) {k : Nat} {pw : World α}
    (hpw : worldSpec k s p = some pw) {pos : Vec3 α} {ori : Quat α} {inh : Bool}
    (hpos : (s n).m_position = pos) (hori : (s n).m_orientation = ori)
    (hinh : (s n).m_bInheritOrientation = inh) (tp ldv : Vec3 α) (hne : tp ≠ pos)
    (g : Nat) (hg : B < g) :
    ∃ (s1 s3 sp : State α), lookAt g s n tp .TS_PARENT ldv = .ok s1 ∧
      getWorldPosition g s p = .ok (sp, pw.position) ∧
      getWorldOrientation g s p = .ok (sp, pw.orientation) ∧
      getWorldScale g s p = .ok (sp, pw.scale) ∧
      getWorldPosition g s1 n = .ok (s3, worldLocation pw pos) ∧
      getWorldOrientation g s1 n = .ok (s3,
        worldOrientationOf (some pw.orientation) inh
          (setDirectionLocal (some pw.orientation) inh
            (worldOrientationOf (some pw.orientation) inh ori) (tp.sub pos)
            .TS_PARENT ldv)) := by
  subst hpos hori hinh
  exact lookAt_parent_child hs hB hp hpw tp ldv hne g hg

/-- The shortest-arc rotation between two non-zero vectors whose normalised dot product is at
least `1e-6 - 1`: a unit quaternion that maps the first direction onto the second. -/
theorem getRotationTo_arc (hE : ExactSqrt α) {a b : Vec3 α} (fb : Vec3 α)
    (ha : a ≠ VEC3_ZERO) (hb : b ≠ VEC3_ZERO)
    (hd : 1 / 1000000 - 1 ≤ a.normalize.dot b.normalize) :
    (getRotationTo a b fb).dot (getRotationTo a b fb) = 1 ∧
      (getRotationTo a b fb).rotate a.normalize = b.normalize ∧
      (1 ≤ a.normalize.dot b.normalize → getRotationTo a b fb = QUAT_IDENTITY) := by
  have hu := Vec3.normalize_dot hE ha
  have hv := Vec3.normalize_dot hE hb
  have h3 : 1 ≤ a.normalize.dot b.normalize → getRotationTo a b fb = QUAT_IDENTITY := by
    intro h
    have h' : a.normalize.dot b.normalize ≥ 1 := h
    unfold getRotationTo
    simp only [h', ↓reduceIte]
  by_cases h1 : a.normalize.dot b.normalize ≥ 1
  · rw [h3 h1]
    refine ⟨by simp [QUAT_IDENTITY, Quat.dot], ?_, fun _ => rfl⟩
    rw [Quat.rotate_identity]
    exact Vec3.eq_of_dot_ge_one hu hv h1
  · have h2 : ¬ a.normalize.dot b.normalize < 1 / 1000000 - 1 := not_lt.mpr hd
    have hq : getRotationTo a b fb =
        (⟨RealOps.sqrt ((1 + a.normalize.dot b.normalize) * 2) * (1 / 2),
          (a.normalize.cross b.normalize).x *
            (1 / RealOps.sqrt ((1 + a.normalize.dot b.normalize) * 2)),
          (a.normalize.cross b.normalize).y *
            (1 / RealOps.sqrt ((1 + a.normalize.dot b.normalize) * 2)),
          (a.normalize.cross b.normalize).z *
            (1 / RealOps.sqrt ((1 + a.normalize.dot b.normalize) * 2))⟩ : Quat α).normalize := by
      unfold getRotationTo
      simp only [h1, h2, ↓reduceIte]
    rw [hq]
    clear hq h3
    generalize a.normalize = u at hu hd h1 h2
    generalize b.normalize = v at hv hd h1 h2
    have hpos : 0 < (1 + u.dot v) * 2 := by linarith
    have hr := hE.sqrt_pos hpos
    have hr2 := (hE _ hpos.le).2
    generalize RealOps.sqrt ((1 + u.dot v) * 2) = r at hr hr2
    have hir : 1 / r * r = 1 := by field_simp
    generalize (1 : α) / r = i at hir
    have hunit : (⟨r * (1 / 2), (u.cross v).x * i, (u.cross v).y * i,
        (u.cross v).z * i⟩ : Quat α).dot
        ⟨r * (1 / 2), (u.cross v).x * i, (u.cross v).y * i, (u.cross v).z * i⟩ = 1 := by
      rw [arc_dot, hu, hv]
      linear_combination (1 / 4 - i * i * (1 - u.dot v) / 2) * hr2 +
        ((1 - u.dot v) / 2 * (i * r + 1)) * hir
    rw [Quat.normalize_unit hE hunit]
    refine ⟨hunit, ?_, fun h => absurd h h1⟩
    rw [arc_formula u v hir, hu, hv]
    have hc : 1 + 2 * (i * i) * (u.dot v * u.dot v - 1 * 1) - u.dot v = 0 := by
      linear_combination (-(i * i * (u.dot v - 1))) * hr2 +
        ((u.dot v - 1) * (i * r + 1)) * hir
    rw [hc]
    ext <;> simp [Vec3.add, Vec3.smul]

/-! ## Matrices of a parent and a child -/

/-- The matrix composed of a scale, an orientation and a position, applied to a point. -/
theorem composeMatrix_mulVec_point (sc p u : Vec3 α) (o : Quat α) :
    (composeMatrix sc o p).mulVec (u.x, u.y, u.z, 1) =
      (((o.rotate (sc.mul u)).add p).x, ((o.rotate (sc.mul u)).add p).y,
       ((o.rotate (sc.mul u)).add p).z, 1) := by
  simp only [composeMatrix, Mat4.mulVec, mat3_cast, Quat.rotate, Vec3.add, Vec3.mul,
    Vec3.smul, Vec3.cross, Prod.mk.injEq]
  refine ⟨?_, ?_, ?_, ?_⟩ <;> ring

/-- The matrix composed of a scale, an orientation and a position, applied to a direction. -/
theorem composeMatrix_mulVec_dir (sc p u : Vec3 α) (o : Quat α) :
    (composeMatrix sc o p).mulVec (u.x, u.y, u.z, 0) =
      ((o.rotate (sc.mul u)).x, (o.rotate (sc.mul u)).y, (o.rotate (sc.mul u)).z, 0) := by
  simp only [composeMatrix, Mat4.mulVec, mat3_cast, Quat.rotate, Vec3.add, Vec3.mul,
    Vec3.smul, Vec3.cross, Prod.mk.injEq]
  refine ⟨?_, ?_, ?_, ?_⟩ <;> ring

theorem composeMatrix_c0 (sc p : Vec3 α) (o : Quat α) :
    (composeMatrix sc o p).c0 =
      ((o.rotate (sc.mul ⟨1, 0, 0⟩)).x, (o.rotate (sc.mul ⟨1, 0, 0⟩)).y,
       (o.rotate (sc.mul ⟨1, 0, 0⟩)).z, 0) := by
  simp only [composeMatrix, mat3_cast, Quat.rotate, Vec3.add, Vec3.mul,
    Vec3.smul, Vec3.cross, Prod.mk.injEq]
  refine ⟨?_, ?_, ?_, trivial⟩ <;> ring

theorem composeMatrix_c1 (sc p : Vec3 α) (o : Quat α) :
    (composeMatrix sc o p).c1 =
      ((o.rotate (sc.mul ⟨0, 1, 0⟩)).x, (o.rotate (sc.mul ⟨0, 1, 0⟩)).y,
       (o.rotate (sc.mul ⟨0, 1, 0⟩)).z, 0) := by
  simp only [composeMatrix, mat3_cast, Quat.rotate, Vec3.add, Vec3.mul,
    Vec3.smul, Vec3.cross, Prod.mk.injEq]
  refine ⟨?_, ?_, ?_, trivial⟩ <;> ring

theorem composeMatrix_c2 (sc p : Vec3 α) (o : Quat α) :
    (composeMatrix sc o p).c2 =
      ((o.rotate (sc.mul ⟨0, 0, 1⟩)).x, (o.rotate (sc.mul ⟨0, 0, 1⟩)).y,
       (o.rotate (sc.mul ⟨0, 0, 1⟩)).z, 0) := by
  simp only [composeMatrix, mat3_cast, Quat.rotate, Vec3.add, Vec3.mul,
    Vec3.smul, Vec3.cross, Prod.mk.injEq]
  refine ⟨?_, ?_, ?_, trivial⟩ <;> ring

theorem Vec3.mul_assoc_v (a b c : Vec3 α) : (a.mul b).mul c = a.mul (b.mul c) := by
  ext <;> simp only [Vec3.mul] <;> ring

/-- A direction scaled and turned by the child and then by a parent of uniform scale. -/
theorem rotate_scale_compose {P o : Quat α} (hP : P.dot P = 1) (ho : o.dot o = 1) (c : α)
    (sc u : Vec3 α) :
    (P.mul o).rotate (((⟨c, c, c⟩ : Vec3 α).mul sc).mul u) =
      P.rotate ((⟨c, c, c⟩ : Vec3 α).mul (o.rotate (sc.mul u))) := by
  rw [Quat.rotate_mul hP ho, Vec3.mul_assoc_v, Vec3.mul_uniform, Vec3.mul_uniform,
    Quat.rotate_smul]

/-- The matrix of the world values of a child that inherits orientation and scale is the
product of the matrix of the world values of the parent and the matrix of the local values,
for a parent of uniform scale and unit orientations. -/
theorem composeMatrix_combine (hE : ExactSqrt α) (pw : World α) (t : Transforms α)
    (hi : t.m_bInheritOrientation = true) (hsI : t.m_bInheritScale = true) (c : α)
    (hc : pw.scale = ⟨c, c, c⟩) (hP : pw.orientation.dot pw.orientation = 1)
    (ho : t.m_orientation.dot t.m_orientation = 1) :
    composeMatrix (combine pw t).scale (combine pw t).orientation (combine pw t).position =
      (composeMatrix pw.scale pw.orientation pw.position).mul
        (composeMatrix t.m_scale t.m_orientation t.m_position) := by
  have hu : (pw.orientation.mul t.m_orientation).dot (pw.orientation.mul t.m_orientation) = 1 := by
    rw [Quat.dot_mul, hP, ho, one_mul]
  have e1 : (combine pw t).orientation = pw.orientation.mul t.m_orientation := by
    simp only [combine, hi, ↓reduceIte]
    exact Quat.normalize_unit hE hu
  have e2 : (combine pw t).scale = (⟨c, c, c⟩ : Vec3 α).mul t.m_scale := by
    simp only [combine, hsI, ↓reduceIte, hc]
  have e3 : (combine pw t).position =
      (pw.orientation.rotate ((⟨c, c, c⟩ : Vec3 α).mul t.m_position)).add pw.position := by
    simp only [combine, hc]
  rw [e1, e2, e3, hc]
  simp only [Mat4.mul]
  have key : ∀ (A B : Mat4 α), A.c0 = B.c0 → A.c1 = B.c1 → A.c2 = B.c2 → A.c3 = B.c3 →
      A = B := by
    intro A B h0 h1 h2 h3
    cases A; cases B
    simp only at h0 h1 h2 h3
    simp [h0, h1, h2, h3]
  refine key _ _ ?_ ?_ ?_ ?_
  · show _ = Mat4.mulVec _ _
    rw [composeMatrix_c0, composeMatrix_c0, composeMatrix_mulVec_dir,
      rotate_scale_compose hP ho]
  · show _ = Mat4.mulVec _ _
    rw [composeMatrix_c1, composeMatrix_c1, composeMatrix_mulVec_dir,
      rotate_scale_compose hP ho]
  · show _ = Mat4.mulVec _ _
    rw [composeMatrix_c2, composeMatrix_c2, composeMatrix_mulVec_dir,
      rotate_scale_compose hP ho]
  · show _ = Mat4.mulVec _ _
    have : (composeMatrix t.m_scale t.m_orientation t.m_position).c3 =
        (t.m_position.x, t.m_position.y, t.m_position.z, 1) := rfl
    rw [this, composeMatrix_mulVec_point]
    rfl

/-- The world matrix that `getWorldMatrix` returns with enough call stack, together with the
world position. -/
theorem getWorldMatrix_spec {s : State α} (hs : Inv s) {k : Nat} {n : NodeId}
    (hk : ancestorAt s n k = none) (g : Nat) (hg : k ≤ g) :
    ∃ s1 w, worldSpec k s n = some w ∧
      getWorldMatrix g s n = .ok (s1, composeMatrix w.scale w.orientation w.position) ∧
      getWorldPosition g s n = .ok (s1, w.position) ∧
      getWorldOrientation g s n = .ok (s1, w.orientation) ∧
      getWorldScale g s n = .ok (s1, w.scale) := by
  obtain ⟨s1, w, hr, hw, hc, -, -⟩ := refresh_spec hs hk g hg
  refine ⟨s1, w, hw, ?_, ?_, ?_, ?_⟩
  · simp only [getWorldMatrix, hr, bind, Except.bind, pure, Except.pure]
    rw [← hc]
    rfl
  · rw [getWorldPosition_eq hr, hc]
  · rw [getWorldOrientation_eq hr, hc]
  · rw [getWorldScale_eq hr, hc]

/-! ## What a read of world values changes -/

theorem DirtyClosed.subtree {s : State α} (h : DirtyClosed s) {a m : NodeId}
    (hm : InSubtree s a m) (ha : (s a).m_bDirty = true) : (s m).m_bDirty = true := by
  obtain ⟨k, hk⟩ := hm
  induction k generalizing m with
  | zero =>
    simp only [ancestorAt, Option.some.injEq] at hk
    rw [hk]; exact ha
  | succ k ih =>
    simp only [ancestorAt] at hk
    cases hp : (s m).m_parent with
    | none => simp [hp] at hk
    | some p =>
      simp only [hp] at hk
      exact h m p hp (ih hk)

theorem inSubtree_root {s : State α} {a n : NodeId} (hp : (s n).m_parent = none)
    (h : InSubtree s a n) : a = n := by
  obtain ⟨k, hk⟩ := h
  cases k with
  | zero => simpa [ancestorAt] using hk.symm
  | succ k => simp [ancestorAt, hp] at hk

theorem inSubtree_cases {s : State α} {a n p : NodeId} (hp : (s n).m_parent = some p)
    (h : InSubtree s a n) : a = n ∨ InSubtree s a p := by
  obtain ⟨k, hk⟩ := h
  cases k with
  | zero => exact Or.inl (by simpa [ancestorAt] using hk.symm)
  | succ k => exact Or.inr ⟨k, by simpa [ancestorAt, hp] using hk⟩

/-- A run of `update` on `n` changes no node other than `n` and its ancestors. -/
theorem update_frame (f : Nat) (s : State α) (n : NodeId) (s1 : State α)
    (hns : ∀ m, (s m).m_parent ≠ some m) (h : update f s n = .ok s1) (m : NodeId)
    (hm : ¬ InSubtree s m n) : s1 m = s m := by
  induction f generalizing s n s1 with
  | zero => simp [update] at h
  | succ f ih =>
    have hmn : m ≠ n := fun e => hm (e ▸ inSubtree_self s n)
    cases hd : (s n).m_bDirty with
    | false =>
      rw [update_of_clean hd] at h
      rw [← Except.ok.inj h]
    | true =>
      cases hp : (s n).m_parent with
      | none =>
        rw [update_none hd hp] at h
        rw [← Except.ok.inj h, Function.update_noteq hmn]
      | some p =>
        have hpn : p ≠ n := fun e => hns n (by rw [hp, e])
        cases hr : refresh (update f) s p with
        | error e => rw [update_error hd hp hr] at h; exact nomatch h
        | ok sR =>
          rw [update_some hd hp hpn hr] at h
          rw [← Except.ok.inj h, Function.update_noteq hmn]
          have hmp : ¬ InSubtree s m p := fun hin => hm (inSubtree_parent hp hin)
          cases hdp : (s p).m_bDirty with
          | false =>
            rw [refresh_clean hdp] at hr
            rw [← Except.ok.inj hr]
          | true =>
            rw [refresh_dirty hdp] at hr
            exact ih s p sR hns hr hmp

/-- A read of world values of `x` changes no node other than `x` and its ancestors. -/
theorem refresh_frame {f : Nat} {s s1 : State α} {x : NodeId}
    (hns : ∀ m, (s m).m_parent ≠ some m) (h : refresh (update f) s x = .ok s1) (m : NodeId)
    (hm : ¬ InSubtree s m x) : s1 m = s m := by
  cases hd : (s x).m_bDirty with
  | false => rw [refresh_clean hd] at h; rw [← Except.ok.inj h]
  | true => rw [refresh_dirty hd] at h; exact update_frame f s x s1 hns h m hm

/-- After a run of `update` on `n`, in a state with downward closed dirty flags, `n` and all
its ancestors are clean. -/
theorem update_cleans (f : Nat) (s : State α) (n : NodeId) (s1 : State α)
    (hn : NoCycle s) (hd : DirtyClosed s) (h : update f s n = .ok s1) (m : NodeId)
    (hm : InSubtree s m n) : (s1 m).m_bDirty = false := by
  induction f generalizing s n s1 m with
  | zero => simp [update] at h
  | succ f ih =>
    cases hdn : (s n).m_bDirty with
    | false =>
      rw [update_of_clean hdn] at h
      rw [← Except.ok.inj h]
      cases hdm : (s m).m_bDirty with
      | false => rfl
      | true => rw [hd.subtree hm hdm] at hdn; exact nomatch hdn
    | true =>
      cases hp : (s n).m_parent with
      | none =>
        rw [update_none hdn hp] at h
        rw [← Except.ok.inj h, inSubtree_root hp hm, Function.update_same]
        rfl
      | some p =>
        have hpn : p ≠ n := fun e => hn n 0 (by simp [ancestorAt, hp, e])
        cases hr : refresh (update f) s p with
        | error e => rw [update_error hdn hp hr] at h; exact nomatch h
        | ok sR =>
          rw [update_some hdn hp hpn hr] at h
          rw [← Except.ok.inj h]
          rcases inSubtree_cases hp hm with rfl | hmp
          · rw [Function.update_same]; rfl
          · obtain ⟨j, hj⟩ := hmp
            have hmn : m ≠ n := parent_chain_avoids hn hp j m hj
            rw [Function.update_noteq hmn]
            cases hdp : (s p).m_bDirty with
            | false =>
              rw [refresh_clean hdp] at hr
              rw [← Except.ok.inj hr]
              cases hdm : (s m).m_bDirty with
              | false => rfl
              | true => rw [hd.subtree ⟨j, hj⟩ hdm] at hdp; exact nomatch hdp
            | true =>
              rw [refresh_dirty hdp] at hr
              exact ih s p sR hn hd hr m ⟨j, hj⟩

/-- After a read of world values of `x`, in a state with downward closed dirty flags, `x` and
all its ancestors are clean. -/
theorem refresh_cleans {f : Nat} {s s1 : State α} {x : NodeId} (hn : NoCycle s)
    (hd : DirtyClosed s) (h : refresh (update f) s x = .ok s1) (m : NodeId)
    (hm : InSubtree s m x) : (s1 m).m_bDirty = false := by
  cases hdx : (s x).m_bDirty with
  | false =>
    rw [refresh_clean hdx] at h
    rw [← Except.ok.inj h]
    cases hdm : (s m).m_bDirty with
    | false => rfl
    | true => rw [hd.subtree hm hdm] at hdx; exact nomatch hdx
  | true => rw [refresh_dirty hdx] at h; exact update_cleans f s x s1 hn hd h m hm

theorem NoCycle.parent_ne_self {s : State α} (hn : NoCycle s) (m : NodeId) :
    (s m).m_parent ≠ some m := fun h => hn m 0 (by simp [ancestorAt, h])

/-- A read of world values keeps the dirty flags downward closed. -/
theorem dirtyClosed_refresh {f : Nat} {s s1 : State α} {x : NodeId} (hs : Inv s)
    (hd : DirtyClosed s) (h : refresh (update f) s x = .ok s1) : DirtyClosed s1 := by
  have hn := hs.noCycle_inv
  have hoc := (inv_refresh hs h).2
  intro m q hmq hq
  rw [hoc.parent_oc] at hmq
  have hqx : ¬ InSubtree s q x := fun hin => by
    rw [refresh_cleans hn hd h q hin] at hq; exact nomatch hq
  have hmx : ¬ InSubtree s m x := fun ⟨k, hk⟩ =>
    hqx ⟨k + 1, by rw [ancestorAt_succ_top, hk]; simpa using hmq⟩
  rw [refresh_frame hn.parent_ne_self h q hqx] at hq
  rw [refresh_frame hn.parent_ne_self h m hmx]
  exact hd m q hmq hq

/-! ## Reads of world values inside an operation -/

theorem Reads.single {f : Nat} {s s1 : State α} {n x : NodeId}
    (hx : x = n ∨ (s n).m_parent = some x) (h : refresh (update f) s x = .ok s1) :
    Reads f s n s1 := Reads.step x Reads.refl hx h

/-- What reads of world values for node `n` keep and change: the invariant and the downward
closure of the dirty flags are kept, only cached values and dirty flags change, and only those
of `n` and its ancestors. -/
theorem Reads.facts {f : Nat} {s s2 : State α} {n : NodeId} (hs : Inv s) (hd : DirtyClosed s)
    (h : Reads f s n s2) :
    Inv s2 ∧ OnlyCached s s2 ∧ DirtyClosed s2 ∧ (∀ m, ¬ InSubtree s m n → s2 m = s m) := by
  induction h with
  | refl => exact ⟨hs, onlyCached_refl s, hd, fun _ _ => rfl⟩
  | @step sA sB x _ hx hr ih =>
    obtain ⟨hiA, hoA, hdA, hfA⟩ := ih
    obtain ⟨hiB, hoB⟩ := inv_refresh hiA hr
    have hnA := hiA.noCycle_inv
    refine ⟨hiB, onlyCached_trans hoA hoB, dirtyClosed_refresh hiA hdA hr, fun m hm => ?_⟩
    · have hmx : ¬ InSubtree sA m x := by
        rw [inSubtree_congr (fun a => hoA.parent_oc a)]
        rcases hx with rfl | hx
        · exact hm
        · exact fun hin => hm (inSubtree_parent hx hin)
      rw [refresh_frame hnA.parent_ne_self hr m hmx, hfA m hm]

theorem Reads.trans {f : Nat} {s sA s2 : State α} {n : NodeId} (h1 : Reads f s n sA)
    (hp : (sA n).m_parent = (s n).m_parent) (h2 : Reads f sA n s2) : Reads f s n s2 := by
  induction h2 with
  | refl => exact h1
  | step x _ hx hr ih => exact Reads.step x ih (by rw [← hp]; exact hx) hr

/-- Dirty propagation from `n` makes the dirty flags downward closed when they are so outside
the subtree of `n`. -/
theorem dirtyClosed_needUpdate {f : Nat} {s s1 : State α} {n : NodeId} (hs : Consistent s)
    (hd : ∀ m p, ¬ InSubtree s n m → (s m).m_parent = some p → (s p).m_bDirty = true →
      (s m).m_bDirty = true)
    (h : needUpdate f s n = .ok s1) : DirtyClosed s1 := by
  obtain ⟨hod, hdirty⟩ := needUpdate_spec f s n s1 hs.parentInChildren h
  intro m q hmq hq
  rw [hod.parent_od] at hmq
  by_cases hin : InSubtree s n m
  · exact hdirty m hin
  · have hqn : ¬ InSubtree s n q := fun hq' => hin (inSubtree_parent hmq hq')
    rw [needUpdate_outside f s n s1 hs h q hqn] at hq
    rw [needUpdate_outside f s n s1 hs h m hin]
    exact hd m q hin hmq hq

/-- What an overwrite of `n` followed by dirty propagation leaves behind. -/
theorem edit_dirty_facts {f : Nat} {s s1 : State α} {n : NodeId} {v : Transforms α}
    (hs : Inv s) (hd : DirtyClosed s) (hp : v.m_parent = (s n).m_parent)
    (hc : v.m_children = (s n).m_children)
    (h : needUpdate f (Function.update s n v) n = .ok s1) :
    DirtyClosed s1 ∧ (∀ m, (s1 m).m_parent = (s m).m_parent) ∧
      (∀ m, InSubtree s n m → (s1 m).m_bDirty = true) ∧
      (∀ m, m ≠ n → (s m).m_bDirty = true → (s1 m).m_bDirty = true) := by
  have hpar : ∀ m, (Function.update s n v m).m_parent = (s m).m_parent := by
    intro m
    by_cases hm : m = n
    · subst hm; simpa using hp
    · rw [Function.update_noteq hm]
  have hch : ∀ m, (Function.update s n v m).m_children = (s m).m_children := by
    intro m
    by_cases hm : m = n
    · subst hm; simpa using hc
    · rw [Function.update_noteq hm]
  have hsE : Consistent (Function.update s n v) := consistent_congr hs.1 hpar hch
  obtain ⟨hod, hdirty⟩ := needUpdate_spec f _ n s1 hsE.parentInChildren h
  refine ⟨dirtyClosed_needUpdate hsE (fun m p hin hmp hpd => ?_) h,
    fun m => by rw [hod.parent_od, hpar], fun m hin => ?_, fun m hmn hm => ?_⟩
  · rw [inSubtree_congr hpar] at hin
    have hmn : m ≠ n := fun e => hin (e ▸ inSubtree_self s n)
    rw [hpar] at hmp
    have hpn : p ≠ n := fun e => hin ⟨1, by simp [ancestorAt, hmp, e]⟩
    rw [Function.update_noteq hpn] at hpd
    rw [Function.update_noteq hmn]
    exact hd m p hmp hpd
  · exact hdirty m ((inSubtree_congr hpar n m).mpr hin)
  · exact hod.dirty_od (by rw [Function.update_noteq hmn]; exact hm)

/-- What an operation that reads world values for `n`, overwrites `n` and propagates the dirty
flag leaves behind: the subtree of `n` is dirty, and a node is cleaned only if it is a proper
ancestor of `n`. -/
theorem EditAfterReads.edit_facts {f : Nat} {s s1 : State α} {n : NodeId} (hs : Inv s)
    (hd : DirtyClosed s) (h : EditAfterReads f s n s1) :
    DirtyClosed s1 ∧ (∀ m, (s1 m).m_parent = (s m).m_parent) ∧
      (∀ m, InSubtree s n m → (s1 m).m_bDirty = true) ∧
      (∀ m, (s m).m_bDirty = true → (s1 m).m_bDirty = false → m ≠ n ∧ InSubtree s m n) := by
  obtain ⟨s2, v, hr, hp, hc, hn⟩ := h
  obtain ⟨hi2, ho2, hd2, hf2⟩ := hr.facts hs hd
  obtain ⟨e1, e2, e3, e4⟩ := edit_dirty_facts hi2 hd2 hp hc hn
  have hpar : ∀ m, (s2 m).m_parent = (s m).m_parent := fun m => ho2.parent_oc m
  refine ⟨e1, fun m => by rw [e2, hpar], fun m hin => ?_, fun m hm hm1 => ?_⟩
  · exact e3 m ((inSubtree_congr hpar n m).mpr hin)
  · have hmn : m ≠ n := fun e => by
      rw [e, e3 n (inSubtree_self s2 n)] at hm1; exact nomatch hm1
    refine ⟨hmn, ?_⟩
    by_contra hin
    have h2 : (s2 m).m_bDirty = true := by rw [hf2 m hin]; exact hm
    rw [e4 m hmn h2] at hm1
    exact nomatch hm1

/-- After `setParent` the dirty flags are downward closed again, and no node was cleaned. -/
theorem setParent_dirty_facts {f : Nat} {s s1 : State α} {c : NodeId} {t : Option NodeId}
    (hs : Inv s) (hd : DirtyClosed s) (h : setParent f s c t = .ok s1) :
    DirtyClosed s1 ∧ (∀ m, InSubtree s1 c m → (s1 m).m_bDirty = true) ∧
      (∀ m, (s m).m_bDirty = true → (s1 m).m_bDirty = true) := by
  obtain ⟨s2, hl, hn⟩ := bind_eq_ok.mp h
  obtain ⟨-, rfl⟩ := setParentLinks_ok hs.1.parentInChildren hl
  have hsR := consistent_relink hs.1 c t
  obtain ⟨hod, hdirty⟩ := needUpdate_spec f _ c s1 hsR.parentInChildren hn
  have hdr : ∀ m, (relink s c t m).m_bDirty = (s m).m_bDirty := fun m => rfl
  refine ⟨dirtyClosed_needUpdate hsR (fun m p hin hmp hpd => ?_) hn, fun m hin => ?_,
    fun m hm => hod.dirty_od (by rw [hdr]; exact hm)⟩
  · have hmc : m ≠ c := by
      rintro rfl
      exact hin (inSubtree_self _ _)
    rw [relink_parent, if_neg hmc] at hmp
    rw [hdr] at hpd ⊢
    exact hd m p hmp hpd
  · exact hdirty m ((inSubtree_congr (fun a => hod.parent_od a) c m).mp hin)

/-! ### The operations that read world values -/

theorem translate_reads {s s1 : State α} {n : NodeId} {d : Vec3 α} {sp : transform_space_t}
    {f : Nat} (h : translate f s n d sp = .ok s1) :
    EditAfterReads f s n s1 ∧
      (sp ≠ .TS_WORLD → ∃ v : Transforms α, v.m_parent = (s n).m_parent ∧
        v.m_children = (s n).m_children ∧ needUpdate f (Function.update s n v) n = .ok s1) := by
  cases sp with
  | TS_LOCAL => exact ⟨⟨s, _, Reads.refl, by rfl, by rfl, h⟩, fun _ => ⟨_, by rfl, by rfl, h⟩⟩
  | TS_PARENT => exact ⟨⟨s, _, Reads.refl, by rfl, by rfl, h⟩, fun _ => ⟨_, by rfl, by rfl, h⟩⟩
  | TS_WORLD =>
    refine ⟨?_, fun hne => absurd rfl hne⟩
    cases hp : (s n).m_parent with
    | none =>
      rw [translate_world_root hp] at h
      exact ⟨s, _, Reads.refl, by rfl, by rfl, h⟩
    | some p =>
      simp only [translate, hp] at h
      obtain ⟨⟨sa, o⟩, h1, h⟩ := bind_eq_ok.mp h
      obtain ⟨⟨sb, sc⟩, h2, h⟩ := bind_eq_ok.mp h
      have r1 : Reads f s n sa := Reads.single (Or.inr hp) (getWorldOrientation_ok h1).1
      have r2 : Reads f s n sb := Reads.step p r1 (Or.inr hp) (getWorldScale_ok h2).1
      exact ⟨sb, _, r2, by rfl, by rfl, h⟩

theorem rotate_reads {s s1 : State α} {n : NodeId} {q : Quat α} {sp : transform_space_t}
    {f : Nat} (h : rotate f s n q sp = .ok s1) :
    EditAfterReads f s n s1 ∧
      (sp ≠ .TS_WORLD → ∃ v : Transforms α, v.m_parent = (s n).m_parent ∧
        v.m_children = (s n).m_children ∧ needUpdate f (Function.update s n v) n = .ok s1) := by
  cases sp with
  | TS_LOCAL => exact ⟨⟨s, _, Reads.refl, by rfl, by rfl, h⟩, fun _ => ⟨_, by rfl, by rfl, h⟩⟩
  | TS_PARENT => exact ⟨⟨s, _, Reads.refl, by rfl, by rfl, h⟩, fun _ => ⟨_, by rfl, by rfl, h⟩⟩
  | TS_WORLD =>
    refine ⟨?_, fun hne => absurd rfl hne⟩
    simp only [rotate] at h
    obtain ⟨⟨sa, o1⟩, h1, h⟩ := bind_eq_ok.mp h
    obtain ⟨⟨sb, o2⟩, h2, h⟩ := bind_eq_ok.mp h
    have r1 : Reads f s n sa := Reads.single (Or.inl rfl) (getWorldOrientation_ok h1).1
    have r2 : Reads f s n sb := Reads.step n r1 (Or.inl rfl) (getWorldOrientation_ok h2).1
    exact ⟨sb, _, r2, by rfl, by rfl, h⟩

theorem setDirection_reads {s s1 : State α} (hs : Inv s) (hd : DirtyClosed s) {n : NodeId}
    {v ldv : Vec3 α} {sp : transform_space_t} {f : Nat} (hv : v ≠ VEC3_ZERO)
    (h : setDirection f s n v sp ldv = .ok s1) : EditAfterReads f s n s1 := by
  unfold setDirection at h
  simp only [hv, ↓reduceIte] at h
  obtain ⟨⟨sA, td⟩, hA, h⟩ := bind_eq_ok.mp h
  obtain ⟨⟨sB, co⟩, hB, h⟩ := bind_eq_ok.mp h
  have rA : Reads f s n sA := by
    cases sp with
    | TS_LOCAL =>
      simp only at hA
      obtain ⟨⟨s2, o⟩, h1, h'⟩ := bind_eq_ok.mp hA
      have h'' := pure_eq_ok h'
      simp only [Prod.mk.injEq] at h''
      obtain ⟨rfl, -⟩ := h''
      exact Reads.single (Or.inl rfl) (getWorldOrientation_ok h1).1
    | TS_PARENT =>
      simp only at hA
      cases hp : (s n).m_parent with
      | none =>
        simp only [hp] at hA
        have h'' := pure_eq_ok hA
        simp only [Prod.mk.injEq] at h''
        obtain ⟨rfl, -⟩ := h''
        exact Reads.refl
      | some p =>
        simp only [hp] at hA
        cases hi : (s n).m_bInheritOrientation with
        | false =>
          simp only [hi, Bool.false_eq_true, ↓reduceIte] at hA
          have h'' := pure_eq_ok hA
          simp only [Prod.mk.injEq] at h''
          obtain ⟨rfl, -⟩ := h''
          exact Reads.refl
        | true =>
          simp only [hi, ↓reduceIte] at hA
          obtain ⟨⟨s2, o⟩, h1, h'⟩ := bind_eq_ok.mp hA
          have h'' := pure_eq_ok h'
          simp only [Prod.mk.injEq] at h''
          obtain ⟨rfl, -⟩ := h''
          exact Reads.single (Or.inr hp) (getWorldOrientation_ok h1).1
    | TS_WORLD =>
      simp only at hA
      have h'' := pure_eq_ok hA
      simp only [Prod.mk.injEq] at h''
      obtain ⟨rfl, -⟩ := h''
      exact Reads.refl
  have rB : Reads f s n sB := Reads.step n rA (Or.inl rfl) (getWorldOrientation_ok hB).1
  have hpB : (sB n).m_parent = (s n).m_parent := (rB.facts hs hd).2.1.parent_oc n
  simp only at h
  cases hp : (s n).m_parent with
  | none =>
    rw [hp] at hpB
    simp only [hpB] at h
    exact ⟨sB, _, rB, by rfl, by rfl, h⟩
  | some p =>
    rw [hp] at hpB
    simp only [hpB] at h
    cases hi : (sB n).m_bInheritOrientation with
    | false =>
      simp only [hi, Bool.false_eq_true, ↓reduceIte] at h
      exact ⟨sB, _, rB, by rfl, by rfl, h⟩
    | true =>
      simp only [hi, ↓reduceIte] at h
      obtain ⟨⟨sC, q⟩, hC, h⟩ := bind_eq_ok.mp h
      have rC : Reads f s n sC := Reads.step p rB (Or.inr hp) (getWorldOrientation_ok hC).1
      exact ⟨sC, _, rC, by rfl, by rfl, h⟩

/-- With the zero vector `lookAt` only reads world values, in TS_WORLD, or does nothing;
otherwise it reads world values, overwrites the local orientation and propagates the dirty
flag. -/
theorem lookAt_reads {s s1 : State α} (hs : Inv s) (hd : DirtyClosed s) {n : NodeId}
    {tp ldv : Vec3 α} {sp : transform_space_t} {f : Nat}
    (h : lookAt f s n tp sp ldv = .ok s1) :
    ∃ origin : Vec3 α,
      (sp = .TS_WORLD → ∀ k w, worldSpec k s n = some w → origin = w.position) ∧
      (sp = .TS_PARENT → origin = (s n).m_position) ∧
      (sp = .TS_LOCAL → origin = VEC3_ZERO) ∧
      (tp.sub origin ≠ VEC3_ZERO → EditAfterReads f s n s1) ∧
      (tp.sub origin = VEC3_ZERO → Reads f s n s1 ∧ (sp ≠ .TS_WORLD → s1 = s)) := by
  unfold lookAt at h
  obtain ⟨⟨sA, o⟩, h1, h⟩ := bind_eq_ok.mp h
  simp only at h
  have key : ∀ (origin : Vec3 α), Reads f s n sA → (sp ≠ .TS_WORLD → sA = s) →
      setDirection f sA n (tp.sub origin) sp ldv = .ok s1 →
      (tp.sub origin ≠ VEC3_ZERO → EditAfterReads f s n s1) ∧
      (tp.sub origin = VEC3_ZERO → Reads f s n s1 ∧ (sp ≠ .TS_WORLD → s1 = s)) := by
    intro origin rA hA hset
    obtain ⟨hiA, hoA, hdA, -⟩ := rA.facts hs hd
    refine ⟨fun hv => ?_, fun hv => ?_⟩
    · obtain ⟨s2, v, r2, hp, hc, hn⟩ := setDirection_reads hiA hdA hv hset
      exact ⟨s2, v, rA.trans (hoA.parent_oc n) r2, hp, hc, hn⟩
    · rw [hv, setDirection_zero] at hset
      obtain rfl := Except.ok.inj hset
      exact ⟨rA, hA⟩
  cases sp with
  | TS_WORLD =>
    simp only at h1
    obtain ⟨hr, rfl⟩ := getWorldPosition_ok h1
    obtain ⟨-, -, hv⟩ := getWorldPosition_value hs h1
    exact ⟨_, fun _ => hv, (fun h' => nomatch h'), (fun h' => nomatch h'),
      key _ (Reads.single (Or.inl rfl) hr) (fun hne => absurd rfl hne) h⟩
  | TS_PARENT =>
    simp only at h1
    have h'' := pure_eq_ok h1
    simp only [Prod.mk.injEq] at h''
    obtain ⟨rfl, rfl⟩ := h''
    exact ⟨_, (fun h' => nomatch h'), fun _ => rfl, (fun h' => nomatch h'),
      key _ Reads.refl (fun _ => rfl) h⟩
  | TS_LOCAL =>
    simp only at h1
    have h'' := pure_eq_ok h1
    simp only [Prod.mk.injEq] at h''
    obtain ⟨rfl, rfl⟩ := h''
    exact ⟨_, (fun h' => nomatch h'), (fun h' => nomatch h'), fun _ => rfl,
      key _ Reads.refl (fun _ => rfl) h⟩

/-! ### Dirty flags along public calls -/

theorem dirtyClosed_freshPool (t : NodeId → Option Nat) :
    DirtyClosed (freshPool t : State α) := fun _ _ _ _ => rfl

theorem dirtyClosed_reads_single {f : Nat} {s s1 : State α} {n : NodeId} (hs : Inv s)
    (hd : DirtyClosed s) (h : refresh (update f) s n = .ok s1) : DirtyClosed s1 :=
  dirtyClosed_refresh hs hd h

theorem dirtyClosed_tags {s : State α} (hd : DirtyClosed s) (n : NodeId) (l : List String) :
    DirtyClosed (Function.update s n { s n with m_tags := l }) := by
  have hp : ∀ m, (Function.update s n { s n with m_tags := l } m).m_parent =
      (s m).m_parent := by
    intro m
    by_cases hm : m = n
    · subst hm; simp
    · rw [Function.update_noteq hm]
  have hdy : ∀ m, (Function.update s n { s n with m_tags := l } m).m_bDirty =
      (s m).m_bDirty := by
    intro m
    by_cases hm : m = n
    · subst hm; simp
    · rw [Function.update_noteq hm]
  intro m p hmp hpd
  rw [hp] at hmp
  rw [hdy] at hpd ⊢
  exact hd m p hmp hpd

/-- Every public call that returns keeps the dirty flags downward closed. -/
theorem runCall_dirtyClosed {dec : Decompose α} {f : Nat} {s s1 : State α} {c : Call α}
    (hs : Inv s) (hd : DirtyClosed s) (h : runCall dec f s c = .ok s1) : DirtyClosed s1 := by
  cases c with
  | setParent n t => exact (setParent_dirty_facts hs hd h).1
  | set n m => exact (edit_dirty_facts hs hd (by rfl) (by rfl) h).1
  | getWorldMatrix n =>
    obtain ⟨v, hv⟩ := map_fst_eq_ok h
    exact dirtyClosed_refresh hs hd (getWorldMatrix_ok hv)
  | setPosition n v => exact (edit_dirty_facts hs hd (by rfl) (by rfl) h).1
  | translate n d sp => exact ((translate_reads h).1.edit_facts hs hd).1
  | getWorldPosition n =>
    obtain ⟨v, hv⟩ := map_fst_eq_ok h
    exact dirtyClosed_refresh hs hd (getWorldPosition_ok hv).1
  | setDirection n v sp ldv =>
    by_cases hv : v = VEC3_ZERO
    · simp only [runCall, hv, setDirection_zero] at h
      rw [← Except.ok.inj h]; exact hd
    · exact ((setDirection_reads hs hd hv h).edit_facts hs hd).1
  | lookAt n v sp ldv =>
    obtain ⟨origin, -, -, -, h1, h2⟩ := lookAt_reads hs hd h
    by_cases hv : v.sub origin = VEC3_ZERO
    · exact ((h2 hv).1.facts hs hd).2.2.1
    · exact ((h1 hv).edit_facts hs hd).1
  | setOrientation n q => exact (edit_dirty_facts hs hd (by rfl) (by rfl) h).1
  | rotate n q sp => exact ((rotate_reads h).1.edit_facts hs hd).1
  | resetOrientation n => exact (edit_dirty_facts hs hd (by rfl) (by rfl) h).1
  | setInheritOrientation n b => exact (edit_dirty_facts hs hd (by rfl) (by rfl) h).1
  | getWorldOrientation n =>
    obtain ⟨v, hv⟩ := map_fst_eq_ok h
    exact dirtyClosed_refresh hs hd (getWorldOrientation_ok hv).1
  | setScale n v => exact (edit_dirty_facts hs hd (by rfl) (by rfl) h).1
  | scale n v => exact (edit_dirty_facts hs hd (by rfl) (by rfl) h).1
  | setInheritScale n b => exact (edit_dirty_facts hs hd (by rfl) (by rfl) h).1
  | getWorldScale n =>
    obtain ⟨v, hv⟩ := map_fst_eq_ok h
    exact dirtyClosed_refresh hs hd (getWorldScale_ok hv).1
  | addTag n tag =>
    simp only [runCall, addTag] at h
    split at h
    · simp at h
    · simp only [Except.ok.injEq] at h; subst h
      exact dirtyClosed_tags hd n _
  | removeTag n tag =>
    simp only [runCall, removeTag] at h
    split at h
    · simp at h
    · simp only [Except.ok.injEq] at h; subst h
      exact dirtyClosed_tags hd n _

theorem Reachable.dirtyClosed {dec : Decompose α} {s : State α} (h : Reachable dec s) :
    DirtyClosed s := by
  induction h with
  | fresh t => exact dirtyClosed_freshPool t
  | call c fuel hr _ hrun ih => exact runCall_dirtyClosed hr.inv ih hrun

/-- The nodes whose dirty flag a call can change from true to false: a world-space getter
cleans only the node and its ancestors; the calls that read world values before they edit
clean only ancestors of the node, apart from a `lookAt` in world space whose target is the
world position of the node; no other call cleans a node. -/
theorem runCall_cleans {dec : Decompose α} {f : Nat} {s s1 : State α} {c : Call α}
    (hs : Inv s) (hd : DirtyClosed s) (h : runCall dec f s c = .ok s1) (m : NodeId)
    (hm : (s m).m_bDirty = true) (hm1 : (s1 m).m_bDirty = false) :
    (c.isWorldGetter = true ∨ c.readsWorld = true) ∧ InSubtree s m c.node ∧
    (c.isMutator = true → m = c.node → ∃ tp ldv, c = .lookAt m tp .TS_WORLD ldv ∧
      ∀ k w, worldSpec k s m = some w → tp = w.position) := by
  have same : s1 m = s m → False := fun e => by
    rw [e, hm] at hm1; exact nomatch hm1
  have pure : ∀ {n : NodeId} {v : Transforms α}, v.m_parent = (s n).m_parent →
      v.m_children = (s n).m_children → needUpdate f (Function.update s n v) n = .ok s1 →
      False := by
    intro n v hp hc hn
    obtain ⟨-, -, e3, e4⟩ := edit_dirty_facts hs hd hp hc hn
    by_cases hmn : m = n
    · rw [hmn, e3 n (inSubtree_self s n)] at hm1; exact nomatch hm1
    · rw [e4 m hmn hm] at hm1; exact nomatch hm1
  have reads : ∀ {n : NodeId}, Reads f s n s1 → InSubtree s m n := by
    intro n hr
    by_contra hin
    exact same ((hr.facts hs hd).2.2.2 m hin)
  have edit : ∀ {n : NodeId}, EditAfterReads f s n s1 → m ≠ n ∧ InSubtree s m n :=
    fun he => (he.edit_facts hs hd).2.2.2 m hm hm1
  have tags : ∀ (n : NodeId) (l : List String),
      s1 = Function.update s n { s n with m_tags := l } → False := by
    intro n l e
    by_cases hmn : m = n
    · subst hmn; rw [e] at hm1; simp [hm] at hm1
    · rw [e, Function.update_noteq hmn, hm] at hm1; exact nomatch hm1
  cases c with
  | setParent n t =>
    rw [(setParent_dirty_facts hs hd h).2.2 m hm] at hm1; exact nomatch hm1
  | set n mx => exact (pure (by rfl) (by rfl) h).elim
  | getWorldMatrix n =>
    obtain ⟨v, hv⟩ := map_fst_eq_ok h
    exact ⟨Or.inl rfl, reads (Reads.single (Or.inl rfl) (getWorldMatrix_ok hv)),
      fun e => nomatch e⟩
  | setPosition n v => exact (pure (by rfl) (by rfl) h).elim
  | translate n d sp =>
    have h : translate f s n d sp = .ok s1 := h
    cases sp with
    | TS_LOCAL =>
      obtain ⟨v, hp, hc, hn⟩ := (translate_reads h).2 (by decide)
      exact (pure hp hc hn).elim
    | TS_PARENT =>
      obtain ⟨v, hp, hc, hn⟩ := (translate_reads h).2 (by decide)
      exact (pure hp hc hn).elim
    | TS_WORLD =>
      obtain ⟨hne, hin⟩ := edit (translate_reads h).1
      exact ⟨Or.inr rfl, hin, fun _ e => absurd e hne⟩
  | getWorldPosition n =>
    obtain ⟨v, hv⟩ := map_fst_eq_ok h
    exact ⟨Or.inl rfl, reads (Reads.single (Or.inl rfl) (getWorldPosition_ok hv).1),
      fun e => nomatch e⟩
  | setDirection n v sp ldv =>
    by_cases hv : v = VEC3_ZERO
    · simp only [runCall, hv, setDirection_zero] at h
      exact (same (by rw [← Except.ok.inj h])).elim
    · obtain ⟨hne, hin⟩ := edit (setDirection_reads hs hd hv h)
      exact ⟨Or.inr rfl, hin, fun _ e => absurd e hne⟩
  | lookAt n v sp ldv =>
    obtain ⟨origin, o1, -, -, h1, h2⟩ := lookAt_reads hs hd h
    by_cases hv : v.sub origin = VEC3_ZERO
    · obtain ⟨hr, hsame⟩ := h2 hv
      cases sp with
      | TS_LOCAL => exact (same (by rw [hsame (by decide)])).elim
      | TS_PARENT => exact (same (by rw [hsame (by decide)])).elim
      | TS_WORLD =>
        refine ⟨Or.inr rfl, reads hr, fun _ e => ?_⟩
        have e1 : m = n := e
        subst e1
        refine ⟨v, ldv, rfl, fun k w hw => ?_⟩
        rw [← o1 rfl k w hw]
        by_contra hne
        exact Vec3.sub_ne_zero hne hv
    · obtain ⟨hne, hin⟩ := edit (h1 hv)
      exact ⟨Or.inr rfl, hin, fun _ e => absurd e hne⟩
  | setOrientation n q => exact (pure (by rfl) (by rfl) h).elim
  | rotate n q sp =>
    have h : rotate f s n q sp = .ok s1 := h
    cases sp with
    | TS_LOCAL =>
      obtain ⟨v, hp, hc, hn⟩ := (rotate_reads h).2 (by decide)
      exact (pure hp hc hn).elim
    | TS_PARENT =>
      obtain ⟨v, hp, hc, hn⟩ := (rotate_reads h).2 (by decide)
      exact (pure hp hc hn).elim
    | TS_WORLD =>
      obtain ⟨hne, hin⟩ := edit (rotate_reads h).1
      exact ⟨Or.inr rfl, hin, fun _ e => absurd e hne⟩
  | resetOrientation n => exact (pure (by rfl) (by rfl) h).elim
  | setInheritOrientation n b => exact (pure (by rfl) (by rfl) h).elim
  | getWorldOrientation n =>
    obtain ⟨v, hv⟩ := map_fst_eq_ok h
    exact ⟨Or.inl rfl, reads (Reads.single (Or.inl rfl) (getWorldOrientation_ok hv).1),
      fun e => nomatch e⟩
  | setScale n v => exact (pure (by rfl) (by rfl) h).elim
  | scale n v => exact (pure (by rfl) (by rfl) h).elim
  | setInheritScale n b => exact (pure (by rfl) (by rfl) h).elim
  | getWorldScale n =>
    obtain ⟨v, hv⟩ := map_fst_eq_ok h
    exact ⟨Or.inl rfl, reads (Reads.single (Or.inl rfl) (getWorldScale_ok hv).1),
      fun e => nomatch e⟩
  | addTag n tag =>
    simp only [runCall, addTag] at h
    split at h
    · simp at h
    · simp only [Except.ok.injEq] at h
      exact (tags n _ h.symm).elim
  | removeTag n tag =>
    simp only [runCall, removeTag] at h
    split at h
    · simp at h
    · simp only [Except.ok.injEq] at h
      exact (tags n _ h.symm).elim

/-- In an acyclic hierarchy where all the nodes that have a parent are in a finite set, no
chain of parents has more links than the set has members. -/
theorem depthBound_of_finite {s : State α} (ha : Acyclic s) (F : Finset NodeId)
    (hF : ∀ m, (s m).m_parent ≠ none → m ∈ F) : DepthBound s F.card := by
  intro m k a hk
  have hn := ha.noCycle
  have hsplit : ∀ i j, i + j = k → ∃ x, ancestorAt s m i = some x ∧
      ancestorAt s x j = some a := by
    intro i j hij
    have h1 := ancestorAt_add s m i j
    rw [hij, hk] at h1
    cases hx : ancestorAt s m i with
    | none => rw [hx] at h1; exact nomatch h1
    | some x => rw [hx] at h1; exact ⟨x, rfl, h1.symm⟩
  have hcard : (Finset.range k).card ≤ F.card := by
    apply Finset.card_le_card_of_injOn (fun i => (ancestorAt s m i).getD 0)
    · intro i hi
      have hik : i < k := Finset.mem_range.mp hi
      obtain ⟨x, hx, hxa⟩ := hsplit i (k - i) (by omega)
      obtain ⟨j, hj⟩ : ∃ j, k - i = j + 1 := ⟨k - i - 1, by omega⟩
      rw [hj] at hxa
      simp only [hx, Option.getD_some]
      apply hF
      intro hp
      simp [ancestorAt, hp] at hxa
    · intro i hi j hj hij
      have hik : i < k := Finset.mem_range.mp hi
      have hjk : j < k := Finset.mem_range.mp hj
      obtain ⟨x, hx, -⟩ := hsplit i (k - i) (by omega)
      obtain ⟨y, hy, -⟩ := hsplit j (k - j) (by omega)
      simp only [hx, hy, Option.getD_some] at hij
      subst hij
      by_contra hne
      rcases Nat.lt_or_gt_of_ne hne with hlt | hlt
      · obtain ⟨d, hd⟩ : ∃ d, j = i + (d + 1) := ⟨j - i - 1, by omega⟩
        have h1 := ancestorAt_add s m i (d + 1)
        rw [← hd, hy, hx] at h1
        exact hn x d h1.symm
      · obtain ⟨d, hd⟩ : ∃ d, i = j + (d + 1) := ⟨i - j - 1, by omega⟩
        have h1 := ancestorAt_add s m j (d + 1)
        rw [← hd, hx, hy] at h1
        exact hn x d h1.symm
  simpa using hcard

end Lemmas







/-! ## The claims -/

section Claims

variable {α : Type} [LinearOrderedField α] [RealOps α]

/-- Claim C1: in every state reachable from freshly constructed nodes by public calls that
keep the hierarchy acyclic, and for every node `n`, the non-cached recursive definition
`worldSpec` has a value `w` at `n`, and `getWorldPosition`, `getWorldOrientation` and
`getWorldScale` called on `n` (with a call stack at least as deep as the chain of parents of
`n`) return exactly `w.position`, `w.orientation` and `w.scale`, whatever the dirty flags are;
the world getters are among the calls of `Reachable`, so this holds whichever getters were
called before. -/
theorem world_getters_refine_worldSpec (dec : Decompose α) (s : State α)
    (h : Reachable dec s) (n : NodeId) :
    ∃ (k : Nat) (w : World α), worldSpec k s n = some w ∧
      ∀ g, k ≤ g → ∃ s1, getWorldPosition g s n = .ok (s1, w.position) ∧
        getWorldOrientation g s n = .ok (s1, w.orientation) ∧
        getWorldScale g s n = .ok (s1, w.scale) := by
  have hs := h.inv
  obtain ⟨k, hk⟩ := hs.2.1 n
  obtain ⟨w, hw⟩ := worldSpec_of_depth hk
  refine ⟨k, w, hw, fun g hg => ?_⟩
  obtain ⟨s1, w', hw', h1, h2, h3⟩ := getters_spec hs hk g hg
  rw [hw] at hw'
  obtain rfl := Option.some.inj hw'
  exact ⟨s1, h1, h2, h3⟩

/-- Witness of claim C1: node 1 after `1.setParent(0)` and `0.setPosition(10, 10, 10)`. -/
theorem world_getters_refine_worldSpec_witness :
    ∃ s1 s2 : State ℚ, setParent 2 (freshPool fun _ => none) 1 (some 0) = .ok s1 ∧
      setPosition 2 s1 0 ⟨10, 10, 10⟩ = .ok s2 ∧
      ∃ (k : Nat) (w : World ℚ), worldSpec k s2 1 = some w ∧
        ∀ g, k ≤ g → ∃ s3, getWorldPosition g s2 1 = .ok (s3, w.position) ∧
          getWorldOrientation g s2 1 = .ok (s3, w.orientation) ∧
          getWorldScale g s2 1 = .ok (s3, w.scale) :=
  ⟨_, _, rfl, rfl,
    world_getters_refine_worldSpec keepDecompose _
      (Reachable.call (.setPosition 0 ⟨10, 10, 10⟩) 2
        (Reachable.call (.setParent 1 (some 0)) 2 (Reachable.fresh _)
          (not_inSubtree_freshPool _ (by decide)) rfl)
        trivial rfl) 1⟩

/-- Claim C2 (cache invariant): in every state reachable from fresh nodes by the public calls
(hierarchy kept acyclic), whenever the dirty flag of a node `n` is false, its cached world
position, orientation and scale are the values `w` that the non-cached recursive definition
`worldSpec` gives from the local values of `n` and of all its ancestors. These are also the
values that the recomputation `update` of the code writes for `n` when it starts from nothing
but the local values: run in any state that has the same links, local values and inherit
flags, every node marked dirty and any contents whatever in the cached fields, `update`
returns (with a call stack as deep as the chain of parents) and leaves `w` in the cache of
`n`. -/
theorem clean_cache_eq_recomputation (dec : Decompose α) (s : State α)
    (h : Reachable dec s) (n : NodeId) (hn : (s n).m_bDirty = false) :
    ∃ (k : Nat) (w : World α), worldSpec k s n = some w ∧
      (s n).m_fullPosition = w.position ∧ (s n).m_fullOrientation = w.orientation ∧
      (s n).m_fullScale = w.scale ∧
      ∀ s0 : State α, OnlyCached s s0 → (∀ m, (s0 m).m_bDirty = true) →
        ∀ g, k ≤ g → ∃ s1, update g s0 n = .ok s1 ∧
          (s1 n).m_fullPosition = w.position ∧ (s1 n).m_fullOrientation = w.orientation ∧
          (s1 n).m_fullScale = w.scale ∧ (s1 n).m_bDirty = false := by
  have hs := h.inv
  obtain ⟨k, hk⟩ := hs.2.1 n
  obtain ⟨w, hw⟩ := worldSpec_of_depth hk
  obtain ⟨j, hj⟩ := hs.2.2 n hn
  have hcw : cachedWorld (s n) = w := worldSpec_unique hj hw
  refine ⟨k, w, hw, congrArg World.position hcw, congrArg World.orientation hcw,
    congrArg World.scale hcw, fun s0 ho hd g hg => ?_⟩
  have hm : Inv s0 :=
    ⟨consistent_congr hs.1 (fun m => ho.parent_oc m) (fun m => ho.children_oc m),
      acyclic_congr hs.2.1 (fun m => ho.parent_oc m),
      fun m hm => by rw [hd m] at hm; exact nomatch hm⟩
  have hk0 : ancestorAt s0 n k = none := by rw [ho.ancestorAt_oc]; exact hk
  obtain ⟨s1, w0, hr, hw0, hc, hi1, ho1⟩ := refresh_spec hm hk0 g hg
  rw [refresh_dirty (hd n)] at hr
  rw [worldSpec_congr (fun m => ho.locals_oc m), hw] at hw0
  obtain rfl := Option.some.inj hw0
  refine ⟨s1, hr, congrArg World.position hc, congrArg World.orientation hc,
    congrArg World.scale hc, ?_⟩
  exact update_clean g s0 n s1 hr

/-- Witness of claim C2: node `1` is the child of node `0`, which is at (10,10,10); node `1` is
clean after a read of its world position. -/
theorem clean_cache_eq_recomputation_witness :
    ∃ (s1 s2 s3 : State ℚ) (v : Vec3 ℚ),
      setParent 2 (freshPool fun _ => none) 1 (some 0) = .ok s1 ∧
      setPosition 2 s1 0 ⟨10, 10, 10⟩ = .ok s2 ∧
      getWorldPosition 2 s2 1 = .ok (s3, v) ∧ (s3 1).m_bDirty = false ∧
      (s3 1).m_fullPosition = ⟨10, 10, 10⟩ ∧
      ∃ (k : Nat) (w : World ℚ), worldSpec k s3 1 = some w ∧
        (s3 1).m_fullPosition = w.position ∧ (s3 1).m_fullOrientation = w.orientation ∧
        (s3 1).m_fullScale = w.scale ∧
        ∀ s0 : State ℚ, OnlyCached s3 s0 → (∀ m, (s0 m).m_bDirty = true) →
          ∀ g, k ≤ g → ∃ s4, update g s0 1 = .ok s4 ∧
            (s4 1).m_fullPosition = w.position ∧ (s4 1).m_fullOrientation = w.orientation ∧
            (s4 1).m_fullScale = w.scale ∧ (s4 1).m_bDirty = false :=
  ⟨_, _, _, _, rfl, rfl, rfl, rfl, by decide!,
    clean_cache_eq_recomputation keepDecompose _
      (Reachable.call (.getWorldPosition 1) 2
        (Reachable.call (.setPosition 0 ⟨10, 10, 10⟩) 2
          (Reachable.call (.setParent 1 (some 0)) 2 (Reachable.fresh _)
            (not_inSubtree_freshPool _ (by decide)) rfl)
          trivial rfl)
        trivial rfl) 1 rfl⟩

/-- Claim C3: parent/children consistency is an invariant of `setParent`: starting from fresh
nodes, after any sequence of `setParent` calls (new parent different from the node itself), for
all nodes `n` and `p`, `n` occurs in the child list of `p` if and only if the parent of `n` is
`p`, and it then occurs exactly once. The links that a further such call writes (before its
dirty propagation) are written without fault and are consistent again. -/
theorem setParent_keeps_consistency (s : State α) (h : ReachableBySetParent s)
    (n p : NodeId) :
    (n ∈ getChildren s p ↔ getParent s n = some p) ∧
      (getParent s n = some p → (getChildren s p).count n = 1) ∧
      ∀ (c : NodeId) (t : Option NodeId), t ≠ some c →
        ∃ s2, setParentLinks s c t = .ok s2 ∧ Consistent s2 := by
  have hs := h.consistent
  refine ⟨hs.1 n p, fun hp => ?_, fun c t ht => ?_⟩
  · exact List.count_eq_one_of_mem (hs.2 p) ((hs.1 n p).mpr hp)
  · exact ⟨_, setParentLinks_eq ht (fun q hq => hs.parentInChildren c q hq),
      consistent_relink hs c t⟩

/-- Witness of claim C3: the test "Switch parent", `c.setParent(p1); c.setParent(p2)` with
`p1 = 0`, `p2 = 1`, `c = 2`. -/
theorem setParent_keeps_consistency_witness :
    ∃ s1 s2 : State ℚ, setParent 2 (freshPool fun _ => none) 2 (some 0) = .ok s1 ∧
      setParent 2 s1 2 (some 1) = .ok s2 ∧
      (2 ∈ getChildren s2 1 ↔ getParent s2 2 = some 1) ∧
      (getParent s2 2 = some 1 → (getChildren s2 1).count 2 = 1) :=
  ⟨_, _, rfl, rfl,
    (setParent_keeps_consistency _
      (ReachableBySetParent.setParent 2 (some 1) 2
        (ReachableBySetParent.setParent 2 (some 0) 2 (ReachableBySetParent.fresh _)
          (by decide) rfl)
        (by decide) rfl) 2 1).1,
    (setParent_keeps_consistency _
      (ReachableBySetParent.setParent 2 (some 1) 2
        (ReachableBySetParent.setParent 2 (some 0) 2 (ReachableBySetParent.fresh _)
          (by decide) rfl)
        (by decide) rfl) 2 1).2.1⟩

/-- Counterexample to claim C5: after `0.setParent(1)` on fresh nodes, the call
`1.setParent(0)` is accepted (the new parent is not the node itself and no assertion fails),
the links it writes make node 0 its own grandparent, and the dirty propagation that follows
uses up every call stack, so the call never returns. -/
theorem setParent_cycle_counterexample :
    ∃ s1 s2 : State ℚ, setParent 2 (freshPool fun _ => none) 0 (some 1) = .ok s1 ∧
      (some 0 : Option NodeId) ≠ some 1 ∧ setParentLinks s1 1 (some 0) = .ok s2 ∧
      ancestorAt s2 0 2 = some 0 ∧
      ∀ f, setParent f s1 1 (some 0) = .error .stackOverflow := by
  refine ⟨_, _, rfl, by decide, rfl, rfl, fun f => ?_⟩
  have key : ∀ (f : Nat) (t : State ℚ), (t 0).m_children = [1] → (t 1).m_children = [0] →
      needUpdate f t 0 = .error .stackOverflow ∧ needUpdate f t 1 = .error .stackOverflow := by
    intro f
    induction f with
    | zero => intro t _ _; exact ⟨rfl, rfl⟩
    | succ f ih =>
      intro t h0 h1
      have hd0 := onlyDirtied_set t 0
      have hd1 := onlyDirtied_set t 1
      have a0 := ih _ (by rw [hd0.children_od, h0]) (by rw [hd0.children_od, h1])
      have a1 := ih _ (by rw [hd1.children_od, h0]) (by rw [hd1.children_od, h1])
      constructor
      · rw [needUpdate_succ, h0, List.foldlM_cons, a0.2]; rfl
      · rw [needUpdate_succ, h1, List.foldlM_cons, a1.1]; rfl
  exact (key f _ rfl rfl).2

/-- Claim C5, amended: in every state reachable from fresh nodes by `setParent` calls whose new
parent is neither the node itself nor one of its descendants, no node is its own parent or its
own ancestor. -/
theorem forest_setParent_noCycle (s : State α) (h : ReachableByForestSetParent s)
    (n : NodeId) (k : Nat) : ancestorAt s n (k + 1) ≠ some n :=
  h.inv_forest.2.1.noCycle n k

/-- Witness of claim C5, amended: after `1.setParent(0)` on fresh nodes neither node is its
own parent. -/
theorem forest_setParent_noCycle_witness :
    ∃ s1 : State ℚ, setParent 2 (freshPool fun _ => none) 1 (some 0) = .ok s1 ∧
      ¬ InSubtree (freshPool (fun _ => none) : State ℚ) 1 0 ∧
      ancestorAt s1 1 (0 + 1) ≠ some 1 ∧ ancestorAt s1 0 (0 + 1) ≠ some 0 :=
  ⟨_, rfl, not_inSubtree_freshPool _ (by decide),
    forest_setParent_noCycle _
      (ReachableByForestSetParent.setParent 1 (some 0) 2 (ReachableByForestSetParent.fresh _)
        (fun _ hp => by cases hp; exact not_inSubtree_freshPool _ (by decide)) rfl) 1 0,
    forest_setParent_noCycle _
      (ReachableByForestSetParent.setParent 1 (some 0) 2 (ReachableByForestSetParent.fresh _)
        (fun _ hp => by cases hp; exact not_inSubtree_freshPool _ (by decide)) rfl) 0 0⟩

/-- Claim C6: for every node `n` with a parent `p` (in a reachable state, with a call stack at
least as deep as the chain of parents of `n`, which is finite), `getWorldPosition` returns the
parent's world orientation applied to (the parent's world scale times the local position of
`n`, component-wise), plus the parent's world position, whatever the inherit flags of `n` are;
in particular a parent at world position (10,10,10) with world scale 2 and identity world
orientation puts a child with local position (20,30,40) at world position (50,70,90). -/
theorem world_position_formula (dec : Decompose α) (s : State α) (h : Reachable dec s)
    (n p : NodeId) (hp : getParent s n = some p) :
    (∃ k, ancestorAt s n k = none) ∧
    ∀ k g, ancestorAt s n k = none → k ≤ g →
      ∃ (s1 s2 : State α) (po : Quat α) (ps pp : Vec3 α),
        getWorldOrientation g s p = .ok (s1, po) ∧ getWorldScale g s p = .ok (s1, ps) ∧
        getWorldPosition g s p = .ok (s1, pp) ∧
        getWorldPosition g s n = .ok (s2, (po.rotate (ps.mul (getPosition s n))).add pp) ∧
        (pp = ⟨10, 10, 10⟩ → ps = ⟨2, 2, 2⟩ → po = QUAT_IDENTITY →
          getPosition s n = ⟨20, 30, 40⟩ →
          getWorldPosition g s n = .ok (s2, ⟨50, 70, 90⟩)) := by
  have hs := h.inv
  refine ⟨hs.2.1 n, fun k g hk hg => ?_⟩
  cases k with
  | zero => simp [ancestorAt] at hk
  | succ k =>
    have hp' : (s n).m_parent = some p := hp
    have hkp : ancestorAt s p k = none := by simpa [ancestorAt, hp'] using hk
    obtain ⟨s1, pw, hpw, h1, h2, h3⟩ := getters_spec hs hkp g (by omega)
    obtain ⟨s2, w, hw, h4, -, -⟩ := getters_spec hs hk g hg
    rw [worldSpec_succ_some hp hpw] at hw
    obtain rfl := Option.some.inj hw
    refine ⟨s1, s2, pw.orientation, pw.scale, pw.position, h2, h3, h1, h4, ?_⟩
    intro e1 e2 e3 e4
    rw [h4]
    simp only [getPosition] at e4
    simp only [combine, e1, e2, e3, e4, Quat.rotate, Vec3.add, Vec3.mul, Vec3.smul, Vec3.cross,
      QUAT_IDENTITY]
    norm_num

/-- Witness of claim C6: the test "Set position with scaled parent", with `p = 0`, `c = 1`. -/
theorem world_position_formula_witness :
    ∃ s1 s2 s3 s4 s5 : State ℚ,
      setParent 2 (freshPool fun _ => none) 1 (some 0) = .ok s1 ∧
      setPosition 2 s1 0 ⟨10, 10, 10⟩ = .ok s2 ∧ setScale 2 s2 0 ⟨2, 2, 2⟩ = .ok s3 ∧
      setPosition 2 s3 1 ⟨20, 30, 40⟩ = .ok s4 ∧ getParent s4 1 = some 0 ∧
      getWorldPosition 2 s4 1 = .ok (s5, ⟨50, 70, 90⟩) := by
  have hr : ∃ s1 s2 s3 s4 sp : State ℚ,
      setParent 2 (freshPool fun _ => none) 1 (some 0) = .ok s1 ∧
      setPosition 2 s1 0 ⟨10, 10, 10⟩ = .ok s2 ∧ setScale 2 s2 0 ⟨2, 2, 2⟩ = .ok s3 ∧
      setPosition 2 s3 1 ⟨20, 30, 40⟩ = .ok s4 ∧ getParent s4 1 = some 0 ∧
      getPosition s4 1 = ⟨20, 30, 40⟩ ∧ ancestorAt s4 1 2 = none ∧
      getWorldOrientation 2 s4 0 = .ok (sp, QUAT_IDENTITY) ∧
      getWorldScale 2 s4 0 = .ok (sp, ⟨2, 2, 2⟩) ∧
      getWorldPosition 2 s4 0 = .ok (sp, ⟨10, 10, 10⟩) ∧ Reachable keepDecompose s4 :=
    ⟨_, _, _, _, _, rfl, rfl, rfl, rfl, rfl, rfl, rfl, rfl, rfl, rfl,
      Reachable.call (.setPosition 1 ⟨20, 30, 40⟩) 2
        (Reachable.call (.setScale 0 ⟨2, 2, 2⟩) 2
          (Reachable.call (.setPosition 0 ⟨10, 10, 10⟩) 2
            (Reachable.call (.setParent 1 (some 0)) 2 (Reachable.fresh _)
              (not_inSubtree_freshPool _ (by decide)) rfl)
            trivial rfl)
          trivial rfl)
        trivial rfl⟩
  obtain ⟨s1, s2, s3, s4, sp, e1, e2, e3, e4, hp, hpos, hk, ho, hsc, hps, hreach⟩ := hr
  obtain ⟨t1, t2, po, ps, pp, h1, h2, h3, -, hex⟩ :=
    (world_position_formula keepDecompose s4 hreach 1 0 hp).2 2 2 hk (le_refl 2)
  rw [ho] at h1
  rw [hsc] at h2
  rw [hps] at h3
  simp only [Except.ok.injEq, Prod.mk.injEq] at h1 h2 h3
  exact ⟨s1, s2, s3, s4, t2, e1, e2, e3, e4, hp, hex h3.2.symm h2.2.symm h1.2.symm hpos⟩

/-- Claim C7: for every node `n` with a parent `p` (in a reachable state, with a call stack at
least as deep as the chain of parents of `n`): when `inheritOrientation` is true
`getWorldOrientation` returns `normalize(parentWorldOrientation * localOrientation)`, and when
`inheritScale` is true `getWorldScale` returns the component-wise product
`parentWorldScale * localScale`; hence when all nodes on the chain of parents of `n` inherit
scale the world scale is the component-wise product `chainScale` of the local scales on the
chain, and a parent with world scale (2,3,4) gives a child with local scale (2,3,4) the world
scale (4,9,16). -/
theorem world_orientation_scale_formula (dec : Decompose α) (s : State α)
    (h : Reachable dec s) (n p : NodeId) (hp : getParent s n = some p) :
    (∃ k, ancestorAt s n k = none) ∧
    ∀ k g, ancestorAt s n k = none → k ≤ g →
      ∃ (s1 s2 : State α) (po : Quat α) (ps : Vec3 α),
        getWorldOrientation g s p = .ok (s1, po) ∧ getWorldScale g s p = .ok (s1, ps) ∧
        (inheritOrientation s n = true →
          getWorldOrientation g s n = .ok (s2, (po.mul (getOrientation s n)).normalize)) ∧
        (inheritScale s n = true →
          getWorldScale g s n = .ok (s2, ps.mul (getScale s n))) ∧
        ((∀ j a, ancestorAt s n j = some a → inheritScale s a = true) →
          ∃ v, chainScale k s n = some v ∧ getWorldScale g s n = .ok (s2, v)) ∧
        (inheritScale s n = true → ps = ⟨2, 3, 4⟩ → getScale s n = ⟨2, 3, 4⟩ →
          getWorldScale g s n = .ok (s2, ⟨4, 9, 16⟩)) := by
  have hs := h.inv
  refine ⟨hs.2.1 n, fun k g hk hg => ?_⟩
  cases k with
  | zero => simp [ancestorAt] at hk
  | succ k =>
    have hp' : (s n).m_parent = some p := hp
    have hkp : ancestorAt s p k = none := by simpa [ancestorAt, hp'] using hk
    obtain ⟨s1, pw, hpw, -, h2, h3⟩ := getters_spec hs hkp g (by omega)
    obtain ⟨s2, w, hw, -, h5, h6⟩ := getters_spec hs hk g hg
    have hw' := hw
    rw [worldSpec_succ_some hp hpw] at hw
    obtain rfl := Option.some.inj hw
    refine ⟨s1, s2, pw.orientation, pw.scale, h2, h3, fun hi => ?_, fun hi => ?_,
      fun hi => ⟨_, chainScale_of_worldSpec hw' hi, h6⟩, fun hi e1 e2 => ?_⟩
    · simp only [inheritOrientation] at hi
      rw [h5]; simp [combine, hi, getOrientation]
    · simp only [inheritScale] at hi
      rw [h6]; simp [combine, hi, getScale]
    · simp only [inheritScale] at hi
      simp only [getScale] at e2
      rw [h6]
      simp only [combine, hi, e1, e2, Vec3.mul, ↓reduceIte]
      norm_num

/-- Witness of claim C7: the test "Set scale of parent and child", with `p = 0`, `c = 1`. -/
theorem world_orientation_scale_formula_witness :
    ∃ s1 s2 s3 s4 : State ℚ,
      setParent 2 (freshPool fun _ => none) 1 (some 0) = .ok s1 ∧
      setScale 2 s1 0 ⟨2, 3, 4⟩ = .ok s2 ∧ setScale 2 s2 1 ⟨2, 3, 4⟩ = .ok s3 ∧
      getParent s3 1 = some 0 ∧ getWorldScale 2 s3 1 = .ok (s4, ⟨4, 9, 16⟩) := by
  have hr : ∃ s1 s2 s3 sp : State ℚ,
      setParent 2 (freshPool fun _ => none) 1 (some 0) = .ok s1 ∧
      setScale 2 s1 0 ⟨2, 3, 4⟩ = .ok s2 ∧ setScale 2 s2 1 ⟨2, 3, 4⟩ = .ok s3 ∧
      getParent s3 1 = some 0 ∧ getScale s3 1 = ⟨2, 3, 4⟩ ∧ inheritScale s3 1 = true ∧
      ancestorAt s3 1 2 = none ∧ getWorldScale 2 s3 0 = .ok (sp, ⟨2, 3, 4⟩) ∧
      Reachable keepDecompose s3 :=
    ⟨_, _, _, _, rfl, rfl, rfl, rfl, rfl, rfl, rfl, rfl,
      Reachable.call (.setScale 1 ⟨2, 3, 4⟩) 2
        (Reachable.call (.setScale 0 ⟨2, 3, 4⟩) 2
          (Reachable.call (.setParent 1 (some 0)) 2 (Reachable.fresh _)
            (not_inSubtree_freshPool _ (by decide)) rfl)
          trivial rfl)
        trivial rfl⟩
  obtain ⟨s1, s2, s3, sp, e1, e2, e3, hp, hsc, hi, hk, hps, hreach⟩ := hr
  obtain ⟨t1, t2, po, ps, -, h2, -, -, -, hex⟩ :=
    (world_orientation_scale_formula keepDecompose s3 hreach 1 0 hp).2 2 2 hk (le_refl 2)
  rw [hps] at h2
  simp only [Except.ok.injEq, Prod.mk.injEq] at h2
  exact ⟨s1, s2, s3, t2, e1, e2, e3, hp, hex hi h2.2.symm hsc⟩

/-- Claim C8 (inheritance off): in a reachable state, for every node `n` with
`inheritOrientation == false` the world orientation is the local orientation of `n`, and after
the orientation of any other node `a` (the parent or any ancestor of `n` in particular) is
changed by `setOrientation` it is still that same value; for every node `n` with
`inheritScale == false` the world scale is the local scale of `n`, and it is still that value
after the scale of any other node is changed by `setScale`. -/
theorem inheritance_off (dec : Decompose α) (s : State α) (h : Reachable dec s)
    (n : NodeId) :
    (∃ k, ancestorAt s n k = none) ∧
    ∀ k g, ancestorAt s n k = none → k ≤ g →
      (inheritOrientation s n = false →
        (∃ s1, getWorldOrientation g s n = .ok (s1, getOrientation s n)) ∧
        ∀ (a : NodeId) (q : Quat α) (f : Nat) (s' : State α), a ≠ n →
          setOrientation f s a q = .ok s' →
          ∃ s1, getWorldOrientation g s' n = .ok (s1, getOrientation s n)) ∧
      (inheritScale s n = false →
        (∃ s1, getWorldScale g s n = .ok (s1, getScale s n)) ∧
        ∀ (a : NodeId) (v : Vec3 α) (f : Nat) (s' : State α), a ≠ n →
          setScale f s a v = .ok s' →
          ∃ s1, getWorldScale g s' n = .ok (s1, getScale s n)) := by
  have hs := h.inv
  refine ⟨hs.2.1 n, fun k g hk hg => ⟨fun hi => ⟨?_, fun a q f s' han h' => ?_⟩,
    fun hi => ⟨?_, fun a v f s' han h' => ?_⟩⟩⟩
  · obtain ⟨s1, w, hw, -, h2, -⟩ := getters_spec hs hk g hg
    exact ⟨s1, by rw [h2, worldSpec_orientation_off hw hi]; rfl⟩
  · have hs' : Inv s' := inv_setOrientation hs h'
    have hl := edit_frame h' n (Ne.symm han)
    have hk' : ancestorAt s' n k = none := by
      rw [ancestorAt_congr (s := s') (t := s) (edit_parent h' rfl)]; exact hk
    simp only [Transforms.locals, Prod.mk.injEq] at hl
    obtain ⟨s1, w, hw, -, h2, -⟩ := getters_spec hs' hk' g hg
    refine ⟨s1, ?_⟩
    rw [h2, worldSpec_orientation_off hw (by rw [hl.2.2.2.2.1]; exact hi), hl.2.2.1]
    rfl
  · obtain ⟨s1, w, hw, -, -, h3⟩ := getters_spec hs hk g hg
    exact ⟨s1, by rw [h3, worldSpec_scale_off hw hi]; rfl⟩
  · have hs' : Inv s' := inv_edit hs _ h' rfl rfl
    have hl := edit_frame h' n (Ne.symm han)
    have hk' : ancestorAt s' n k = none := by
      rw [ancestorAt_congr (s := s') (t := s) (edit_parent h' rfl)]; exact hk
    simp only [Transforms.locals, Prod.mk.injEq] at hl
    obtain ⟨s1, w, hw, -, -, h3⟩ := getters_spec hs' hk' g hg
    refine ⟨s1, ?_⟩
    rw [h3, worldSpec_scale_off hw (by rw [hl.2.2.2.2.2]; exact hi), hl.2.2.2.1]
    rfl

/-- Witness of claim C8: the test "No scale inheritance", with `p = 0`, `c = 1`: after
`c.setInheritScale(false)`, `c.setParent(p)` and `c.setScale(2, 3, 4)`, the world scale of `c`
is (2,3,4) before and after `p.setScale(2, 3, 4)`. -/
theorem inheritance_off_witness :
    ∃ s1 s2 s3 s4 s5 s6 : State ℚ,
      setInheritScale 2 (freshPool fun _ => none) 1 false = .ok s1 ∧
      setParent 2 s1 1 (some 0) = .ok s2 ∧ setScale 2 s2 1 ⟨2, 3, 4⟩ = .ok s3 ∧
      setScale 2 s3 0 ⟨2, 3, 4⟩ = .ok s4 ∧ inheritScale s3 1 = false ∧
      ancestorAt s3 1 2 = none ∧ getWorldScale 2 s3 1 = .ok (s5, ⟨2, 3, 4⟩) ∧
      getWorldScale 2 s4 1 = .ok (s6, ⟨2, 3, 4⟩) := by
  have hr : ∃ s1 s2 s3 s4 : State ℚ,
      setInheritScale 2 (freshPool fun _ => none) 1 false = .ok s1 ∧
      setParent 2 s1 1 (some 0) = .ok s2 ∧ setScale 2 s2 1 ⟨2, 3, 4⟩ = .ok s3 ∧
      setScale 2 s3 0 ⟨2, 3, 4⟩ = .ok s4 ∧ inheritScale s3 1 = false ∧
      ancestorAt s3 1 2 = none ∧ getScale s3 1 = ⟨2, 3, 4⟩ ∧ Reachable keepDecompose s3 :=
    ⟨_, _, _, _, rfl, rfl, rfl, rfl, rfl, rfl, rfl,
      Reachable.call (.setScale 1 ⟨2, 3, 4⟩) 2
        (Reachable.call (.setParent 1 (some 0)) 2
          (Reachable.call (.setInheritScale 1 false) 2 (Reachable.fresh _) trivial rfl)
          (by
            rintro ⟨k, hk⟩
            match k with
            | 0 => simp [ancestorAt] at hk
            | k + 1 => simp [ancestorAt, Function.update, freshPool, Transforms.new] at hk)
          rfl)
        trivial rfl⟩
  obtain ⟨s1, s2, s3, s4, e1, e2, e3, e4, hi, hk, hsc, hreach⟩ := hr
  obtain ⟨⟨t1, h1⟩, h2⟩ := ((inheritance_off keepDecompose s3 hreach 1).2 2 2 hk (le_refl 2)).2 hi
  obtain ⟨t2, h2⟩ := h2 0 ⟨2, 3, 4⟩ 2 s4 (by decide) e4
  rw [hsc] at h1 h2
  exact ⟨s1, s2, s3, s4, t1, t2, e1, e2, e3, e4, hi, hk, h1, h2⟩

/-- Claim C9 fails on the code: with `inheritScale == false` the world scale of a node ignores
the scale of its parent, but its world position does not. After `c.setInheritScale(false)`,
`c.setParent(p)` and `c.setPosition(1, 2, 3)` (`p = 0`, `c = 1`), the world scale of `c` is
(1,1,1) both after `p.setScale(2, 2, 2)` and after `p.setScale(1, 1, 1)`, but the world
position of `c` is (2,4,6) in the first case and (1,2,3) in the second. -/
theorem inheritScale_off_position_scaled :
    ∃ s1 s2 s3 sA sB sA' sB' : State ℚ,
      setInheritScale 2 (freshPool fun _ => none) 1 false = .ok s1 ∧
      setParent 2 s1 1 (some 0) = .ok s2 ∧ setPosition 2 s2 1 ⟨1, 2, 3⟩ = .ok s3 ∧
      setScale 2 s3 0 ⟨2, 2, 2⟩ = .ok sA ∧ setScale 2 s3 0 ⟨1, 1, 1⟩ = .ok sB ∧
      getWorldScale 2 sA 1 = .ok (sA', ⟨1, 1, 1⟩) ∧
      getWorldScale 2 sB 1 = .ok (sB', ⟨1, 1, 1⟩) ∧
      getWorldPosition 2 sA 1 = .ok (sA', ⟨2, 4, 6⟩) ∧
      getWorldPosition 2 sB 1 = .ok (sB', ⟨1, 2, 3⟩) := by
  have hv : ∃ (s1 s2 s3 sA sB sA' sB' : State ℚ) (vA vB : Vec3 ℚ),
      setInheritScale 2 (freshPool fun _ => none) 1 false = .ok s1 ∧
      setParent 2 s1 1 (some 0) = .ok s2 ∧ setPosition 2 s2 1 ⟨1, 2, 3⟩ = .ok s3 ∧
      setScale 2 s3 0 ⟨2, 2, 2⟩ = .ok sA ∧ setScale 2 s3 0 ⟨1, 1, 1⟩ = .ok sB ∧
      getWorldScale 2 sA 1 = .ok (sA', ⟨1, 1, 1⟩) ∧
      getWorldScale 2 sB 1 = .ok (sB', ⟨1, 1, 1⟩) ∧
      getWorldPosition 2 sA 1 = .ok (sA', vA) ∧ getWorldPosition 2 sB 1 = .ok (sB', vB) ∧
      vA = ⟨2, 4, 6⟩ ∧ vB = ⟨1, 2, 3⟩ := by
    refine ⟨_, _, _, _, _, _, _, _, _, rfl, rfl, rfl, rfl, rfl, rfl, rfl, rfl, rfl, ?_, ?_⟩
    · simp [Function.update, Quat.rotate, Vec3.add, Vec3.mul, Vec3.smul, Vec3.cross, freshPool,
        Transforms.new, QUAT_IDENTITY, VEC3_ZERO, attach]
      norm_num
    · simp [Function.update, Quat.rotate, Vec3.add, Vec3.mul, Vec3.smul, Vec3.cross, freshPool,
        Transforms.new, QUAT_IDENTITY, VEC3_ZERO, attach]
  obtain ⟨s1, s2, s3, sA, sB, sA', sB', vA, vB, e1, e2, e3, e4, e5, e6, e7, e8, e9, rfl, rfl⟩ := hv
  exact ⟨s1, s2, s3, sA, sB, sA', sB', e1, e2, e3, e4, e5, e6, e7, e8, e9⟩

/-- Claim C10 (no-parent identity): for every node without a parent, in every reachable
state, `getWorldPosition()` equals `getPosition()`, `getWorldOrientation()` equals
`getOrientation()` (without any normalisation) and `getWorldScale()` equals `getScale()`. -/
theorem root_world_eq_local (dec : Decompose α) (s : State α) (h : Reachable dec s)
    (n : NodeId) (hn : getParent s n = none) (g : Nat) :
    ∃ s1, getWorldPosition (g + 1) s n = .ok (s1, getPosition s n) ∧
      getWorldOrientation (g + 1) s n = .ok (s1, getOrientation s n) ∧
      getWorldScale (g + 1) s n = .ok (s1, getScale s n) := by
  have hn' : (s n).m_parent = none := hn
  have hk : ancestorAt s n 1 = none := by simp [ancestorAt, hn']
  obtain ⟨s1, w, hw, h1, h2, h3⟩ := getters_spec h.inv hk (g + 1) (by omega)
  rw [worldSpec_root hn] at hw
  obtain rfl := Option.some.inj hw
  exact ⟨s1, h1, h2, h3⟩

/-- Witness of claim C10: the test "Set position": a node without parent after
`setPosition(10, 20, 30)`. -/
theorem root_world_eq_local_witness :
    ∃ s1 s2 : State ℚ, setPosition 1 (freshPool fun _ => none) 0 ⟨10, 20, 30⟩ = .ok s1 ∧
      getParent s1 0 = none ∧ getWorldPosition (0 + 1) s1 0 = .ok (s2, ⟨10, 20, 30⟩) := by
  have hr : ∃ s1 : State ℚ, setPosition 1 (freshPool fun _ => none) 0 ⟨10, 20, 30⟩ = .ok s1 ∧
      getParent s1 0 = none ∧ getPosition s1 0 = ⟨10, 20, 30⟩ ∧ Reachable keepDecompose s1 :=
    ⟨_, rfl, rfl, rfl, Reachable.call (.setPosition 0 ⟨10, 20, 30⟩) 1 (Reachable.fresh _)
      trivial rfl⟩
  obtain ⟨s1, e1, hp, hpos, hreach⟩ := hr
  obtain ⟨s2, h1, -, -⟩ := root_world_eq_local keepDecompose s1 hreach 0 hp 0
  rw [hpos] at h1
  exact ⟨s1, s2, e1, hp, h1⟩

/-- Claim C11 (idempotent cleanliness): for every node `n` of an acyclic hierarchy, the four
world getters called on `n` return (with a call stack at least as deep as the chain of parents
of `n`), and whenever one of them has returned a value and the state `s1`, calling it again on
`s1`, with any call stack, returns the identical value and leaves the whole state `s1` as it
is. -/
theorem world_getters_idempotent (s : State α) (hs : Acyclic s) (n : NodeId) :
    (∃ k, ∀ f, k ≤ f → ∃ (s1 : State α) (p : Vec3 α) (o : Quat α) (sc : Vec3 α) (m : Mat4 α),
      getWorldPosition f s n = .ok (s1, p) ∧ getWorldOrientation f s n = .ok (s1, o) ∧
      getWorldScale f s n = .ok (s1, sc) ∧ getWorldMatrix f s n = .ok (s1, m)) ∧
    ∀ (f g : Nat) (s1 : State α),
      (∀ p, getWorldPosition f s n = .ok (s1, p) → getWorldPosition g s1 n = .ok (s1, p)) ∧
      (∀ o, getWorldOrientation f s n = .ok (s1, o) →
        getWorldOrientation g s1 n = .ok (s1, o)) ∧
      (∀ sc, getWorldScale f s n = .ok (s1, sc) → getWorldScale g s1 n = .ok (s1, sc)) ∧
      (∀ m, getWorldMatrix f s n = .ok (s1, m) → getWorldMatrix g s1 n = .ok (s1, m)) := by
  constructor
  · obtain ⟨k, hk⟩ := hs n
    refine ⟨k, fun f hf => ?_⟩
    have hr : ∃ s1, refresh (update f) s n = .ok s1 := by
      cases hd : (s n).m_bDirty with
      | false => exact ⟨s, refresh_clean hd⟩
      | true =>
        rw [refresh_dirty hd]
        exact update_terminates s (fun m hm => hs.parent_ne hm rfl) k n hk f hf
    obtain ⟨s1, hr⟩ := hr
    exact ⟨s1, _, _, _,
      composeMatrix (s1 n).m_fullScale (s1 n).m_fullOrientation (s1 n).m_fullPosition,
      getWorldPosition_eq hr, getWorldOrientation_eq hr, getWorldScale_eq hr,
      by simp [getWorldMatrix, hr, bind, Except.bind, pure, Except.pure]⟩
  · intro f g s1
    have key : ∀ {β : Type} (rd : State α → β),
        refresh (update f) s n = .ok s1 →
        (refresh (update g) s1 n >>= fun s2 => (pure (s2, rd s2) : Except Fault (State α × β)))
          = .ok (s1, rd s1) := by
      intro β rd hr
      rw [refresh_clean (refresh_update_clean f s n s1 hr)]
      rfl
    refine ⟨fun p h => ?_, fun o h => ?_, fun sc h => ?_, fun m h => ?_⟩
    · obtain ⟨hr, rfl⟩ := getWorldPosition_ok h
      exact key (fun t => (t n).m_fullPosition) hr
    · obtain ⟨hr, rfl⟩ := getWorldOrientation_ok h
      exact key (fun t => (t n).m_fullOrientation) hr
    · obtain ⟨hr, rfl⟩ := getWorldScale_ok h
      exact key (fun t => (t n).m_fullScale) hr
    · have hr := getWorldMatrix_ok h
      have hm : m = composeMatrix (s1 n).m_fullScale (s1 n).m_fullOrientation
          (s1 n).m_fullPosition := by
        obtain ⟨s2, hr2, h'⟩ := bind_eq_ok.mp h
        rw [hr] at hr2
        obtain rfl := Except.ok.inj hr2
        have := pure_eq_ok h'
        simp only [Prod.mk.injEq, true_and] at this
        exact this.symm
      rw [hm]
      exact key (fun t => composeMatrix (t n).m_fullScale (t n).m_fullOrientation
        (t n).m_fullPosition) hr

/-- Witness of claim C11: node 1 after `1.setParent(0)` and `0.setPosition(10, 10, 10)`: the
second `getWorldPosition` returns the same position again and changes nothing. -/
theorem world_getters_idempotent_witness :
    ∃ (s1 s2 s3 : State ℚ) (v : Vec3 ℚ),
      setParent 2 (freshPool fun _ => none) 1 (some 0) = .ok s1 ∧
      setPosition 2 s1 0 ⟨10, 10, 10⟩ = .ok s2 ∧
      getWorldPosition 2 s2 1 = .ok (s3, v) ∧ getWorldPosition 2 s3 1 = .ok (s3, v) := by
  have hr : ∃ (s1 s2 s3 : State ℚ) (v : Vec3 ℚ),
      setParent 2 (freshPool fun _ => none) 1 (some 0) = .ok s1 ∧
      setPosition 2 s1 0 ⟨10, 10, 10⟩ = .ok s2 ∧
      getWorldPosition 2 s2 1 = .ok (s3, v) ∧ Reachable keepDecompose s2 :=
    ⟨_, _, _, _, rfl, rfl, rfl,
      Reachable.call (.setPosition 0 ⟨10, 10, 10⟩) 2
        (Reachable.call (.setParent 1 (some 0)) 2 (Reachable.fresh _)
          (not_inSubtree_freshPool _ (by decide)) rfl)
        trivial rfl⟩
  obtain ⟨s1, s2, s3, v, e1, e2, e3, hreach⟩ := hr
  exact ⟨s1, s2, s3, v, e1, e2, e3,
    ((world_getters_idempotent s2 hreach.inv.2.1 1).2 2 2 s3).1 _ e3⟩

/-- Claim C12: for every node `n` with a parent `p` whose world orientation has unit length and
whose world scale has no zero component (in a reachable state), and every vector `d`,
`translate(d, TS_WORLD)` returns and moves the world position of `n` by exactly `d`:
`getWorldPosition` afterwards returns `getWorldPosition` before plus `d`; so a child at world
position (10,10,10) translated by (20,30,40) in world space ends at (30,40,50). -/
theorem translate_world_moves_by_delta (dec : Decompose α) (s : State α)
    (h : Reachable dec s) (n p : NodeId) (hp : getParent s n = some p) (k : Nat)
    (pw : World α) (hpw : worldSpec k s p = some pw)
    (hu : pw.orientation.dot pw.orientation = 1)
    (hx : pw.scale.x ≠ 0) (hy : pw.scale.y ≠ 0) (hz : pw.scale.z ≠ 0) (d : Vec3 α) :
    ∃ (B : Nat) (w : World α), worldSpec (k + 1) s n = some w ∧
      ∀ f, B < f → ∃ s0 s1 s2 : State α,
        getWorldPosition f s n = .ok (s0, w.position) ∧
        translate f s n d .TS_WORLD = .ok s1 ∧
        getWorldPosition f s1 n = .ok (s2, w.position.add d) ∧
        (w.position = ⟨10, 10, 10⟩ → d = ⟨20, 30, 40⟩ →
          getWorldPosition f s1 n = .ok (s2, ⟨30, 40, 50⟩)) := by
  have hs := h.inv
  obtain ⟨B, hB⟩ := h.depthBound
  have hp' : (s n).m_parent = some p := hp
  have hw := worldSpec_succ_some hp' hpw
  refine ⟨B, _, hw, fun f hf => ?_⟩
  obtain ⟨s0, w0, hw0, g0, -, -⟩ := getters_spec hs (hB.none_at n) f (by omega)
  obtain rfl := worldSpec_unique hw hw0
  obtain ⟨s1, ht⟩ := translate_returns hs hB n d .TS_WORLD f hf
  obtain ⟨s2, np, hi2, hoc, he, -, -, -, hW⟩ := translate_shape hs ht
  have hnp := hW rfl p k pw hp' hpw
  obtain ⟨-, -, -, -, s3, w1, g1, -, -, -, e2⟩ :=
    world_after_edit hs hi2 hoc hB he rfl rfl rfl rfl f hf
  have hw1 := e2 p k pw hp' hpw
  have hpos : w1.position = (combine pw (s n)).position.add d := by
    rw [hw1]
    simp only [combine, hnp]
    exact translate_world_math hu hx hy hz _ _ _
  rw [hpos] at g1
  refine ⟨s0, s1, s3, g0, ht, g1, fun e1 e2 => ?_⟩
  rw [g1, e1, e2]
  simp only [Vec3.add]
  norm_num

/-- Claim C13: in a reachable state, `translate(d, TS_LOCAL)` returns and adds the local
orientation applied to `d` to the local position (the local scale does not enter),
`translate(d, TS_PARENT)` returns and adds `d` itself, and for a node without parent
`translate(d, TS_WORLD)` returns the very state that `translate(d, TS_PARENT)` returns; each
time the local orientation, local scale, inherit flags, tags and all parent and child links
are unchanged, as is every other node; a node at the origin of its parent with local
orientation -90 degrees about Y, (w,x,y,z) = (c,0,-c,0) with c*c = 1/2, translated locally by
(20,30,40) gets the local position (-40,30,20). -/
theorem translate_local_parent_effect (dec : Decompose α) (s : State α)
    (h : Reachable dec s) (n : NodeId) (d : Vec3 α) :
    ∃ B, ∀ f, B < f →
      (∃ s1, translate f s n d .TS_LOCAL = .ok s1 ∧
        getPosition s1 n = (getPosition s n).add ((getOrientation s n).rotate d) ∧
        OnlyPositionEdited s s1 n ∧
        (∀ c : α, c * c = 1 / 2 → getOrientation s n = ⟨c, 0, -c, 0⟩ →
          getPosition s n = VEC3_ZERO → d = ⟨20, 30, 40⟩ →
          getPosition s1 n = ⟨-40, 30, 20⟩)) ∧
      (∃ s1, translate f s n d .TS_PARENT = .ok s1 ∧
        getPosition s1 n = (getPosition s n).add d ∧ OnlyPositionEdited s s1 n ∧
        (getParent s n = none → translate f s n d .TS_WORLD = .ok s1)) := by
  have hs := h.inv
  obtain ⟨B, hB⟩ := h.depthBound
  refine ⟨B, fun f hf => ⟨?_, ?_⟩⟩
  · obtain ⟨s1, ht⟩ := translate_returns hs hB n d .TS_LOCAL f hf
    obtain ⟨s2, np, -, hoc, he, hL, -, -, -⟩ := translate_shape hs ht
    obtain ⟨hfr, hpos⟩ := positionEdited_of_edit hoc he
    have hnp := hL rfl
    refine ⟨s1, ht, by rw [getPosition, hpos, hnp]; rfl, hfr, fun c hc ho hp hd => ?_⟩
    simp only [getPosition, getOrientation] at ho hp ⊢
    rw [hpos, hnp, ho, hp, hd]
    ext <;> simp only [Quat.rotate, Vec3.add, Vec3.smul, Vec3.cross, VEC3_ZERO]
    · linear_combination (-120 : α) * hc
    · ring
    · linear_combination (-40 : α) * hc
  · obtain ⟨s1, ht⟩ := translate_returns hs hB n d .TS_PARENT f hf
    obtain ⟨s2, np, -, hoc, he, -, hP, -, -⟩ := translate_shape hs ht
    obtain ⟨hfr, hpos⟩ := positionEdited_of_edit hoc he
    refine ⟨s1, ht, by rw [getPosition, hpos, hP rfl]; rfl, hfr, fun hp => ?_⟩
    rw [translate_world_root hp]
    exact ht

/-- Claim C15: in a reachable state, `rotate(q, TS_LOCAL)` returns and sets the local
orientation to `localOrientation * q`, `rotate(q, TS_PARENT)` returns and sets it to
`q * localOrientation`, and `rotate(q, TS_WORLD)` returns and sets it to
`localOrientation * inverse(worldOrientation) * q * worldOrientation`, where
`worldOrientation` is what `getWorldOrientation` returns before the call; each time the local
position, local scale, inherit flags, tags and all links are unchanged, as is every other
node. -/
theorem rotate_local_parent_world (dec : Decompose α) (s : State α) (h : Reachable dec s)
    (n : NodeId) (q : Quat α) :
    ∃ (B k : Nat) (w : World α), worldSpec k s n = some w ∧ ∀ f, B < f →
      (∃ s1, rotate f s n q .TS_LOCAL = .ok s1 ∧
        getOrientation s1 n = (getOrientation s n).mul q ∧ OnlyOrientationEdited s s1 n) ∧
      (∃ s1, rotate f s n q .TS_PARENT = .ok s1 ∧
        getOrientation s1 n = q.mul (getOrientation s n) ∧ OnlyOrientationEdited s s1 n) ∧
      (∃ s0 s1, getWorldOrientation f s n = .ok (s0, w.orientation) ∧
        rotate f s n q .TS_WORLD = .ok s1 ∧
        getOrientation s1 n =
          (((getOrientation s n).mul w.orientation.inverse).mul q).mul w.orientation ∧
        OnlyOrientationEdited s s1 n) := by
  have hs := h.inv
  obtain ⟨B, hB⟩ := h.depthBound
  obtain ⟨w, hw⟩ := worldSpec_of_depth (hB.none_at n)
  refine ⟨B, B + 1, w, hw, fun f hf => ⟨?_, ?_, ?_⟩⟩
  · obtain ⟨s1, ht⟩ := rotate_returns hs hB n q .TS_LOCAL f hf
    obtain ⟨s2, o, -, hoc, he, hL, -, -⟩ := rotate_shape hs ht
    obtain ⟨hfr, ho⟩ := orientationEdited_of_edit hoc he
    exact ⟨s1, ht, by rw [getOrientation, ho, hL rfl]; rfl, hfr⟩
  · obtain ⟨s1, ht⟩ := rotate_returns hs hB n q .TS_PARENT f hf
    obtain ⟨s2, o, -, hoc, he, -, hP, -⟩ := rotate_shape hs ht
    obtain ⟨hfr, ho⟩ := orientationEdited_of_edit hoc he
    exact ⟨s1, ht, by rw [getOrientation, ho, hP rfl]; rfl, hfr⟩
  · obtain ⟨s0, w0, hw0, -, g0, -⟩ := getters_spec hs (hB.none_at n) f (by omega)
    obtain rfl := worldSpec_unique hw hw0
    obtain ⟨s1, ht⟩ := rotate_returns hs hB n q .TS_WORLD f hf
    obtain ⟨s2, o, -, hoc, he, -, -, hW⟩ := rotate_shape hs ht
    obtain ⟨hfr, ho⟩ := orientationEdited_of_edit hoc he
    exact ⟨s0, s1, g0, ht, by rw [getOrientation, ho, hW rfl _ _ hw]; rfl, hfr⟩

/-- Witness of claim C12: the test "Translation (world) of child (with scaling)": the parent
`0` at (10,10,10) with scale 2, the child `1` at the origin of the parent. -/
theorem translate_world_moves_by_delta_witness :
    ∃ s1 s2 s3 : State ℚ, setParent 2 (freshPool fun _ => none) 1 (some 0) = .ok s1 ∧
      setPosition 2 s1 0 ⟨10, 10, 10⟩ = .ok s2 ∧ setScale 2 s2 0 ⟨2, 2, 2⟩ = .ok s3 ∧
      ∃ B, ∀ f, B < f → ∃ s4 s5 : State ℚ,
        translate f s3 1 ⟨20, 30, 40⟩ .TS_WORLD = .ok s4 ∧
        getWorldPosition f s4 1 = .ok (s5, ⟨30, 40, 50⟩) := by
  have hr : ∃ s1 s2 s3 : State ℚ, setParent 2 (freshPool fun _ => none) 1 (some 0) = .ok s1 ∧
      setPosition 2 s1 0 ⟨10, 10, 10⟩ = .ok s2 ∧ setScale 2 s2 0 ⟨2, 2, 2⟩ = .ok s3 ∧
      getParent s3 1 = some 0 ∧
      worldSpec 1 s3 0 = some ⟨⟨10, 10, 10⟩, QUAT_IDENTITY, ⟨2, 2, 2⟩⟩ ∧
      (s3 1).m_position = VEC3_ZERO ∧ Reachable keepDecompose s3 :=
    ⟨_, _, _, rfl, rfl, rfl, rfl, rfl, rfl,
      Reachable.call (.setScale 0 ⟨2, 2, 2⟩) 2
        (Reachable.call (.setPosition 0 ⟨10, 10, 10⟩) 2
          (Reachable.call (.setParent 1 (some 0)) 2 (Reachable.fresh _)
            (not_inSubtree_freshPool _ (by decide)) rfl)
          trivial rfl)
        trivial rfl⟩
  obtain ⟨s1, s2, s3, e1, e2, e3, hp, hpw, hpos, hreach⟩ := hr
  obtain ⟨B, w, hw, hf⟩ := translate_world_moves_by_delta keepDecompose s3 hreach 1 0 hp 1 _
    hpw (by norm_num [Quat.dot, QUAT_IDENTITY]) (by norm_num) (by norm_num) (by norm_num)
    ⟨20, 30, 40⟩
  have hwp : w.position = ⟨10, 10, 10⟩ := by
    rw [worldSpec_succ_some hp hpw] at hw
    rw [← Option.some.inj hw]
    simp only [combine, hpos, Quat.rotate, Vec3.add, Vec3.mul, Vec3.smul, Vec3.cross,
      QUAT_IDENTITY, VEC3_ZERO]
    norm_num
  refine ⟨s1, s2, s3, e1, e2, e3, B, fun f hf' => ?_⟩
  obtain ⟨s0, s4, s5, -, ht, -, hex⟩ := hf f hf'
  exact ⟨s4, s5, ht, hex hwp rfl⟩

/-- Witness of claim C13: a node without parent at (1,2,3) translated by (20,30,40) in its
parent space. -/
theorem translate_local_parent_effect_witness :
    ∃ s1 : State ℚ, setPosition 1 (freshPool fun _ => none) 0 ⟨1, 2, 3⟩ = .ok s1 ∧
      ∃ B, ∀ f, B < f → ∃ s2 : State ℚ,
        translate f s1 0 ⟨20, 30, 40⟩ .TS_PARENT = .ok s2 ∧
        getPosition s2 0 = (getPosition s1 0).add ⟨20, 30, 40⟩ ∧
        OnlyPositionEdited s1 s2 0 ∧ translate f s1 0 ⟨20, 30, 40⟩ .TS_WORLD = .ok s2 := by
  have hr : ∃ s1 : State ℚ, setPosition 1 (freshPool fun _ => none) 0 ⟨1, 2, 3⟩ = .ok s1 ∧
      getParent s1 0 = none ∧ Reachable keepDecompose s1 :=
    ⟨_, rfl, rfl, Reachable.call (.setPosition 0 ⟨1, 2, 3⟩) 1 (Reachable.fresh _) trivial rfl⟩
  obtain ⟨s1, e1, hp, hreach⟩ := hr
  obtain ⟨B, hB⟩ := translate_local_parent_effect keepDecompose s1 hreach 0 ⟨20, 30, 40⟩
  refine ⟨s1, e1, B, fun f hf => ?_⟩
  obtain ⟨s2, ht, hpos, hfr, hw⟩ := (hB f hf).2
  exact ⟨s2, ht, hpos, hfr, hw hp⟩

/-- Witness of claim C15: the child `1` of node `0`, rotated in its parent space by the
quaternion (w,x,y,z) = (0,1,0,0), a half turn about X. -/
theorem rotate_local_parent_world_witness :
    ∃ s1 : State ℚ, setParent 2 (freshPool fun _ => none) 1 (some 0) = .ok s1 ∧
      ∃ B, ∀ f, B < f → ∃ s2 : State ℚ, rotate f s1 1 ⟨0, 1, 0, 0⟩ .TS_PARENT = .ok s2 ∧
        getOrientation s2 1 = (⟨0, 1, 0, 0⟩ : Quat ℚ).mul (getOrientation s1 1) ∧
        OnlyOrientationEdited s1 s2 1 := by
  have hr : ∃ s1 : State ℚ, setParent 2 (freshPool fun _ => none) 1 (some 0) = .ok s1 ∧
      Reachable keepDecompose s1 :=
    ⟨_, rfl, Reachable.call (.setParent 1 (some 0)) 2 (Reachable.fresh _)
      (not_inSubtree_freshPool _ (by decide)) rfl⟩
  obtain ⟨s1, e1, hreach⟩ := hr
  obtain ⟨B, k, w, -, hB⟩ := rotate_local_parent_world keepDecompose s1 hreach 1 ⟨0, 1, 0, 0⟩
  exact ⟨s1, e1, B, fun f hf => (hB f hf).2.1⟩

/-- Counterexample to claim C19: on a freshly constructed node, whose world position is
(0,0,0), `lookAt((0,0,0), TS_WORLD)` is not a no-op: it clears the dirty flag of the node. -/
theorem lookAt_world_origin_refreshes :
    ∃ s0 s1 : State ℚ,
      getWorldPosition 1 (freshPool fun _ => none) 0 = .ok (s0, VEC3_ZERO) ∧
      lookAt 1 (freshPool fun _ => none) 0 VEC3_ZERO .TS_WORLD VEC3_NEGATIVE_UNIT_Z = .ok s1 ∧
      ((freshPool fun _ => none : State ℚ) 0).m_bDirty = true ∧ (s1 0).m_bDirty = false := by
  have hr : ∃ s0 : State ℚ,
      getWorldPosition 1 (freshPool fun _ => none) 0 = .ok (s0, VEC3_ZERO) ∧
      (s0 0).m_bDirty = false := ⟨_, rfl, rfl⟩
  obtain ⟨s0, h0, hd⟩ := hr
  exact ⟨s0, s0, h0, lookAt_world_at_origin h0 _, rfl, hd⟩

/-- Claim C19, amended: in a reachable state, for every space and every local direction
vector, `setDirection` with the zero vector is a no-op (it returns the state it was called
on), and so are `lookAt(localPosition, TS_PARENT)` and `lookAt((0,0,0), TS_LOCAL)`;
`lookAt(worldPosition, TS_WORLD)` returns the state that the `getWorldPosition` call it makes
leaves behind: only cached world values and dirty flags can differ from the state before, and
nothing differs when the node was clean. -/
theorem setDirection_zero_lookAt_origin (dec : Decompose α) (s : State α)
    (h : Reachable dec s) (n : NodeId) (ldv : Vec3 α) :
    (∀ g sp, setDirection g s n VEC3_ZERO sp ldv = .ok s) ∧
    (∀ g, lookAt g s n (getPosition s n) .TS_PARENT ldv = .ok s) ∧
    (∀ g, lookAt g s n VEC3_ZERO .TS_LOCAL ldv = .ok s) ∧
    ∃ (B k : Nat) (w : World α), worldSpec k s n = some w ∧ ∀ g, B < g →
      ∃ s1, getWorldPosition g s n = .ok (s1, w.position) ∧
        lookAt g s n w.position .TS_WORLD ldv = .ok s1 ∧ OnlyCached s s1 ∧
        ((s n).m_bDirty = false → s1 = s) := by
  refine ⟨fun g sp => setDirection_zero g s n sp ldv, fun g => ?_, fun g => ?_, ?_⟩
  · exact bind_ok_of (a := (s, (s n).m_position)) rfl
      (by simp only [getPosition, Vec3.sub_self_eq]; exact setDirection_zero g s n _ ldv)
  · exact bind_ok_of (a := (s, VEC3_ZERO)) rfl
      (by simp only [Vec3.sub_self_eq]; exact setDirection_zero g s n _ ldv)
  · have hs := h.inv
    obtain ⟨B, hB⟩ := h.depthBound
    obtain ⟨w, hw⟩ := worldSpec_of_depth (hB.none_at n)
    refine ⟨B, B + 1, w, hw, fun g hg => ?_⟩
    obtain ⟨s1, w0, hw0, g0, -, -⟩ := getters_spec hs (hB.none_at n) g (by omega)
    obtain rfl := worldSpec_unique hw hw0
    refine ⟨s1, g0, lookAt_world_at_origin g0 ldv, (inv_getWorldPosition hs g0).2,
      fun hd => ?_⟩
    have hr := (getWorldPosition_ok g0).1
    rw [refresh_clean hd] at hr
    exact (Except.ok.inj hr).symm

/-- Witness of claim C19, amended: the child `1` of node `0`. -/
theorem setDirection_zero_lookAt_origin_witness :
    ∃ s1 : State ℚ, setParent 2 (freshPool fun _ => none) 1 (some 0) = .ok s1 ∧
      (∀ g sp, setDirection g s1 1 VEC3_ZERO sp VEC3_NEGATIVE_UNIT_Z = .ok s1) ∧
      (∀ g, lookAt g s1 1 (getPosition s1 1) .TS_PARENT VEC3_NEGATIVE_UNIT_Z = .ok s1) ∧
      (∀ g, lookAt g s1 1 VEC3_ZERO .TS_LOCAL VEC3_NEGATIVE_UNIT_Z = .ok s1) := by
  have hr : ∃ s1 : State ℚ, setParent 2 (freshPool fun _ => none) 1 (some 0) = .ok s1 ∧
      Reachable keepDecompose s1 :=
    ⟨_, rfl, Reachable.call (.setParent 1 (some 0)) 2 (Reachable.fresh _)
      (not_inSubtree_freshPool _ (by decide)) rfl⟩
  obtain ⟨s1, e1, hreach⟩ := hr
  have := setDirection_zero_lookAt_origin keepDecompose s1 hreach 1 VEC3_NEGATIVE_UNIT_Z
  exact ⟨s1, e1, this.1, this.2.1, this.2.2.1⟩

/-- Counterexample to claim C14: the child `1` of node `0` with the zero quaternion as local
orientation has the identity as world orientation, before and after `rotate(q, TS_WORLD)` with
the unit quaternion `q = (0,1,0,0)`, and the identity is not `q` composed with the identity. -/
theorem rotate_world_zero_orientation :
    ∃ (s1 s2 s3 s4 s5 : State ℚ) (c c1 : Quat ℚ),
      setParent 2 (freshPool fun _ => none) 1 (some 0) = .ok s1 ∧
      setOrientation 2 s1 1 ⟨0, 0, 0, 0⟩ = .ok s2 ∧
      getWorldOrientation 2 s2 1 = .ok (s3, c) ∧
      rotate 2 s2 1 ⟨0, 1, 0, 0⟩ .TS_WORLD = .ok s4 ∧
      getWorldOrientation 2 s4 1 = .ok (s5, c1) ∧
      (⟨0, 1, 0, 0⟩ : Quat ℚ).dot ⟨0, 1, 0, 0⟩ = 1 ∧ c = QUAT_IDENTITY ∧
      c1 = QUAT_IDENTITY ∧ c1 ≠ (⟨0, 1, 0, 0⟩ : Quat ℚ).mul c :=
  ⟨_, _, _, _, _, _, _, rfl, rfl, rfl, rfl, rfl, by decide!, by decide!, by decide!,
    by decide!⟩

/-- Claim C14, amended: with an exact square root, in a reachable state, for every node `n`
whose local orientation is not the zero quaternion and whose parent, if it has one, has a world
orientation that is not the zero quaternion, and for every unit quaternion `q`:
`rotate(q, TS_WORLD)` returns, and `getWorldOrientation` afterwards returns exactly `q`
composed with what `getWorldOrientation` returned before (`q` on the left), whether or not
the node has a parent or inherits orientation. -/
theorem rotate_world_composes (dec : Decompose α) (hE : ExactSqrt α) (s : State α)
    (h : Reachable dec s) (n : NodeId) (q : Quat α) (hq : q.dot q = 1) (k : Nat)
    (w : World α) (hw : worldSpec (k + 1) s n = some w)
    (hL : (getOrientation s n).dot (getOrientation s n) ≠ 0)
    (hP : ∀ P, parentOrientation k s n = some P → P.dot P ≠ 0) :
    ∃ B, ∀ g, B < g → ∃ s0 s1 s2 : State α,
      getWorldOrientation g s n = .ok (s0, w.orientation) ∧
      rotate g s n q .TS_WORLD = .ok s1 ∧
      getWorldOrientation g s1 n = .ok (s2, q.mul w.orientation) := by
  have hs := h.inv
  obtain ⟨B, hB⟩ := h.depthBound
  refine ⟨B, fun g hg => ?_⟩
  obtain ⟨s0, w0, hw0, -, g0, -⟩ := getters_spec hs (hB.none_at n) g (by omega)
  obtain rfl := worldSpec_unique hw hw0
  obtain ⟨s1, s3, w1, ht, -, ho, g1, -, -, e3⟩ := rotate_world_after hs hB n q hw g hg
  have key : w1.orientation = q.mul w.orientation := by
    rw [e3, ho]
    rcases worldSpec_succ_inv hw with ⟨hp, rfl⟩ | ⟨p, pw, hp, hpw, rfl⟩
    · rw [parentOrientation_root hp]
      exact rotate_world_math_plain hL q
    · have hpo := parentOrientation_child hp hpw
      rw [hpo]
      cases hi : (s n).m_bInheritOrientation with
      | false =>
        simp only [worldOrientationOf, combine, hi, Bool.false_eq_true, ↓reduceIte]
        exact rotate_world_math_plain hL q
      | true =>
        simp only [worldOrientationOf, combine, hi, ↓reduceIte]
        refine rotate_world_math_inherit hE ?_ hq
        rw [Quat.dot_mul]
        exact mul_ne_zero (hP _ hpo) hL
  rw [key] at g1
  exact ⟨s0, s1, s3, g0, ht, g1⟩

/-- Witness of claim C14, amended: over the reals, the child `1` of node `0`, both with the
identity as local orientation, rotated in world space by `q = (0,1,0,0)`. -/
theorem rotate_world_composes_witness :
    ∃ (s1 : State ℝ) (w : World ℝ), setParent 2 (freshPool fun _ => none) 1 (some 0) = .ok s1 ∧
      worldSpec 2 s1 1 = some w ∧
      ∃ B, ∀ g, B < g → ∃ s0 s2 s3 : State ℝ,
        getWorldOrientation g s1 1 = .ok (s0, w.orientation) ∧
        rotate g s1 1 ⟨0, 1, 0, 0⟩ .TS_WORLD = .ok s2 ∧
        getWorldOrientation g s2 1 = .ok (s3, (⟨0, 1, 0, 0⟩ : Quat ℝ).mul w.orientation) := by
  have hr : ∃ (s1 : State ℝ) (w : World ℝ),
      setParent 2 (freshPool fun _ => none) 1 (some 0) = .ok s1 ∧
      worldSpec 2 s1 1 = some w ∧ getOrientation s1 1 = QUAT_IDENTITY ∧
      parentOrientation 1 s1 1 = some QUAT_IDENTITY ∧ Reachable keepDecompose s1 :=
    ⟨_, _, rfl, rfl, rfl, rfl, Reachable.call (.setParent 1 (some 0)) 2 (Reachable.fresh _)
      (not_inSubtree_freshPool _ (by decide)) rfl⟩
  obtain ⟨s1, w, e1, hw, hL, hpo, hreach⟩ := hr
  exact ⟨s1, w, e1, hw,
    rotate_world_composes keepDecompose exactSqrt_real s1 hreach 1 ⟨0, 1, 0, 0⟩
      (by norm_num [Quat.dot]) 1 w hw (by rw [hL]; norm_num [Quat.dot, QUAT_IDENTITY])
      (fun P hP => by
        rw [hpo] at hP
        rw [← Option.some.inj hP]
        norm_num [Quat.dot, QUAT_IDENTITY])⟩

/-- Counterexample to claim C16, over the reals: with the parent `0` rotated -90 degrees about
Y and the child `1` at identity, `rotate(-90 degrees about Y, TS_WORLD)` on the child leaves
the child with the local orientation -90 degrees about Y, which is not the identity, and with
the world orientation (w,x,y,z) = (0,0,-1,0), a half turn about Y, which is not -90 degrees
about Y. -/
theorem rotate_world_quarter_turn_not_identity :
    ∃ s1 s2 s3 s4 : State ℝ, setParent 4 (freshPool fun _ => none) 1 (some 0) = .ok s1 ∧
      setOrientation 4 s1 0 (angleAxis (-RealOps.PI / 2) VEC3_UNIT_Y) = .ok s2 ∧
      getOrientation s2 1 = QUAT_IDENTITY ∧
      rotate 4 s2 1 (angleAxis (-RealOps.PI / 2) VEC3_UNIT_Y) .TS_WORLD = .ok s3 ∧
      getOrientation s3 1 = angleAxis (-RealOps.PI / 2) VEC3_UNIT_Y ∧
      getOrientation s3 1 ≠ QUAT_IDENTITY ∧
      getWorldOrientation 4 s3 1 = .ok (s4, ⟨0, 0, -1, 0⟩) ∧
      (⟨0, 0, -1, 0⟩ : Quat ℝ) ≠ angleAxis (-RealOps.PI / 2) VEC3_UNIT_Y := by
  have hr : ∃ s1 s2 : State ℝ, setParent 4 (freshPool fun _ => none) 1 (some 0) = .ok s1 ∧
      setOrientation 4 s1 0 (angleAxis (-RealOps.PI / 2) VEC3_UNIT_Y) = .ok s2 ∧
      (s2 1).m_orientation = QUAT_IDENTITY ∧ (s2 1).m_parent = some 0 ∧
      (s2 1).m_bInheritOrientation = true ∧
      worldSpec 1 s2 0 =
        some ⟨VEC3_ZERO, angleAxis (-RealOps.PI / 2) VEC3_UNIT_Y, VEC3_UNIT_SCALE⟩ ∧
      Reachable keepDecompose s2 ∧ DepthBound s2 3 :=
    ⟨_, _, rfl, rfl, rfl, rfl, rfl, rfl,
      Reachable.call (.setOrientation 0 (angleAxis (-RealOps.PI / 2) VEC3_UNIT_Y)) 4
        (Reachable.call (.setParent 1 (some 0)) 4 (Reachable.fresh _)
          (not_inSubtree_freshPool _ (by decide)) rfl)
        trivial rfl,
      depthBound_runCall keepDecompose 4
        (.setOrientation 0 (angleAxis (-RealOps.PI / 2) VEC3_UNIT_Y))
        (Reachable.call (.setParent 1 (some 0)) 4 (Reachable.fresh _)
          (not_inSubtree_freshPool _ (by decide)) rfl : Reachable keepDecompose _).inv trivial
        (depthBound_runCall keepDecompose 4 (.setParent 1 (some 0)) (inv_freshPool _)
          (not_inSubtree_freshPool _ (by decide)) (depthBound_freshPool _) rfl) rfl⟩
  obtain ⟨s1, s2, e1, e2, hL, hp, hi, hpw, hreach, hB⟩ := hr
  have hs := hreach.inv
  have h2 : (0 : ℝ) < Real.sqrt 2 / 2 := by positivity
  obtain ⟨s3, s4, ht, ho, g1⟩ := rotate_world_quarter_turn exactSqrt_real hs hB hp hi hL hpw
    sqrt_two_half_sq angleAxis_quarter_real 4 (by omega)
  rw [← angleAxis_quarter_real] at ht ho
  refine ⟨s1, s2, s3, s4, e1, e2, hL, ht, ho, ?_, g1, ?_⟩
  · rw [getOrientation, ho, angleAxis_quarter_real]
    intro hq
    have := congrArg Quat.w hq
    simp only [QUAT_IDENTITY] at this
    have h3 := sqrt_two_half_sq
    rw [this] at h3
    norm_num at h3
  · rw [angleAxis_quarter_real]
    intro hq
    have := congrArg Quat.w hq
    simp only at this
    linarith

/-- Claim C16, amended: with an exact square root, in a reachable state, for a child `n` with
identity local orientation that inherits the orientation of its parent `p`, whose world
orientation is -90 degrees about Y, that is (w,x,y,z) = (c,0,-c,0) with c*c = 1/2: rotating
the child by -90 degrees about Y in world space returns, makes the local orientation of the
child -90 degrees about Y and its world orientation (0,0,-1,0), the half turn about Y. -/
theorem rotate_world_quarter_turn_scenario (dec : Decompose α) (hE : ExactSqrt α)
    (s : State α) (h : Reachable dec s) (n p : NodeId) (hp : getParent s n = some p)
    (hi : inheritOrientation s n = true) (hL : getOrientation s n = QUAT_IDENTITY) (k : Nat)
    (pw : World α) (hpw : worldSpec k s p = some pw) (c : α) (hc : c * c = 1 / 2)
    (hq : angleAxis (-RealOps.PI / 2) VEC3_UNIT_Y = (⟨c, 0, -c, 0⟩ : Quat α))
    (hpo : pw.orientation = angleAxis (-RealOps.PI / 2) VEC3_UNIT_Y) :
    ∃ B, ∀ g, B < g → ∃ s1 s2 : State α,
      rotate g s n (angleAxis (-RealOps.PI / 2) VEC3_UNIT_Y) .TS_WORLD = .ok s1 ∧
      getOrientation s1 n = angleAxis (-RealOps.PI / 2) VEC3_UNIT_Y ∧
      getWorldOrientation g s1 n = .ok (s2, ⟨0, 0, -1, 0⟩) := by
  obtain ⟨B, hB⟩ := h.depthBound
  refine ⟨B, fun g hg => ?_⟩
  rw [hq] at hpo ⊢
  exact rotate_world_quarter_turn hE h.inv hB hp hi hL hpw hc hpo g hg

/-- Witness of claim C16, amended: over the reals, the test "Rotation (world) around Y of
child", with `p = 0` and `c = 1`. -/
theorem rotate_world_quarter_turn_scenario_witness :
    ∃ s1 s2 : State ℝ, setParent 2 (freshPool fun _ => none) 1 (some 0) = .ok s1 ∧
      setOrientation 2 s1 0 (angleAxis (-RealOps.PI / 2) VEC3_UNIT_Y) = .ok s2 ∧
      ∃ B, ∀ g, B < g → ∃ s3 s4 : State ℝ,
        rotate g s2 1 (angleAxis (-RealOps.PI / 2) VEC3_UNIT_Y) .TS_WORLD = .ok s3 ∧
        getOrientation s3 1 = angleAxis (-RealOps.PI / 2) VEC3_UNIT_Y ∧
        getWorldOrientation g s3 1 = .ok (s4, ⟨0, 0, -1, 0⟩) := by
  have hr : ∃ s1 s2 : State ℝ, setParent 2 (freshPool fun _ => none) 1 (some 0) = .ok s1 ∧
      setOrientation 2 s1 0 (angleAxis (-RealOps.PI / 2) VEC3_UNIT_Y) = .ok s2 ∧
      getOrientation s2 1 = QUAT_IDENTITY ∧ getParent s2 1 = some 0 ∧
      inheritOrientation s2 1 = true ∧
      worldSpec 1 s2 0 =
        some ⟨VEC3_ZERO, angleAxis (-RealOps.PI / 2) VEC3_UNIT_Y, VEC3_UNIT_SCALE⟩ ∧
      Reachable keepDecompose s2 :=
    ⟨_, _, rfl, rfl, rfl, rfl, rfl, rfl,
      Reachable.call (.setOrientation 0 (angleAxis (-RealOps.PI / 2) VEC3_UNIT_Y)) 2
        (Reachable.call (.setParent 1 (some 0)) 2 (Reachable.fresh _)
          (not_inSubtree_freshPool _ (by decide)) rfl)
        trivial rfl⟩
  obtain ⟨s1, s2, e1, e2, hL, hp, hi, hpw, hreach⟩ := hr
  exact ⟨s1, s2, e1, e2,
    rotate_world_quarter_turn_scenario keepDecompose exactSqrt_real s2 hreach 1 0 hp hi hL 1 _
      hpw (Real.sqrt 2 / 2) sqrt_two_half_sq angleAxis_quarter_real rfl⟩

/-- Claim C17: with an exact square root, in a reachable state, for every node `n` whose world
orientation `w.orientation` and whose parent's world orientation have unit length, every unit
local direction vector `f` and every non-zero `v` whose target direction `t` in world space is
not nearly opposite to the current forward direction (`5/100000 ≤ |w.orientation * f + t|^2`):
`setDirection(v, space, f)` returns and `getWorldOrientation` afterwards returns a unit
quaternion that maps `f` onto `t`. Here `t = directionInWorld ...` is `normalize(v)` for
TS_WORLD, the parent's world orientation applied to `normalize(v)` for TS_PARENT when the node
has a parent and inherits orientation (`normalize(v)` otherwise), and the previous world
orientation applied to `normalize(v)` for TS_LOCAL. For an orientation-inheriting child the
stored local orientation is the inverse of the parent's world orientation composed with the new
world orientation, otherwise it is the new world orientation. -/
theorem setDirection_maps_forward (dec : Decompose α) (hE : ExactSqrt α) (s : State α)
    (h : Reachable dec s) (n : NodeId) (v f : Vec3 α) (sp : transform_space_t)
    (hv : v ≠ VEC3_ZERO) (hf : f.dot f = 1) (k : Nat) (w : World α)
    (hw : worldSpec (k + 1) s n = some w) (hW : w.orientation.dot w.orientation = 1)
    (hP : ∀ P, parentOrientation k s n = some P → P.dot P = 1) (t : Vec3 α)
    (ht : t = directionInWorld (parentOrientation k s n) (inheritOrientation s n)
      w.orientation v sp)
    (hopp : 5 / 100000 ≤ ((w.orientation.rotate f).add t).length2) :
    ∃ B, ∀ g, B < g → ∃ (s0 s1 s2 : State α) (o : Quat α),
      getWorldOrientation g s n = .ok (s0, w.orientation) ∧
      setDirection g s n v sp f = .ok s1 ∧
      getWorldOrientation g s1 n = .ok (s2, o) ∧ o.dot o = 1 ∧ o.rotate f = t ∧
      (∀ P, parentOrientation k s n = some P → inheritOrientation s n = true →
        getOrientation s1 n = P.inverse.mul o) ∧
      ((parentOrientation k s n = none ∨ inheritOrientation s n = false) →
        getOrientation s1 n = o) := by
  have hs := h.inv
  obtain ⟨B, hB⟩ := h.depthBound
  refine ⟨B, fun g hg => ?_⟩
  obtain ⟨s0, w0, hw0, -, g0, -⟩ := getters_spec hs (hB.none_at n) g (by omega)
  obtain rfl := worldSpec_unique hw hw0
  obtain ⟨s1, s3, w1, hd, -, ho, g1, -, -, e3⟩ := setDirection_after hs hB n v f sp hv hw g hg
  subst ht
  have htu := directionInWorld_unit hE (parentOrientation k s n) (inheritOrientation s n) hP hW
    hv sp
  obtain ⟨hTu, hTr⟩ := directionTarget_spec hE hW htu hf hopp
  obtain ⟨m1, m2, m3⟩ := setDirectionLocal_world hE (parentOrientation k s n)
    (inheritOrientation s n) hP w.orientation v sp f hTu
  have key : w1.orientation =
      directionTarget w.orientation (directionInWorld (parentOrientation k s n)
        (inheritOrientation s n) w.orientation v sp) f := by
    rw [e3, ho]
    exact m1
  rw [key] at g1
  exact ⟨s0, s1, s3, _, g0, hd, g1, hTu, hTr, fun P hP' hi => by
    rw [getOrientation, ho]; exact m2 P hP' hi, fun hor => by
    rw [getOrientation, ho]; exact m3 hor⟩

/-- Witness of claim C17: over the reals, the child `1` of node `0`, both fresh,
`setDirection((1,0,0), TS_WORLD, (0,0,-1))`. -/
theorem setDirection_maps_forward_witness :
    ∃ s1 : State ℝ, setParent 2 (freshPool fun _ => none) 1 (some 0) = .ok s1 ∧
      ∃ B, ∀ g, B < g → ∃ (s2 s3 : State ℝ) (o : Quat ℝ),
        setDirection g s1 1 ⟨1, 0, 0⟩ .TS_WORLD VEC3_NEGATIVE_UNIT_Z = .ok s2 ∧
        getWorldOrientation g s2 1 = .ok (s3, o) ∧
        o.rotate VEC3_NEGATIVE_UNIT_Z = ⟨1, 0, 0⟩ := by
  have hr : ∃ s1 : State ℝ, setParent 2 (freshPool fun _ => none) 1 (some 0) = .ok s1 ∧
      (s1 1).m_parent = some 0 ∧ (s1 1).m_orientation = QUAT_IDENTITY ∧
      (s1 1).m_bInheritOrientation = true ∧
      worldSpec 1 s1 0 = some ⟨VEC3_ZERO, QUAT_IDENTITY, VEC3_UNIT_SCALE⟩ ∧
      Reachable keepDecompose s1 :=
    ⟨_, rfl, rfl, rfl, rfl, rfl, Reachable.call (.setParent 1 (some 0)) 2 (Reachable.fresh _)
      (not_inSubtree_freshPool _ (by decide)) rfl⟩
  obtain ⟨s1, e1, hp, hL, hi, hpw, hreach⟩ := hr
  have hw := worldSpec_succ_some hp hpw
  have hWo : (combine ⟨VEC3_ZERO, QUAT_IDENTITY, VEC3_UNIT_SCALE⟩ (s1 1)).orientation =
      (QUAT_IDENTITY : Quat ℝ) := by
    simp only [combine, hi, ↓reduceIte, hL, Quat.mul_identity]
    exact Quat.normalize_unit exactSqrt_real (by norm_num [Quat.dot, QUAT_IDENTITY])
  have hn : (⟨1, 0, 0⟩ : Vec3 ℝ).normalize = ⟨1, 0, 0⟩ :=
    Vec3.normalize_unit_vec exactSqrt_real (by norm_num [Vec3.dot])
  obtain ⟨B, hB⟩ := setDirection_maps_forward keepDecompose exactSqrt_real s1 hreach 1
    ⟨1, 0, 0⟩ VEC3_NEGATIVE_UNIT_Z .TS_WORLD
    (by intro h0; have := congrArg Vec3.x h0; simp [VEC3_ZERO] at this)
    (by norm_num [Vec3.dot, VEC3_NEGATIVE_UNIT_Z]) 1 _ hw
    (by rw [hWo]; norm_num [Quat.dot, QUAT_IDENTITY])
    (fun P hP => by
      rw [parentOrientation_child hp hpw] at hP
      rw [← Option.some.inj hP]
      norm_num [Quat.dot, QUAT_IDENTITY])
    ⟨1, 0, 0⟩ (by simp only [directionInWorld]; exact hn.symm)
    (by
      rw [hWo, Quat.rotate_identity]
      norm_num [Vec3.length2, Vec3.dot, Vec3.add, VEC3_NEGATIVE_UNIT_Z])
  refine ⟨s1, e1, B, fun g hg => ?_⟩
  obtain ⟨s0, s2, s3, o, -, hd, g1, -, hr, -⟩ := hB g hg
  exact ⟨s2, s3, o, hd, g1, hr⟩

/-- Counterexample to claim C18: a fresh node has the identity as world orientation; with the
unit local direction vector `f = (0,1,0)` and `v = (0,-1,0)` in TS_WORLD the target direction
is exactly opposite to the current forward direction; `setDirection` stores the fixed
quaternion (0,0,1,0), and the new world orientation maps `f` to `f` itself, not to the
target direction. -/
theorem setDirection_half_turn_about_forward :
    ∃ (s0 s1 s2 : State ℚ) (o : Quat ℚ),
      getWorldOrientation 1 (freshPool fun _ => none) 0 = .ok (s0, QUAT_IDENTITY) ∧
      ((QUAT_IDENTITY : Quat ℚ).rotate VEC3_UNIT_Y).add (Vec3.normalize ⟨0, -1, 0⟩) =
        VEC3_ZERO ∧
      setDirection 1 (freshPool fun _ => none) 0 ⟨0, -1, 0⟩ .TS_WORLD VEC3_UNIT_Y = .ok s1 ∧
      getWorldOrientation 1 s1 0 = .ok (s2, o) ∧ o = ⟨0, 0, 1, 0⟩ ∧
      o.rotate VEC3_UNIT_Y = VEC3_UNIT_Y ∧
      o.rotate VEC3_UNIT_Y ≠ Vec3.normalize ⟨0, -1, 0⟩ := by
  have hw : worldSpec (0 + 1) (freshPool fun _ => none : State ℚ) 0 =
      some (localWorld ((freshPool fun _ => none : State ℚ) 0)) := rfl
  obtain ⟨s1, s3, w1, hd, -, ho, g1, -, -, e3⟩ :=
    setDirection_after (inv_freshPool _) (depthBound_freshPool _) 0 ⟨0, -1, 0⟩ VEC3_UNIT_Y
      .TS_WORLD (by decide) hw 1 (by omega)
  rw [parentOrientation_root rfl] at ho e3
  have hval : setDirectionLocal none
      ((freshPool fun _ => none : State ℚ) 0).m_bInheritOrientation
      (localWorld ((freshPool fun _ => none : State ℚ) 0)).orientation ⟨0, -1, 0⟩ .TS_WORLD
      VEC3_UNIT_Y = ⟨0, 0, 1, 0⟩ := by decide!
  have ho1 : w1.orientation = ⟨0, 0, 1, 0⟩ := by
    rw [e3, ho, hval]
    rfl
  rw [ho1] at g1
  exact ⟨_, s1, s3, _, rfl, by decide!, hd, g1, rfl, by decide!, by decide!⟩

/-- Claim C18, amended: with an exact square root, in a reachable state, for every node `n`
whose world orientation `c` and whose parent's world orientation have unit length and every
non-zero `v` whose target direction `t` in world space is exactly opposite to the current
forward direction `c * f`: `setDirection(v, space, f)` returns, `getWorldOrientation`
afterwards returns the fixed quaternion (w,x,y,z) = (-c.y, -c.z, c.w, c.x), which is `c`
after a half turn about the local Y axis: it maps `f` onto `c * (-f.x, f.y, -f.z)`, and this
is the target direction when `f.y = 0`, as for the default local direction vector
(0,0,-1). -/
theorem setDirection_half_turn (dec : Decompose α) (hE : ExactSqrt α) (s : State α)
    (h : Reachable dec s) (n : NodeId) (v f : Vec3 α) (sp : transform_space_t)
    (hv : v ≠ VEC3_ZERO) (k : Nat) (w : World α)
    (hw : worldSpec (k + 1) s n = some w) (hW : w.orientation.dot w.orientation = 1)
    (hP : ∀ P, parentOrientation k s n = some P → P.dot P = 1) (t : Vec3 α)
    (ht : t = directionInWorld (parentOrientation k s n) (inheritOrientation s n)
      w.orientation v sp)
    (hopp : (w.orientation.rotate f).add t = VEC3_ZERO) :
    ∃ B, ∀ g, B < g → ∃ (s0 s1 s2 : State α) (o : Quat α),
      getWorldOrientation g s n = .ok (s0, w.orientation) ∧
      setDirection g s n v sp f = .ok s1 ∧
      getWorldOrientation g s1 n = .ok (s2, o) ∧
      o = ⟨-w.orientation.y, -w.orientation.z, w.orientation.w, w.orientation.x⟩ ∧
      o.rotate f = w.orientation.rotate ⟨-f.x, f.y, -f.z⟩ ∧
      (f.y = 0 → o.rotate f = t) := by
  have hs := h.inv
  obtain ⟨B, hB⟩ := h.depthBound
  refine ⟨B, fun g hg => ?_⟩
  obtain ⟨s0, w0, hw0, -, g0, -⟩ := getters_spec hs (hB.none_at n) g (by omega)
  obtain rfl := worldSpec_unique hw hw0
  obtain ⟨s1, s3, w1, hd, -, ho, g1, -, -, e3⟩ := setDirection_after hs hB n v f sp hv hw g hg
  have hlt : ((w.orientation.rotate f).add t).length2 < 5 / 100000 := by
    rw [hopp]
    norm_num [Vec3.length2, Vec3.dot, VEC3_ZERO]
  have hT := directionTarget_opposite hlt
  rw [ht] at hT
  have hTu : (directionTarget w.orientation (directionInWorld (parentOrientation k s n)
      (inheritOrientation s n) w.orientation v sp) f).dot
      (directionTarget w.orientation (directionInWorld (parentOrientation k s n)
        (inheritOrientation s n) w.orientation v sp) f) = 1 := by
    rw [hT, fallback_dot, hW]
  obtain ⟨m1, -, -⟩ := setDirectionLocal_world hE (parentOrientation k s n)
    (inheritOrientation s n) hP w.orientation v sp f hTu
  have key : w1.orientation =
      ⟨-w.orientation.y, -w.orientation.z, w.orientation.w, w.orientation.x⟩ := by
    rw [e3, ho, ← hT]
    exact m1
  rw [key] at g1
  refine ⟨s0, s1, s3, _, g0, hd, g1, rfl, fallback_rotate hW f, fun hy => ?_⟩
  rw [fallback_rotate hW f, Vec3.eq_neg_of_add_zero hopp, ← Quat.rotate_neg, hy, neg_zero]

/-- Witness of claim C18, amended: over the reals, a fresh node, whose forward direction is
(0,0,-1), told to face (0,0,1): the world orientation becomes (0,0,1,0) and maps (0,0,-1)
onto (0,0,1). -/
theorem setDirection_half_turn_witness :
    ∃ B, ∀ g, B < g → ∃ (s1 s2 : State ℝ),
      setDirection g (freshPool fun _ => none) 0 ⟨0, 0, 1⟩ .TS_WORLD VEC3_NEGATIVE_UNIT_Z =
        .ok s1 ∧
      getWorldOrientation g s1 0 = .ok (s2, ⟨0, 0, 1, 0⟩) ∧
      (⟨0, 0, 1, 0⟩ : Quat ℝ).rotate VEC3_NEGATIVE_UNIT_Z = ⟨0, 0, 1⟩ := by
  have hn : (⟨0, 0, 1⟩ : Vec3 ℝ).normalize = ⟨0, 0, 1⟩ :=
    Vec3.normalize_unit_vec exactSqrt_real (by norm_num [Vec3.dot])
  obtain ⟨B, hB⟩ := setDirection_half_turn keepDecompose exactSqrt_real
    (freshPool fun _ => none : State ℝ) (Reachable.fresh _) 0 ⟨0, 0, 1⟩ VEC3_NEGATIVE_UNIT_Z
    .TS_WORLD (by intro h0; have := congrArg Vec3.z h0; simp [VEC3_ZERO] at this) 0
    ⟨VEC3_ZERO, QUAT_IDENTITY, VEC3_UNIT_SCALE⟩ rfl (by norm_num [Quat.dot, QUAT_IDENTITY])
    (fun P hP => by rw [parentOrientation_root rfl] at hP; cases hP)
    ⟨0, 0, 1⟩ (by simp only [directionInWorld]; exact hn.symm)
    (by
      rw [Quat.rotate_identity]
      ext <;> norm_num [Vec3.add, VEC3_NEGATIVE_UNIT_Z, VEC3_ZERO])
  refine ⟨B, fun g hg => ?_⟩
  obtain ⟨s0, s1, s2, o, -, hd, g1, ho, -, hr⟩ := hB g hg
  have ho' : o = ⟨0, 0, 1, 0⟩ := by
    rw [ho]
    ext <;> simp [QUAT_IDENTITY]
  rw [ho'] at g1 hr
  exact ⟨s1, s2, hd, g1, hr rfl⟩

/-- Claim C20: with an exact square root, in a reachable state, for every node `n` whose world
orientation and whose parent's world orientation have unit length, every unit local direction
vector `f` and every point `P` other than the world position of `n`, with
`normalize(P - worldPosition)` not nearly opposite to the current forward direction:
`lookAt(P, TS_WORLD, f)` returns, `getWorldPosition` afterwards returns the world position from
before, and `getWorldOrientation` afterwards returns a quaternion that maps `f` onto
`normalize(P - worldPosition)`. -/
theorem lookAt_world_points_at (dec : Decompose α) (hE : ExactSqrt α) (s : State α)
    (h : Reachable dec s) (n : NodeId) (tp f : Vec3 α) (hf : f.dot f = 1) (k : Nat)
    (w : World α) (hw : worldSpec (k + 1) s n = some w) (hne : tp ≠ w.position)
    (hW : w.orientation.dot w.orientation = 1)
    (hP : ∀ P, parentOrientation k s n = some P → P.dot P = 1)
    (hopp : 5 / 100000 ≤
      ((w.orientation.rotate f).add (tp.sub w.position).normalize).length2) :
    ∃ B, ∀ g, B < g → ∃ (s0 s1 s2 : State α) (o : Quat α),
      getWorldPosition g s n = .ok (s0, w.position) ∧
      lookAt g s n tp .TS_WORLD f = .ok s1 ∧
      getWorldPosition g s1 n = .ok (s2, w.position) ∧
      getWorldOrientation g s1 n = .ok (s2, o) ∧
      o.rotate f = (tp.sub w.position).normalize := by
  have hs := h.inv
  obtain ⟨B, hB⟩ := h.depthBound
  refine ⟨B, fun g hg => ?_⟩
  obtain ⟨s0, w0, hw0, g0, -, -⟩ := getters_spec hs (hB.none_at n) g (by omega)
  obtain rfl := worldSpec_unique hw hw0
  obtain ⟨s1, s3, w1, hd, -, ho, g1, g2, e1, e3⟩ :=
    lookAt_world_after hs hB n tp f hw hne g hg
  have hv := Vec3.sub_ne_zero hne
  have htu := directionInWorld_unit hE (parentOrientation k s n) (s n).m_bInheritOrientation hP
    hW hv .TS_WORLD
  have hopp' : 5 / 100000 ≤ ((w.orientation.rotate f).add
      (directionInWorld (parentOrientation k s n) (s n).m_bInheritOrientation w.orientation
        (tp.sub w.position) .TS_WORLD)).length2 := hopp
  obtain ⟨hTu, hTr⟩ := directionTarget_spec hE hW htu hf hopp'
  obtain ⟨m1, -, -⟩ := setDirectionLocal_world hE (parentOrientation k s n)
    (s n).m_bInheritOrientation hP w.orientation (tp.sub w.position) .TS_WORLD f hTu
  have key : w1.orientation =
      directionTarget w.orientation (directionInWorld (parentOrientation k s n)
        (s n).m_bInheritOrientation w.orientation (tp.sub w.position) .TS_WORLD) f := by
    rw [e3, ho]
    exact m1
  rw [key] at g1
  rw [e1] at g2
  exact ⟨s0, s1, s3, _, g0, hd, g2, g1, hTr⟩

/-- Witness of claim C20: over the reals, a fresh node, at the origin with forward direction
(0,0,-1), looking at the point (1,0,0). -/
theorem lookAt_world_points_at_witness :
    ∃ B, ∀ g, B < g → ∃ (s1 s2 : State ℝ) (o : Quat ℝ),
      lookAt g (freshPool fun _ => none) 0 ⟨1, 0, 0⟩ .TS_WORLD VEC3_NEGATIVE_UNIT_Z = .ok s1 ∧
      getWorldPosition g s1 0 = .ok (s2, VEC3_ZERO) ∧
      getWorldOrientation g s1 0 = .ok (s2, o) ∧
      o.rotate VEC3_NEGATIVE_UNIT_Z = ⟨1, 0, 0⟩ := by
  have hsub : (⟨1, 0, 0⟩ : Vec3 ℝ).sub VEC3_ZERO = ⟨1, 0, 0⟩ := by
    ext <;> simp [Vec3.sub, VEC3_ZERO]
  have hn : (⟨1, 0, 0⟩ : Vec3 ℝ).normalize = ⟨1, 0, 0⟩ :=
    Vec3.normalize_unit_vec exactSqrt_real (by norm_num [Vec3.dot])
  obtain ⟨B, hB⟩ := lookAt_world_points_at keepDecompose exactSqrt_real
    (freshPool fun _ => none : State ℝ) (Reachable.fresh _) 0 ⟨1, 0, 0⟩ VEC3_NEGATIVE_UNIT_Z
    (by norm_num [Vec3.dot, VEC3_NEGATIVE_UNIT_Z]) 0
    ⟨VEC3_ZERO, QUAT_IDENTITY, VEC3_UNIT_SCALE⟩ rfl
    (by intro h0; have := congrArg Vec3.x h0; simp [VEC3_ZERO] at this)
    (by norm_num [Quat.dot, QUAT_IDENTITY])
    (fun P hP => by rw [parentOrientation_root rfl] at hP; cases hP)
    (by
      show 5 / 100000 ≤ (((QUAT_IDENTITY : Quat ℝ).rotate VEC3_NEGATIVE_UNIT_Z).add
        (((⟨1, 0, 0⟩ : Vec3 ℝ).sub VEC3_ZERO).normalize)).length2
      rw [hsub, hn, Quat.rotate_identity]
      norm_num [Vec3.length2, Vec3.dot, Vec3.add, VEC3_NEGATIVE_UNIT_Z])
  refine ⟨B, fun g hg => ?_⟩
  obtain ⟨s0, s1, s2, o, -, hd, g1, g2, hr⟩ := hB g hg
  have hr' : o.rotate VEC3_NEGATIVE_UNIT_Z = ⟨1, 0, 0⟩ := by
    rw [hr]
    show ((⟨1, 0, 0⟩ : Vec3 ℝ).sub VEC3_ZERO).normalize = _
    rw [hsub, hn]
  exact ⟨s1, s2, o, hd, g1, g2, hr'⟩

/-- Claim C27: with assertions enabled, precondition violations fail with the assertion as
their first step, so no node is changed and no state is returned: `setParent` with the node
itself as new parent, directly (already in the step that writes the links) and through
`Transformable::setParent`, and `addTag`, `removeTag`, `hasTag` and `findChildren` with the
empty string as tag. -/
theorem precondition_violations_assert (s : State α) (n : NodeId) (f : Nat)
    (recursive : Bool) :
    setParentLinks s n (some n) = .error .assertion ∧
    setParent f s n (some n) = .error .assertion ∧
    Transformable.setParent f s n (some n) = .error .assertion ∧
    addTag s n "" = .error .assertion ∧ removeTag s n "" = .error .assertion ∧
    hasTag s n "" = .error .assertion ∧
    findChildren (f + 1) s n "" recursive = .error .assertion := by
  have he : "".isEmpty = true := by decide
  refine ⟨by simp [setParentLinks], ?_, by simp [Transformable.setParent],
    by simp [addTag, he], by simp [removeTag, he], by simp [hasTag, he],
    by simp [findChildren, he]⟩
  simp [setParent, setParentLinks, bind, Except.bind]

/-- Claim C29 fails on the code: `setOrientation(1, 2, 3, 4)`, that is `w = 1`, `x = 2`,
`y = 3`, `z = 4` by the declaration, leaves the local orientation (w,x,y,z) = (4,1,2,3),
whereas `setOrientation(quat(1, 2, 3, 4))` and the array overload called with [1, 2, 3, 4]
leave (1,2,3,4). -/
theorem setOrientation_reals_misplaced :
    ∃ s1 s2 : State ℚ,
      setOrientationReals 1 (freshPool fun _ => none) 0 1 2 3 4 = .ok s1 ∧
      getOrientation s1 0 = ⟨4, 1, 2, 3⟩ ∧
      setOrientation 1 (freshPool fun _ => none) 0 ⟨1, 2, 3, 4⟩ = .ok s2 ∧
      setOrientationArray 1 (freshPool fun _ => none) 0
        (fun i => if i = 0 then 1 else if i = 1 then 2 else if i = 2 then 3 else 4) = .ok s2 ∧
      getOrientation s2 0 = ⟨1, 2, 3, 4⟩ ∧ getOrientation s1 0 ≠ getOrientation s2 0 :=
  ⟨_, _, rfl, rfl, rfl, rfl, rfl, by decide⟩

/-- Counterexample to claim C25: after `addTag("a")` twice, `removeTag("a")` erases one of the
two entries and `hasTag("a")` is still true. -/
theorem removeTag_leaves_duplicate :
    ∃ s1 s2 s3 : State ℚ, addTag (freshPool fun _ => none) 0 "a" = .ok s1 ∧
      addTag s1 0 "a" = .ok s2 ∧ removeTag s2 0 "a" = .ok s3 ∧
      getTags s3 0 = ["a"] ∧ hasTag s3 0 "a" = .ok true :=
  ⟨_, _, _, rfl, rfl, rfl, rfl, rfl⟩

/-- Claim C25, amended: for every node `n` and every non-empty tag `t`, `removeTag(t)` returns
and erases the first entry `t` of the tag list of `n`, if there is one, and changes nothing
else; afterwards `hasTag(u)` is unchanged for every other tag `u`, and `hasTag(t)` is true
exactly when `t` was in the list at least twice, so it is false when `t` was added at most
once. -/
theorem removeTag_effect (s : State α) (n : NodeId) (t : String) (ht : t.isEmpty = false) :
    ∃ s1, removeTag s n t = .ok s1 ∧ getTags s1 n = (getTags s n).erase t ∧
      s1 n = { s n with m_tags := (s n).m_tags.erase t } ∧ (∀ m, m ≠ n → s1 m = s m) ∧
      (∀ u, u ≠ t → hasTag s1 n u = hasTag s n u) ∧
      hasTag s1 n t = .ok (decide (2 ≤ (getTags s n).count t)) ∧
      ((getTags s n).count t ≤ 1 → hasTag s1 n t = .ok false) := by
  have hcount : (t ∈ (s n).m_tags.erase t) ↔ 2 ≤ (s n).m_tags.count t := by
    rw [← List.count_pos_iff, List.count_erase_self]
    omega
  have h5 : hasTag (Function.update s n { s n with m_tags := (s n).m_tags.erase t }) n t =
      .ok (decide (2 ≤ (getTags s n).count t)) := by
    rw [hasTag_ok ht]
    simp only [Function.update_same, getTags, hcount]
  refine ⟨_, by simp [removeTag, ht], by simp [getTags], by simp,
    fun m hm => Function.update_noteq hm _ _, fun u hu => ?_, h5, fun hle => ?_⟩
  · cases hue : u.isEmpty with
    | true => simp [hasTag, hue]
    | false =>
      rw [hasTag_ok hue, hasTag_ok hue]
      simp only [Function.update_same, List.mem_erase_of_ne hu]
  · rw [h5]
    simp only [Except.ok.injEq, decide_eq_false_iff_not]
    omega

/-- Witness of claim C25, amended: the test "Tag removal". -/
theorem removeTag_effect_witness :
    ∃ s1 s2 s3 s4 : State ℚ, addTag (freshPool fun _ => none) 0 "tag1" = .ok s1 ∧
      addTag s1 0 "tag2" = .ok s2 ∧ addTag s2 0 "tag3" = .ok s3 ∧
      removeTag s3 0 "tag2" = .ok s4 ∧ getTags s4 0 = ["tag1", "tag3"] ∧
      hasTag s4 0 "tag2" = .ok false ∧ hasTag s4 0 "tag1" = hasTag s3 0 "tag1" := by
  have hr : ∃ s1 s2 s3 : State ℚ, addTag (freshPool fun _ => none) 0 "tag1" = .ok s1 ∧
      addTag s1 0 "tag2" = .ok s2 ∧ addTag s2 0 "tag3" = .ok s3 ∧
      getTags s3 0 = ["tag1", "tag2", "tag3"] := ⟨_, _, _, rfl, rfl, rfl, rfl⟩
  obtain ⟨s1, s2, s3, e1, e2, e3, ht3⟩ := hr
  obtain ⟨s4, h1, h2, -, -, h5, -, h7⟩ := removeTag_effect s3 0 "tag2" (by decide)
  refine ⟨s1, s2, s3, s4, e1, e2, e3, h1, ?_, h7 ?_, h5 "tag1" (by decide)⟩
  · rw [h2, ht3]; decide
  · rw [ht3]; decide

/-- Claim C26: for every node `n` and every non-empty tag `t`, `addTag(t)` returns and appends
`t` to the tag list of `n` and changes nothing else: afterwards `n.hasTag(t)` is true,
`n.hasTag(u)` is unchanged for every other tag `u`, every other node (parent, children and
descendants of `n` included) is unchanged, `findChildren` gives the same answers as before for
every other tag, and every node other than `n` that `findChildren` returns for `t` carried
`t` before. -/
theorem addTag_effect (s : State α) (n : NodeId) (t : String) (ht : t.isEmpty = false) :
    ∃ s1, addTag s n t = .ok s1 ∧ hasTag s1 n t = .ok true ∧
      s1 n = { s n with m_tags := (s n).m_tags ++ [t] } ∧ (∀ m, m ≠ n → s1 m = s m) ∧
      (∀ u, u ≠ t → hasTag s1 n u = hasTag s n u) ∧
      (∀ m u, m ≠ n → hasTag s1 m u = hasTag s m u) ∧
      (∀ f a u r, u ≠ t → findChildren f s1 a u r = findChildren f s a u r) ∧
      (∀ f a r l, findChildren f s1 a t r = .ok l → ∀ m ∈ l, m ≠ n → t ∈ getTags s m) := by
  have hn : (Function.update s n { s n with m_tags := (s n).m_tags ++ [t] } n).m_tags =
      (s n).m_tags ++ [t] := by simp
  have hm : ∀ m, m ≠ n →
      Function.update s n { s n with m_tags := (s n).m_tags ++ [t] } m = s m :=
    fun m hm => Function.update_noteq hm _ _
  have hu : ∀ m u, u ≠ t →
      hasTag (Function.update s n { s n with m_tags := (s n).m_tags ++ [t] }) m u =
        hasTag s m u := by
    intro m u hut
    by_cases hmn : m = n
    · subst hmn
      simp only [hasTag, hn, List.mem_append, List.mem_singleton, hut, or_false]
    · simp only [hasTag, hm m hmn]
  refine ⟨_, by simp [addTag, ht], ?_, by simp, hm, fun u hut => hu n u hut,
    fun m u hmn => by simp only [hasTag, hm m hmn], fun f a u r hut => ?_,
    fun f a r l hl m hml hmn => ?_⟩
  · rw [hasTag_ok ht, hn]
    simp
  · refine findChildren_congr (fun m => ?_) (fun m => hu m u hut) f a r
    by_cases hmn : m = n
    · subst hmn; simp
    · rw [hm m hmn]
  · have := findChildren_mem f a r l hl m hml
    rw [hm m hmn] at this
    exact this

/-- Witness of claim C26: the test "Tag addition". -/
theorem addTag_effect_witness :
    ∃ s1 s2 : State ℚ, addTag (freshPool fun _ => none) 0 "tag1" = .ok s1 ∧
      addTag s1 0 "tag2" = .ok s2 ∧ hasTag s2 0 "tag2" = .ok true ∧
      hasTag s2 0 "tag1" = hasTag s1 0 "tag1" ∧ hasTag s2 0 "unknown" = hasTag s1 0 "unknown" ∧
      ∀ m, m ≠ 0 → s2 m = s1 m := by
  have hr : ∃ s1 : State ℚ, addTag (freshPool fun _ => none) 0 "tag1" = .ok s1 := ⟨_, rfl⟩
  obtain ⟨s1, e1⟩ := hr
  obtain ⟨s2, h1, h2, -, h4, h5, -⟩ := addTag_effect s1 0 "tag2" (by decide)
  exact ⟨s1, s2, e1, h1, h2, h5 "tag1" (by decide), h5 "unknown" (by decide), h4⟩

/-- Claim C28: in a reachable state, `scale(a)` followed by `scale(b)` on a node with local
scale `sc` returns the very state that `setScale(sc * a * b)` (component-wise products)
returns, and so does `scale(b)` followed by `scale(a)`; the local scale is then `sc * a * b`.
In particular `scale((2,2,2))` twice on a node with scale (1,1,1) gives the state of
`setScale((4,4,4))`. -/
theorem scale_twice_eq_setScale (dec : Decompose α) (s : State α) (h : Reachable dec s)
    (n : NodeId) (a b : Vec3 α) :
    ∃ B, ∀ f, B < f → ∃ s1 s2 s3 : State α,
      scale f s n a = .ok s1 ∧ scale f s1 n b = .ok s3 ∧
      scale f s n b = .ok s2 ∧ scale f s2 n a = .ok s3 ∧
      setScale f s n (((getScale s n).mul a).mul b) = .ok s3 ∧
      getScale s1 n = (getScale s n).mul a ∧
      getScale s3 n = ((getScale s n).mul a).mul b ∧
      (getScale s n = ⟨1, 1, 1⟩ → a = ⟨2, 2, 2⟩ → b = ⟨2, 2, 2⟩ →
        setScale f s n ⟨4, 4, 4⟩ = .ok s3) := by
  have hs := h.inv
  obtain ⟨B, hB⟩ := h.depthBound
  refine ⟨B, fun f hf => ?_⟩
  have step : ∀ (a b : Vec3 α), ∃ s1 s3 : State α, scale f s n a = .ok s1 ∧
      scale f s1 n b = .ok s3 ∧
      setScale f s n (((getScale s n).mul a).mul b) = .ok s3 ∧
      getScale s1 n = (getScale s n).mul a ∧
      getScale s3 n = ((getScale s n).mul a).mul b := by
    intro a b
    obtain ⟨s1, h1⟩ : ∃ s1, scale f s n a = .ok s1 := by
      refine edit_returns hs.1 hB n _ ?_ ?_ f hf <;> rfl
    have hi1 : Inv s1 := inv_edit hs _ h1 rfl rfl
    have hea := (editedAt_edit (onlyCached_refl s) h1 rfl rfl rfl rfl)
    have hB1 : DepthBound s1 B := hea.1.depthBound_ea hB
    obtain ⟨s3, h3⟩ : ∃ s3, scale f s1 n b = .ok s3 := by
      refine edit_returns hi1.1 hB1 n _ ?_ ?_ f hf <;> rfl
    obtain ⟨s3', h3'⟩ : ∃ s3, setScale f s n (((getScale s n).mul a).mul b) = .ok s3 := by
      refine edit_returns hs.1 hB n _ ?_ ?_ f hf <;> rfl
    have k1 : needUpdate f (Function.update s n
        { s n with m_scale := (s n).m_scale.mul a }) n = .ok s1 := h1
    have k3 : needUpdate f (Function.update s1 n
        { s1 n with m_scale := (s1 n).m_scale.mul b }) n = .ok s3 := h3
    have k3' : needUpdate f (Function.update s n
        { s n with m_scale := ((getScale s n).mul a).mul b }) n = .ok s3' := h3'
    obtain ⟨e1, -, -⟩ := edit_exact hs.1 (by rfl) (by rfl) k1
    have hsc1 : (s1 n).m_scale = (s n).m_scale.mul a := by rw [e1]
    have hp1 : (s1 n).m_parent = (s n).m_parent := by rw [e1]
    have hc1 : (s1 n).m_children = (s n).m_children := by rw [e1]
    have heq : s3 = s3' := by
      refine edit_twice hs.1 (by rfl) (by rfl) k1 (by exact hp1) (by exact hc1) k3
        (by rfl) (by rfl) k3' ?_
      rw [e1]
      rfl
    subst heq
    obtain ⟨e3, -, -⟩ := edit_exact hs.1 (by rfl) (by rfl) k3'
    exact ⟨s1, s3, h1, h3, h3', hsc1, by rw [getScale, e3]⟩
  obtain ⟨s1, s3, h1, h2, h3, h4, h5⟩ := step a b
  obtain ⟨s2, s3', g1, g2, g3, -, -⟩ := step b a
  have hcomm : ((getScale s n).mul b).mul a = ((getScale s n).mul a).mul b :=
    Vec3.mul_right_comm_v _ _ _
  rw [hcomm, h3] at g3
  obtain rfl := Except.ok.inj g3
  refine ⟨s1, s2, s3, h1, h2, g1, g2, h3, h4, h5, fun e1 e2 e3 => ?_⟩
  rw [e1, e2, e3] at h3
  have : (((⟨1, 1, 1⟩ : Vec3 α).mul ⟨2, 2, 2⟩).mul ⟨2, 2, 2⟩) = ⟨4, 4, 4⟩ := by
    ext <;> simp only [Vec3.mul] <;> norm_num
  rw [this] at h3
  exact h3

/-- Witness of claim C28: the child `1` of node `0`, `scale((2,2,2))` twice. -/
theorem scale_twice_eq_setScale_witness :
    ∃ s0 : State ℚ, setParent 2 (freshPool fun _ => none) 1 (some 0) = .ok s0 ∧
      ∃ B, ∀ f, B < f → ∃ s1 s3 : State ℚ, scale f s0 0 ⟨2, 2, 2⟩ = .ok s1 ∧
        scale f s1 0 ⟨2, 2, 2⟩ = .ok s3 ∧ setScale f s0 0 ⟨4, 4, 4⟩ = .ok s3 := by
  have hr : ∃ s0 : State ℚ, setParent 2 (freshPool fun _ => none) 1 (some 0) = .ok s0 ∧
      getScale s0 0 = ⟨1, 1, 1⟩ ∧ Reachable keepDecompose s0 :=
    ⟨_, rfl, rfl, Reachable.call (.setParent 1 (some 0)) 2 (Reachable.fresh _)
      (not_inSubtree_freshPool _ (by decide)) rfl⟩
  obtain ⟨s0, e0, hsc, hreach⟩ := hr
  obtain ⟨B, hB⟩ := scale_twice_eq_setScale keepDecompose s0 hreach 0 ⟨2, 2, 2⟩ ⟨2, 2, 2⟩
  refine ⟨s0, e0, B, fun f hf => ?_⟩
  obtain ⟨s1, s2, s3, h1, h2, -, -, -, -, -, hex⟩ := hB f hf
  exact ⟨s1, s3, h1, h2, hex hsc rfl rfl⟩

/-- Claim C30, counterexample: `setOrientation((2,0,0,0))` on a fresh node returns; in the
reachable state it leaves, the local orientation of the node and the world orientation that
`getWorldOrientation` returns are the quaternion (2,0,0,0), whose squared length is 4. -/
theorem setOrientation_keeps_non_unit :
    ∃ (s1 s2 : State ℚ) (o : Quat ℚ),
      setOrientation 1 (freshPool fun _ => none) 0 ⟨2, 0, 0, 0⟩ = .ok s1 ∧
      Reachable keepDecompose s1 ∧
      getOrientation s1 0 = ⟨2, 0, 0, 0⟩ ∧
      getWorldOrientation 1 s1 0 = .ok (s2, o) ∧ o = ⟨2, 0, 0, 0⟩ ∧
      (getOrientation s1 0).dot (getOrientation s1 0) = 4 ∧ o.dot o = 4 :=
  ⟨_, _, _, rfl, Reachable.call (.setOrientation 0 ⟨2, 0, 0, 0⟩) 1 (Reachable.fresh _) trivial rfl,
    rfl, rfl, rfl, by decide!, by decide!⟩

/-- Claim C30, amended: with an exact square root, in every state reachable by the public
operations and for every node `n`, `getWorldOrientation()` returns; for a node that has a parent
and inherits its orientation the returned world orientation is a unit-length quaternion; for a
node without parent, or one that does not inherit orientation, it is the local orientation of
the node, which is the quaternion last stored (not normalised by `setOrientation`). -/
theorem world_orientation_unit_when_inherited (dec : Decompose α) (hE : ExactSqrt α)
    (s : State α) (h : Reachable dec s) (n : NodeId) :
    ∃ B, ∀ g, B < g → ∃ (s1 : State α) (o : Quat α),
      getWorldOrientation g s n = .ok (s1, o) ∧
      (getParent s n ≠ none → inheritOrientation s n = true → o.dot o = 1) ∧
      ((getParent s n = none ∨ inheritOrientation s n = false) → o = getOrientation s n) := by
  have hs := h.inv
  obtain ⟨B, hB⟩ := h.depthBound
  refine ⟨B, fun g hg => ?_⟩
  obtain ⟨s1, w, hw, -, ho, -⟩ := getters_spec hs (hB.none_at n) g (by omega)
  refine ⟨s1, w.orientation, ho, fun hp hi => ?_, fun hc => ?_⟩
  · rcases worldSpec_succ_inv hw with ⟨hp', -⟩ | ⟨p, pw, -, -, e⟩
    · exact absurd hp' hp
    · rw [e]
      exact combine_orientation_unit hE pw (s n) hi
  · rcases worldSpec_succ_inv hw with ⟨-, e⟩ | ⟨p, pw, hp', -, e⟩
    · rw [e]; rfl
    · rcases hc with hc | hc
      · rw [getParent, hp'] at hc
        exact nomatch hc
      · rw [e]
        simp only [inheritOrientation] at hc
        simp [combine, hc, getOrientation]

/-- Witness of claim C30, amended: the child `1` of node `0`, after
`setOrientation((2,0,0,0))` on the child. -/
theorem world_orientation_unit_when_inherited_witness :
    ∃ s1 s2 : State ℝ, setParent 2 (freshPool fun _ => none) 1 (some 0) = .ok s1 ∧
      setOrientation 2 s1 1 ⟨2, 0, 0, 0⟩ = .ok s2 ∧
      ∃ B, ∀ g, B < g → ∃ (s3 : State ℝ) (o : Quat ℝ),
        getWorldOrientation g s2 1 = .ok (s3, o) ∧ o.dot o = 1 := by
  have hr : ∃ s1 s2 : State ℝ, setParent 2 (freshPool fun _ => none) 1 (some 0) = .ok s1 ∧
      setOrientation 2 s1 1 ⟨2, 0, 0, 0⟩ = .ok s2 ∧ getParent s2 1 = some 0 ∧
      inheritOrientation s2 1 = true ∧ Reachable keepDecompose s2 :=
    ⟨_, _, rfl, rfl, rfl, rfl, Reachable.call (.setOrientation 1 ⟨2, 0, 0, 0⟩) 2
      (Reachable.call (.setParent 1 (some 0)) 2 (Reachable.fresh _)
        (not_inSubtree_freshPool _ (by decide)) rfl) trivial rfl⟩
  obtain ⟨s1, s2, e1, e2, hp, hi, hreach⟩ := hr
  obtain ⟨B, hB⟩ := world_orientation_unit_when_inherited keepDecompose exactSqrt_real s2
    hreach 1
  refine ⟨s1, s2, e1, e2, B, fun g hg => ?_⟩
  obtain ⟨s3, o, h1, h2, -⟩ := hB g hg
  exact ⟨s3, o, h1, h2 (by rw [hp]; exact fun h => nomatch h) hi⟩

/-- Claim C22: round trip. Let node `t` have local position `p`, local orientation a unit
quaternion `q` and a local scale `sc` with strictly positive components, let `t2` be a fresh
node, and let `glm::decompose` return a decomposition of the matrix `t.getMatrix()` (positive
scale, unit quaternion, position whose composition is the matrix). Then
`t2.set(t.getMatrix())` returns, and afterwards `t2` has local position `p`, local scale `sc`
and local orientation `q` or `-q`. -/
theorem set_getMatrix_round_trip (dec : Decompose α) (s : State α) (t t2 : NodeId)
    (tr : Option Nat) (hfresh : s t2 = Transforms.new tr)
    (hx : 0 < (getScale s t).x) (hy : 0 < (getScale s t).y) (hz : 0 < (getScale s t).z)
    (hq : (getOrientation s t).dot (getOrientation s t) = 1)
    (hdec : IsDecomposition (getMatrix s t)
      (dec (getMatrix s t) ((s t2).m_scale, (s t2).m_orientation, (s t2).m_position)))
    (f : Nat) :
    ∃ s1, set dec (f + 1) s t2 (getMatrix s t) = .ok s1 ∧
      getPosition s1 t2 = getPosition s t ∧ getScale s1 t2 = getScale s t ∧
      (getOrientation s1 t2 = getOrientation s t ∨
        getOrientation s1 t2 = (getOrientation s t).neg) := by
  obtain ⟨dx, dy, dz, dq, dm⟩ := hdec
  obtain ⟨e1, e2, e3⟩ := composeMatrix_unique hx hy hz hq dx dy dz dq dm
  have hch : (s t2).m_children = [] := by rw [hfresh]; rfl
  refine ⟨_, needUpdate_leaf f _ t2 (by rw [Function.update_same]; exact hch), ?_, ?_, ?_⟩
  · simpa [getPosition] using e1
  · simpa [getScale] using e2
  · simpa [getOrientation] using e3

/-- Witness of claim C22: node `0` at (1,2,3) with orientation (w,x,y,z) = (0,1,0,0) and scale
(2,3,4), the fresh node `1`, and a decompose that returns these values. -/
theorem set_getMatrix_round_trip_witness :
    ∃ s0 sa sb sc : State ℚ,
      setPosition 1 (freshPool fun _ => none) 0 ⟨1, 2, 3⟩ = .ok sa ∧
      setOrientation 1 sa 0 ⟨0, 1, 0, 0⟩ = .ok sb ∧ setScale 1 sb 0 ⟨2, 3, 4⟩ = .ok s0 ∧
      set (fun _ _ => (⟨2, 3, 4⟩, ⟨0, 1, 0, 0⟩, ⟨1, 2, 3⟩)) 1 s0 1 (getMatrix s0 0) = .ok sc ∧
      getPosition sc 1 = ⟨1, 2, 3⟩ ∧ getScale sc 1 = ⟨2, 3, 4⟩ ∧
      (getOrientation sc 1 = ⟨0, 1, 0, 0⟩ ∨
        getOrientation sc 1 = (⟨0, 1, 0, 0⟩ : Quat ℚ).neg) := by
  have hr : ∃ s0 sa sb : State ℚ,
      setPosition 1 (freshPool fun _ => none) 0 ⟨1, 2, 3⟩ = .ok sa ∧
      setOrientation 1 sa 0 ⟨0, 1, 0, 0⟩ = .ok sb ∧ setScale 1 sb 0 ⟨2, 3, 4⟩ = .ok s0 ∧
      s0 1 = Transforms.new none ∧ getPosition s0 0 = ⟨1, 2, 3⟩ ∧
      getScale s0 0 = ⟨2, 3, 4⟩ ∧ getOrientation s0 0 = ⟨0, 1, 0, 0⟩ :=
    ⟨_, _, _, rfl, rfl, rfl, rfl, rfl, rfl, rfl⟩
  obtain ⟨s0, sa, sb, ea, eb, e0, hfresh, hp, hsc, ho⟩ := hr
  have hm : getMatrix s0 0 = composeMatrix ⟨2, 3, 4⟩ ⟨0, 1, 0, 0⟩ ⟨1, 2, 3⟩ := by
    simp only [getPosition, getScale, getOrientation] at hp hsc ho
    rw [getMatrix, hp, hsc, ho]
  obtain ⟨sc, h1, h2, h3, h4⟩ := set_getMatrix_round_trip
    (fun _ _ => (⟨2, 3, 4⟩, ⟨0, 1, 0, 0⟩, ⟨1, 2, 3⟩)) s0 0 1 none hfresh
    (by rw [hsc]; norm_num) (by rw [hsc]; norm_num) (by rw [hsc]; norm_num)
    (by rw [ho]; norm_num [Quat.dot])
    ⟨by norm_num, by norm_num, by norm_num, by norm_num [Quat.dot], hm.symm⟩ 0
  rw [hp] at h2
  rw [hsc] at h3
  rw [ho] at h4
  exact ⟨s0, sa, sb, sc, ea, eb, e0, h1, h2, h3, h4⟩

/-- Claim C24: in a consistent acyclic hierarchy (of depth at most `B`), for every node `a`
and non-empty tag, with a call stack deeper than `B`: `a.findChildren(tag, false)` returns the
direct children of `a` that carry the tag, in child-list order; `a.findChildren(tag, true)`
returns the strict descendants of `a` that carry the tag in pre-order (each child, then the
descendants of that child, before the next child). The pre-order list holds exactly the strict
descendants of `a`, each once; `a` itself is never returned; a node is returned only if the tag
is equal to one of its tags; and the result is empty when no descendant carries the tag. -/
theorem findChildren_preorder_tagged (s : State α) (hs : Consistent s) (ha : Acyclic s)
    (B : Nat) (hB : DepthBound s B) (a : NodeId) (tag : String) (ht : tag.isEmpty = false)
    (f : Nat) (hf : B < f) :
    findChildren f s a tag false = .ok (findChildrenSpec B s a tag false) ∧
    findChildren f s a tag true = .ok (findChildrenSpec B s a tag true) ∧
    (∀ m, m ∈ descendantsPreorder B s a ↔ ∃ k, ancestorAt s m (k + 1) = some a) ∧
    (descendantsPreorder B s a).Nodup ∧
    (∀ r, a ∉ findChildrenSpec B s a tag r) ∧
    (∀ r, (findChildrenSpec B s a tag r).Nodup) ∧
    (∀ r m, m ∈ findChildrenSpec B s a tag r → tag ∈ (s m).m_tags) ∧
    ((∀ m, m ∈ descendantsPreorder B s a → tag ∉ (s m).m_tags) →
      ∀ r, findChildrenSpec B s a tag r = []) := by
  have hn := ha.noCycle
  have hmem : ∀ m, m ∈ descendantsPreorder B s a ↔ ∃ k, ancestorAt s m (k + 1) = some a := by
    intro m
    rw [mem_descendantsPreorder hs]
    constructor
    · rintro ⟨k, -, hk⟩; exact ⟨k, hk⟩
    · rintro ⟨k, hk⟩
      have := hB m (k + 1) a hk
      exact ⟨k, by omega, hk⟩
  have hchild : ∀ m, m ∈ (s a).m_children → m ∈ descendantsPreorder B s a := by
    intro m hm
    have hp : (s m).m_parent = some a := (hs.1 m a).mp hm
    exact (hmem m).mpr ⟨0, by simp [ancestorAt, hp]⟩
  have hnd := nodup_descendantsPreorder hs hn B a
  have hself : a ∉ descendantsPreorder B s a := fun h => by
    obtain ⟨k, hk⟩ := (hmem a).mp h
    exact hn a k hk
  obtain ⟨g, rfl⟩ : ∃ i, f = i + 1 := ⟨f - 1, by omega⟩
  refine ⟨?_, ?_, hmem, hnd, fun r hr => ?_, fun r => ?_, fun r m hm => ?_, fun hno r => ?_⟩
  · rw [findChildren_direct ht]; rfl
  · rw [findChildren_recursive hs ht B a (fun m k hk => hB m k a hk) (g + 1) hf]; rfl
  · have := (List.mem_filter.mp hr).1
    cases r with
    | false => exact hself (hchild a (by simpa using this))
    | true => exact hself (by simpa using this)
  · cases r with
    | false => exact (hs.2 a).filter _
    | true => exact hnd.filter _
  · simpa using (List.mem_filter.mp hm).2
  · refine List.filter_eq_nil_iff.mpr fun m hm => ?_
    have hd : m ∈ descendantsPreorder B s a := by
      cases r with
      | false => exact hchild m (by simpa using hm)
      | true => simpa using hm
    simpa using hno m hd

/-- Witness of claim C24: nodes a = `0`, b = `1`, c = `2`, d = `3`, with b and c children of a,
d child of b, and the tag on a, b and d: the recursive search from a returns [b, d], the
non-recursive one [b]. -/
theorem findChildren_preorder_tagged_witness :
    ∃ s0 : State ℚ, Reachable keepDecompose s0 ∧
      findChildren 3 s0 0 "tag" true = .ok [1, 3] ∧
      findChildren 3 s0 0 "tag" false = .ok [1] ∧
      ∃ B, ∀ f, B < f →
        findChildren f s0 0 "tag" false = .ok (findChildrenSpec B s0 0 "tag" false) ∧
        findChildren f s0 0 "tag" true = .ok (findChildrenSpec B s0 0 "tag" true) ∧
        0 ∉ findChildrenSpec B s0 0 "tag" true := by
  have hr : ∃ s1 s2 s3 s4 s5 s0 : State ℚ,
      addTag (freshPool fun _ => none) 0 "tag" = .ok s1 ∧ addTag s1 1 "tag" = .ok s2 ∧
      addTag s2 3 "tag" = .ok s3 ∧ setParent 3 s3 1 (some 0) = .ok s4 ∧
      setParent 3 s4 2 (some 0) = .ok s5 ∧ setParent 3 s5 3 (some 1) = .ok s0 ∧
      ¬ InSubtree s3 1 0 ∧ ¬ InSubtree s4 2 0 ∧ ¬ InSubtree s5 3 1 ∧
      findChildren 3 s0 0 "tag" true = .ok [1, 3] ∧
      findChildren 3 s0 0 "tag" false = .ok [1] :=
    ⟨_, _, _, _, _, _, rfl, rfl, rfl, rfl, rfl, rfl,
      not_inSubtree_of_none 1 rfl (by decide), not_inSubtree_of_none 1 rfl (by decide),
      not_inSubtree_of_none 2 rfl (by decide), rfl, rfl⟩
  obtain ⟨s1, s2, s3, s4, s5, s0, e1, e2, e3, e4, e5, e6, n1, n2, n3, r1, r2⟩ := hr
  have hreach : Reachable keepDecompose s0 :=
    Reachable.call (.setParent 3 (some 1)) 3
      (Reachable.call (.setParent 2 (some 0)) 3
        (Reachable.call (.setParent 1 (some 0)) 3
          (Reachable.call (.addTag 3 "tag") 0
            (Reachable.call (.addTag 1 "tag") 0
              (Reachable.call (.addTag 0 "tag") 0 (Reachable.fresh _) trivial e1)
              trivial e2)
            trivial e3)
          n1 e4)
        n2 e5)
      n3 e6
  obtain ⟨B, hB⟩ := hreach.depthBound
  refine ⟨s0, hreach, r1, r2, B, fun f hf => ?_⟩
  obtain ⟨h1, h2, -, -, h5, -⟩ := findChildren_preorder_tagged s0 hreach.inv.1 hreach.inv.2.1
    B hB 0 "tag" rfl f hf
  exact ⟨h1, h2, h5 true⟩

/-- Claim C21, counterexample: four scenarios with the child `1` of node `0`, the child at the
origin, in which `lookAt(P, TS_PARENT, f)` returns and the new world forward direction does not
point from the world position of the child toward the world location of `P`.
(1) Parent scaled by (2,1,1), `P` = (3,4,0), `f` = (3/5,4/5,0): the location of `P` is (6,4,0),
the forward direction (3/5,4/5,0).
(2) Parent turned by half a turn about Z, child not inheriting orientation, `P` = (1,0,0),
`f` = (1,0,0): the location of `P` is (-1,0,0), the forward direction (1,0,0).
(3) Parent scaled by (-1,-1,-1), `P` = (1,0,0), `f` = (1,0,0): the location of `P` is
(-1,0,0), the forward direction (1,0,0).
(4) `P` = (0,-1,0), `f` = (0,1,0), exactly opposite: the location of `P` is (0,-1,0), the
forward direction stays (0,1,0). -/
theorem lookAt_parent_misses_point :
    (∃ s1 s0 : State ℚ, setParent 2 (freshPool fun _ => none) 1 (some 0) = .ok s1 ∧
      setScale 2 s1 0 ⟨2, 1, 1⟩ = .ok s0 ∧
      ∃ (s2 s3 sp : State ℚ) (o : Quat ℚ),
        getWorldPosition 4 s0 0 = .ok (sp, VEC3_ZERO) ∧
        getWorldOrientation 4 s0 0 = .ok (sp, QUAT_IDENTITY) ∧
        getWorldScale 4 s0 0 = .ok (sp, ⟨2, 1, 1⟩) ∧
        lookAt 4 s0 1 ⟨3, 4, 0⟩ .TS_PARENT ⟨3 / 5, 4 / 5, 0⟩ = .ok s2 ∧
        getWorldPosition 4 s2 1 = .ok (s3, VEC3_ZERO) ∧
        getWorldOrientation 4 s2 1 = .ok (s3, o) ∧
        o.rotate ⟨3 / 5, 4 / 5, 0⟩ = ⟨3 / 5, 4 / 5, 0⟩ ∧
        worldLocation ⟨VEC3_ZERO, QUAT_IDENTITY, ⟨2, 1, 1⟩⟩ ⟨3, 4, 0⟩ = (⟨6, 4, 0⟩ : Vec3 ℚ) ∧
        ¬ PointsToward VEC3_ZERO ⟨6, 4, 0⟩ (o.rotate ⟨3 / 5, 4 / 5, 0⟩)) ∧
    (∃ s1 s2 s0 : State ℚ, setParent 2 (freshPool fun _ => none) 1 (some 0) = .ok s1 ∧
      setOrientation 2 s1 0 ⟨0, 0, 0, 1⟩ = .ok s2 ∧
      setInheritOrientation 2 s2 1 false = .ok s0 ∧
      ∃ (s3 s4 sp : State ℚ) (o : Quat ℚ),
        getWorldPosition 8 s0 0 = .ok (sp, VEC3_ZERO) ∧
        getWorldOrientation 8 s0 0 = .ok (sp, ⟨0, 0, 0, 1⟩) ∧
        getWorldScale 8 s0 0 = .ok (sp, VEC3_UNIT_SCALE) ∧
        lookAt 8 s0 1 ⟨1, 0, 0⟩ .TS_PARENT ⟨1, 0, 0⟩ = .ok s3 ∧
        getWorldPosition 8 s3 1 = .ok (s4, VEC3_ZERO) ∧
        getWorldOrientation 8 s3 1 = .ok (s4, o) ∧
        o.rotate ⟨1, 0, 0⟩ = ⟨1, 0, 0⟩ ∧
        worldLocation ⟨VEC3_ZERO, ⟨0, 0, 0, 1⟩, VEC3_UNIT_SCALE⟩ ⟨1, 0, 0⟩ =
          (⟨-1, 0, 0⟩ : Vec3 ℚ) ∧
        ¬ PointsToward VEC3_ZERO ⟨-1, 0, 0⟩ (o.rotate ⟨1, 0, 0⟩)) ∧
    (∃ s1 s0 : State ℚ, setParent 2 (freshPool fun _ => none) 1 (some 0) = .ok s1 ∧
      setScale 2 s1 0 ⟨-1, -1, -1⟩ = .ok s0 ∧
      ∃ (s2 s3 sp : State ℚ) (o : Quat ℚ),
        getWorldPosition 4 s0 0 = .ok (sp, VEC3_ZERO) ∧
        getWorldOrientation 4 s0 0 = .ok (sp, QUAT_IDENTITY) ∧
        getWorldScale 4 s0 0 = .ok (sp, ⟨-1, -1, -1⟩) ∧
        lookAt 4 s0 1 ⟨1, 0, 0⟩ .TS_PARENT ⟨1, 0, 0⟩ = .ok s2 ∧
        getWorldPosition 4 s2 1 = .ok (s3, VEC3_ZERO) ∧
        getWorldOrientation 4 s2 1 = .ok (s3, o) ∧
        o.rotate ⟨1, 0, 0⟩ = ⟨1, 0, 0⟩ ∧
        worldLocation ⟨VEC3_ZERO, QUAT_IDENTITY, ⟨-1, -1, -1⟩⟩ ⟨1, 0, 0⟩ =
          (⟨-1, 0, 0⟩ : Vec3 ℚ) ∧
        ¬ PointsToward VEC3_ZERO ⟨-1, 0, 0⟩ (o.rotate ⟨1, 0, 0⟩)) ∧
    (∃ s0 : State ℚ, setParent 2 (freshPool fun _ => none) 1 (some 0) = .ok s0 ∧
      ∃ (s2 s3 sp : State ℚ) (o : Quat ℚ),
        getWorldPosition 2 s0 0 = .ok (sp, VEC3_ZERO) ∧
        getWorldOrientation 2 s0 0 = .ok (sp, QUAT_IDENTITY) ∧
        getWorldScale 2 s0 0 = .ok (sp, VEC3_UNIT_SCALE) ∧
        lookAt 2 s0 1 ⟨0, -1, 0⟩ .TS_PARENT ⟨0, 1, 0⟩ = .ok s2 ∧
        getWorldPosition 2 s2 1 = .ok (s3, VEC3_ZERO) ∧
        getWorldOrientation 2 s2 1 = .ok (s3, o) ∧
        o.rotate ⟨0, 1, 0⟩ = ⟨0, 1, 0⟩ ∧
        worldLocation ⟨VEC3_ZERO, QUAT_IDENTITY, VEC3_UNIT_SCALE⟩ ⟨0, -1, 0⟩ =
          (⟨0, -1, 0⟩ : Vec3 ℚ) ∧
        ¬ PointsToward VEC3_ZERO ⟨0, -1, 0⟩ (o.rotate ⟨0, 1, 0⟩)) := by
  have hk : ¬ InSubtree (freshPool fun _ => none : State ℚ) 1 0 :=
    not_inSubtree_freshPool _ (by decide)
  refine ⟨?_, ?_, ?_, ?_⟩
  · have hr : ∃ s1 s0 : State ℚ, setParent 2 (freshPool fun _ => none) 1 (some 0) = .ok s1 ∧
        setScale 2 s1 0 ⟨2, 1, 1⟩ = .ok s0 ∧
        (s0 1).m_parent = some 0 ∧ (s0 1).m_orientation = QUAT_IDENTITY ∧
        (s0 1).m_bInheritOrientation = true ∧ (s0 1).m_position = VEC3_ZERO ∧
        worldSpec 1 s0 0 = some ⟨VEC3_ZERO, QUAT_IDENTITY, ⟨2, 1, 1⟩⟩ :=
      ⟨_, _, rfl, rfl, rfl, rfl, rfl, rfl, rfl⟩
    obtain ⟨s1, s0, e1, e2, hp, hL, hi, hpos, hpw⟩ := hr
    have hr1 : Reachable keepDecompose s1 :=
      Reachable.call (.setParent 1 (some 0)) 2 (Reachable.fresh _) hk e1
    have hr0 : Reachable keepDecompose s0 :=
      Reachable.call (.setScale 0 ⟨2, 1, 1⟩) 2 hr1 trivial e2
    have hB1 : DepthBound s1 1 := depthBound_runCall keepDecompose 2 (.setParent 1 (some 0))
      (inv_freshPool _) hk (depthBound_freshPool _) e1
    have hB0 : DepthBound s0 3 := depthBound_runCall keepDecompose 2 (.setScale 0 ⟨2, 1, 1⟩)
      hr1.inv trivial hB1 e2
    obtain ⟨s2, s3, sp, hd, p1, p2, p3, g2, g1⟩ := lookAt_parent_eval hr0.inv hB0 hp hpw hpos
      hL hi ⟨3, 4, 0⟩ ⟨3 / 5, 4 / 5, 0⟩ (by decide!) 4 (by omega)
    have hval : worldOrientationOf (some (QUAT_IDENTITY : Quat ℚ)) true
        (setDirectionLocal (some QUAT_IDENTITY) true
          (worldOrientationOf (some QUAT_IDENTITY) true QUAT_IDENTITY)
          ((⟨3, 4, 0⟩ : Vec3 ℚ).sub VEC3_ZERO) .TS_PARENT ⟨3 / 5, 4 / 5, 0⟩) =
        QUAT_IDENTITY := by decide!
    have hloc : worldLocation ⟨VEC3_ZERO, QUAT_IDENTITY, ⟨2, 1, 1⟩⟩ (VEC3_ZERO : Vec3 ℚ) =
        VEC3_ZERO := by decide!
    have hrot : (QUAT_IDENTITY : Quat ℚ).rotate ⟨3 / 5, 4 / 5, 0⟩ = ⟨3 / 5, 4 / 5, 0⟩ := by
      decide!
    rw [hval] at g1
    rw [hloc] at g2
    refine ⟨s1, s0, e1, e2, s2, s3, sp, _, p1, p2, p3, hd, g2, g1, hrot, by decide!, ?_⟩
    rw [hrot]
    rintro ⟨r, hr, e⟩
    have ex := congrArg Vec3.x e
    have ey := congrArg Vec3.y e
    simp only [Vec3.sub, Vec3.smul, VEC3_ZERO] at ex ey
    linarith
  · have hr : ∃ s1 s2 s0 : State ℚ, setParent 2 (freshPool fun _ => none) 1 (some 0) = .ok s1 ∧
        setOrientation 2 s1 0 ⟨0, 0, 0, 1⟩ = .ok s2 ∧
        setInheritOrientation 2 s2 1 false = .ok s0 ∧
        (s0 1).m_parent = some 0 ∧ (s0 1).m_orientation = QUAT_IDENTITY ∧
        (s0 1).m_bInheritOrientation = false ∧ (s0 1).m_position = VEC3_ZERO ∧
        worldSpec 1 s0 0 = some ⟨VEC3_ZERO, ⟨0, 0, 0, 1⟩, VEC3_UNIT_SCALE⟩ :=
      ⟨_, _, _, rfl, rfl, rfl, rfl, rfl, rfl, rfl, rfl⟩
    obtain ⟨s1, s2, s0, e1, e2, e3, hp, hL, hi, hpos, hpw⟩ := hr
    have hr1 : Reachable keepDecompose s1 :=
      Reachable.call (.setParent 1 (some 0)) 2 (Reachable.fresh _) hk e1
    have hr2 : Reachable keepDecompose s2 :=
      Reachable.call (.setOrientation 0 ⟨0, 0, 0, 1⟩) 2 hr1 trivial e2
    have hr0 : Reachable keepDecompose s0 :=
      Reachable.call (.setInheritOrientation 1 false) 2 hr2 trivial e3
    have hB1 : DepthBound s1 1 := depthBound_runCall keepDecompose 2 (.setParent 1 (some 0))
      (inv_freshPool _) hk (depthBound_freshPool _) e1
    have hB2 : DepthBound s2 3 := depthBound_runCall keepDecompose 2
      (.setOrientation 0 ⟨0, 0, 0, 1⟩) hr1.inv trivial hB1 e2
    have hB0 : DepthBound s0 7 := depthBound_runCall keepDecompose 2
      (.setInheritOrientation 1 false) hr2.inv trivial hB2 e3
    obtain ⟨s3, s4, sp, hd, p1, p2, p3, g2, g1⟩ := lookAt_parent_eval hr0.inv hB0 hp hpw hpos
      hL hi ⟨1, 0, 0⟩ ⟨1, 0, 0⟩ (by decide!) 8 (by omega)
    have hval : worldOrientationOf (some (⟨0, 0, 0, 1⟩ : Quat ℚ)) false
        (setDirectionLocal (some ⟨0, 0, 0, 1⟩) false
          (worldOrientationOf (some ⟨0, 0, 0, 1⟩) false QUAT_IDENTITY)
          ((⟨1, 0, 0⟩ : Vec3 ℚ).sub VEC3_ZERO) .TS_PARENT ⟨1, 0, 0⟩) =
        QUAT_IDENTITY := by decide!
    have hloc : worldLocation ⟨VEC3_ZERO, ⟨0, 0, 0, 1⟩, VEC3_UNIT_SCALE⟩
        (VEC3_ZERO : Vec3 ℚ) = VEC3_ZERO := by decide!
    have hrot : (QUAT_IDENTITY : Quat ℚ).rotate ⟨1, 0, 0⟩ = ⟨1, 0, 0⟩ := by decide!
    rw [hval] at g1
    rw [hloc] at g2
    refine ⟨s1, s2, s0, e1, e2, e3, s3, s4, sp, _, p1, p2, p3, hd, g2, g1, hrot, by decide!,
      ?_⟩
    rw [hrot]
    rintro ⟨r, hr, e⟩
    have ex := congrArg Vec3.x e
    simp only [Vec3.sub, Vec3.smul, VEC3_ZERO] at ex
    linarith
  · have hr : ∃ s1 s0 : State ℚ, setParent 2 (freshPool fun _ => none) 1 (some 0) = .ok s1 ∧
        setScale 2 s1 0 ⟨-1, -1, -1⟩ = .ok s0 ∧
        (s0 1).m_parent = some 0 ∧ (s0 1).m_orientation = QUAT_IDENTITY ∧
        (s0 1).m_bInheritOrientation = true ∧ (s0 1).m_position = VEC3_ZERO ∧
        worldSpec 1 s0 0 = some ⟨VEC3_ZERO, QUAT_IDENTITY, ⟨-1, -1, -1⟩⟩ :=
      ⟨_, _, rfl, rfl, rfl, rfl, rfl, rfl, rfl⟩
    obtain ⟨s1, s0, e1, e2, hp, hL, hi, hpos, hpw⟩ := hr
    have hr1 : Reachable keepDecompose s1 :=
      Reachable.call (.setParent 1 (some 0)) 2 (Reachable.fresh _) hk e1
    have hr0 : Reachable keepDecompose s0 :=
      Reachable.call (.setScale 0 ⟨-1, -1, -1⟩) 2 hr1 trivial e2
    have hB1 : DepthBound s1 1 := depthBound_runCall keepDecompose 2 (.setParent 1 (some 0))
      (inv_freshPool _) hk (depthBound_freshPool _) e1
    have hB0 : DepthBound s0 3 := depthBound_runCall keepDecompose 2
      (.setScale 0 ⟨-1, -1, -1⟩) hr1.inv trivial hB1 e2
    obtain ⟨s2, s3, sp, hd, p1, p2, p3, g2, g1⟩ := lookAt_parent_eval hr0.inv hB0 hp hpw hpos
      hL hi ⟨1, 0, 0⟩ ⟨1, 0, 0⟩ (by decide!) 4 (by omega)
    have hval : worldOrientationOf (some (QUAT_IDENTITY : Quat ℚ)) true
        (setDirectionLocal (some QUAT_IDENTITY) true
          (worldOrientationOf (some QUAT_IDENTITY) true QUAT_IDENTITY)
          ((⟨1, 0, 0⟩ : Vec3 ℚ).sub VEC3_ZERO) .TS_PARENT ⟨1, 0, 0⟩) =
        QUAT_IDENTITY := by decide!
    have hloc : worldLocation ⟨VEC3_ZERO, QUAT_IDENTITY, ⟨-1, -1, -1⟩⟩ (VEC3_ZERO : Vec3 ℚ) =
        VEC3_ZERO := by decide!
    have hrot : (QUAT_IDENTITY : Quat ℚ).rotate ⟨1, 0, 0⟩ = ⟨1, 0, 0⟩ := by decide!
    rw [hval] at g1
    rw [hloc] at g2
    refine ⟨s1, s0, e1, e2, s2, s3, sp, _, p1, p2, p3, hd, g2, g1, hrot, by decide!, ?_⟩
    rw [hrot]
    rintro ⟨r, hr, e⟩
    have ex := congrArg Vec3.x e
    simp only [Vec3.sub, Vec3.smul, VEC3_ZERO] at ex
    linarith
  · have hr : ∃ s0 : State ℚ, setParent 2 (freshPool fun _ => none) 1 (some 0) = .ok s0 ∧
        (s0 1).m_parent = some 0 ∧ (s0 1).m_orientation = QUAT_IDENTITY ∧
        (s0 1).m_bInheritOrientation = true ∧ (s0 1).m_position = VEC3_ZERO ∧
        worldSpec 1 s0 0 = some ⟨VEC3_ZERO, QUAT_IDENTITY, VEC3_UNIT_SCALE⟩ :=
      ⟨_, rfl, rfl, rfl, rfl, rfl, rfl⟩
    obtain ⟨s0, e1, hp, hL, hi, hpos, hpw⟩ := hr
    have hr0 : Reachable keepDecompose s0 :=
      Reachable.call (.setParent 1 (some 0)) 2 (Reachable.fresh _) hk e1
    have hB0 : DepthBound s0 1 := depthBound_runCall keepDecompose 2 (.setParent 1 (some 0))
      (inv_freshPool _) hk (depthBound_freshPool _) e1
    obtain ⟨s2, s3, sp, hd, p1, p2, p3, g2, g1⟩ := lookAt_parent_eval hr0.inv hB0 hp hpw hpos
      hL hi ⟨0, -1, 0⟩ ⟨0, 1, 0⟩ (by decide!) 2 (by omega)
    have hval : worldOrientationOf (some (QUAT_IDENTITY : Quat ℚ)) true
        (setDirectionLocal (some QUAT_IDENTITY) true
          (worldOrientationOf (some QUAT_IDENTITY) true QUAT_IDENTITY)
          ((⟨0, -1, 0⟩ : Vec3 ℚ).sub VEC3_ZERO) .TS_PARENT ⟨0, 1, 0⟩) =
        ⟨0, 0, 1, 0⟩ := by decide!
    have hloc : worldLocation ⟨VEC3_ZERO, QUAT_IDENTITY, VEC3_UNIT_SCALE⟩
        (VEC3_ZERO : Vec3 ℚ) = VEC3_ZERO := by decide!
    have hrot : (⟨0, 0, 1, 0⟩ : Quat ℚ).rotate ⟨0, 1, 0⟩ = ⟨0, 1, 0⟩ := by decide!
    rw [hval] at g1
    rw [hloc] at g2
    refine ⟨s0, e1, s2, s3, sp, _, p1, p2, p3, hd, g2, g1, hrot, by decide!, ?_⟩
    rw [hrot]
    rintro ⟨r, hr, e⟩
    have ey := congrArg Vec3.y e
    simp only [Vec3.sub, Vec3.smul, VEC3_ZERO] at ey
    linarith

/-- Claim C21, amended: with an exact square root, in a reachable state, let node `n` have a
parent `p` whose world scale is uniform, (c,c,c) with `c > 0`, and whose world orientation is
a unit quaternion, let `n` inherit orientation, let `f` be a unit local direction vector and
`P` a point in the space of the parent that differs from the local position of `n`, such that
the direction towards `P` is not nearly opposite to the current world forward direction of `n`.
Then `lookAt(P, TS_PARENT, f)` returns, the world position of `n` is as before, and the new
world orientation applied to `f` points from the world position of `n` toward the world
location of `P`, parentWorldPosition + parentWorldOrientation applied to (parentWorldScale
times `P`): the difference is a positive multiple of it. -/
theorem lookAt_parent_points_at (dec : Decompose α) (hE : ExactSqrt α) (s : State α)
    (h : Reachable dec s) (n p : NodeId) (hp : getParent s n = some p)
    (hi : inheritOrientation s n = true) (k : Nat) (pw : World α)
    (hpw : worldSpec k s p = some pw) (c : α) (hc : 0 < c) (hsc : pw.scale = ⟨c, c, c⟩)
    (hP : pw.orientation.dot pw.orientation = 1) (tp f : Vec3 α) (hf : f.dot f = 1)
    (hne : tp ≠ getPosition s n)
    (hopp : 5 / 100000 ≤ (((combine pw (s n)).orientation.rotate f).add
      (pw.orientation.rotate (tp.sub (getPosition s n)).normalize)).length2) :
    ∃ B, ∀ g, B < g → ∃ (s0 s1 s3 sp : State α) (o : Quat α),
      getWorldPosition g s p = .ok (sp, pw.position) ∧
      getWorldOrientation g s p = .ok (sp, pw.orientation) ∧
      getWorldScale g s p = .ok (sp, pw.scale) ∧
      getWorldPosition g s n = .ok (s0, worldLocation pw (getPosition s n)) ∧
      getWorldOrientation g s n = .ok (s0, (combine pw (s n)).orientation) ∧
      lookAt g s n tp .TS_PARENT f = .ok s1 ∧
      getWorldPosition g s1 n = .ok (s3, worldLocation pw (getPosition s n)) ∧
      getWorldOrientation g s1 n = .ok (s3, o) ∧
      PointsToward (worldLocation pw (getPosition s n)) (worldLocation pw tp)
        (o.rotate f) := by
  have hs := h.inv
  obtain ⟨B, hB⟩ := h.depthBound
  refine ⟨B, fun g hg => ?_⟩
  simp only [getParent, inheritOrientation, getPosition] at hp hi hne hopp
  obtain ⟨s0, w0, hw0, q1, q2, -⟩ := getters_spec hs (hB.none_at n) g (by omega)
  obtain rfl := worldSpec_unique hw0 (worldSpec_succ_some hp hpw)
  obtain ⟨s1, s3, sp, hd, p1, p2, p3, g2, g1⟩ :=
    lookAt_parent_child hs hB hp hpw tp f hne g hg
  have hv := Vec3.sub_ne_zero hne
  have hW := combine_orientation_unit hE pw (s n) hi
  have hP' : ∀ P, some pw.orientation = some P → P.dot P = 1 := fun P e => by
    rw [← Option.some.inj e]; exact hP
  have htu := directionInWorld_unit hE (some pw.orientation) (s n).m_bInheritOrientation hP'
    hW hv .TS_PARENT
  have hdir : directionInWorld (some pw.orientation) (s n).m_bInheritOrientation
      (combine pw (s n)).orientation (tp.sub (s n).m_position) .TS_PARENT =
      pw.orientation.rotate (tp.sub (s n).m_position).normalize := by
    simp only [directionInWorld, hi, ↓reduceIte]
  rw [hdir] at htu
  obtain ⟨hTu, hTr⟩ := directionTarget_spec hE hW htu hf hopp
  obtain ⟨m1, -, -⟩ := setDirectionLocal_world hE (some pw.orientation)
    (s n).m_bInheritOrientation hP' (combine pw (s n)).orientation
    (tp.sub (s n).m_position) .TS_PARENT f (by rw [hdir]; exact hTu)
  rw [m1, hdir] at g1
  obtain ⟨hL, hvL⟩ := Vec3.normalize_smul_length hE hv
  refine ⟨s0, s1, s3, sp, _, p1, p2, p3, q1, q2, hd, g2, g1,
    RealOps.sqrt ((tp.sub (s n).m_position).dot (tp.sub (s n).m_position)) * c,
    mul_pos hL hc, ?_⟩
  rw [hTr]
  simp only [worldLocation, getPosition]
  rw [combine_position_sub, hsc, Vec3.mul_uniform, Quat.rotate_smul]
  nth_rewrite 1 [hvL]
  rw [Quat.rotate_smul, Vec3.smul_smul_v]

/-- Witness of claim C21, amended: over the reals, the child `1` of node `0`, the parent
scaled by (2,2,2), the child at the origin with forward direction (0,0,-1), looking at the
point (1,0,0) of the space of the parent. -/
theorem lookAt_parent_points_at_witness :
    ∃ s1 s2 : State ℝ, setParent 2 (freshPool fun _ => none) 1 (some 0) = .ok s1 ∧
      setScale 2 s1 0 ⟨2, 2, 2⟩ = .ok s2 ∧
      ∃ B, ∀ g, B < g → ∃ (s3 s4 : State ℝ) (o : Quat ℝ),
        lookAt g s2 1 ⟨1, 0, 0⟩ .TS_PARENT VEC3_NEGATIVE_UNIT_Z = .ok s3 ∧
        getWorldOrientation g s3 1 = .ok (s4, o) ∧
        PointsToward (worldLocation ⟨VEC3_ZERO, QUAT_IDENTITY, ⟨2, 2, 2⟩⟩ VEC3_ZERO)
          (worldLocation ⟨VEC3_ZERO, QUAT_IDENTITY, ⟨2, 2, 2⟩⟩ ⟨1, 0, 0⟩)
          (o.rotate VEC3_NEGATIVE_UNIT_Z) := by
  have hr : ∃ s1 s2 : State ℝ, setParent 2 (freshPool fun _ => none) 1 (some 0) = .ok s1 ∧
      setScale 2 s1 0 ⟨2, 2, 2⟩ = .ok s2 ∧
      getParent s2 1 = some 0 ∧ (s2 1).m_orientation = QUAT_IDENTITY ∧
      inheritOrientation s2 1 = true ∧ getPosition s2 1 = VEC3_ZERO ∧
      worldSpec 1 s2 0 = some ⟨VEC3_ZERO, QUAT_IDENTITY, ⟨2, 2, 2⟩⟩ ∧
      Reachable keepDecompose s2 :=
    ⟨_, _, rfl, rfl, rfl, rfl, rfl, rfl, rfl,
      Reachable.call (.setScale 0 ⟨2, 2, 2⟩) 2
        (Reachable.call (.setParent 1 (some 0)) 2 (Reachable.fresh _)
          (not_inSubtree_freshPool _ (by decide)) rfl) trivial rfl⟩
  obtain ⟨s1, s2, e1, e2, hp, hL, hi, hpos, hpw, hreach⟩ := hr
  have hWo : (combine ⟨VEC3_ZERO, QUAT_IDENTITY, ⟨2, 2, 2⟩⟩ (s2 1)).orientation =
      (QUAT_IDENTITY : Quat ℝ) := by
    simp only [inheritOrientation] at hi
    simp only [combine, hi, ↓reduceIte, hL, Quat.mul_identity]
    exact Quat.normalize_unit exactSqrt_real (by norm_num [Quat.dot, QUAT_IDENTITY])
  have hsub : (⟨1, 0, 0⟩ : Vec3 ℝ).sub VEC3_ZERO = ⟨1, 0, 0⟩ := by
    ext <;> simp [Vec3.sub, VEC3_ZERO]
  have hn : (⟨1, 0, 0⟩ : Vec3 ℝ).normalize = ⟨1, 0, 0⟩ :=
    Vec3.normalize_unit_vec exactSqrt_real (by norm_num [Vec3.dot])
  obtain ⟨B, hB⟩ := lookAt_parent_points_at keepDecompose exactSqrt_real s2 hreach 1 0 hp hi 1
    ⟨VEC3_ZERO, QUAT_IDENTITY, ⟨2, 2, 2⟩⟩ hpw 2 (by norm_num) rfl
    (by norm_num [Quat.dot, QUAT_IDENTITY]) ⟨1, 0, 0⟩ VEC3_NEGATIVE_UNIT_Z
    (by norm_num [Vec3.dot, VEC3_NEGATIVE_UNIT_Z])
    (by rw [hpos]; intro h0; have := congrArg Vec3.x h0; simp [VEC3_ZERO] at this)
    (by
      rw [hWo, hpos, hsub, hn, Quat.rotate_identity, Quat.rotate_identity]
      norm_num [Vec3.length2, Vec3.dot, Vec3.add, VEC3_NEGATIVE_UNIT_Z])
  refine ⟨s1, s2, e1, e2, B, fun g hg => ?_⟩
  obtain ⟨s0, s3, s4, sp, o, -, -, -, -, -, hd, -, g1, hpt⟩ := hB g hg
  rw [hpos] at hpt
  exact ⟨s3, s4, o, hd, g1, hpt⟩

/-- Claim C23: `getMatrix()` is the affine matrix that scales, then rotates, then translates:
applied to the column vector `(v, 1)` it gives `(position + orientation * (scale * v), 1)`,
its fourth column is `(position, 1)` and its last row is (0,0,0,1). In a reachable state
`getWorldMatrix()` returns, with enough call stack, the same composition of the world
position, world orientation and world scale that the world getters return, leaving the same
state as they do. -/
theorem getMatrix_scales_rotates_translates (dec : Decompose α) (s : State α)
    (h : Reachable dec s) (n : NodeId) (v : Vec3 α) :
    (getMatrix s n).mulVec (v.x, v.y, v.z, 1) =
      (((getPosition s n).add ((getOrientation s n).rotate ((getScale s n).mul v))).x,
       ((getPosition s n).add ((getOrientation s n).rotate ((getScale s n).mul v))).y,
       ((getPosition s n).add ((getOrientation s n).rotate ((getScale s n).mul v))).z, 1) ∧
    (getMatrix s n).c3 = ((getPosition s n).x, (getPosition s n).y, (getPosition s n).z, 1) ∧
    (getMatrix s n).lastRow = (0, 0, 0, 1) ∧
    ∃ B, ∀ f, B < f → ∃ (s1 : State α) (p sc : Vec3 α) (o : Quat α),
      getWorldMatrix f s n = .ok (s1, composeMatrix sc o p) ∧
      getWorldPosition f s n = .ok (s1, p) ∧ getWorldOrientation f s n = .ok (s1, o) ∧
      getWorldScale f s n = .ok (s1, sc) ∧
      (composeMatrix sc o p).lastRow = (0, 0, 0, 1) ∧
      (composeMatrix sc o p).c3 = (p.x, p.y, p.z, 1) ∧
      ∀ u : Vec3 α, (composeMatrix sc o p).mulVec (u.x, u.y, u.z, 1) =
        ((p.add (o.rotate (sc.mul u))).x, (p.add (o.rotate (sc.mul u))).y,
         (p.add (o.rotate (sc.mul u))).z, 1) := by
  have key : ∀ (sc p u : Vec3 α) (o : Quat α),
      (composeMatrix sc o p).mulVec (u.x, u.y, u.z, 1) =
        ((p.add (o.rotate (sc.mul u))).x, (p.add (o.rotate (sc.mul u))).y,
         (p.add (o.rotate (sc.mul u))).z, 1) := by
    intro sc p u o
    simp only [composeMatrix, Mat4.mulVec, mat3_cast, Quat.rotate, Vec3.add, Vec3.mul,
      Vec3.smul, Vec3.cross, Prod.mk.injEq]
    refine ⟨?_, ?_, ?_, ?_⟩ <;> ring
  obtain ⟨B, hB⟩ := h.depthBound
  refine ⟨key _ _ _ _, rfl, rfl, B, fun f hf => ?_⟩
  obtain ⟨s1, w, hr, -, -, -, -⟩ := refresh_spec h.inv (hB.none_at n) f (by omega)
  refine ⟨s1, (s1 n).m_fullPosition, (s1 n).m_fullScale, (s1 n).m_fullOrientation, ?_,
    getWorldPosition_eq hr, getWorldOrientation_eq hr, getWorldScale_eq hr, rfl, rfl,
    fun u => key _ _ _ _⟩
  simp [getWorldMatrix, hr, bind, Except.bind, pure, Except.pure]

/-- Witness of claim C23: the test "Check complete matrix" with a parent: node `1` is a child of
node `0`, which is moved to (10,20,30). -/
theorem getMatrix_scales_rotates_translates_witness :
    ∃ s1 s2 : State ℚ, setParent 2 (freshPool fun _ => none) 1 (some 0) = .ok s1 ∧
      setPosition 2 s1 0 ⟨10, 20, 30⟩ = .ok s2 ∧
      (getMatrix s2 0).c3 = (10, 20, 30, 1) ∧
      ∃ B, ∀ f, B < f → ∃ (s3 : State ℚ) (p sc : Vec3 ℚ) (o : Quat ℚ),
        getWorldMatrix f s2 1 = .ok (s3, composeMatrix sc o p) ∧
        getWorldPosition f s2 1 = .ok (s3, p) ∧ getWorldOrientation f s2 1 = .ok (s3, o) ∧
        getWorldScale f s2 1 = .ok (s3, sc) := by
  have hr : ∃ s1 s2 : State ℚ, setParent 2 (freshPool fun _ => none) 1 (some 0) = .ok s1 ∧
      setPosition 2 s1 0 ⟨10, 20, 30⟩ = .ok s2 ∧ (getMatrix s2 0).c3 = (10, 20, 30, 1) ∧
      Reachable keepDecompose s2 :=
    ⟨_, _, rfl, rfl, rfl, Reachable.call (.setPosition 0 ⟨10, 20, 30⟩) 2
      (Reachable.call (.setParent 1 (some 0)) 2 (Reachable.fresh _)
        (not_inSubtree_freshPool _ (by decide)) rfl) trivial rfl⟩
  obtain ⟨s1, s2, e1, e2, hc, hreach⟩ := hr
  obtain ⟨-, -, -, B, hB⟩ := getMatrix_scales_rotates_translates keepDecompose s2 hreach 1
    VEC3_ZERO
  refine ⟨s1, s2, e1, e2, hc, B, fun f hf => ?_⟩
  obtain ⟨s3, p, sc, o, h1, h2, h3, h4, -⟩ := hB f hf
  exact ⟨s3, p, sc, o, h1, h2, h3, h4⟩

/-- Claim C33: a freshly constructed node, with or without a transformable argument, has zero
local position, identity local orientation, unit local scale, no parent, no children, no tags,
both inherit flags true and the dirty flag set; `getTransformable()` returns what was passed
to the constructor (nothing for the default constructor); and its world getters return, with
one stack frame, zero position, identity orientation and unit scale. -/
theorem fresh_node_defaults (s : State α) (n : NodeId) (tr : Option Nat)
    (h : s n = Transforms.new tr) (f : Nat) :
    getPosition s n = VEC3_ZERO ∧ getOrientation s n = QUAT_IDENTITY ∧
    getScale s n = VEC3_UNIT_SCALE ∧ getParent s n = none ∧ getChildren s n = [] ∧
    getTags s n = [] ∧ inheritOrientation s n = true ∧ inheritScale s n = true ∧
    (s n).m_bDirty = true ∧ getTransformable s n = tr ∧
    (Transforms.new none : Transforms α).m_transformable = none ∧
    ∃ s1, getWorldPosition (f + 1) s n = .ok (s1, VEC3_ZERO) ∧
      getWorldOrientation (f + 1) s n = .ok (s1, QUAT_IDENTITY) ∧
      getWorldScale (f + 1) s n = .ok (s1, VEC3_UNIT_SCALE) ∧
      getWorldMatrix (f + 1) s n =
        .ok (s1, composeMatrix VEC3_UNIT_SCALE QUAT_IDENTITY VEC3_ZERO) := by
  have hd : (s n).m_bDirty = true := by rw [h]; rfl
  have hp : (s n).m_parent = none := by rw [h]; rfl
  have hr : refresh (update (f + 1)) s n =
      .ok (Function.update s n ((s n).setCache (localWorld (s n)))) := by
    rw [refresh_dirty hd, update_none hd hp]
  have hc : (Function.update s n ((s n).setCache (localWorld (s n))) n) =
      { (Transforms.new tr : Transforms α) with m_bDirty := false } := by
    rw [Function.update_same, h]; rfl
  refine ⟨by rw [getPosition, h]; rfl, by rw [getOrientation, h]; rfl,
    by rw [getScale, h]; rfl, by rw [getParent, h]; rfl, by rw [getChildren, h]; rfl,
    by rw [getTags, h]; rfl, by rw [inheritOrientation, h]; rfl,
    by rw [inheritScale, h]; rfl, hd, by rw [getTransformable, h]; rfl, rfl,
    Function.update s n ((s n).setCache (localWorld (s n))), ?_, ?_, ?_, ?_⟩
  · rw [getWorldPosition_eq hr, hc]; rfl
  · rw [getWorldOrientation_eq hr, hc]; rfl
  · rw [getWorldScale_eq hr, hc]; rfl
  · simp only [getWorldMatrix, hr, bind, Except.bind, pure, Except.pure, hc]
    rfl

/-- Witness of claim C33: the test "Creation", on node `0` of a pool of nodes constructed
without transformable. -/
theorem fresh_node_defaults_witness :
    getTransformable (freshPool fun _ => none : State ℚ) 0 = none ∧
    getTags (freshPool fun _ => none : State ℚ) 0 = [] ∧
    getParent (freshPool fun _ => none : State ℚ) 0 = none ∧
    getChildren (freshPool fun _ => none : State ℚ) 0 = [] ∧
    ∃ s1, getWorldPosition 1 (freshPool fun _ => none : State ℚ) 0 = .ok (s1, VEC3_ZERO) := by
  obtain ⟨-, -, -, h4, h5, h6, -, -, -, h10, -, s1, h12, -⟩ :=
    fresh_node_defaults (freshPool fun _ => none : State ℚ) 0 none rfl 0
  exact ⟨h10, h6, h4, h5, s1, h12⟩

/-- Claim C31: with an exact square root, for every pair of non-zero vectors `src` and `dest`,
of any length, whose normalised dot product `d` is at least `-1 + 1e-6`, and for every fallback
axis, `Math::getRotationTo(src, dest)` is a unit quaternion that rotates `normalize(src)` onto
`normalize(dest)`; when `d >= 1` it is the identity quaternion. -/
theorem getRotationTo_shortest_arc (hE : ExactSqrt α) (src dest fallbackAxis : Vec3 α)
    (hs : src ≠ VEC3_ZERO) (hd : dest ≠ VEC3_ZERO)
    (h : -1 + 1 / 1000000 ≤ src.normalize.dot dest.normalize) :
    (getRotationTo src dest fallbackAxis).dot (getRotationTo src dest fallbackAxis) = 1 ∧
    (getRotationTo src dest fallbackAxis).rotate src.normalize = dest.normalize ∧
    (1 ≤ src.normalize.dot dest.normalize →
      getRotationTo src dest fallbackAxis = QUAT_IDENTITY) :=
  getRotationTo_arc hE fallbackAxis hs hd (by linarith)

/-- Witness of claim C31: over the reals, from (2,0,0) to (0,3,0). -/
theorem getRotationTo_shortest_arc_witness :
    (getRotationTo (⟨2, 0, 0⟩ : Vec3 ℝ) ⟨0, 3, 0⟩ VEC3_ZERO).dot
      (getRotationTo ⟨2, 0, 0⟩ ⟨0, 3, 0⟩ VEC3_ZERO) = 1 ∧
    (getRotationTo (⟨2, 0, 0⟩ : Vec3 ℝ) ⟨0, 3, 0⟩ VEC3_ZERO).rotate
      (Vec3.normalize ⟨2, 0, 0⟩) = Vec3.normalize ⟨0, 3, 0⟩ := by
  have h := getRotationTo_shortest_arc exactSqrt_real (⟨2, 0, 0⟩ : Vec3 ℝ) ⟨0, 3, 0⟩ VEC3_ZERO
    (by intro h0; have := congrArg Vec3.x h0; simp [VEC3_ZERO] at this)
    (by intro h0; have := congrArg Vec3.y h0; simp [VEC3_ZERO] at this)
    (by simp [Vec3.normalize, Vec3.smul, Vec3.dot]; norm_num)
  exact ⟨h.1, h.2.1⟩

/-- Claim C32 fails on the code: for `src` = (0, 1/2000, 0) and `dest` = (0, -1/2000, 0),
exactly opposite, and no fallback axis, the generated axis `cross(UNIT_X, src)` has a squared
length below `1e-6`, so `cross(UNIT_Y, src)`, the zero vector, replaces it; the quaternion
returned has a zero vector part and maps `normalize(src)` to itself, not onto
`normalize(dest)`. -/
theorem getRotationTo_short_src_along_y :
    Vec3.normalize (⟨0, 1 / 2000, 0⟩ : Vec3 ℚ) = ⟨0, 1, 0⟩ ∧
    Vec3.normalize (⟨0, -1 / 2000, 0⟩ : Vec3 ℚ) = ⟨0, -1, 0⟩ ∧
    ((VEC3_UNIT_X : Vec3 ℚ).cross ⟨0, 1 / 2000, 0⟩).length2 < 1 / 1000000 ∧
    (VEC3_UNIT_Y : Vec3 ℚ).cross ⟨0, 1 / 2000, 0⟩ = VEC3_ZERO ∧
    getRotationTo (⟨0, 1 / 2000, 0⟩ : Vec3 ℚ) ⟨0, -1 / 2000, 0⟩ VEC3_ZERO =
      angleAxis RealOps.PI (Vec3.normalize VEC3_ZERO) ∧
    (getRotationTo (⟨0, 1 / 2000, 0⟩ : Vec3 ℚ) ⟨0, -1 / 2000, 0⟩ VEC3_ZERO).x = 0 ∧
    (getRotationTo (⟨0, 1 / 2000, 0⟩ : Vec3 ℚ) ⟨0, -1 / 2000, 0⟩ VEC3_ZERO).y = 0 ∧
    (getRotationTo (⟨0, 1 / 2000, 0⟩ : Vec3 ℚ) ⟨0, -1 / 2000, 0⟩ VEC3_ZERO).z = 0 ∧
    (getRotationTo (⟨0, 1 / 2000, 0⟩ : Vec3 ℚ) ⟨0, -1 / 2000, 0⟩ VEC3_ZERO).rotate ⟨0, 1, 0⟩ =
      ⟨0, 1, 0⟩ ∧
    (getRotationTo (⟨0, 1 / 2000, 0⟩ : Vec3 ℚ) ⟨0, -1 / 2000, 0⟩ VEC3_ZERO).rotate ⟨0, 1, 0⟩ ≠
      ⟨0, -1, 0⟩ := by
  have hsq : RealOps.sqrt ((1 : ℚ) / 4000000) = 1 / 2000 := by
    show Rat.sqrt ((1 : ℚ) / 4000000) = 1 / 2000
    rw [show (1 : ℚ) / 4000000 = 1 / 2000 * (1 / 2000) by norm_num, Rat.sqrt_eq]
    norm_num [abs_of_pos]
  have h1 : Vec3.normalize (⟨0, 1 / 2000, 0⟩ : Vec3 ℚ) = ⟨0, 1, 0⟩ := by
    have hd : (⟨0, 1 / 2000, 0⟩ : Vec3 ℚ).dot ⟨0, 1 / 2000, 0⟩ = 1 / 4000000 := by decide!
    simp only [Vec3.normalize, hd, hsq]
    decide!
  have h2 : Vec3.normalize (⟨0, -1 / 2000, 0⟩ : Vec3 ℚ) = ⟨0, -1, 0⟩ := by
    have hd : (⟨0, -1 / 2000, 0⟩ : Vec3 ℚ).dot ⟨0, -1 / 2000, 0⟩ = 1 / 4000000 := by decide!
    simp only [Vec3.normalize, hd, hsq]
    decide!
  have h3 : ((VEC3_UNIT_X : Vec3 ℚ).cross ⟨0, 1 / 2000, 0⟩).length2 < 1 / 1000000 := by
    decide!
  have h4 : (VEC3_UNIT_Y : Vec3 ℚ).cross ⟨0, 1 / 2000, 0⟩ = VEC3_ZERO := by decide!
  have hd : ¬ ((⟨0, 1, 0⟩ : Vec3 ℚ).dot ⟨0, -1, 0⟩ ≥ 1) := by decide!
  have hd' : (⟨0, 1, 0⟩ : Vec3 ℚ).dot ⟨0, -1, 0⟩ < 1 / 1000000 - 1 := by decide!
  have h5 : getRotationTo (⟨0, 1 / 2000, 0⟩ : Vec3 ℚ) ⟨0, -1 / 2000, 0⟩ VEC3_ZERO =
      angleAxis RealOps.PI (Vec3.normalize VEC3_ZERO) := by
    unfold getRotationTo
    simp only [h1, h2, hd, hd', h3, h4, ↓reduceIte, ne_eq, not_true_eq_false]
  have h6 : angleAxis (RealOps.PI : ℚ) (Vec3.normalize VEC3_ZERO) =
      ⟨RealOps.cos ((RealOps.PI : ℚ) * (1 / 2)), 0, 0, 0⟩ := by
    simp [angleAxis, Vec3.normalize, Vec3.smul, VEC3_ZERO]
  rw [h5, h6]
  refine ⟨h1, h2, h3, h4, rfl, rfl, rfl, rfl, ?_, ?_⟩
  · ext <;> simp [Quat.rotate, Vec3.add, Vec3.smul, Vec3.cross]
  · intro h
    have := congrArg Vec3.y h
    simp [Quat.rotate, Vec3.add, Vec3.smul, Vec3.cross] at this
    norm_num at this

/-- Claim C39: with an exact square root, in a reachable state, for every node `n` with parent
`p`: the world getters return; `parent.getWorldMatrix()` applied to the local position of the
child gives the world position of the child; and when the child inherits orientation and
scale, the world scale of the parent is uniform and the world orientation of the parent and
the local orientation of the child are unit quaternions, `child.getWorldMatrix()` is the
matrix product `parent.getWorldMatrix() * child.getMatrix()`. -/
theorem child_world_matrix_is_product (dec : Decompose α) (hE : ExactSqrt α) (s : State α)
    (h : Reachable dec s) (n p : NodeId) (hp : getParent s n = some p) :
    ∃ B, ∀ g, B < g → ∃ (sp s1 : State α) (Mp Mn : Mat4 α) (wp psc : Vec3 α) (po : Quat α),
      getWorldMatrix g s p = .ok (sp, Mp) ∧ getWorldScale g s p = .ok (sp, psc) ∧
      getWorldOrientation g s p = .ok (sp, po) ∧
      getWorldMatrix g s n = .ok (s1, Mn) ∧ getWorldPosition g s n = .ok (s1, wp) ∧
      Mp.mulVec ((getPosition s n).x, (getPosition s n).y, (getPosition s n).z, 1) =
        (wp.x, wp.y, wp.z, 1) ∧
      (inheritOrientation s n = true → inheritScale s n = true →
        psc.x = psc.y → psc.y = psc.z → po.dot po = 1 →
        (getOrientation s n).dot (getOrientation s n) = 1 →
        Mn = Mp.mul (getMatrix s n)) := by
  have hs := h.inv
  obtain ⟨B, hB⟩ := h.depthBound
  refine ⟨B, fun g hg => ?_⟩
  simp only [getParent] at hp
  obtain ⟨sp, pw, hpw, m1, -, m3, m4⟩ := getWorldMatrix_spec hs (hB.none_at p) g (by omega)
  obtain ⟨s1, w, hw, n1, n2, -, -⟩ := getWorldMatrix_spec hs (hB.none_at n) g (by omega)
  obtain rfl := worldSpec_unique hw (worldSpec_succ_some hp hpw)
  refine ⟨sp, s1, _, _, _, _, _, m1, m4, m3, n1, n2, ?_, fun hi hsI hxy hyz hP ho => ?_⟩
  · rw [getPosition, composeMatrix_mulVec_point]
    rfl
  · have hc : pw.scale = ⟨pw.scale.x, pw.scale.x, pw.scale.x⟩ := by
      ext
      · rfl
      · exact hxy.symm
      · rw [← hyz, ← hxy]
    exact composeMatrix_combine hE pw (s n) hi hsI pw.scale.x hc hP ho

/-- Witness of claim C39: over the reals, the child `1` of node `0`, the parent scaled by
(2,2,2) and the child moved to (1,2,3). -/
theorem child_world_matrix_is_product_witness :
    ∃ s1 s2 s3 : State ℝ, setParent 2 (freshPool fun _ => none) 1 (some 0) = .ok s1 ∧
      setScale 2 s1 0 ⟨2, 2, 2⟩ = .ok s2 ∧ setPosition 2 s2 1 ⟨1, 2, 3⟩ = .ok s3 ∧
      ∃ B, ∀ g, B < g → ∃ (sp s4 : State ℝ) (Mp Mn : Mat4 ℝ),
        getWorldMatrix g s3 0 = .ok (sp, Mp) ∧ getWorldMatrix g s3 1 = .ok (s4, Mn) ∧
        Mn = Mp.mul (getMatrix s3 1) := by
  have hr : ∃ s1 s2 s3 : State ℝ, setParent 2 (freshPool fun _ => none) 1 (some 0) = .ok s1 ∧
      setScale 2 s1 0 ⟨2, 2, 2⟩ = .ok s2 ∧ setPosition 2 s2 1 ⟨1, 2, 3⟩ = .ok s3 ∧
      getParent s3 1 = some 0 ∧ inheritOrientation s3 1 = true ∧ inheritScale s3 1 = true ∧
      getOrientation s3 1 = QUAT_IDENTITY ∧
      worldSpec 1 s3 0 = some ⟨VEC3_ZERO, QUAT_IDENTITY, ⟨2, 2, 2⟩⟩ ∧
      Reachable keepDecompose s3 :=
    ⟨_, _, _, rfl, rfl, rfl, rfl, rfl, rfl, rfl, rfl,
      Reachable.call (.setPosition 1 ⟨1, 2, 3⟩) 2
        (Reachable.call (.setScale 0 ⟨2, 2, 2⟩) 2
          (Reachable.call (.setParent 1 (some 0)) 2 (Reachable.fresh _)
            (not_inSubtree_freshPool _ (by decide)) rfl) trivial rfl) trivial rfl⟩
  obtain ⟨s1, s2, s3, e1, e2, e3, hp, hi, hsI, ho, hpw, hreach⟩ := hr
  obtain ⟨B, hB⟩ := child_world_matrix_is_product keepDecompose exactSqrt_real s3 hreach 1 0 hp
  obtain ⟨B', hB'⟩ := hreach.depthBound
  refine ⟨s1, s2, s3, e1, e2, e3, max B B', fun g hg => ?_⟩
  obtain ⟨sp, s4, Mp, Mn, wp, psc, po, m1, m2, m3, n1, -, -, hprod⟩ := hB g (by omega)
  obtain ⟨sp', w, hw, -, -, g3, g4⟩ := getWorldMatrix_spec hreach.inv (hB'.none_at 0) g
    (by omega)
  obtain rfl := worldSpec_unique hw hpw
  rw [m2] at g4
  rw [m3] at g3
  have e4 : psc = ⟨2, 2, 2⟩ := (Prod.mk.inj (Except.ok.inj g4)).2
  have e5 : po = QUAT_IDENTITY := (Prod.mk.inj (Except.ok.inj g3)).2
  refine ⟨sp, s4, Mp, Mn, m1, n1, hprod hi hsI (by rw [e4]) (by rw [e4]) ?_ ?_⟩
  · rw [e5]; norm_num [Quat.dot, QUAT_IDENTITY]
  · rw [ho]; norm_num [Quat.dot, QUAT_IDENTITY]

/-- Claim C38: dirtiness is downward closed. In every state reachable from fresh nodes by the
public operations (on an acyclic hierarchy), if a node is dirty then every node of its subtree
is dirty; equivalently every ancestor of a clean node is clean. -/
theorem dirty_downward_closed (dec : Decompose α) (s : State α) (h : Reachable dec s) :
    (∀ a m, InSubtree s a m → (s a).m_bDirty = true → (s m).m_bDirty = true) ∧
    (∀ a m, InSubtree s a m → (s m).m_bDirty = false → (s a).m_bDirty = false) := by
  have hd := h.dirtyClosed
  refine ⟨fun a m hm ha => hd.subtree hm ha, fun a m hm hc => ?_⟩
  cases ha : (s a).m_bDirty with
  | false => rfl
  | true => rw [hd.subtree hm ha] at hc; exact nomatch hc

/-- Witness of claim C38: node `1` is the child of node `0`; after `0.getWorldPosition()` the
child `1` is still dirty, and the ancestor `0` of every clean node is clean. -/
theorem dirty_downward_closed_witness :
    ∃ s1 s2 : State ℚ, setParent 2 (freshPool fun _ => none) 1 (some 0) = .ok s1 ∧
      (getWorldPosition 2 s1 0).map Prod.fst = .ok s2 ∧ (s2 0).m_bDirty = false ∧
      (s2 1).m_bDirty = true ∧ InSubtree s2 0 1 ∧
      (∀ a m, InSubtree s2 a m → (s2 a).m_bDirty = true → (s2 m).m_bDirty = true) := by
  have hr : ∃ s1 s2 : State ℚ, setParent 2 (freshPool fun _ => none) 1 (some 0) = .ok s1 ∧
      (getWorldPosition 2 s1 0).map Prod.fst = .ok s2 ∧ (s2 0).m_bDirty = false ∧
      (s2 1).m_bDirty = true ∧ ancestorAt s2 1 1 = some 0 ∧
      ¬ InSubtree (freshPool fun _ => none : State ℚ) 1 0 :=
    ⟨_, _, rfl, rfl, rfl, rfl, rfl, not_inSubtree_freshPool _ (by decide)⟩
  obtain ⟨s1, s2, e1, e2, h0, h1, ha, hk⟩ := hr
  have hreach : Reachable keepDecompose s2 :=
    Reachable.call (.getWorldPosition 0) 2
      (Reachable.call (.setParent 1 (some 0)) 2 (Reachable.fresh _) hk e1) trivial e2
  exact ⟨s1, s2, e1, e2, h0, h1, ⟨1, ha⟩, (dirty_downward_closed keepDecompose s2 hreach).1⟩

/-- Claim C36: in a reachable state (an acyclic hierarchy), a world-space getter called on
node `n` returns, with enough call stack, and the four getters leave the same state; it
leaves the local position, orientation, scale, inherit flags, tags, parent and child list of
every node unchanged; afterwards `n` and all ancestors of `n` are clean; and every node that
is neither `n` nor an ancestor of `n` is unchanged, dirty flag and cached world values
included. -/
theorem world_getter_frame (dec : Decompose α) (s : State α) (h : Reachable dec s)
    (n : NodeId) :
    ∃ B, ∀ g, B < g → ∃ s1 : State α,
      getWorldPosition g s n = .ok (s1, (s1 n).m_fullPosition) ∧
      getWorldOrientation g s n = .ok (s1, (s1 n).m_fullOrientation) ∧
      getWorldScale g s n = .ok (s1, (s1 n).m_fullScale) ∧
      getWorldMatrix g s n = .ok (s1,
        composeMatrix (s1 n).m_fullScale (s1 n).m_fullOrientation (s1 n).m_fullPosition) ∧
      (∀ m, getPosition s1 m = getPosition s m ∧ getOrientation s1 m = getOrientation s m ∧
        getScale s1 m = getScale s m ∧ inheritOrientation s1 m = inheritOrientation s m ∧
        inheritScale s1 m = inheritScale s m ∧ getTags s1 m = getTags s m ∧
        getParent s1 m = getParent s m ∧ getChildren s1 m = getChildren s m) ∧
      (∀ m, InSubtree s m n → (s1 m).m_bDirty = false) ∧
      (∀ m, ¬ InSubtree s m n → s1 m = s m) := by
  have hs := h.inv
  have hd := h.dirtyClosed
  obtain ⟨B, hB⟩ := h.depthBound
  refine ⟨B, fun g hg => ?_⟩
  obtain ⟨s1, hr⟩ := refresh_returns hs hB n g hg
  have hoc := (inv_refresh hs hr).2
  refine ⟨s1, getWorldPosition_eq hr, getWorldOrientation_eq hr, getWorldScale_eq hr, ?_,
    fun m => ?_, fun m hm => refresh_cleans hs.noCycle_inv hd hr m hm,
    fun m hm => refresh_frame hs.noCycle_inv.parent_ne_self hr m hm⟩
  · simp [getWorldMatrix, hr, bind, Except.bind, pure, Except.pure]
  · have hl := hoc.locals_oc m
    simp only [Transforms.locals, Prod.mk.injEq] at hl
    obtain ⟨l1, l2, l3, l4, l5, l6⟩ := hl
    exact ⟨l2, l3, l4, l5, l6, hoc.tags_oc m, l1, hoc.children_oc m⟩

/-- Witness of claim C36: node `1` is the child of node `0` and node `2` the child of `1`;
`1.getWorldPosition()` cleans `1` and `0` and leaves `2` as it is. -/
theorem world_getter_frame_witness :
    ∃ s1 s2 : State ℚ, setParent 3 (freshPool fun _ => none) 1 (some 0) = .ok s1 ∧
      setParent 3 s1 2 (some 1) = .ok s2 ∧
      ∃ B, ∀ g, B < g → ∃ (s3 : State ℚ) (p : Vec3 ℚ),
        getWorldPosition g s2 1 = .ok (s3, p) ∧ (s3 1).m_bDirty = false ∧
        (s3 0).m_bDirty = false ∧ s3 2 = s2 2 := by
  have hr : ∃ s1 s2 : State ℚ, setParent 3 (freshPool fun _ => none) 1 (some 0) = .ok s1 ∧
      setParent 3 s1 2 (some 1) = .ok s2 ∧ ancestorAt s2 1 1 = some 0 ∧
      ancestorAt s2 1 0 = some 1 ∧ ancestorAt s2 1 2 = none ∧
      ¬ InSubtree (freshPool fun _ => none : State ℚ) 1 0 ∧ ¬ InSubtree s1 2 1 :=
    ⟨_, _, rfl, rfl, rfl, rfl, rfl, not_inSubtree_freshPool _ (by decide),
      not_inSubtree_of_none 2 rfl (by decide)⟩
  obtain ⟨s1, s2, e1, e2, a1, a0, a2, k1, k2⟩ := hr
  have hreach : Reachable keepDecompose s2 :=
    Reachable.call (.setParent 2 (some 1)) 3
      (Reachable.call (.setParent 1 (some 0)) 3 (Reachable.fresh _) k1 e1) k2 e2
  obtain ⟨B, hB⟩ := world_getter_frame keepDecompose s2 hreach 1
  refine ⟨s1, s2, e1, e2, B, fun g hg => ?_⟩
  obtain ⟨s3, h1, -, -, -, -, h6, h7⟩ := hB g hg
  refine ⟨s3, _, h1, h6 1 ⟨0, a0⟩, h6 0 ⟨1, a1⟩, h7 2 (not_inSubtree_of_none 2 a2 ?_)⟩
  intro j hj
  interval_cases j
  · rw [a0]; decide
  · rw [a1]; decide

/-- Claim C35, counterexample: node `1` is the child of node `0` and both are dirty; the
mutating calls `1.translate((1,0,0), TS_WORLD)` and `1.rotate(q, TS_WORLD)` both return and
change the dirty flag of node `0` from true to false. -/
theorem translate_world_cleans_parent :
    ∃ s1 s2 s3 : State ℚ, setParent 2 (freshPool fun _ => none) 1 (some 0) = .ok s1 ∧
      (s1 0).m_bDirty = true ∧
      translate 2 s1 1 ⟨1, 0, 0⟩ .TS_WORLD = .ok s2 ∧ (s2 0).m_bDirty = false ∧
      rotate 2 s1 1 ⟨0, 1, 0, 0⟩ .TS_WORLD = .ok s3 ∧ (s3 0).m_bDirty = false :=
  ⟨_, _, _, rfl, rfl, rfl, rfl, rfl, rfl⟩

/-- Claim C35, amended: in a reachable state, when a public call on node `n` returns and has
changed the dirty flag of a node `m` from true to false, the call is a world-space getter or
one of the calls that read world values before they edit (`translate` or `rotate` in
`TS_WORLD`, `setDirection`, `lookAt`), and `m` is `n` or an ancestor of `n`. When the call
is a mutating one, `m` is a proper ancestor of `n`, unless the call is a `lookAt` in
`TS_WORLD` whose target is the world position of `n`. So `setParent`, `set`, `setPosition`,
`setOrientation`, `resetOrientation`, `setScale`, `scale`, `setInheritOrientation`,
`setInheritScale`, `addTag`, `removeTag`, and `translate` and `rotate` (with `roll`, `pitch`
and `yaw`) in `TS_LOCAL` or `TS_PARENT` never change a dirty flag from true to false. -/
theorem clean_only_by_world_read (dec : Decompose α) (s : State α) (h : Reachable dec s)
    (c : Call α) (f : Nat) (s1 : State α) (hr : runCall dec f s c = .ok s1) (m : NodeId)
    (hm : (s m).m_bDirty = true) (hm1 : (s1 m).m_bDirty = false) :
    (c.isWorldGetter = true ∨ c.readsWorld = true) ∧ InSubtree s m c.node ∧
    (c.isMutator = true → m = c.node → ∃ tp ldv, c = .lookAt m tp .TS_WORLD ldv ∧
      ∀ k w, worldSpec k s m = some w → tp = w.position) :=
  runCall_cleans h.inv h.dirtyClosed hr m hm hm1

/-- Witness of claim C35: node `1` is the child of node `0`; the call
`1.translate((1,0,0), TS_WORLD)` cleans node `0`, the parent of node `1`, and it is one of the
calls that read world values. -/
theorem clean_only_by_world_read_witness :
    ∃ s1 s2 : State ℚ, setParent 2 (freshPool fun _ => none) 1 (some 0) = .ok s1 ∧
      translate 2 s1 1 ⟨1, 0, 0⟩ .TS_WORLD = .ok s2 ∧
      (s1 0).m_bDirty = true ∧ (s2 0).m_bDirty = false ∧ InSubtree s1 0 1 := by
  have hr : ∃ s1 s2 : State ℚ, setParent 2 (freshPool fun _ => none) 1 (some 0) = .ok s1 ∧
      translate 2 s1 1 ⟨1, 0, 0⟩ .TS_WORLD = .ok s2 ∧
      (s1 0).m_bDirty = true ∧ (s2 0).m_bDirty = false ∧
      ¬ InSubtree (freshPool fun _ => none : State ℚ) 1 0 :=
    ⟨_, _, rfl, rfl, rfl, rfl, not_inSubtree_freshPool _ (by decide)⟩
  obtain ⟨s1, s2, e1, e2, h0, h1, hk⟩ := hr
  have hreach : Reachable keepDecompose s1 :=
    Reachable.call (.setParent 1 (some 0)) 2 (Reachable.fresh _) hk e1
  exact ⟨s1, s2, e1, e2, h0, h1,
    (clean_only_by_world_read keepDecompose s1 hreach (.translate 1 ⟨1, 0, 0⟩ .TS_WORLD) 2 s2
      e2 0 h0 h1).2.1⟩

/-- Claim C37: in a consistent acyclic hierarchy where the nodes that have a parent all
belong to a finite set `F`, with a call stack deeper than the number of members of `F`:
`needUpdate` on node `n` returns and leaves every node outside the subtree rooted at `n` as
it was; the recursive `findChildren` on `n` (with a non-empty tag) returns, and returns only
strict descendants of `n`; `update` on `n` returns and leaves every node that is neither `n`
nor an ancestor of `n` as it was. -/
theorem traversals_terminate (s : State α) (hc : Consistent s) (ha : Acyclic s)
    (F : Finset NodeId) (hF : ∀ m, (s m).m_parent ≠ none → m ∈ F) (n : NodeId)
    (tag : String) (ht : tag.isEmpty = false) (f : Nat) (hf : F.card < f) :
    (∃ s1, needUpdate f s n = .ok s1 ∧ ∀ m, ¬ InSubtree s n m → s1 m = s m) ∧
    (∃ l, findChildren f s n tag true = .ok l ∧ ∀ m ∈ l, InSubtree s n m ∧ m ≠ n) ∧
    (∃ s1, update f s n = .ok s1 ∧ ∀ m, ¬ InSubtree s m n → s1 m = s m) := by
  have hB := depthBound_of_finite ha F hF
  have hn := ha.noCycle
  have hns : ∀ m, (s m).m_parent ≠ some m := fun m => hn.parent_ne_self m
  refine ⟨?_, ?_, ?_⟩
  · obtain ⟨s1, h1⟩ := needUpdate_terminates F.card s n hc (fun m k hk => hB m k n hk) f hf
    exact ⟨s1, h1, fun m hm => needUpdate_outside f s n s1 hc h1 m hm⟩
  · refine ⟨_, findChildren_recursive hc ht F.card n (fun m k hk => hB m k n hk) f hf,
      fun m hm => ?_⟩
    obtain ⟨k, -, hk⟩ := (mem_descendantsPreorder hc F.card n m).mp (List.mem_filter.mp hm).1
    refine ⟨⟨k + 1, hk⟩, ?_⟩
    rintro rfl
    exact hn m k hk
  · have hnone : ancestorAt s n (F.card + 1) = none := by
      cases hx : ancestorAt s n (F.card + 1) with
      | none => rfl
      | some a => have := hB n _ a hx; omega
    obtain ⟨s1, h1⟩ := update_terminates s hns (F.card + 1) n hnone f (by omega)
    exact ⟨s1, h1, fun m hm => update_frame f s n s1 hns h1 m hm⟩

/-- Witness of claim C37: node `1` is the child of node `0`, so node `1` is the only node
that has a parent; with a call stack of two frames or more the three traversals return. -/
theorem traversals_terminate_witness :
    ∃ s1 : State ℚ, setParent 2 (freshPool fun _ => none) 1 (some 0) = .ok s1 ∧
      ∀ f, 1 < f →
        (∃ s2, needUpdate f s1 0 = .ok s2 ∧ ∀ m, ¬ InSubtree s1 0 m → s2 m = s1 m) ∧
        (∃ l, findChildren f s1 0 "tag" true = .ok l ∧ ∀ m ∈ l, InSubtree s1 0 m ∧ m ≠ 0) ∧
        (∃ s2, update f s1 1 = .ok s2 ∧ ∀ m, ¬ InSubtree s1 m 1 → s2 m = s1 m) := by
  have hr : ∃ s1 : State ℚ, setParent 2 (freshPool fun _ => none) 1 (some 0) = .ok s1 ∧
      ¬ InSubtree (freshPool fun _ => none : State ℚ) 1 0 :=
    ⟨_, rfl, not_inSubtree_freshPool _ (by decide)⟩
  obtain ⟨s1, e1, hk⟩ := hr
  have hreach : Reachable keepDecompose s1 :=
    Reachable.call (.setParent 1 (some 0)) 2 (Reachable.fresh _) hk e1
  have hfresh : ParentInChildren (freshPool fun _ => none : State ℚ) :=
    fun m p hp => nomatch hp
  have hF : ∀ m, (s1 m).m_parent ≠ none → m ∈ ({1} : Finset NodeId) := by
    intro m hm
    rw [(setParent_ok hfresh e1).2.parent_od, relink_parent] at hm
    by_cases h1 : m = 1
    · simp [h1]
    · rw [if_neg h1] at hm; exact absurd rfl hm
  refine ⟨s1, e1, fun f hf => ?_⟩
  have h0 := traversals_terminate s1 hreach.inv.1 hreach.inv.2.1 {1} hF 0 "tag" (by decide) f
    (by simpa using hf)
  have h1 := traversals_terminate s1 hreach.inv.1 hreach.inv.2.1 {1} hF 1 "tag" (by decide) f
    (by simpa using hf)
  exact ⟨h0.1, h0.2.1, h1.2.2⟩

end Claims










end knm.tr2
